import Mathlib

/-!
# Block validation and state resolution of the kaspad block DAG

A shallow embedding of `consensus/blockdag/validate.go`, of
`domain/consensus/processes/consensusstatemanager/resolve_block_status.go`, of
`domain/utxoindex/utxoindex.go`, of `app/rpc/rpchandlers/get_chain_from_block.go`, of
`connmanager/connection_requests.go` and of `consensus/reachability/reachabilitystore.go`,
and the theorems that settle the specification's statements about them.

Conventions of the embedding.

* A Go `error` result is an `Except Fault _`: `nil` is `.ok`, a `common.RuleError` with
  code `c` is `.error (.rule c)` (the description string is dropped), any other error
  is `.error (.other id)`, and a run-time panic (an index or slice bound out of range, a
  nil dereference) is `.error .panic`.
* The stores of the state manager are explicit state: a method that stages data takes a
  `Staging` and returns the next one. A Go loop without a bound takes a bound on its
  iterations, and `none` is a loop that has not returned within the bound.
* The store of the UTXO index is the list of the calls made on it, and a method of the
  index returns that list with its error, so that the calls made before a failure are
  kept. A Go map is a function from keys to optional values, and a `range` over a map
  takes the sequence of the keys it produces.
* A pointer to a reachability tree node is the address of the node, and the nodes in
  memory are a function from addresses; a `bytes.Buffer` is the list of its bytes, and a
  reader returns its value with the bytes it leaves.
* Unsigned 64-bit values are natural numbers reduced with `% 2 ^ 64` wherever Go
  arithmetic can wrap; `big.Int` values are `Int`.
* A conversion to a signed 64-bit value is `toInt64` and a signed 64-bit product is
  `mulInt64`, which wraps; a `time.Duration` counts nanoseconds and an `mstime.Time`
  milliseconds.
* Functions, constants and methods the file imports from packages outside the source
  tree are the fields of `Imports`; every embedded function takes them as its first
  argument and is proved correct for all of them.
-/

namespace Kaspad

/-! ## Data model -/

/-- The type `daghash.Hash`: a 32-byte identifier, represented by the natural number
that `daghash.Less` orders hashes by. -/
abbrev Hash := Nat

/-- The type `daghash.TxID`. -/
abbrev TxID := Nat

/-- The type `subnetworkid.SubnetworkID`, represented by the natural number that
`subnetworkid.Less` orders subnetwork identifiers by. -/
abbrev SubnetworkID := Nat

/-- A byte string (`[]byte`). -/
abbrev Bytes := List Nat

/-- The type `mstime.Time`: milliseconds since the epoch. Its methods `Add` and `Sub`,
outside the source tree, are `Time.Add` and `Time.Sub` below, and `After` is `>`. -/
abbrev Time := Int

/-- The type `time.Duration`: a signed 64-bit count of nanoseconds. -/
abbrev Duration := Int

/-- The type `BehaviorFlags`: a bit mask. -/
abbrev BehaviorFlags := Nat

/-- The type `wire.Outpoint`. -/
structure Outpoint where
  TxID : TxID
  Index : Nat
  deriving DecidableEq, Repr

/-- The type `wire.TxIn`. -/
structure TxIn where
  PreviousOutpoint : Outpoint
  SignatureScript : Bytes
  Sequence : Nat
  deriving DecidableEq, Repr

/-- The type `wire.TxOut`. -/
structure TxOut where
  Value : Nat
  ScriptPubKey : Bytes
  deriving DecidableEq, Repr

/-- The type `wire.MsgTx`; `util.Tx` wraps it and is identified with it, so that
`tx.MsgTx()` is `tx`. -/
structure Tx where
  Version : Nat
  TxIn : List Kaspad.TxIn
  TxOut : List Kaspad.TxOut
  LockTime : Nat
  SubnetworkID : SubnetworkID
  Payload : Bytes
  deriving DecidableEq, Repr

/-- The type `wire.BlockHeader`. -/
structure BlockHeader where
  Version : Nat
  ParentHashes : List Hash
  HashMerkleRoot : Hash
  AcceptedIDMerkleRoot : Hash
  UTXOCommitment : Hash
  Timestamp : Time
  Bits : Nat
  Nonce : Nat
  deriving DecidableEq, Repr

/-- The type `wire.MsgBlock`; `util.Block` wraps it and is identified with it. -/
structure Block where
  Header : BlockHeader
  Transactions : List Tx
  deriving DecidableEq, Repr

/-- The codes of `common.RuleError` that `validate.go` raises; `Other` stands for the
codes raised only by imported functions. -/
inductive ErrorCode where
  | ErrUnexpectedDifficulty
  | ErrHighHash
  | ErrNoParents
  | ErrWrongParentsOrder
  | ErrNoTransactions
  | ErrBlockMassTooHigh
  | ErrFirstTxNotCoinbase
  | ErrMultipleCoinbases
  | ErrTransactionsNotSorted
  | ErrInvalidSubnetwork
  | ErrBadMerkleRoot
  | ErrDuplicateTx
  | ErrDoubleSpendInSameBlock
  | ErrMissingTxOut
  | ErrTxMassTooHigh
  | ErrBadTxOutValue
  | ErrSpendTooHigh
  | ErrImmatureSpend
  | ErrBadFees
  | ErrUnfinalizedTx
  | ErrOverwriteTx
  | ErrTimeTooOld
  | ErrFinality
  | ErrInvalidParentsRelation
  | Other (code : Nat)
  deriving DecidableEq, Repr

/-- What a call yields instead of a normal result: a rule error, an error that is not
a rule error (a failed store or database access, identified by a number), or a
run-time panic. -/
inductive Fault where
  | rule (code : ErrorCode)
  | other (id : Nat)
  | panic
  deriving DecidableEq, Repr

/-- The fields of `dagconfig.Params` that block validation reads. -/
structure Params where
  PowMax : Int
  GenesisHash : Hash
  TimestampDeviationTolerance : Nat
  TargetTimePerBlock : Duration
  EnableNonNativeSubnetworks : Bool
  BlockCoinbaseMaturity : Nat

/-- The fields of `BlockDAG` that block validation reads; `Now` is the value the
call `dag.Now()` yields. -/
structure BlockDAG where
  Params : Params
  subnetworkID : Option SubnetworkID
  Now : Time

/-- The imported functions and constants `validate.go` relies on, whose bodies are
outside the source tree. -/
structure Imports where
  /-- The function `util.CompactToBig`. -/
  CompactToBig : Nat → Int
  /-- The method `(*wire.BlockHeader).BlockHash`. -/
  BlockHash : BlockHeader → Hash
  /-- The function `daghash.HashToBig`. -/
  HashToBig : Hash → Int
  /-- The flag `BFNoPoWCheck`. -/
  BFNoPoWCheck : BehaviorFlags
  /-- The constant `wire.MaxMassPerBlock`. -/
  MaxMassPerBlock : Nat
  /-- The method `(*util.Tx).IsCoinBase`. -/
  IsCoinBase : Tx → Bool
  /-- The method `(*util.Tx).ID`. -/
  ID : Tx → TxID
  /-- The method `(*wire.MsgTx).SerializeSize`. -/
  SerializeSize : Tx → Nat
  /-- The function `txscript.IsPayToScriptHash`. -/
  IsPayToScriptHash : Bytes → Bool
  /-- The function `txscript.GetPreciseSigOpCount`. -/
  GetPreciseSigOpCount : Bytes → Bytes → Bool → Nat
  /-- The function `transaction.CheckTransactionSanity`; `none` is a `nil` error. -/
  CheckTransactionSanity : Tx → Option SubnetworkID → Option ErrorCode
  /-- The root of `merkle.BuildHashMerkleTreeStore`. -/
  HashMerkleRoot : List Tx → Hash
  /-- The value `subnetworkid.SubnetworkIDNative`. -/
  SubnetworkIDNative : SubnetworkID
  /-- The value `subnetworkid.SubnetworkIDCoinbase`. -/
  SubnetworkIDCoinbase : SubnetworkID
  /-- The constant `txscript.LockTimeThreshold`. -/
  LockTimeThreshold : Nat
  /-- The constant `util.MaxSompi`. -/
  MaxSompi : Nat

/-! ## Proof of work and header sanity -/

/-- The test `flags&BFNoPoWCheck == BFNoPoWCheck`. -/
def noPoWCheck (X : Imports) (flags : BehaviorFlags) : Bool :=
  flags &&& X.BFNoPoWCheck == X.BFNoPoWCheck

/-- The method `checkProofOfWork`. -/
def checkProofOfWork (X : Imports) (dag : BlockDAG) (header : BlockHeader)
    (flags : BehaviorFlags) : Except Fault Unit :=
  let target := X.CompactToBig header.Bits
  if target ≤ 0 then
    .error (.rule .ErrUnexpectedDifficulty)
  else if target > dag.Params.PowMax then
    .error (.rule .ErrUnexpectedDifficulty)
  else if flags &&& X.BFNoPoWCheck != X.BFNoPoWCheck then
    let hash := X.BlockHash header
    let hashNum := X.HashToBig hash
    if hashNum > target then
      .error (.rule .ErrHighHash)
    else
      .ok ()
  else
    .ok ()

/-- The call `sort.Slice(hashes, daghash.Less)`: insertion of every hash into an
ascending list. `daghash.Less` is a strict total order on hash values, so every
sorting algorithm yields this same list of values. -/
def sortSlice (hashes : List Hash) : List Hash :=
  hashes.insertionSort (· ≤ ·)

/-- The function `checkBlockParentsOrder`. The method `NumParentBlocks`, outside the
source tree, gives the length of `ParentHashes`, so `sortedHashes` starts as a copy of
the parents; `daghash.AreEqual` compares the two slices element by element. -/
def checkBlockParentsOrder (header : BlockHeader) : Except Fault Unit :=
  let sortedHashes := sortSlice header.ParentHashes
  if header.ParentHashes != sortedHashes then
    .error (.rule .ErrWrongParentsOrder)
  else
    .ok ()

/-- The conversion `int64(n)` of an unsigned 64-bit value: the value itself below
`2 ^ 63`, and the value less `2 ^ 64` from there on (two's complement). -/
def toInt64 (n : Nat) : Int :=
  if n % 2 ^ 64 < 2 ^ 63 then ((n % 2 ^ 64 : Nat) : Int)
  else ((n % 2 ^ 64 : Nat) : Int) - 2 ^ 64

/-- The value of a signed 64-bit product, which wraps. -/
def mulInt64 (a b : Int) : Int :=
  toInt64 ((a * b) % 2 ^ 64).toNat

/-- The constant `time.Millisecond`. -/
def millisecond : Duration := 1000000

/-- The method `Add` of `mstime.Time`, outside the source tree: the time a duration
later. A time counts milliseconds and a duration nanoseconds, so the duration is taken
in whole milliseconds. -/
def Time.Add (t : Time) (d : Duration) : Time :=
  t + d / millisecond

/-- The method `Sub` of `mstime.Time`, outside the source tree: the duration from `u` to
`t`, which is the least or the greatest value of `time.Duration` when the difference is
beyond it, as for `time.Time.Sub` of the standard library. -/
def Time.Sub (t u : Time) : Duration :=
  let d := (t - u) * millisecond
  if d < -2 ^ 63 then -2 ^ 63 else if d ≥ 2 ^ 63 then 2 ^ 63 - 1 else d

/-- The method `checkBlockHeaderSanity`. The tolerance is an unsigned 64-bit value, and
its conversion to `time.Duration` and the product with `TargetTimePerBlock` are those of
signed 64-bit values. -/
def checkBlockHeaderSanity (X : Imports) (dag : BlockDAG) (block : Block)
    (flags : BehaviorFlags) : Except Fault Duration := do
  let header := block.Header
  checkProofOfWork X dag header flags
  if header.ParentHashes.length == 0 then
    if X.BlockHash header != dag.Params.GenesisHash then
      throw (.rule .ErrNoParents)
  else
    checkBlockParentsOrder header
  let maxTimestamp := Time.Add dag.Now
    (mulInt64 (toInt64 dag.Params.TimestampDeviationTolerance) dag.Params.TargetTimePerBlock)
  if header.Timestamp > maxTimestamp then
    return Time.Sub header.Timestamp maxTimestamp
  return 0

/-- The delay `checkBlockHeaderSanity` returns when none of its checks fails. -/
def headerDelay (dag : BlockDAG) (header : BlockHeader) : Duration :=
  if header.Timestamp > Time.Add dag.Now
      (mulInt64 (toInt64 dag.Params.TimestampDeviationTolerance)
        dag.Params.TargetTimePerBlock) then
    Time.Sub header.Timestamp (Time.Add dag.Now
      (mulInt64 (toInt64 dag.Params.TimestampDeviationTolerance)
        dag.Params.TargetTimePerBlock))
  else
    0

/-! ## Block sanity -/

/-- Modelled from the spec: the constant `util.CoinbaseTransactionIndex`, declared
outside the source tree; the spec places the coinbase at index 0. -/
def CoinbaseTransactionIndex : Nat := 0

/-- The slice expression `s[from:]`, which panics when `from` exceeds the length. -/
def sliceFrom {α : Type} (s : List α) (start : Nat) : Except Fault (List α) :=
  if start > s.length then .error .panic else .ok (s.drop start)

/-- The index expression `s[i]`, which panics when `i` is out of range. -/
def index {α : Type} (s : List α) (i : Nat) : Except Fault α :=
  match s[i]? with
  | some a => .ok a
  | none => .error .panic

/-- The method `checkBlockContainsAtLeastOneTransaction`. -/
def checkBlockContainsAtLeastOneTransaction (block : Block) : Except Fault Unit :=
  let transactions := block.Transactions
  let numTx := transactions.length
  if numTx == 0 then
    .error (.rule .ErrNoTransactions)
  else
    .ok ()

/-- The method `checkBlockContainsLessThanMaxBlockMassTransactions`. -/
def checkBlockContainsLessThanMaxBlockMassTransactions (X : Imports) (block : Block) :
    Except Fault Unit :=
  let transactions := block.Transactions
  let numTx := transactions.length
  if numTx > X.MaxMassPerBlock then
    .error (.rule .ErrBlockMassTooHigh)
  else
    .ok ()

/-- The method `checkFirstBlockTransactionIsCoinbase`. -/
def checkFirstBlockTransactionIsCoinbase (X : Imports) (block : Block) :
    Except Fault Unit := do
  let transactions := block.Transactions
  let first ← index transactions CoinbaseTransactionIndex
  if !X.IsCoinBase first then
    throw (.rule .ErrFirstTxNotCoinbase)
  return ()

/-- The loop of `checkBlockContainsOnlyOneCoinbase` over the transactions after the
coinbase. -/
def onlyOneCoinbaseLoop (X : Imports) : List Tx → Except Fault Unit
  | [] => .ok ()
  | tx :: rest =>
    if X.IsCoinBase tx then
      .error (.rule .ErrMultipleCoinbases)
    else
      onlyOneCoinbaseLoop X rest

/-- The method `checkBlockContainsOnlyOneCoinbase`. -/
def checkBlockContainsOnlyOneCoinbase (X : Imports) (block : Block) :
    Except Fault Unit := do
  let transactions := block.Transactions
  let rest ← sliceFrom transactions (CoinbaseTransactionIndex + 1)
  onlyOneCoinbaseLoop X rest

/-- The loop of `checkBlockTransactionOrder`: `i` is the loop index and the list holds
the elements of `transactions[1:]` from position `i` on. -/
def transactionOrderLoop (transactions : List Tx) : Nat → List Tx → Except Fault Unit
  | _, [] => .ok ()
  | i, tx :: rest =>
    if i != 0 then do
      let prev ← index transactions i
      if tx.SubnetworkID < prev.SubnetworkID then
        throw (.rule .ErrTransactionsNotSorted)
      transactionOrderLoop transactions (i + 1) rest
    else
      transactionOrderLoop transactions (i + 1) rest

/-- The method `checkBlockTransactionOrder`. -/
def checkBlockTransactionOrder (block : Block) : Except Fault Unit := do
  let transactions := block.Transactions
  let rest ← sliceFrom transactions (CoinbaseTransactionIndex + 1)
  transactionOrderLoop transactions 0 rest

/-- The loop of `checkNoNonNativeTransactions`. -/
def noNonNativeLoop (X : Imports) : List Tx → Except Fault Unit
  | [] => .ok ()
  | tx :: rest =>
    if !(tx.SubnetworkID == X.SubnetworkIDNative ||
        tx.SubnetworkID == X.SubnetworkIDCoinbase) then
      .error (.rule .ErrInvalidSubnetwork)
    else
      noNonNativeLoop X rest

/-- The method `checkNoNonNativeTransactions`. -/
def checkNoNonNativeTransactions (X : Imports) (dag : BlockDAG) (block : Block) :
    Except Fault Unit :=
  if !dag.Params.EnableNonNativeSubnetworks then
    let transactions := block.Transactions
    noNonNativeLoop X transactions
  else
    .ok ()

/-- The loop of `checkBlockTransactionSanity`. -/
def transactionSanityLoop (X : Imports) (dag : BlockDAG) : List Tx → Except Fault Unit
  | [] => .ok ()
  | tx :: rest =>
    match X.CheckTransactionSanity tx dag.subnetworkID with
    | some err => .error (.rule err)
    | none => transactionSanityLoop X dag rest

/-- The method `checkBlockTransactionSanity`. -/
def checkBlockTransactionSanity (X : Imports) (dag : BlockDAG) (block : Block) :
    Except Fault Unit :=
  let transactions := block.Transactions
  transactionSanityLoop X dag transactions

/-- The method `checkBlockHashMerkleRoot`. -/
def checkBlockHashMerkleRoot (X : Imports) (block : Block) : Except Fault Unit :=
  let calculatedHashMerkleRoot := X.HashMerkleRoot block.Transactions
  if !(block.Header.HashMerkleRoot == calculatedHashMerkleRoot) then
    .error (.rule .ErrBadMerkleRoot)
  else
    .ok ()

/-- The loop of `checkBlockDuplicateTransactions`; the map `existingTxIDs`, used as a
set, is the list of its keys. -/
def duplicateTransactionsLoop (X : Imports) : List TxID → List Tx → Except Fault Unit
  | _, [] => .ok ()
  | existingTxIDs, tx :: rest =>
    let id := X.ID tx
    if id ∈ existingTxIDs then
      .error (.rule .ErrDuplicateTx)
    else
      duplicateTransactionsLoop X (id :: existingTxIDs) rest

/-- The method `checkBlockDuplicateTransactions`. -/
def checkBlockDuplicateTransactions (X : Imports) (block : Block) : Except Fault Unit :=
  let transactions := block.Transactions
  duplicateTransactionsLoop X [] transactions

/-- A Go map from outpoints to transaction IDs: the association list of its entries,
the latest first. -/
abbrev OutpointMap := List (Outpoint × TxID)

/-- The inner loop of `checkBlockDoubleSpends` over the inputs of the transaction with
ID `txID`; it yields the updated map `usedOutpoints`. -/
def doubleSpendsInputs (txID : TxID) : OutpointMap → List TxIn → Except Fault OutpointMap
  | usedOutpoints, [] => .ok usedOutpoints
  | usedOutpoints, txIn :: rest =>
    match usedOutpoints.lookup txIn.PreviousOutpoint with
    | some _ => .error (.rule .ErrDoubleSpendInSameBlock)
    | none => doubleSpendsInputs txID ((txIn.PreviousOutpoint, txID) :: usedOutpoints) rest

/-- The outer loop of `checkBlockDoubleSpends`. -/
def doubleSpendsLoop (X : Imports) : OutpointMap → List Tx → Except Fault Unit
  | _, [] => .ok ()
  | usedOutpoints, tx :: rest => do
    let usedOutpoints ← doubleSpendsInputs (X.ID tx) usedOutpoints tx.TxIn
    doubleSpendsLoop X usedOutpoints rest

/-- The method `checkBlockDoubleSpends`. -/
def checkBlockDoubleSpends (X : Imports) (block : Block) : Except Fault Unit :=
  let transactions := block.Transactions
  doubleSpendsLoop X [] transactions

/-- The method `checkBlockSanity`. -/
def checkBlockSanity (X : Imports) (dag : BlockDAG) (block : Block)
    (flags : BehaviorFlags) : Except Fault Duration := do
  let delay ← checkBlockHeaderSanity X dag block flags
  checkBlockContainsAtLeastOneTransaction block
  checkBlockContainsLessThanMaxBlockMassTransactions X block
  checkFirstBlockTransactionIsCoinbase X block
  checkBlockContainsOnlyOneCoinbase X block
  checkBlockTransactionOrder block
  checkNoNonNativeTransactions X dag block
  checkBlockTransactionSanity X dag block
  checkBlockHashMerkleRoot X block
  checkBlockDuplicateTransactions X block
  checkBlockDoubleSpends X block
  return delay

/-! ## Mass -/

/-- Grams any byte adds to a transaction. -/
def MassPerTxByte : Nat := 1

/-- Grams any `scriptPubKey` byte adds to a transaction. -/
def MassPerScriptPubKeyByte : Nat := 10

/-- Grams any signature operation adds to a transaction. -/
def MassPerSigOp : Nat := 10000

/-- The conversion `uint64(n)` of a Go `int` expression, `int` being 64 bits wide. The
`int` operations wrap in two's complement and the conversion keeps the low 64 bits, so
for counts that are natural numbers the converted value is the exact value modulo
`2 ^ 64`. -/
def toUint64 (n : Nat) : Nat := n % 2 ^ 64

/-- The first loop of `CalcTxMass`: the total length of the output scripts. -/
def scriptPubKeySizeLoop : Nat → List TxOut → Nat
  | scriptPubKeySize, [] => scriptPubKeySize
  | scriptPubKeySize, txOut :: rest =>
    scriptPubKeySizeLoop (scriptPubKeySize + txOut.ScriptPubKey.length) rest

/-- The second loop of `CalcTxMass`: the signature operations of the inputs, each
counted against `previousScriptPubKeys[txInIndex]`. -/
def sigOpsCountLoop (X : Imports) (previousScriptPubKeys : List Bytes) :
    Nat → Nat → List TxIn → Except Fault Nat
  | _, sigOpsCount, [] => .ok sigOpsCount
  | txInIndex, sigOpsCount, txIn :: rest => do
    let sigScript := txIn.SignatureScript
    let prev ← index previousScriptPubKeys txInIndex
    let isP2SH := X.IsPayToScriptHash prev
    sigOpsCountLoop X previousScriptPubKeys (txInIndex + 1)
      (sigOpsCount + X.GetPreciseSigOpCount sigScript prev isP2SH) rest

/-- The function `CalcTxMass`. -/
def CalcTxMass (X : Imports) (tx : Tx) (previousScriptPubKeys : List Bytes) :
    Except Fault Nat := do
  let txSize := X.SerializeSize tx
  if X.IsCoinBase tx then
    return toUint64 (txSize * MassPerTxByte)
  let scriptPubKeySize := scriptPubKeySizeLoop 0 tx.TxOut
  let sigOpsCount ← sigOpsCountLoop X previousScriptPubKeys 0 0 tx.TxIn
  return toUint64 (txSize * MassPerTxByte +
    scriptPubKeySize * MassPerScriptPubKeyByte +
    sigOpsCount * MassPerSigOp)

/-- The type `utxo.UTXOEntry`. -/
structure UTXOEntry where
  Amount : Nat
  ScriptPubKey : Bytes
  BlockBlueScore : Nat
  IsCoinbase : Bool
  deriving DecidableEq, Repr

/-- The interface `utxo.UTXOSet`, through its method `Get`: `none` is `ok == false`. -/
abbrev UTXOSet := Outpoint → Option UTXOEntry

/-- The loop of `CalcTxMassFromUTXOSet`; the slice `previousScriptPubKeys` is filled
from index 0 on, so it is returned as the list of the entries written. -/
def previousScriptPubKeysLoop (utxoSet : UTXOSet) : List TxIn → Except Fault (List Bytes)
  | [] => .ok []
  | txIn :: rest =>
    match utxoSet txIn.PreviousOutpoint with
    | none => .error (.rule .ErrMissingTxOut)
    | some entry => do
      let tail ← previousScriptPubKeysLoop utxoSet rest
      return entry.ScriptPubKey :: tail

/-- The function `CalcTxMassFromUTXOSet`. -/
def CalcTxMassFromUTXOSet (X : Imports) (tx : Tx) (utxoSet : UTXOSet) :
    Except Fault Nat := do
  if X.IsCoinBase tx then
    CalcTxMass X tx []
  else
    let previousScriptPubKeys ← previousScriptPubKeysLoop utxoSet tx.TxIn
    CalcTxMass X tx previousScriptPubKeys

/-- The loop of `CalcBlockMass`, from the accumulator `totalMass`. -/
def blockMassLoop (X : Imports) (pastUTXO : UTXOSet) : Nat → List Tx → Except Fault Nat
  | totalMass, [] => .ok totalMass
  | totalMass, tx :: rest => do
    let txMass ← CalcTxMassFromUTXOSet X tx pastUTXO
    let totalMass := (totalMass + txMass) % 2 ^ 64
    if totalMass < txMass || totalMass > X.MaxMassPerBlock then
      throw (.rule .ErrBlockMassTooHigh)
    blockMassLoop X pastUTXO totalMass rest

/-- The function `CalcBlockMass`. -/
def CalcBlockMass (X : Imports) (pastUTXO : UTXOSet) (transactions : List Tx) :
    Except Fault Nat :=
  blockMassLoop X pastUTXO 0 transactions

/-- The function `validateBlockMass`. -/
def validateBlockMass (X : Imports) (pastUTXO : UTXOSet) (transactions : List Tx) :
    Except Fault Unit :=
  match CalcBlockMass X pastUTXO transactions with
  | .ok _ => .ok ()
  | .error err => .error err

/-! ## Sequence locks and finality -/

/-- The type `SequenceLock`, declared outside the source tree: the two fields the
function reads are signed 64-bit values. -/
structure SequenceLock where
  Milliseconds : Int
  BlockBlueScore : Int
  deriving DecidableEq, Repr

/-- The function `SequenceLockActive`; `blockBlueScore` is an unsigned 64-bit value and
`medianTimePast.UnixMilliseconds()` is the time itself. -/
def SequenceLockActive (sequenceLock : SequenceLock) (blockBlueScore : Nat)
    (medianTimePast : Time) : Bool :=
  if sequenceLock.Milliseconds ≥ medianTimePast ||
      sequenceLock.BlockBlueScore ≥ toInt64 blockBlueScore then
    false
  else
    true

/-- The constant `math.MaxUint64`. -/
def MaxUint64 : Nat := 2 ^ 64 - 1

/-- The loop of `IsFinalizedTransaction` over the inputs. -/
def sequenceMaxedLoop : List TxIn → Bool
  | [] => true
  | txIn :: rest =>
    if txIn.Sequence != MaxUint64 then
      false
    else
      sequenceMaxedLoop rest

/-- The function `IsFinalizedTransaction`; `blockTime.UnixMilliseconds()` is the time
itself. -/
def IsFinalizedTransaction (X : Imports) (tx : Tx) (blockBlueScore : Nat)
    (blockTime : Time) : Bool :=
  let lockTime := tx.LockTime
  if lockTime == 0 then
    true
  else
    let blockTimeOrBlueScore : Int :=
      if lockTime < X.LockTimeThreshold then toInt64 blockBlueScore else blockTime
    if toInt64 lockTime < blockTimeOrBlueScore then
      true
    else
      sequenceMaxedLoop tx.TxIn

/-! ## Transaction inputs -/

/-- The subtraction of two unsigned 64-bit values, which wraps around below zero. -/
def subUint64 (a b : Nat) : Nat := (a + (2 ^ 64 - b % 2 ^ 64)) % 2 ^ 64

/-- The function `validateCoinbaseMaturity`. -/
def validateCoinbaseMaturity (dagParams : Params) (entry : UTXOEntry) (txBlueScore : Nat)
    (_txIn : TxIn) : Except Fault Unit :=
  if entry.IsCoinbase then
    let originBlueScore := entry.BlockBlueScore
    let blueScoreSincePrev := subUint64 txBlueScore originBlueScore
    if blueScoreSincePrev < dagParams.BlockCoinbaseMaturity then
      .error (.rule .ErrImmatureSpend)
    else
      .ok ()
  else
    .ok ()

/-- The first loop of `CheckTransactionInputsAndCalulateFee`, from the accumulator
`totalSompiIn`. -/
def totalSompiInLoop (X : Imports) (txBlueScore : Nat) (utxoSet : UTXOSet)
    (dagParams : Params) (fastAdd : Bool) : Nat → List TxIn → Except Fault Nat
  | totalSompiIn, [] => .ok totalSompiIn
  | totalSompiIn, txIn :: rest =>
    match utxoSet txIn.PreviousOutpoint with
    | none => .error (.rule .ErrMissingTxOut)
    | some entry => do
      if !fastAdd then
        validateCoinbaseMaturity dagParams entry txBlueScore txIn
      let originTxSompi := entry.Amount
      if originTxSompi > X.MaxSompi then
        throw (.rule .ErrBadTxOutValue)
      let lastSompiIn := totalSompiIn
      let totalSompiIn := (totalSompiIn + originTxSompi) % 2 ^ 64
      if totalSompiIn < lastSompiIn || totalSompiIn > X.MaxSompi then
        throw (.rule .ErrBadTxOutValue)
      totalSompiInLoop X txBlueScore utxoSet dagParams fastAdd totalSompiIn rest

/-- The second loop of `CheckTransactionInputsAndCalulateFee`. -/
def totalSompiOutLoop : Nat → List TxOut → Nat
  | totalSompiOut, [] => totalSompiOut
  | totalSompiOut, txOut :: rest =>
    totalSompiOutLoop ((totalSompiOut + txOut.Value) % 2 ^ 64) rest

/-- The function `CheckTransactionInputsAndCalulateFee`. -/
def CheckTransactionInputsAndCalulateFee (X : Imports) (tx : Tx) (txBlueScore : Nat)
    (utxoSet : UTXOSet) (dagParams : Params) (fastAdd : Bool) : Except Fault Nat := do
  if X.IsCoinBase tx then
    return 0
  let totalSompiIn ← totalSompiInLoop X txBlueScore utxoSet dagParams fastAdd 0 tx.TxIn
  let totalSompiOut := totalSompiOutLoop 0 tx.TxOut
  if totalSompiIn < totalSompiOut then
    throw (.rule .ErrSpendTooHigh)
  let txFeeInSompi := totalSompiIn - totalSompiOut
  return txFeeInSompi

/-! ## Duplicate transactions -/

/-- The inner loop of `ensureNoDuplicateTx`: the outpoints of the outputs from index
`txOutIdx` on are put into the set `fetchSet`, a list of distinct keys; the index is
converted to 32 bits. -/
def fetchSetOutputs (txID : TxID) : List Outpoint → Nat → List TxOut → List Outpoint
  | fetchSet, _, [] => fetchSet
  | fetchSet, txOutIdx, _ :: rest =>
    let prevOut : Outpoint := { TxID := txID, Index := txOutIdx % 2 ^ 32 }
    fetchSetOutputs txID (fetchSet.insert prevOut) (txOutIdx + 1) rest

/-- The first loop of `ensureNoDuplicateTx`. -/
def fetchSetLoop (X : Imports) : List Outpoint → List Tx → List Outpoint
  | fetchSet, [] => fetchSet
  | fetchSet, tx :: rest =>
    fetchSetLoop X (fetchSetOutputs (X.ID tx) fetchSet 0 tx.TxOut) rest

/-- The second loop of `ensureNoDuplicateTx`, over the keys in the order given. -/
def overwriteLoop (utxoSet : UTXOSet) : List Outpoint → Except Fault Unit
  | [] => .ok ()
  | outpoint :: rest =>
    match utxoSet outpoint with
    | some _ => .error (.rule .ErrOverwriteTx)
    | none => overwriteLoop utxoSet rest

/-- The function `ensureNoDuplicateTx`. Go ranges over the map `fetchSet` in an
unspecified order; the keys are visited here in the order of the list, and
`overwriteLoop_perm` shows that the result is the same in every order. -/
def ensureNoDuplicateTx (X : Imports) (utxoSet : UTXOSet) (transactions : List Tx) :
    Except Fault Unit :=
  let fetchSet := fetchSetLoop X [] transactions
  overwriteLoop utxoSet fetchSet

/-! ## Parents -/

/-- The type `blocknode.BlockNode`, through the identity of the node. -/
abbrev BlockNode := Nat

/-- The inner loop of `validateParents` for the parent `parentA`; `isInPast` is the
method `dag.isInPast`, outside the source tree. -/
def validateParentsInner (isInPast : BlockNode → BlockNode → Except Fault Bool)
    (parentA : BlockNode) : List BlockNode → Except Fault Unit
  | [] => .ok ()
  | parentB :: rest =>
    if parentA == parentB then
      validateParentsInner isInPast parentA rest
    else
      match isInPast parentA parentB with
      | .error err => .error err
      | .ok isAncestorOf =>
        if isAncestorOf then
          .error (.rule .ErrInvalidParentsRelation)
        else
          validateParentsInner isInPast parentA rest

/-- The outer loop of `validateParents`; `IsFinalized` is the method of the node,
outside the source tree. Go ranges over the set `parents` in an unspecified order, and
anew for every inner loop: `inner parentA` is the order of the inner loop for
`parentA`. -/
def validateParentsLoop (IsFinalized : BlockNode → Bool)
    (isInPast : BlockNode → BlockNode → Except Fault Bool)
    (inner : BlockNode → List BlockNode) : List BlockNode → Except Fault Unit
  | [] => .ok ()
  | parentA :: rest =>
    if IsFinalized parentA then
      .error (.rule .ErrFinality)
    else do
      validateParentsInner isInPast parentA (inner parentA)
      validateParentsLoop IsFinalized isInPast inner rest

/-- The method `validateParents`; `outer` is the order in which the outer loop visits
the set `parents`. -/
def validateParents (IsFinalized : BlockNode → Bool)
    (isInPast : BlockNode → BlockNode → Except Fault Bool)
    (outer : List BlockNode) (inner : BlockNode → List BlockNode) : Except Fault Unit :=
  validateParentsLoop IsFinalized isInPast inner outer

/-! ## Consensus state manager -/

/-- The type `externalapi.BlockStatus`, declared outside the source tree: the three
statuses the file names, and `other` for every further status of the type. -/
inductive BlockStatus where
  | StatusValid
  | StatusUTXOPendingVerification
  | StatusDisqualifiedFromChain
  | other (code : Nat)
  deriving DecidableEq, Repr

/-- The type `model.UTXODiff`, as an opaque value. -/
abbrev UTXODiff := Nat

/-- The type `model.AcceptanceData`, as an opaque value. -/
abbrev AcceptanceData := Nat

/-- The type `model.Multiset`, as an opaque value. -/
abbrev ModelMultiset := Nat

/-- The type `externalapi.DomainBlock`, as an opaque value. -/
abbrev DomainBlock := Nat

/-- The field of `model.BlockGHOSTDAGData` the state manager reads; `none` is a nil
selected parent. -/
structure BlockGHOSTDAGData where
  SelectedParent : Option Hash
  deriving DecidableEq, Repr

/-- The state of the stores as far as the state manager changes it: for each store, the
arguments of the calls of its method `Stage`, the latest first. The stores are outside
the source tree, and what their other methods return may depend on these calls. -/
structure Staging where
  blockStatus : List (Hash × BlockStatus)
  acceptanceData : List (Hash × AcceptanceData)
  multiset : List (Hash × ModelMultiset)
  utxoDiff : List (Hash × (UTXODiff × Option Hash))

/-- The fields and collaborators of `consensusStateManager` that are outside the source
tree: the database behind each store, and the functions the manager calls. -/
structure ConsensusStateManager where
  genesisHash : Hash
  /-- The zero value of the type `externalapi.BlockStatus`. -/
  zeroBlockStatus : BlockStatus
  /-- The method `blockStatusStore.Get`; its argument is a pointer, `none` is nil. -/
  blockStatusStore : Staging → Option Hash → Except Fault BlockStatus
  /-- The method `ghostdagDataStore.Get`. -/
  ghostdagDataStore : Hash → Except Fault BlockGHOSTDAGData
  /-- The method `CalculatePastUTXOAndAcceptanceData`. -/
  CalculatePastUTXOAndAcceptanceData :
    Staging → Hash → Except Fault (UTXODiff × AcceptanceData × ModelMultiset)
  /-- The error, if any, of `acceptanceDataStore.Stage`. -/
  acceptanceDataStageError : Hash → AcceptanceData → Option Fault
  /-- The method `blockStore.Block`. -/
  blockStore : Hash → Except Fault DomainBlock
  /-- The method `verifyUTXO`. -/
  verifyUTXO : Staging → DomainBlock → Hash → UTXODiff → AcceptanceData → ModelMultiset →
    Except Fault Unit
  /-- The error, if any, of `utxoDiffStore.Stage`. -/
  utxoDiffStageError : Hash → UTXODiff → Option Hash → Option Fault
  /-- The method `dagTopologyManager.Parents`. -/
  Parents : Hash → Except Fault (List Hash)
  /-- The method `utxoDiffStore.HasUTXODiffChild`. -/
  utxoDiffStoreHasUTXODiffChild : Staging → Hash → Except Fault Bool
  /-- The method `utxoDiffStore.UTXODiff`. -/
  utxoDiffStoreUTXODiff : Staging → Hash → Except Fault UTXODiff
  /-- The function `utxoalgebra.DiffFrom`. -/
  DiffFrom : UTXODiff → UTXODiff → Except Fault UTXODiff

/-- The method `blockStatusStore.Get` on the hash of a block. -/
def blockStatusStoreGet (csm : ConsensusStateManager) (s : Staging) (blockHash : Hash) :
    Except Fault BlockStatus :=
  csm.blockStatusStore s (some blockHash)

/-- The method `blockStatusStore.Stage`. -/
def blockStatusStoreStage (s : Staging) (blockHash : Hash) (blockStatus : BlockStatus) :
    Staging :=
  { s with blockStatus := (blockHash, blockStatus) :: s.blockStatus }

/-- The method `acceptanceDataStore.Stage`. -/
def acceptanceDataStoreStage (csm : ConsensusStateManager) (s : Staging) (blockHash : Hash)
    (acceptanceData : AcceptanceData) : Except Fault Staging :=
  match csm.acceptanceDataStageError blockHash acceptanceData with
  | some err => .error err
  | none => .ok { s with acceptanceData := (blockHash, acceptanceData) :: s.acceptanceData }

/-- The method `multisetStore.Stage`. -/
def multisetStoreStage (s : Staging) (blockHash : Hash) (multiset : ModelMultiset) : Staging :=
  { s with multiset := (blockHash, multiset) :: s.multiset }

/-- The method `utxoDiffStore.Stage`. -/
def utxoDiffStoreStage (csm : ConsensusStateManager) (s : Staging) (blockHash : Hash)
    (utxoDiff : UTXODiff) (utxoDiffChild : Option Hash) : Except Fault Staging :=
  match csm.utxoDiffStageError blockHash utxoDiff utxoDiffChild with
  | some err => .error err
  | none => .ok { s with utxoDiff := (blockHash, (utxoDiff, utxoDiffChild)) :: s.utxoDiff }

/-- The loop of `getUnverifiedChainBlocks`. The Go loop has no bound; `fuel` bounds the
number of iterations and `none` is a loop that has not returned within it. -/
def getUnverifiedChainBlocksLoop (csm : ConsensusStateManager) (s : Staging) :
    Nat → List Hash → Hash → Option (Except Fault (List Hash))
  | 0, _, _ => none
  | fuel + 1, unverifiedBlocks, currentHash =>
    match blockStatusStoreGet csm s currentHash with
    | .error err => some (.error err)
    | .ok currentBlockStatus =>
      if currentBlockStatus != .StatusUTXOPendingVerification then
        some (.ok unverifiedBlocks)
      else
        let unverifiedBlocks := unverifiedBlocks ++ [currentHash]
        match csm.ghostdagDataStore currentHash with
        | .error err => some (.error err)
        | .ok currentBlockGHOSTDAGData =>
          match currentBlockGHOSTDAGData.SelectedParent with
          | none => some (.ok unverifiedBlocks)
          | some selectedParent =>
            getUnverifiedChainBlocksLoop csm s fuel unverifiedBlocks selectedParent

/-- The method `getUnverifiedChainBlocks`. -/
def getUnverifiedChainBlocks (csm : ConsensusStateManager) (s : Staging) (fuel : Nat)
    (blockHash : Hash) : Option (Except Fault (List Hash)) :=
  getUnverifiedChainBlocksLoop csm s fuel [] blockHash

/-- The method `findSelectedParentStatus`. -/
def findSelectedParentStatus (csm : ConsensusStateManager) (s : Staging)
    (unverifiedBlocks : List Hash) : Except Fault BlockStatus := do
  let lastUnverifiedBlock ← index unverifiedBlocks (unverifiedBlocks.length - 1)
  if lastUnverifiedBlock == csm.genesisHash then
    return .StatusValid
  let lastUnverifiedBlockGHOSTDAGData ← csm.ghostdagDataStore lastUnverifiedBlock
  csm.blockStatusStore s lastUnverifiedBlockGHOSTDAGData.SelectedParent

/-- The loop of `updateParentDiffs`. -/
def updateParentDiffsLoop (csm : ConsensusStateManager) (blockHash : Hash)
    (pastUTXODiff : UTXODiff) : Staging → List Hash → Except Fault Staging
  | s, [] => .ok s
  | s, parentHash :: rest => do
    let parentHasUTXODiffChild ← csm.utxoDiffStoreHasUTXODiffChild s parentHash
    if parentHasUTXODiffChild then
      updateParentDiffsLoop csm blockHash pastUTXODiff s rest
    else
      let parentStatus ← blockStatusStoreGet csm s parentHash
      if parentStatus != .StatusValid then
        updateParentDiffsLoop csm blockHash pastUTXODiff s rest
      else
        let parentCurrentDiff ← csm.utxoDiffStoreUTXODiff s parentHash
        let parentNewDiff ← csm.DiffFrom pastUTXODiff parentCurrentDiff
        let s ← utxoDiffStoreStage csm s parentHash parentNewDiff (some blockHash)
        updateParentDiffsLoop csm blockHash pastUTXODiff s rest

/-- The method `updateParentDiffs`. -/
def updateParentDiffs (csm : ConsensusStateManager) (s : Staging) (blockHash : Hash)
    (pastUTXODiff : UTXODiff) : Except Fault Staging := do
  let parentHashes ← csm.Parents blockHash
  updateParentDiffsLoop csm blockHash pastUTXODiff s parentHashes

/-- The method `resolveSingleBlockStatus`; `errors.As(err, &ruleerrors.RuleError{})`
holds for the rule errors. -/
def resolveSingleBlockStatus (csm : ConsensusStateManager) (s : Staging) (blockHash : Hash) :
    Except Fault (BlockStatus × Staging) := do
  let (pastUTXODiff, acceptanceData, multiset) ←
    csm.CalculatePastUTXOAndAcceptanceData s blockHash
  let s ← acceptanceDataStoreStage csm s blockHash acceptanceData
  let block ← csm.blockStore blockHash
  match csm.verifyUTXO s block blockHash pastUTXODiff acceptanceData multiset with
  | .error (.rule _) => return (.StatusDisqualifiedFromChain, s)
  | .error err => throw err
  | .ok _ =>
    let s := multisetStoreStage s blockHash multiset
    let s ← utxoDiffStoreStage csm s blockHash pastUTXODiff none
    let s ← updateParentDiffs csm s blockHash pastUTXODiff
    return (.StatusValid, s)

/-- The loop of `resolveBlockStatus`. The Go loop runs the index down from the end of
`unverifiedBlocks`; the list here holds the blocks still to resolve in that order, the
oldest first. `blockStatus` is the variable of that name. -/
def resolveBlockStatusLoop (csm : ConsensusStateManager) :
    List Hash → BlockStatus → BlockStatus → Staging → Except Fault (BlockStatus × Staging)
  | [], _, blockStatus, s => .ok (blockStatus, s)
  | unverifiedBlockHash :: rest, selectedParentStatus, _, s => do
    let (blockStatus, s) ←
      if selectedParentStatus == .StatusDisqualifiedFromChain then
        pure (BlockStatus.StatusDisqualifiedFromChain, s)
      else
        resolveSingleBlockStatus csm s unverifiedBlockHash
    let s := blockStatusStoreStage s unverifiedBlockHash blockStatus
    resolveBlockStatusLoop csm rest blockStatus blockStatus s

/-- The method `resolveBlockStatus`. The variable `blockStatus` starts at the zero
value of its type. -/
def resolveBlockStatus (csm : ConsensusStateManager) (fuel : Nat) (s : Staging)
    (blockHash : Hash) : Option (Except Fault (BlockStatus × Staging)) :=
  match getUnverifiedChainBlocks csm s fuel blockHash with
  | none => none
  | some (.error err) => some (.error err)
  | some (.ok unverifiedBlocks) =>
    if unverifiedBlocks.length == 0 then
      match blockStatusStoreGet csm s blockHash with
      | .error err => some (.error err)
      | .ok status => some (.ok (status, s))
    else
      match findSelectedParentStatus csm s unverifiedBlocks with
      | .error err => some (.error err)
      | .ok selectedParentStatus =>
        some (resolveBlockStatusLoop csm unverifiedBlocks.reverse selectedParentStatus
          csm.zeroBlockStatus s)

/-! ## Domain data of the index and of the RPC handlers -/

/-- The type `externalapi.DomainOutpoint`. -/
structure DomainOutpoint where
  TransactionID : TxID
  Index : Nat
  deriving DecidableEq, Repr

/-- The function `externalapi.NewDomainOutpoint`, applied to `uint32(index)`. -/
def NewDomainOutpoint (id : TxID) (index : Nat) : DomainOutpoint :=
  ⟨id, index % 2 ^ 32⟩

/-- The type `externalapi.UTXOEntry`, a value built by `utxo.NewUTXOEntry` from an
amount, a script public key, the coinbase flag and a blue score. -/
structure DomainUTXOEntry where
  Amount : Nat
  ScriptPublicKey : Bytes
  IsCoinbase : Bool
  BlockBlueScore : Nat
  deriving DecidableEq, Repr

/-- The function `utxo.NewUTXOEntry`. -/
def NewUTXOEntry (amount : Nat) (scriptPublicKey : Bytes) (isCoinbase : Bool)
    (blockBlueScore : Nat) : DomainUTXOEntry :=
  ⟨amount, scriptPublicKey, isCoinbase, blockBlueScore⟩

/-- The fields of `externalapi.DomainTransactionInput` that are read; `UTXOEntry` is the
entry that the input spends, filled in by the consensus. -/
structure DomainTransactionInput where
  PreviousOutpoint : DomainOutpoint
  UTXOEntry : DomainUTXOEntry
  deriving DecidableEq, Repr

/-- The type `externalapi.DomainTransactionOutput`. -/
structure DomainTransactionOutput where
  Value : Nat
  ScriptPublicKey : Bytes
  deriving DecidableEq, Repr

/-- The fields of `externalapi.DomainTransaction` that are read; `Payload` stands for
the fields that only `transactionhelper.IsCoinBase` looks at. -/
structure DomainTransaction where
  ID : TxID
  Inputs : List DomainTransactionInput
  Outputs : List DomainTransactionOutput
  Payload : Nat
  deriving DecidableEq, Repr

/-- The type `externalapi.TransactionAcceptanceData`. -/
structure TransactionAcceptanceData where
  Transaction : DomainTransaction
  IsAccepted : Bool
  deriving DecidableEq, Repr

/-- The type `externalapi.BlockAcceptanceData`. -/
structure BlockAcceptanceData where
  BlockHash : Hash
  TransactionAcceptanceData : List Kaspad.TransactionAcceptanceData
  deriving DecidableEq, Repr

/-- The fields of `externalapi.BlockInfo` that are read. -/
structure BlockInfo where
  AcceptanceData : List BlockAcceptanceData
  BlueScore : Nat
  deriving DecidableEq, Repr

/-- The type `externalapi.SelectedParentChainChanges`. -/
structure SelectedParentChainChanges where
  Removed : List Hash
  Added : List Hash
  deriving DecidableEq, Repr

/-! ## RPC handler of the selected parent chain -/

/-- The constant `maxBlocksInGetChainFromBlockResponse`. -/
def maxBlocksInGetChainFromBlockResponse : Nat := 1000

/-- The type `appmessage.BlockVerboseData`, as an opaque value. -/
abbrev BlockVerboseData := Nat

/-- The fields of `appmessage.GetChainFromBlockRequestMessage`. -/
structure GetChainFromBlockRequestMessage where
  StartHash : String
  IncludeBlockVerboseData : Bool
  deriving DecidableEq, Repr

/-- The type `appmessage.AcceptedBlock`. -/
structure AcceptedBlock where
  Hash : String
  AcceptedTxIDs : List String
  deriving DecidableEq, Repr

/-- The type `appmessage.ChainBlock`. -/
structure ChainBlock where
  Hash : String
  AcceptedBlocks : List AcceptedBlock
  deriving DecidableEq, Repr

/-- The errors built by `appmessage.RPCErrorf` in the handler, without their text. -/
inductive RPCError where
  | couldNotParseStartHash
  | blockNotFound
  | couldNotCollectChainBlocks
  deriving DecidableEq, Repr

/-- The messages the handler returns: an empty `GetChainFromBlockResponseMessage` with
its `Error` set, or the value of `appmessage.NewGetChainFromBlockResponseMessage`,
which is outside the source tree and is kept as its three arguments. -/
inductive GetChainFromBlockResponseMessage where
  | errorMessage (error : RPCError)
  | response (removedChainBlockHashes : List String) (addedChainBlocks : List ChainBlock)
      (blockVerboseData : List BlockVerboseData)
  deriving DecidableEq, Repr

/-- The parts of `rpccontext.Context` and of the packages the handler calls that are
outside the source tree. -/
structure RPCContext where
  /-- The function `hashes.FromString`. -/
  FromString : String → Except Fault Hash
  /-- The method `Consensus().GetBlock`. -/
  GetBlock : Hash → Except Fault DomainBlock
  /-- The method `Consensus().GetSelectedParentChain`; `none` is a nil start hash. -/
  GetSelectedParentChain : Option Hash → Except Fault (List Hash × List Hash)
  /-- The method `Consensus().GetBlockAcceptanceData`. -/
  GetBlockAcceptanceData : Hash → Except Fault (List BlockAcceptanceData)
  /-- The method `BuildBlockVerboseData`. -/
  BuildBlockVerboseData : DomainBlock → Bool → Except Fault BlockVerboseData
  /-- The method `String` of a block hash. -/
  HashString : Hash → String
  /-- The method `String` of a transaction ID. -/
  TransactionIDString : TxID → String

/-- The innermost loop of `CollectChainBlocks`, over the transactions of a record. -/
def acceptedTxIdsLoop (context : RPCContext) :
    List String → List TransactionAcceptanceData → List String
  | acceptedTxIds, [] => acceptedTxIds
  | acceptedTxIds, txAcceptanceData :: rest =>
    if txAcceptanceData.IsAccepted then
      acceptedTxIdsLoop context
        (acceptedTxIds ++ [context.TransactionIDString txAcceptanceData.Transaction.ID]) rest
    else
      acceptedTxIdsLoop context acceptedTxIds rest

/-- The loop of `CollectChainBlocks` over the records of the acceptance data. -/
def acceptedBlocksLoop (context : RPCContext) :
    List AcceptedBlock → List BlockAcceptanceData → List AcceptedBlock
  | acceptedBlocks, [] => acceptedBlocks
  | acceptedBlocks, blockAcceptanceData :: rest =>
    let acceptedTxIds :=
      acceptedTxIdsLoop context [] blockAcceptanceData.TransactionAcceptanceData
    let acceptedBlock : AcceptedBlock :=
      { Hash := context.HashString blockAcceptanceData.BlockHash
        AcceptedTxIDs := acceptedTxIds }
    acceptedBlocksLoop context (acceptedBlocks ++ [acceptedBlock]) rest

/-- The outer loop of `CollectChainBlocks`; `errors.Errorf` gives a non-rule error. -/
def collectChainBlocksLoop (context : RPCContext) :
    List ChainBlock → List Hash → Except Fault (List ChainBlock)
  | chainBlocks, [] => .ok chainBlocks
  | chainBlocks, hash :: rest =>
    match context.GetBlockAcceptanceData hash with
    | .error _ => .error (.other 2)
    | .ok acceptanceData =>
      let acceptedBlocks := acceptedBlocksLoop context [] acceptanceData
      let chainBlock : ChainBlock :=
        { Hash := context.HashString hash
          AcceptedBlocks := acceptedBlocks }
      collectChainBlocksLoop context (chainBlocks ++ [chainBlock]) rest

/-- The function `CollectChainBlocks`. -/
def CollectChainBlocks (context : RPCContext) (hashes : List Hash) :
    Except Fault (List ChainBlock) :=
  collectChainBlocksLoop context [] hashes

/-- The loop of `hashesToBlockVerboseData`; `errors.Wrapf` keeps the error it wraps. -/
def hashesToBlockVerboseDataLoop (context : RPCContext) :
    List BlockVerboseData → List Hash → Except Fault (List BlockVerboseData)
  | getBlockVerboseResults, [] => .ok getBlockVerboseResults
  | getBlockVerboseResults, blockHash :: rest =>
    match context.GetBlock blockHash with
    | .error _ => .error (.other 3)
    | .ok block =>
      match context.BuildBlockVerboseData block false with
      | .error err => .error err
      | .ok getBlockVerboseResult =>
        hashesToBlockVerboseDataLoop context
          (getBlockVerboseResults ++ [getBlockVerboseResult]) rest

/-- The function `hashesToBlockVerboseData`. -/
def hashesToBlockVerboseData (context : RPCContext) (hashes : List Hash) :
    Except Fault (List BlockVerboseData) :=
  hashesToBlockVerboseDataLoop context [] hashes

/-- The first part of `HandleGetChainFromBlock`: the start hash, nil for an empty
string, or the error message returned early. -/
def parseStartHash (context : RPCContext)
    (getChainFromBlockRequest : GetChainFromBlockRequestMessage) :
    Except RPCError (Option Hash) :=
  if getChainFromBlockRequest.StartHash != "" then
    match context.FromString getChainFromBlockRequest.StartHash with
    | .error _ => .error .couldNotParseStartHash
    | .ok startHash =>
      match context.GetBlock startHash with
      | .error _ => .error .blockNotFound
      | .ok _ => .ok (some startHash)
  else
    .ok none

/-- The function `HandleGetChainFromBlock`, on a request of the type it asserts. -/
def HandleGetChainFromBlock (context : RPCContext)
    (getChainFromBlockRequest : GetChainFromBlockRequestMessage) :
    Except Fault GetChainFromBlockResponseMessage :=
  match parseStartHash context getChainFromBlockRequest with
  | .error errorMessage => .ok (.errorMessage errorMessage)
  | .ok startHash =>
    match context.GetSelectedParentChain startHash with
    | .error err => .error err
    | .ok (removedChainHashes, addedChainHashes) =>
      let addedChainHashes :=
        if addedChainHashes.length > maxBlocksInGetChainFromBlockResponse then
          addedChainHashes.take maxBlocksInGetChainFromBlockResponse
        else addedChainHashes
      match CollectChainBlocks context addedChainHashes with
      | .error _ => .ok (.errorMessage .couldNotCollectChainBlocks)
      | .ok addedChainBlocks =>
        let removedHashes := removedChainHashes.map context.HashString
        if getChainFromBlockRequest.IncludeBlockVerboseData then
          match hashesToBlockVerboseData context addedChainHashes with
          | .error err => .error err
          | .ok data => .ok (.response removedHashes addedChainBlocks data)
        else
          .ok (.response removedHashes addedChainBlocks [])

/-! ## Connection requests -/

/-- The type `time.Duration` of the standard library: a signed 64-bit count of
nanoseconds. -/
abbrev Nanoseconds := Int

/-- The type `time.Time` of the standard library, as the nanoseconds since a fixed
instant; its methods `Add` and `After` are integer addition and `>`. -/
abbrev Instant := Int

/-- The constant `time.Second`. -/
def second : Nanoseconds := 1000000000

/-- The constant `time.Minute`. -/
def minute : Nanoseconds := 60 * second

/-- The constant `minRetryDuration`. -/
def minRetryDuration : Nanoseconds := second

/-- The constant `maxRetryDuration`. -/
def maxRetryDuration : Nanoseconds := 10 * minute

/-- The function `nextRetryDuration`. -/
def nextRetryDuration (previousDuration : Nanoseconds) : Nanoseconds :=
  if previousDuration == 0 then
    minRetryDuration
  else if mulInt64 previousDuration 2 > maxRetryDuration then
    maxRetryDuration
  else
    mulInt64 previousDuration 2

/-- The type `connectionRequest`; its declaration is outside the source tree and these
are the fields the file uses. -/
structure connectionRequest where
  address : String
  isPermanent : Bool
  nextAttempt : Instant
  retryDuration : Nanoseconds
  deriving DecidableEq, Repr

/-- A Go map from addresses to connection requests. The requests are pointers in Go;
each is referenced by one map entry, so that a write through the pointer is a write to
the entry. -/
abbrev requestMap := String → Option connectionRequest

/-- The statement `delete(m, address)`. -/
def requestMap.delete (m : requestMap) (address : String) : requestMap :=
  fun a => if a = address then none else m a

/-- The statement `m[address] = connReq`. -/
def requestMap.insert (m : requestMap) (address : String) (connReq : connectionRequest) :
    requestMap :=
  fun a => if a = address then some connReq else m a

/-- The two maps of `ConnectionManager` that the file uses. -/
structure ConnectionManager where
  activeConnectionRequests : requestMap
  pendingConnectionRequests : requestMap

/-- The type `connectionSet` with its methods, and the method `initiateConnection`, all
outside the source tree; `none` is a nil connection and a nil error. -/
structure ConnectionEnv (connectionSet NetConnection : Type) where
  get : connectionSet → String → Option NetConnection
  remove : connectionSet → Option NetConnection → connectionSet
  initiateConnection : String → Option Fault

/-- The body of the first loop of `checkConnectionRequests`, for one entry of
`activeConnectionRequests`. -/
def checkActiveConnectionRequest {connectionSet NetConnection : Type}
    (env : ConnectionEnv connectionSet NetConnection) (now : Instant) (address : String)
    (connReq : connectionRequest) (c : ConnectionManager) (connSet : connectionSet) :
    ConnectionManager × connectionSet :=
  let connection := env.get connSet address
  let c :=
    if connection.isNone then
      let c := { c with
        activeConnectionRequests := c.activeConnectionRequests.delete address }
      if connReq.isPermanent then
        let connReq := { connReq with nextAttempt := now, retryDuration := second }
        { c with
          pendingConnectionRequests := c.pendingConnectionRequests.insert address connReq }
      else c
    else c
  let connSet := env.remove connSet connection
  (c, connSet)

/-- The first loop of `checkConnectionRequests`. A `range` over a map produces its keys
in an order the language does not fix: `keys` is the sequence of keys produced, and a
key that is not in the map when it is produced is passed over. -/
def checkActiveConnectionRequests {connectionSet NetConnection : Type}
    (env : ConnectionEnv connectionSet NetConnection) (now : Instant) :
    List String → ConnectionManager → connectionSet → ConnectionManager × connectionSet
  | [], c, connSet => (c, connSet)
  | address :: keys, c, connSet =>
    match c.activeConnectionRequests address with
    | none => checkActiveConnectionRequests env now keys c connSet
    | some connReq =>
      let next := checkActiveConnectionRequest env now address connReq c connSet
      checkActiveConnectionRequests env now keys next.1 next.2

/-- The body of the second loop of `checkConnectionRequests`, for one entry of
`pendingConnectionRequests`. -/
def checkPendingConnectionRequest {connectionSet NetConnection : Type}
    (env : ConnectionEnv connectionSet NetConnection) (now : Instant) (address : String)
    (connReq : connectionRequest) (c : ConnectionManager) (connSet : connectionSet) :
    ConnectionManager × connectionSet :=
  if connReq.nextAttempt > now then
    (c, connSet)
  else
    let connection := env.get connSet address
    if connection.isSome then
      let c := { c with
        pendingConnectionRequests := c.pendingConnectionRequests.delete address }
      let c := { c with
        pendingConnectionRequests := c.pendingConnectionRequests.insert address connReq }
      let connSet := env.remove connSet connection
      (c, connSet)
    else
      let err := env.initiateConnection connReq.address
      if err.isNone then
        let c := { c with
          pendingConnectionRequests := c.pendingConnectionRequests.delete address }
        let c := { c with
          activeConnectionRequests := c.activeConnectionRequests.insert address connReq }
        (c, connSet)
      else if !connReq.isPermanent then
        let c := { c with
          pendingConnectionRequests := c.pendingConnectionRequests.delete address }
        (c, connSet)
      else
        let retryDuration := nextRetryDuration connReq.retryDuration
        let connReq := { connReq with
          retryDuration := retryDuration, nextAttempt := now + retryDuration }
        let c := { c with
          pendingConnectionRequests := c.pendingConnectionRequests.insert address connReq }
        (c, connSet)

/-- The second loop of `checkConnectionRequests`, over the keys the `range` produces. -/
def checkPendingConnectionRequests {connectionSet NetConnection : Type}
    (env : ConnectionEnv connectionSet NetConnection) (now : Instant) :
    List String → ConnectionManager → connectionSet → ConnectionManager × connectionSet
  | [], c, connSet => (c, connSet)
  | address :: keys, c, connSet =>
    match c.pendingConnectionRequests address with
    | none => checkPendingConnectionRequests env now keys c connSet
    | some connReq =>
      let next := checkPendingConnectionRequest env now address connReq c connSet
      checkPendingConnectionRequests env now keys next.1 next.2

/-- The method `checkConnectionRequests`; `now` is the value of `time.Now()`, and
`activeKeys` and `pendingKeys` are the keys the two `range` loops produce. -/
def checkConnectionRequests {connectionSet NetConnection : Type}
    (env : ConnectionEnv connectionSet NetConnection) (now : Instant)
    (activeKeys pendingKeys : List String) (c : ConnectionManager) (connSet : connectionSet) :
    ConnectionManager × connectionSet :=
  let afterActive := checkActiveConnectionRequests env now activeKeys c connSet
  checkPendingConnectionRequests env now pendingKeys afterActive.1 afterActive.2

/-- The zero value of `time.Time`, which a `connectionRequest` built without a
`nextAttempt` holds; the instants are counted from it. -/
def zeroInstant : Instant := 0

/-- The method `AddConnectionRequest`: the body of the function it hands to `spawn`,
which runs under `connectionRequestsLock`. The request built has the zero values in the
fields that the composite literal leaves out. -/
def AddConnectionRequest (c : ConnectionManager) (address : String) (isPermanent : Bool) :
    ConnectionManager :=
  if (c.activeConnectionRequests address).isSome then
    c
  else
    { c with
      pendingConnectionRequests := c.pendingConnectionRequests.insert address
        { address := address, isPermanent := isPermanent, nextAttempt := zeroInstant,
          retryDuration := 0 } }

/-! ## UTXO index -/

/-- A call of a method of `utxoIndexStore`, with its arguments. -/
inductive StoreCall where
  | add (scriptPublicKey : Bytes) (outpoint : DomainOutpoint) (utxoEntry : DomainUTXOEntry)
  | remove (scriptPublicKey : Bytes) (outpoint : DomainOutpoint)
  | commit
  deriving DecidableEq, Repr

/-- The collaborators of `UTXOIndex`, which are outside the source tree. The state of
the store is the list of the calls made on it so far, in their order, and `storeError`
is the error, if any, that a call returns after the calls made before it. -/
structure UTXOIndex where
  /-- The method `consensus.GetBlockInfo`, asked for the acceptance data. -/
  GetBlockInfo : Hash → Except Fault BlockInfo
  /-- The function `transactionhelper.IsCoinBase`. -/
  IsCoinBase : DomainTransaction → Bool
  storeError : List StoreCall → StoreCall → Option Fault

/-- A call on `ui.store`: the call is recorded and its error, `none` for nil, returned. -/
def storeCall (ui : UTXOIndex) (calls : List StoreCall) (call : StoreCall) :
    List StoreCall × Option Fault :=
  (calls ++ [call], ui.storeError calls call)

/-- The first loop of `addTransaction`, over the inputs. -/
def addTransactionInputs (ui : UTXOIndex) :
    List StoreCall → List DomainTransactionInput → List StoreCall × Option Fault
  | calls, [] => (calls, none)
  | calls, transactionInput :: rest =>
    match storeCall ui calls
        (.remove transactionInput.UTXOEntry.ScriptPublicKey
          transactionInput.PreviousOutpoint) with
    | (calls, some err) => (calls, some err)
    | (calls, none) => addTransactionInputs ui calls rest

/-- The second loop of `addTransaction`, over the outputs from the index `index` on. -/
def addTransactionOutputs (ui : UTXOIndex) (transaction : DomainTransaction)
    (isCoinbase : Bool) (blockBlueScore : Nat) :
    List StoreCall → Nat → List DomainTransactionOutput → List StoreCall × Option Fault
  | calls, _, [] => (calls, none)
  | calls, index, transactionOutput :: rest =>
    let outpoint := NewDomainOutpoint transaction.ID index
    let utxoEntry := NewUTXOEntry transactionOutput.Value transactionOutput.ScriptPublicKey
      isCoinbase blockBlueScore
    match storeCall ui calls (.add transactionOutput.ScriptPublicKey outpoint utxoEntry) with
    | (calls, some err) => (calls, some err)
    | (calls, none) =>
      addTransactionOutputs ui transaction isCoinbase blockBlueScore calls (index + 1) rest

/-- The method `addTransaction`. -/
def addTransaction (ui : UTXOIndex) (calls : List StoreCall)
    (transaction : DomainTransaction) (blockBlueScore : Nat) :
    List StoreCall × Option Fault :=
  let isCoinbase := ui.IsCoinBase transaction
  match addTransactionInputs ui calls transaction.Inputs with
  | (calls, some err) => (calls, some err)
  | (calls, none) =>
    addTransactionOutputs ui transaction isCoinbase blockBlueScore calls 0
      transaction.Outputs

/-- The first loop of `removeTransaction`, over the outputs from the index `index` on. -/
def removeTransactionOutputs (ui : UTXOIndex) (transaction : DomainTransaction) :
    List StoreCall → Nat → List DomainTransactionOutput → List StoreCall × Option Fault
  | calls, _, [] => (calls, none)
  | calls, index, transactionOutput :: rest =>
    let outpoint := NewDomainOutpoint transaction.ID index
    match storeCall ui calls (.remove transactionOutput.ScriptPublicKey outpoint) with
    | (calls, some err) => (calls, some err)
    | (calls, none) => removeTransactionOutputs ui transaction calls (index + 1) rest

/-- The second loop of `removeTransaction`, over the inputs. -/
def removeTransactionInputs (ui : UTXOIndex) :
    List StoreCall → List DomainTransactionInput → List StoreCall × Option Fault
  | calls, [] => (calls, none)
  | calls, transactionInput :: rest =>
    match storeCall ui calls
        (.add transactionInput.UTXOEntry.ScriptPublicKey transactionInput.PreviousOutpoint
          transactionInput.UTXOEntry) with
    | (calls, some err) => (calls, some err)
    | (calls, none) => removeTransactionInputs ui calls rest

/-- The method `removeTransaction`. -/
def removeTransaction (ui : UTXOIndex) (calls : List StoreCall)
    (transaction : DomainTransaction) : List StoreCall × Option Fault :=
  match removeTransactionOutputs ui transaction calls 0 transaction.Outputs with
  | (calls, some err) => (calls, some err)
  | (calls, none) => removeTransactionInputs ui calls transaction.Inputs

/-- The inner loop of `addBlock`, over the transactions of one record. -/
def addBlockTransactions (ui : UTXOIndex) (blueScore : Nat) :
    List StoreCall → List TransactionAcceptanceData → List StoreCall × Option Fault
  | calls, [] => (calls, none)
  | calls, transactionAcceptanceData :: rest =>
    match addTransaction ui calls transactionAcceptanceData.Transaction blueScore with
    | (calls, some err) => (calls, some err)
    | (calls, none) => addBlockTransactions ui blueScore calls rest

/-- The outer loop of `addBlock`, over the records of the acceptance data. -/
def addBlockRecords (ui : UTXOIndex) (blueScore : Nat) :
    List StoreCall → List BlockAcceptanceData → List StoreCall × Option Fault
  | calls, [] => (calls, none)
  | calls, blockAcceptanceData :: rest =>
    match addBlockTransactions ui blueScore calls
        blockAcceptanceData.TransactionAcceptanceData with
    | (calls, some err) => (calls, some err)
    | (calls, none) => addBlockRecords ui blueScore calls rest

/-- The method `addBlock`. -/
def addBlock (ui : UTXOIndex) (calls : List StoreCall) (blockHash : Hash) :
    List StoreCall × Option Fault :=
  match ui.GetBlockInfo blockHash with
  | .error err => (calls, some err)
  | .ok blockInfo => addBlockRecords ui blockInfo.BlueScore calls blockInfo.AcceptanceData

/-- The inner loop of `removeBlock`, over the transactions of one record. -/
def removeBlockTransactions (ui : UTXOIndex) :
    List StoreCall → List TransactionAcceptanceData → List StoreCall × Option Fault
  | calls, [] => (calls, none)
  | calls, transactionAcceptanceData :: rest =>
    match removeTransaction ui calls transactionAcceptanceData.Transaction with
    | (calls, some err) => (calls, some err)
    | (calls, none) => removeBlockTransactions ui calls rest

/-- The outer loop of `removeBlock`, over the records of the acceptance data. -/
def removeBlockRecords (ui : UTXOIndex) :
    List StoreCall → List BlockAcceptanceData → List StoreCall × Option Fault
  | calls, [] => (calls, none)
  | calls, blockAcceptanceData :: rest =>
    match removeBlockTransactions ui calls blockAcceptanceData.TransactionAcceptanceData with
    | (calls, some err) => (calls, some err)
    | (calls, none) => removeBlockRecords ui calls rest

/-- The method `removeBlock`. -/
def removeBlock (ui : UTXOIndex) (calls : List StoreCall) (blockHash : Hash) :
    List StoreCall × Option Fault :=
  match ui.GetBlockInfo blockHash with
  | .error err => (calls, some err)
  | .ok blockInfo => removeBlockRecords ui calls blockInfo.AcceptanceData

/-- The first loop of `Update`, over the removed blocks. -/
def updateRemoved (ui : UTXOIndex) :
    List StoreCall → List Hash → List StoreCall × Option Fault
  | calls, [] => (calls, none)
  | calls, removedBlockHash :: rest =>
    match removeBlock ui calls removedBlockHash with
    | (calls, some err) => (calls, some err)
    | (calls, none) => updateRemoved ui calls rest

/-- The second loop of `Update`, over the added blocks. -/
def updateAdded (ui : UTXOIndex) :
    List StoreCall → List Hash → List StoreCall × Option Fault
  | calls, [] => (calls, none)
  | calls, addedBlockHash :: rest =>
    match addBlock ui calls addedBlockHash with
    | (calls, some err) => (calls, some err)
    | (calls, none) => updateAdded ui calls rest

/-- The method `Update`. -/
def Update (ui : UTXOIndex) (calls : List StoreCall)
    (chainChanges : SelectedParentChainChanges) : List StoreCall × Option Fault :=
  match updateRemoved ui calls chainChanges.Removed with
  | (calls, some err) => (calls, some err)
  | (calls, none) =>
    match updateAdded ui calls chainChanges.Added with
    | (calls, some err) => (calls, some err)
    | (calls, none) => storeCall ui calls .commit

/-- Modelled from the spec: what `utxoIndexStore`, which is outside the source tree, holds
staged for one outpoint of one script public key between two commits: nothing, an entry
to add, or a removal. -/
inductive Staged where
  | nothing
  | toAdd (utxoEntry : DomainUTXOEntry)
  | toRemove
  deriving DecidableEq, Repr

/-- Modelled from the spec: the effect of one call of `utxoIndexStore` on what is staged
for the outpoint `outpoint` of `scriptPublicKey`. The index is keyed by script public
key and outpoint, and changes are staged until a commit. An addition and a removal
staged for the same outpoint cancel; a second addition, or a second removal, is an
error and stages nothing; a commit empties the staging. -/
def stagedStep (scriptPublicKey : Bytes) (outpoint : DomainOutpoint) (staged : Staged)
    (call : StoreCall) : Staged :=
  match call with
  | .commit => .nothing
  | .add s o utxoEntry =>
    if s = scriptPublicKey ∧ o = outpoint then
      match staged with
      | .nothing => .toAdd utxoEntry
      | .toAdd earlier => .toAdd earlier
      | .toRemove => .nothing
    else staged
  | .remove s o =>
    if s = scriptPublicKey ∧ o = outpoint then
      match staged with
      | .nothing => .toRemove
      | .toAdd _ => .nothing
      | .toRemove => .toRemove
    else staged

/-- Modelled from the spec: what is staged for an outpoint after the calls `calls`, made
on a store with nothing staged. -/
def stagedAfter (scriptPublicKey : Bytes) (outpoint : DomainOutpoint)
    (calls : List StoreCall) : Staged :=
  calls.foldl (stagedStep scriptPublicKey outpoint) .nothing

/-- Modelled from the spec: the error of a call of `utxoIndexStore` after the calls
`calls`: an addition of an outpoint staged to be added and a removal of an outpoint
staged to be removed fail, and nothing else does. -/
def modelStoreError (calls : List StoreCall) (call : StoreCall) : Option Fault :=
  match call with
  | .commit => none
  | .add s o _ =>
    match stagedAfter s o calls with
    | .toAdd _ => some (.other 7)
    | _ => none
  | .remove s o =>
    match stagedAfter s o calls with
    | .toRemove => some (.other 8)
    | _ => none

/-- Modelled from the spec: the entry of the index for an outpoint once what is staged
for it is committed. -/
def commitStaged (staged : Staged) (entry : Option DomainUTXOEntry) :
    Option DomainUTXOEntry :=
  match staged with
  | .nothing => entry
  | .toAdd utxoEntry => some utxoEntry
  | .toRemove => none

/-- Modelled from the spec: the effect of one call on the committed entry and on what is
staged for an outpoint. -/
def indexStep (scriptPublicKey : Bytes) (outpoint : DomainOutpoint)
    (state : Option DomainUTXOEntry × Staged) (call : StoreCall) :
    Option DomainUTXOEntry × Staged :=
  match call with
  | .commit => (commitStaged state.2 state.1, .nothing)
  | _ => (state.1, stagedStep scriptPublicKey outpoint state.2 call)

/-- Modelled from the spec: the index `scriptPublicKey → outpoint → entry` after the
calls `calls`, made on a store that held the index `index` with nothing staged. -/
def indexAfter (index : Bytes → DomainOutpoint → Option DomainUTXOEntry)
    (calls : List StoreCall) (scriptPublicKey : Bytes) (outpoint : DomainOutpoint) :
    Option DomainUTXOEntry :=
  (calls.foldl (indexStep scriptPublicKey outpoint)
    (index scriptPublicKey outpoint, .nothing)).1

/-! ## Reachability store -/

/-- The `k` low bytes of a number, the least significant byte first. -/
def littleEndian : Nat → Nat → Bytes
  | 0, _ => []
  | k + 1, n => n % 256 :: littleEndian k (n / 256)

/-- The number that a byte string spells, the least significant byte first. -/
def littleEndianValue : Bytes → Nat
  | [] => 0
  | b :: rest => b + 256 * littleEndianValue rest

/-- Modelled from the spec: the function `wire.WriteElement` on a `uint64`, which is
outside the source tree, by the bytes it writes. The spec lays the two ends of the
interval out as `u64 LE`: the 8 bytes of the value, the least significant byte first. -/
def writeUint64 (n : Nat) : Bytes :=
  littleEndian 8 n

/-- Modelled from the spec: the function `wire.ReadElement` into a `uint64`, which is
outside the source tree. It takes the next 8 bytes of the reader as a `u64 LE` and fails
when fewer are left; it returns the value with the bytes left in the reader. -/
def readUint64 (r : Bytes) : Except Fault (Nat × Bytes) :=
  if r.length < 8 then .error (.other 10)
  else .ok (littleEndianValue (r.take 8), r.drop 8)

/-- The other parts of the packages `wire` and `daghash` that the store uses, all outside
the source tree. A writer is given by the bytes it appends to the `bytes.Buffer`, which
returns no error; a reader returns its value with the bytes left in the reader. -/
structure Wire where
  /-- The variable `daghash.ZeroHash`. -/
  ZeroHash : Hash
  /-- The function `wire.WriteElement` on a hash. -/
  WriteElementHash : Hash → Bytes
  /-- The function `wire.ReadElement` into a hash. -/
  ReadElementHash : Bytes → Except Fault (Hash × Bytes)
  /-- The function `wire.WriteVarInt`. -/
  WriteVarInt : Nat → Bytes
  /-- The function `wire.ReadVarInt`. -/
  ReadVarInt : Bytes → Except Fault (Nat × Bytes)

/-- A pointer to a `reachabilityTreeNode`: the address of the node. -/
abbrev TreeNodeRef := Nat

/-- The type `reachabilityInterval`, declared outside the source tree: two unsigned
64-bit values. -/
structure reachabilityInterval where
  start : Nat
  end_ : Nat
  deriving DecidableEq, Repr

/-- The fields of `reachabilityTreeNode`, declared outside the source tree, that the
store uses. `blockNode` is the hash of the block node it points to, `parent` and
`interval` are pointers, and `none` is nil. -/
structure reachabilityTreeNode where
  blockNode : Option Hash
  parent : Option TreeNodeRef
  children : List TreeNodeRef
  interval : Option reachabilityInterval
  deriving DecidableEq, Repr

/-- The tree nodes in memory, by address. -/
abbrev TreeNodes := TreeNodeRef → reachabilityTreeNode

/-- A write through a pointer to a tree node. -/
def TreeNodes.set (nodes : TreeNodes) (ref : TreeNodeRef) (node : reachabilityTreeNode) :
    TreeNodes :=
  fun r => if r = ref then node else nodes r

/-- The type `reachabilityData`; `treeNode` is a pointer that is not nil. -/
structure reachabilityData where
  treeNode : TreeNodeRef
  futureCoveringSet : List TreeNodeRef
  deriving DecidableEq, Repr

/-- The field `loaded` of `reachabilityStore`, the only one the embedded methods read. -/
structure reachabilityStore where
  loaded : Hash → Option reachabilityData

/-- The method `reachabilityDataByHash`; `none` is `ok == false`. -/
def reachabilityDataByHash (store : reachabilityStore) (hash : Hash) :
    Option reachabilityData :=
  store.loaded hash

/-- The expression `node.blockNode.Hash()` on a tree node; it panics when the node has no
block node. -/
def blockNodeHash (nodes : TreeNodes) (node : TreeNodeRef) : Except Fault Hash :=
  match (nodes node).blockNode with
  | some hash => .ok hash
  | none => .error .panic

/-- The method `serializeReachabilityInterval`, from the buffer `w`. -/
def serializeReachabilityInterval (w : Bytes) (interval : Option reachabilityInterval) :
    Except Fault Bytes :=
  match interval with
  | none => .error .panic
  | some interval =>
    let w := w ++ writeUint64 interval.start
    let w := w ++ writeUint64 interval.end_
    .ok w

/-- The loop of `serializeTreeNode` over the children, which is also the loop of
`serializeFutureCoveringSet` over the set. -/
def serializeTreeNodesLoop (W : Wire) (nodes : TreeNodes) :
    Bytes → List TreeNodeRef → Except Fault Bytes
  | w, [] => .ok w
  | w, node :: rest => do
    let hash ← blockNodeHash nodes node
    serializeTreeNodesLoop W nodes (w ++ W.WriteElementHash hash) rest

/-- The method `serializeTreeNode`; the length of a slice is below `2 ^ 63`, so the
conversion to `uint64` changes nothing. -/
def serializeTreeNode (W : Wire) (nodes : TreeNodes) (w : Bytes) (treeNode : TreeNodeRef) :
    Except Fault Bytes := do
  let w ← serializeReachabilityInterval w (nodes treeNode).interval
  let parentHash ←
    match (nodes treeNode).parent with
    | some parent => blockNodeHash nodes parent
    | none => pure W.ZeroHash
  let w := w ++ W.WriteElementHash parentHash
  let w := w ++ W.WriteVarInt (nodes treeNode).children.length
  serializeTreeNodesLoop W nodes w (nodes treeNode).children

/-- The method `serializeFutureCoveringSet`. -/
def serializeFutureCoveringSet (W : Wire) (nodes : TreeNodes) (w : Bytes)
    (futureCoveringSet : List TreeNodeRef) : Except Fault Bytes :=
  let w := w ++ W.WriteVarInt futureCoveringSet.length
  serializeTreeNodesLoop W nodes w futureCoveringSet

/-- The method `serializeReachabilityData`. -/
def serializeReachabilityData (W : Wire) (nodes : TreeNodes)
    (reachabilityData : reachabilityData) : Except Fault Bytes := do
  let w : Bytes := []
  let w ← serializeTreeNode W nodes w reachabilityData.treeNode
  let w ← serializeFutureCoveringSet W nodes w reachabilityData.futureCoveringSet
  return w

/-- The method `deserializeReachabilityInterval`, from the reader `r`. -/
def deserializeReachabilityInterval (r : Bytes) :
    Except Fault (reachabilityInterval × Bytes) := do
  let (start, r) ← readUint64 r
  let (end_, r) ← readUint64 r
  return ({ start := start, end_ := end_ }, r)

/-- The loop of `deserializeTreeNode` over the children, which is also the loop of
`deserializeFutureCoveringSet`, but for the text of the error: `count` hashes are read,
each is looked up in the store, and the tree nodes found fill the slice from index 0
on. -/
def deserializeTreeNodesLoop (W : Wire) (store : reachabilityStore) :
    Nat → Bytes → Except Fault (List TreeNodeRef × Bytes)
  | 0, r => .ok ([], r)
  | count + 1, r => do
    let (hash, r) ← W.ReadElementHash r
    match reachabilityDataByHash store hash with
    | none => throw (.other 11)
    | some data =>
      let (rest, r) ← deserializeTreeNodesLoop W store count r
      return (data.treeNode :: rest, r)

/-- The method `deserializeTreeNode`: the writes go through `destination.treeNode`. -/
def deserializeTreeNode (W : Wire) (store : reachabilityStore) (nodes : TreeNodes)
    (r : Bytes) (destination : reachabilityData) : Except Fault (TreeNodes × Bytes) := do
  let (interval, r) ← deserializeReachabilityInterval r
  let nodes := nodes.set destination.treeNode
    { nodes destination.treeNode with interval := some interval }
  let (parentHash, r) ← W.ReadElementHash r
  let nodes ←
    if parentHash != W.ZeroHash then
      match reachabilityDataByHash store parentHash with
      | none => throw (.other 12)
      | some parentReachabilityData =>
        pure (nodes.set destination.treeNode
          { nodes destination.treeNode with parent := some parentReachabilityData.treeNode })
    else
      pure nodes
  let (childCount, r) ← W.ReadVarInt r
  let (children, r) ← deserializeTreeNodesLoop W store childCount r
  let nodes := nodes.set destination.treeNode
    { nodes destination.treeNode with children := children }
  return (nodes, r)

/-- The method `deserializeFutureCoveringSet`: the write goes to `destination`. -/
def deserializeFutureCoveringSet (W : Wire) (store : reachabilityStore) (r : Bytes)
    (destination : reachabilityData) : Except Fault (reachabilityData × Bytes) := do
  let (setSize, r) ← W.ReadVarInt r
  let (futureCoveringSet, r) ← deserializeTreeNodesLoop W store setSize r
  return ({ destination with futureCoveringSet := futureCoveringSet }, r)

/-- The method `deserializeReachabilityData`: it returns the tree nodes and the
destination after its writes. -/
def deserializeReachabilityData (W : Wire) (store : reachabilityStore) (nodes : TreeNodes)
    (serializedReachabilityDataBytes : Bytes) (destination : reachabilityData) :
    Except Fault (TreeNodes × reachabilityData) := do
  let r := serializedReachabilityDataBytes
  let (nodes, r) ← deserializeTreeNode W store nodes r destination
  let (destination, _) ← deserializeFutureCoveringSet W store r destination
  return (nodes, destination)

/-! ## Observations used in the statements -/

/-- The parent-count check of `checkBlockHeaderSanity`: a header without parents must
be the genesis header. -/
def checkParentCount (X : Imports) (dag : BlockDAG) (block : Block) : Except Fault Unit :=
  if block.Header.ParentHashes.length == 0 then
    if X.BlockHash block.Header != dag.Params.GenesisHash then
      .error (.rule .ErrNoParents)
    else
      .ok ()
  else
    .ok ()

/-- The parent-order check of `checkBlockHeaderSanity`, made when there are parents. -/
def checkParentOrder (block : Block) : Except Fault Unit :=
  if block.Header.ParentHashes.length == 0 then
    .ok ()
  else
    checkBlockParentsOrder block.Header

/-- The checks of block sanity that can fail, in the order the spec lists them. -/
def sanityChecks (X : Imports) (dag : BlockDAG) (flags : BehaviorFlags) :
    List (Block → Except Fault Unit) :=
  [ fun block => checkProofOfWork X dag block.Header flags,
    checkParentCount X dag,
    checkParentOrder,
    checkBlockContainsAtLeastOneTransaction,
    checkBlockContainsLessThanMaxBlockMassTransactions X,
    checkFirstBlockTransactionIsCoinbase X,
    checkBlockContainsOnlyOneCoinbase X,
    checkBlockTransactionOrder,
    checkNoNonNativeTransactions X dag,
    checkBlockTransactionSanity X dag,
    checkBlockHashMerkleRoot X,
    checkBlockDuplicateTransactions X,
    checkBlockDoubleSpends X ]

/-- The error of the first check of the list that fails on the block, if one does. -/
def firstFailure : List (Block → Except Fault Unit) → Block → Option Fault
  | [], _ => none
  | check :: rest, block =>
    match check block with
    | .error err => some err
    | .ok _ => firstFailure rest block

/-- The previous outpoints the inputs reference, in input order. -/
def inputOutpoints (ins : List TxIn) : List Outpoint :=
  ins.map (fun txIn => txIn.PreviousOutpoint)

/-- The previous outpoints of all inputs of the transactions, in block order. -/
def spentOutpoints (transactions : List Tx) : List Outpoint :=
  transactions.flatMap (fun tx => inputOutpoints tx.TxIn)


/-- The input `k` of transaction `t` of the list, if there is one. -/
def inputAt (transactions : List Tx) (t k : Nat) : Option TxIn :=
  match transactions[t]? with
  | some tx => tx.TxIn[k]?
  | none => none


/-- The total length of the output scripts of a transaction. -/
def scriptPubKeySize (tx : Tx) : Nat :=
  (tx.TxOut.map (fun txOut => txOut.ScriptPubKey.length)).sum

/-- The precise signature operation counts of the inputs, input `i` counted against
`previousScriptPubKeys[i]`, added up. -/
def sigOpsCount (X : Imports) (ins : List TxIn) (previousScriptPubKeys : List Bytes) : Nat :=
  ((ins.zip previousScriptPubKeys).map (fun p =>
    X.GetPreciseSigOpCount p.1.SignatureScript p.2 (X.IsPayToScriptHash p.2))).sum

/-- The mass `CalcTxMassFromUTXOSet` returns for the transaction. -/
def massOf (X : Imports) (utxoSet : UTXOSet) (tx : Tx) : Nat :=
  match CalcTxMassFromUTXOSet X tx utxoSet with
  | .ok txMass => txMass
  | .error _ => 0

/-- The amounts of the UTXO entries the inputs reference. -/
def inputAmounts (utxoSet : UTXOSet) (ins : List TxIn) : List Nat :=
  ins.filterMap (fun txIn => (utxoSet txIn.PreviousOutpoint).map (fun entry => entry.Amount))

/-- The input passes the checks `CheckTransactionInputsAndCalulateFee` makes on it
alone: its outpoint is in the UTXO set, the entry is mature unless `fastAdd` is set,
and the amount of the entry is at most `MaxSompi`. -/
def InputPasses (X : Imports) (txBlueScore : Nat) (utxoSet : UTXOSet) (dagParams : Params)
    (fastAdd : Bool) (txIn : TxIn) : Prop :=
  ∃ entry, utxoSet txIn.PreviousOutpoint = some entry ∧
    (fastAdd = false → validateCoinbaseMaturity dagParams entry txBlueScore txIn = .ok ()) ∧
    entry.Amount ≤ X.MaxSompi

/-- The unverified chain of `h`, in words: it is empty when the stored status of `h` is
not `StatusUTXOPendingVerification`; otherwise it starts with `h`, whose status is
pending, and goes on with the unverified chain of the selected parent of `h`, or stops
there if `h` has none. -/
def IsUnverifiedChain (csm : ConsensusStateManager) (s : Staging) : Hash → List Hash → Prop
  | h, [] => ∃ status, blockStatusStoreGet csm s h = .ok status ∧
      status ≠ .StatusUTXOPendingVerification
  | h, b :: rest => b = h ∧
      blockStatusStoreGet csm s h = .ok .StatusUTXOPendingVerification ∧
      ∃ data, csm.ghostdagDataStore h = .ok data ∧
        match data.SelectedParent with
        | none => rest = []
        | some selectedParent => IsUnverifiedChain csm s selectedParent rest

/-- The staging areas after `blockStatusStore.Stage` of one status for each block of a
list, in the order of the list. -/
def stageAll (blocks : List Hash) (blockStatus : BlockStatus) (s : Staging) : Staging :=
  blocks.foldl (fun s blockHash => blockStatusStoreStage s blockHash blockStatus) s

/-- The statuses `StatusValid`, `k` times, followed by `StatusDisqualifiedFromChain`,
up to `n` statuses in all. -/
def validThenDisqualified (k n : Nat) : List BlockStatus :=
  List.replicate k .StatusValid ++ List.replicate (n - k) .StatusDisqualifiedFromChain

/-- The reads of the stores go through the staged records: `utxoDiffStore` answers for a
block from its latest staged record, when there is one, and from what does not depend
on the staging otherwise; `blockStatusStore.Get` depends on the staged statuses only. -/
def ReadsStagedRecords (csm : ConsensusStateManager) : Prop :=
  (∀ (s : Staging) (p : Hash) (record : UTXODiff × Option Hash),
    s.utxoDiff.lookup p = some record →
    csm.utxoDiffStoreHasUTXODiffChild s p = .ok record.2.isSome ∧
    csm.utxoDiffStoreUTXODiff s p = .ok record.1) ∧
  (∀ (s s' : Staging) (p : Hash),
    s.utxoDiff.lookup p = none → s'.utxoDiff.lookup p = none →
    csm.utxoDiffStoreHasUTXODiffChild s p = csm.utxoDiffStoreHasUTXODiffChild s' p ∧
    csm.utxoDiffStoreUTXODiff s p = csm.utxoDiffStoreUTXODiff s' p) ∧
  (∀ (s s' : Staging) (blockHash : Option Hash),
    s.blockStatus = s'.blockStatus →
    csm.blockStatusStore s blockHash = csm.blockStatusStore s' blockHash)

/-- A parent whose diff `updateParentDiffs` replaces, read in the state `s`: it has no
UTXO diff child, its status is `StatusValid`, and `record` is the diff from
`pastUTXODiff` to its current diff, with the diff child `blockHash`. -/
def ReplacesParentDiff (csm : ConsensusStateManager) (s : Staging) (blockHash : Hash)
    (pastUTXODiff : UTXODiff) (p : Hash) (record : UTXODiff × Option Hash) : Prop :=
  csm.utxoDiffStoreHasUTXODiffChild s p = .ok false ∧
  blockStatusStoreGet csm s p = .ok .StatusValid ∧
  ∃ parentCurrentDiff, csm.utxoDiffStoreUTXODiff s p = .ok parentCurrentDiff ∧
    csm.DiffFrom pastUTXODiff parentCurrentDiff = .ok record.1 ∧
    record.2 = some blockHash

/-- The calls on the store made one after another, up to the first that returns an
error. -/
def runCalls (ui : UTXOIndex) : List StoreCall → List StoreCall → List StoreCall × Option Fault
  | calls, [] => (calls, none)
  | calls, call :: rest =>
    match storeCall ui calls call with
    | (calls, some err) => (calls, some err)
    | (calls, none) => runCalls ui calls rest

/-- The calls that add the outputs of a transaction, from the index `index` on. -/
def addOutputCalls (transaction : DomainTransaction) (isCoinbase : Bool)
    (blockBlueScore : Nat) : Nat → List DomainTransactionOutput → List StoreCall
  | _, [] => []
  | index, transactionOutput :: rest =>
    .add transactionOutput.ScriptPublicKey (NewDomainOutpoint transaction.ID index)
        (NewUTXOEntry transactionOutput.Value transactionOutput.ScriptPublicKey isCoinbase
          blockBlueScore) ::
      addOutputCalls transaction isCoinbase blockBlueScore (index + 1) rest

/-- The calls that remove the outputs of a transaction, from the index `index` on. -/
def removeOutputCalls (transaction : DomainTransaction) :
    Nat → List DomainTransactionOutput → List StoreCall
  | _, [] => []
  | index, transactionOutput :: rest =>
    .remove transactionOutput.ScriptPublicKey (NewDomainOutpoint transaction.ID index) ::
      removeOutputCalls transaction (index + 1) rest

/-- The calls that apply a transaction: its inputs are removed, then its outputs are
added. -/
def addTransactionCalls (ui : UTXOIndex) (transaction : DomainTransaction)
    (blockBlueScore : Nat) : List StoreCall :=
  transaction.Inputs.map
      (fun input => .remove input.UTXOEntry.ScriptPublicKey input.PreviousOutpoint) ++
    addOutputCalls transaction (ui.IsCoinBase transaction) blockBlueScore 0
      transaction.Outputs

/-- The calls that reverse a transaction: its outputs are removed, then its inputs are
added with their recorded entries. -/
def removeTransactionCalls (transaction : DomainTransaction) : List StoreCall :=
  removeOutputCalls transaction 0 transaction.Outputs ++
    transaction.Inputs.map
      (fun input =>
        .add input.UTXOEntry.ScriptPublicKey input.PreviousOutpoint input.UTXOEntry)

/-- The transactions of the acceptance data of a block, in order, whatever their
`IsAccepted`. -/
def blockTransactions (blockInfo : BlockInfo) : List DomainTransaction :=
  (blockInfo.AcceptanceData.map
    (fun record => record.TransactionAcceptanceData.map (fun data => data.Transaction))).flatten

/-- The calls that apply a block. -/
def addBlockCalls (ui : UTXOIndex) (blockInfo : BlockInfo) : List StoreCall :=
  ((blockTransactions blockInfo).map
    (fun transaction => addTransactionCalls ui transaction blockInfo.BlueScore)).flatten

/-- The calls that reverse a block. -/
def removeBlockCalls (blockInfo : BlockInfo) : List StoreCall :=
  ((blockTransactions blockInfo).map removeTransactionCalls).flatten

/-- The chain changes that reverse `chainChanges`: the added blocks are removed, in the
reverse order, and the removed blocks are added, in the reverse order. -/
def reverseChanges (chainChanges : SelectedParentChainChanges) :
    SelectedParentChainChanges :=
  ⟨chainChanges.Added.reverse, chainChanges.Removed.reverse⟩

/-- The information of the blocks of a list that can be fetched, in order. -/
def blockInfos (ui : UTXOIndex) (hashes : List Hash) : List BlockInfo :=
  hashes.filterMap (fun h =>
    match ui.GetBlockInfo h with
    | .ok blockInfo => some blockInfo
    | .error _ => none)

/-- The calls that `Update` makes before the commit when no step fails. -/
def updateCalls (ui : UTXOIndex) (chainChanges : SelectedParentChainChanges) :
    List StoreCall :=
  ((blockInfos ui chainChanges.Removed).map removeBlockCalls).flatten ++
    ((blockInfos ui chainChanges.Added).map (addBlockCalls ui)).flatten

/-- Whether a call adds the outpoint `outpoint` of `scriptPublicKey`. -/
def isAddOf (scriptPublicKey : Bytes) (outpoint : DomainOutpoint) : StoreCall → Bool
  | .add s o _ => decide (s = scriptPublicKey ∧ o = outpoint)
  | _ => false

/-- Whether a call removes the outpoint `outpoint` of `scriptPublicKey`. -/
def isRemoveOf (scriptPublicKey : Bytes) (outpoint : DomainOutpoint) : StoreCall → Bool
  | .remove s o => decide (s = scriptPublicKey ∧ o = outpoint)
  | _ => false

/-- The balance of what is staged: 1 for an addition, -1 for a removal. -/
def stagedLevel : Staged → Int
  | .nothing => 0
  | .toAdd _ => 1
  | .toRemove => -1

/-- The scripts of the UTXO entries the inputs reference, in the order of the inputs:
the slice `previousScriptPubKeys` that `CalcTxMassFromUTXOSet` builds. -/
def previousScriptPubKeysOf (utxoSet : UTXOSet) (ins : List TxIn) : List Bytes :=
  ins.filterMap (fun txIn =>
    (utxoSet txIn.PreviousOutpoint).map (fun entry => entry.ScriptPubKey))

/-- The two maps of the connection manager have no key in common. -/
def DisjointRequests (c : ConnectionManager) : Prop :=
  ∀ address : String, ¬ ((c.activeConnectionRequests address).isSome = true ∧
    (c.pendingConnectionRequests address).isSome = true)

/-- A reader reads back what a writer wrote: on the bytes written, followed by any
others, it returns the value and leaves the others; on a proper prefix of the bytes
written it fails. -/
def ReadsBack {α : Type} (read : Bytes → Except Fault (α × Bytes)) (written : Bytes)
    (value : α) : Prop :=
  (∀ rest, read (written ++ rest) = .ok (value, rest)) ∧
  (∀ p, p <+: written → p ≠ written → ∃ err, read p = .error err)

/-- What the store relies on in the package `wire`: a hash, a value below `2 ^ 256`, and
a count, a value below `2 ^ 64`, are read back as they were written; the zero hash is a
hash. -/
def WireLaws (W : Wire) : Prop :=
  W.ZeroHash < 2 ^ 256 ∧
  (∀ hash, hash < 2 ^ 256 → ReadsBack W.ReadElementHash (W.WriteElementHash hash) hash) ∧
  (∀ n, n < 2 ^ 64 → ReadsBack W.ReadVarInt (W.WriteVarInt n) n)

/-- The tree node is connected to the block node of the hash. -/
def HasHash (nodes : TreeNodes) (node : TreeNodeRef) (hash : Hash) : Prop :=
  (nodes node).blockNode = some hash

/-- The tree node is the one that the store has loaded under the hash. -/
def LoadedAs (store : reachabilityStore) (node : TreeNodeRef) (hash : Hash) : Prop :=
  ∃ data, store.loaded hash = some data ∧ data.treeNode = node

/-- The bytes of a list of hashes, one hash after the other. -/
def hashesBytes (W : Wire) (hashes : List Hash) : Bytes :=
  (hashes.map W.WriteElementHash).flatten

/-- The layout of a serialized record: the two ends of the interval, the hash of the
parent, the number of children and their hashes, the size of the future covering set
and its hashes. -/
def recordBytes (W : Wire) (interval : reachabilityInterval) (parentHash : Hash)
    (childHashes futureHashes : List Hash) : Bytes :=
  writeUint64 interval.start ++ (writeUint64 interval.end_ ++
    (W.WriteElementHash parentHash ++ (W.WriteVarInt childHashes.length ++
      (hashesBytes W childHashes ++ (W.WriteVarInt futureHashes.length ++
        hashesBytes W futureHashes)))))

/-! ## Sample values

Concrete imports, parameters and blocks on which the theorems below are instantiated. -/

/-- Sample imports: the target is the `Bits` value itself, the hash of a header is its
nonce, a coinbase is a transaction of subnetwork 1, the ID of a transaction is its
version, the serialized size is 10 bytes plus the bytes of the payload and of all
scripts, the signature operations of an input are as many as the bytes of its two
scripts, and the merkle root of a list is its length. -/
def sampleImports : Imports where
  CompactToBig := fun bits => bits
  BlockHash := fun header => header.Nonce
  HashToBig := fun hash => hash
  BFNoPoWCheck := 2
  MaxMassPerBlock := 100000
  IsCoinBase := fun tx => tx.SubnetworkID == 1
  ID := fun tx => tx.Version
  SerializeSize := fun tx =>
    10 + tx.Payload.length + (tx.TxOut.map (fun txOut => txOut.ScriptPubKey.length)).sum +
      (tx.TxIn.map (fun txIn => txIn.SignatureScript.length)).sum
  IsPayToScriptHash := fun _ => false
  GetPreciseSigOpCount := fun sigScript prev _ => sigScript.length + prev.length
  CheckTransactionSanity := fun _ _ => none
  HashMerkleRoot := fun txs => txs.length
  SubnetworkIDNative := 0
  SubnetworkIDCoinbase := 1
  LockTimeThreshold := 500000000000
  MaxSompi := 2100000000000000

/-- Sample DAG: `PowMax` 1000, genesis hash 7, tolerance 2 blocks of 10 ms, which are
10000000 ns, time 50 ms. -/
def sampleDAG : BlockDAG where
  Params :=
    { PowMax := 1000, GenesisHash := 7, TimestampDeviationTolerance := 2,
      TargetTimePerBlock := 10000000, EnableNonNativeSubnetworks := false,
      BlockCoinbaseMaturity := 100 }
  subnetworkID := none
  Now := 50

/-- Sample header with the given parents, nonce and timestamp, and target 500. -/
def sampleHeader (parents : List Hash) (nonce : Nat) (timestamp : Time) : BlockHeader where
  Version := 1
  ParentHashes := parents
  HashMerkleRoot := 1
  AcceptedIDMerkleRoot := 0
  UTXOCommitment := 0
  Timestamp := timestamp
  Bits := 500
  Nonce := nonce

/-- Sample coinbase transaction, with ID 0, an output script of 3 bytes and a payload
of 2 bytes. -/
def sampleCoinbase : Tx where
  Version := 0
  TxIn := []
  TxOut := [⟨50, [1, 2, 3]⟩]
  LockTime := 0
  SubnetworkID := 1
  Payload := [0, 0]

/-- Sample native transaction with the given ID, spending the given outpoints, with two
output scripts of lengths 3 and 2 and a payload of 4 bytes. -/
def sampleSpend (id : Nat) (outpoints : List Outpoint) : Tx where
  Version := id
  TxIn := outpoints.map (fun o => ⟨o, [1, 2], 0⟩)
  TxOut := [⟨10, [7, 7, 7]⟩, ⟨20, [8, 8]⟩]
  LockTime := 0
  SubnetworkID := 0
  Payload := [0, 0, 0, 0]

/-- Sample block: the coinbase and one transaction that spends two outpoints. -/
def sampleBlock : Block where
  Header := { sampleHeader [2, 5] 8 90 with HashMerkleRoot := 2 }
  Transactions := [sampleCoinbase, sampleSpend 1 [⟨5, 0⟩, ⟨5, 1⟩]]

/-- Sample coinbase transaction with an output script of 5 bytes and no payload: the
serialized size of `sampleCoinbase` with a longer output script. -/
def sampleCoinbaseLong : Tx :=
  { sampleCoinbase with TxOut := [⟨50, [1, 2, 3, 4, 5]⟩], Payload := [] }

/-- Sample UTXO set: the outputs of transaction 5, each with a one-byte script. -/
def sampleUTXO : UTXOSet := fun outpoint =>
  if outpoint.TxID = 5 then some ⟨100, [9], 0, false⟩ else none

/-- Sample imports in which the serialized size of a transaction is its lock time. -/
def wideImports : Imports :=
  { sampleImports with SerializeSize := fun tx => tx.LockTime }

/-- Sample coinbase transaction of the given size under `wideImports`. -/
def wideCoinbase (size : Nat) : Tx :=
  { sampleCoinbase with LockTime := size }

/-- Sample transaction with the given lock time and one input whose sequence is 0. -/
def sampleLocked (lockTime : Nat) : Tx :=
  { sampleSpend 1 [⟨5, 0⟩] with LockTime := lockTime }

/-- Sample coinbase entry of 5 sompi created at the given blue score. -/
def sampleCoinbaseEntry (blueScore : Nat) : UTXOEntry :=
  { Amount := 5, ScriptPubKey := [9], BlockBlueScore := blueScore, IsCoinbase := true }

/-- Sample UTXO set: the outputs of transaction 5, and the outputs of the coinbase
transaction 7 created at blue score 10. -/
def sampleCoinbaseUTXO : UTXOSet := fun outpoint =>
  if outpoint.TxID = 7 then some (sampleCoinbaseEntry 10) else sampleUTXO outpoint

/-- Sample UTXO set: the outputs 0 to 3 of transaction 5. -/
def sampleIndexedUTXO : UTXOSet := fun outpoint =>
  if outpoint.TxID = 5 ∧ outpoint.Index < 4 then some ⟨100, [9], 0, false⟩ else none

/-- Sample state manager: genesis is block 1 and the selected parent of a later block
`n` is `n - 1`; each store reads the latest staged record of a block, and otherwise a
database in which the blocks up to 3 are valid and the later ones pending; block 5 fails
verification with a rule error, and the past UTXO of every block after 5 cannot be
computed. -/
def sampleCSM : ConsensusStateManager where
  genesisHash := 1
  zeroBlockStatus := .other 0
  blockStatusStore := fun s blockHash =>
    match blockHash with
    | none => .error .panic
    | some h =>
      match s.blockStatus.lookup h with
      | some status => .ok status
      | none => if h ≤ 3 then .ok .StatusValid else .ok .StatusUTXOPendingVerification
  ghostdagDataStore := fun h => .ok ⟨if h ≤ 1 then none else some (h - 1)⟩
  CalculatePastUTXOAndAcceptanceData := fun _ h =>
    if h ≤ 5 then .ok (h, h, h) else .error (.other 1)
  acceptanceDataStageError := fun _ _ => none
  blockStore := fun h => .ok h
  verifyUTXO := fun _ block _ _ _ _ =>
    if block = 5 then .error (.rule .ErrBadFees) else .ok ()
  utxoDiffStageError := fun _ _ _ => none
  Parents := fun h => .ok [h - 1]
  utxoDiffStoreHasUTXODiffChild := fun s h =>
    match s.utxoDiff.lookup h with
    | some record => .ok record.2.isSome
    | none => .ok false
  utxoDiffStoreUTXODiff := fun s h =>
    match s.utxoDiff.lookup h with
    | some record => .ok record.1
    | none => .ok h
  DiffFrom := fun a b => .ok (a + b)

/-- The empty staging areas. -/
def emptyStaging : Staging where
  blockStatus := []
  acceptanceData := []
  multiset := []
  utxoDiff := []

/-- Sample RPC context: the selected parent chain from any start removes the blocks 8
and 9 and adds 1001 blocks; a block has one acceptance record, for itself, with an
accepted transaction 1 and a transaction 2 that is not accepted. -/
def sampleRPCContext : RPCContext where
  FromString := fun s => if s = "7" then .ok 7 else .error (.other 4)
  GetBlock := fun h => .ok h
  GetSelectedParentChain := fun _ => .ok ([8, 9], List.replicate 1001 5)
  GetBlockAcceptanceData := fun h =>
    .ok [⟨h, [⟨⟨1, [], [], 0⟩, true⟩, ⟨⟨2, [], [], 0⟩, false⟩]⟩]
  BuildBlockVerboseData := fun block _ => .ok block
  HashString := fun h => if h = 5 then "five" else "other"
  TransactionIDString := fun id => if id = 1 then "one" else "two"

/-- Sample connection environment: a connection set is the list of the connected
addresses and a connection is its address; connecting to "b" succeeds and to any other
address fails. -/
def sampleConnectionEnv : ConnectionEnv (List String) String where
  get := fun connSet address => if address ∈ connSet then some address else none
  remove := fun connSet connection =>
    match connection with
    | none => connSet
    | some address => connSet.filter (fun a => a != address)
  initiateConnection := fun address => if address = "b" then none else some (.other 5)

/-- Sample connection manager: the active requests are a permanent one to "a", a
permanent one to "b", a one-shot one to "c" and a permanent one to "d"; no request is
pending. -/
def sampleConnectionManager : ConnectionManager where
  activeConnectionRequests := fun address =>
    if address = "a" then some ⟨"a", true, 0, 0⟩
    else if address = "b" then some ⟨"b", true, 0, 0⟩
    else if address = "c" then some ⟨"c", false, 0, 0⟩
    else if address = "d" then some ⟨"d", true, 0, 0⟩
    else none
  pendingConnectionRequests := fun _ => none

/-- Sample transaction: it spends the outpoint (9, 0), held with 50 under the script 1,
and pays 30 to the script 2. -/
def sampleDomainTransaction : DomainTransaction where
  ID := 7
  Inputs := [⟨⟨9, 0⟩, ⟨50, [1], false, 3⟩⟩]
  Outputs := [⟨30, [2]⟩]
  Payload := 0

/-- Sample index: the acceptance data of block 1 holds the sample transaction as
accepted and that of block 2 holds it as not accepted; the information of any other
block cannot be fetched; the store returns no error. -/
def sampleUTXOIndex : UTXOIndex where
  GetBlockInfo := fun h =>
    if h = 1 then .ok ⟨[⟨1, [⟨sampleDomainTransaction, true⟩]⟩], 10⟩
    else if h = 2 then .ok ⟨[⟨2, [⟨sampleDomainTransaction, false⟩]⟩], 10⟩
    else .error (.other 6)
  IsCoinBase := fun _ => false
  storeError := fun _ _ => none

/-- The sample index over the modelled store. -/
def sampleModelIndex : UTXOIndex :=
  { sampleUTXOIndex with storeError := modelStoreError }

/-- Sample content of the index: the outpoint (9, 0) of the script 1 is held with the
amount 40, where the sample transaction records 50 for it. -/
def sampleIndexContent : Bytes → DomainOutpoint → Option DomainUTXOEntry :=
  fun scriptPublicKey outpoint =>
    if scriptPublicKey = [1] ∧ outpoint = ⟨9, 0⟩ then some ⟨40, [1], false, 3⟩ else none

/-- Sample index over the modelled store with a chained block: the acceptance data of
block 4 holds the sample transaction and then a transaction that spends its output. -/
def sampleChainedIndex : UTXOIndex where
  GetBlockInfo := fun h =>
    if h = 4 then
      .ok ⟨[⟨4, [⟨sampleDomainTransaction, true⟩,
        ⟨⟨8, [⟨⟨7, 0⟩, ⟨30, [2], false, 10⟩⟩], [⟨20, [3]⟩], 0⟩, true⟩]⟩], 10⟩
    else .error (.other 6)
  IsCoinBase := fun _ => false
  storeError := modelStoreError

/-- Sample connection manager with no active request and one pending request, a
permanent one to "p" that is due from the instant 0 on. -/
def samplePendingManager : ConnectionManager where
  activeConnectionRequests := fun _ => none
  pendingConnectionRequests := fun address =>
    if address = "p" then some ⟨"p", true, 0, 0⟩ else none

/-- Sample manager with an invalid anchor: the sample manager over a database in which
the status of block 3 is `StatusInvalid`, here `other 1`. -/
def invalidAnchorCSM : ConsensusStateManager :=
  { sampleCSM with
    blockStatusStore := fun s blockHash =>
      if blockHash = some 3 then .ok (.other 1) else sampleCSM.blockStatusStore s blockHash }

/-- Sample reader of a count: a byte below 253 is the count; the bytes 253, 254 and 255
are followed by the count in 2, 4 and 8 bytes, the least significant byte first. -/
def sampleReadVarInt (r : Bytes) : Except Fault (Nat × Bytes) :=
  match r with
  | [] => .error (.other 10)
  | b :: rest =>
    if b < 253 then .ok (b, rest)
    else if b = 253 then
      (if rest.length < 2 then .error (.other 10)
        else .ok (littleEndianValue (rest.take 2), rest.drop 2))
    else if b = 254 then
      (if rest.length < 4 then .error (.other 10)
        else .ok (littleEndianValue (rest.take 4), rest.drop 4))
    else
      (if rest.length < 8 then .error (.other 10)
        else .ok (littleEndianValue (rest.take 8), rest.drop 8))

/-- Sample writer of a count, in the shortest form that `sampleReadVarInt` reads. -/
def sampleWriteVarInt (n : Nat) : Bytes :=
  if n < 253 then [n]
  else if n < 2 ^ 16 then 253 :: littleEndian 2 n
  else if n < 2 ^ 32 then 254 :: littleEndian 4 n
  else 255 :: littleEndian 8 n

/-- Sample wire format: the zero hash is 0, a hash is the 32 bytes of its number, the
least significant byte first, and a count is written by `sampleWriteVarInt`. -/
def sampleWire : Wire where
  ZeroHash := 0
  WriteElementHash := fun hash => littleEndian 32 hash
  ReadElementHash := fun r =>
    if r.length < 32 then .error (.other 10)
    else .ok (littleEndianValue (r.take 32), r.drop 32)
  WriteVarInt := sampleWriteVarInt
  ReadVarInt := sampleReadVarInt

/-- Sample tree nodes: node 1 is the root, for block 11; node 2, for block 12, has the
parent 1, the child 3 and the interval from 5 to 300; nodes 3 and 4 are for the blocks 13
and 14; any other node is fresh, with the zero value in every field. -/
def sampleTreeNodes : TreeNodes := fun ref =>
  if ref = 1 then ⟨some 11, none, [2], some ⟨1, 1000⟩⟩
  else if ref = 2 then ⟨some 12, some 1, [3], some ⟨5, 300⟩⟩
  else if ref = 3 then ⟨some 13, some 2, [], some ⟨6, 100⟩⟩
  else if ref = 4 then ⟨some 14, some 1, [], some ⟨301, 400⟩⟩
  else ⟨none, none, [], none⟩

/-- Sample store: the blocks 11 to 14 are loaded with the tree nodes 1 to 4; the future
covering set of block 12 is the node 4. -/
def sampleReachabilityStore : reachabilityStore where
  loaded := fun hash =>
    if hash = 11 then some ⟨1, []⟩
    else if hash = 12 then some ⟨2, [4]⟩
    else if hash = 13 then some ⟨3, []⟩
    else if hash = 14 then some ⟨4, []⟩
    else none

/-! ## Proof of work -/

/-- C3. `checkProofOfWork` returns nil iff the target decoded from `header.Bits` lies
in `(0, PowMax]` and either `BFNoPoWCheck` is set or the block hash, as an integer, is
at most the target; it returns `ErrUnexpectedDifficulty` when the target is out of
range and `ErrHighHash` when the range is fine, the flag is unset and the hash exceeds
the target. With the flag set the result is the same whatever the block hash and its
integer value are. -/
theorem checkProofOfWork_spec (X : Imports) (dag : BlockDAG) (header : BlockHeader)
    (flags : BehaviorFlags) :
    (checkProofOfWork X dag header flags = .ok () ↔
      (0 < X.CompactToBig header.Bits ∧ X.CompactToBig header.Bits ≤ dag.Params.PowMax) ∧
        (noPoWCheck X flags = true ∨
          X.HashToBig (X.BlockHash header) ≤ X.CompactToBig header.Bits)) ∧
    (¬ (0 < X.CompactToBig header.Bits ∧ X.CompactToBig header.Bits ≤ dag.Params.PowMax) →
      checkProofOfWork X dag header flags = .error (.rule .ErrUnexpectedDifficulty)) ∧
    ((0 < X.CompactToBig header.Bits ∧ X.CompactToBig header.Bits ≤ dag.Params.PowMax) →
      noPoWCheck X flags = false →
      X.CompactToBig header.Bits < X.HashToBig (X.BlockHash header) →
      checkProofOfWork X dag header flags = .error (.rule .ErrHighHash)) ∧
    (noPoWCheck X flags = true →
      ∀ (blockHash : BlockHeader → Hash) (hashToBig : Hash → Int),
        checkProofOfWork { X with BlockHash := blockHash, HashToBig := hashToBig }
          dag header flags = checkProofOfWork X dag header flags) := by
  unfold checkProofOfWork noPoWCheck
  simp only [bne_iff_ne, ne_eq, beq_iff_eq, gt_iff_lt, ite_not]
  by_cases h0 : X.CompactToBig header.Bits ≤ 0
  · have h0' : ¬ (0 < X.CompactToBig header.Bits) := not_lt.mpr h0
    simp [h0, h0']
  · have h0' : 0 < X.CompactToBig header.Bits := not_le.mp h0
    by_cases h1 : dag.Params.PowMax < X.CompactToBig header.Bits
    · have h1' : ¬ (X.CompactToBig header.Bits ≤ dag.Params.PowMax) := not_le.mpr h1
      simp [h0, h0', h1, h1']
    · have h1' : X.CompactToBig header.Bits ≤ dag.Params.PowMax := not_lt.mp h1
      by_cases hf : flags &&& X.BFNoPoWCheck = X.BFNoPoWCheck
      · simp [h0, h0', h1, h1', hf]
      · by_cases hh : X.CompactToBig header.Bits < X.HashToBig (X.BlockHash header)
        · have hh' : ¬ (X.HashToBig (X.BlockHash header) ≤ X.CompactToBig header.Bits) :=
            not_le.mpr hh
          simp [h0, h0', h1, h1', hf, hh, hh']
        · have hh' : X.HashToBig (X.BlockHash header) ≤ X.CompactToBig header.Bits :=
            not_lt.mp hh
          simp [h0, h0', h1, h1', hf, hh, hh']

/-! ## Parent order -/

/-- The sorted list is determined by the values alone: any ascending permutation of the
hashes is the list `sortSlice` yields. -/
theorem sortSlice_unique (l s : List Hash) (hperm : s.Perm l)
    (hsorted : s.Sorted (· ≤ ·)) : s = sortSlice l := by
  unfold sortSlice
  exact List.eq_of_perm_of_sorted (hperm.trans (List.perm_insertionSort _ l).symm) hsorted
    (List.sorted_insertionSort _ l)

/-- A list of hashes is left unchanged by sorting iff no hash exceeds its successor. -/
theorem eq_sortSlice_iff (l : List Hash) :
    l = sortSlice l ↔ ∀ (i : Nat) (h : i + 1 < l.length), l[i] ≤ l[i + 1] := by
  have hchain : List.Chain' (· ≤ ·) l ↔
      ∀ (i : Nat) (h : i + 1 < l.length), l[i] ≤ l[i + 1] := by
    rw [List.chain'_iff_get]
    constructor
    · intro h i hi
      have := h i (by omega)
      simpa using this
    · intro h i hi
      have := h i (by omega)
      simpa using this
  rw [← hchain, List.chain'_iff_pairwise]
  constructor
  · intro h
    rw [h]
    exact List.sorted_insertionSort _ l
  · intro h
    exact (List.Sorted.insertionSort_eq h).symm

/-- The two outcomes of `checkBlockParentsOrder`. -/
theorem checkBlockParentsOrder_eq (header : BlockHeader) :
    checkBlockParentsOrder header =
      if header.ParentHashes = sortSlice header.ParentHashes then .ok ()
      else .error (.rule .ErrWrongParentsOrder) := by
  unfold checkBlockParentsOrder
  simp only [bne_iff_ne, ne_eq, ite_not]

/-- The checks of `checkBlockHeaderSanity`, one after the other. -/
theorem checkBlockHeaderSanity_eq (X : Imports) (dag : BlockDAG) (block : Block)
    (flags : BehaviorFlags) :
    checkBlockHeaderSanity X dag block flags =
      match checkProofOfWork X dag block.Header flags with
      | .error e => .error e
      | .ok _ =>
        if block.Header.ParentHashes = [] then
          if X.BlockHash block.Header = dag.Params.GenesisHash then
            .ok (headerDelay dag block.Header)
          else .error (.rule .ErrNoParents)
        else
          match checkBlockParentsOrder block.Header with
          | .error e => .error e
          | .ok _ => .ok (headerDelay dag block.Header) := by
  unfold checkBlockHeaderSanity headerDelay
  simp only [bind, Except.bind, pure, Except.pure, throw, throwThe, MonadExceptOf.throw,
    beq_iff_eq, bne_iff_ne, ne_eq, List.length_eq_zero, gt_iff_lt, ite_not]
  generalize checkProofOfWork X dag block.Header flags = r
  generalize checkBlockParentsOrder block.Header = q
  cases r with
  | error e => rfl
  | ok u =>
    cases q with
    | error e => split_ifs <;> rfl
    | ok u2 => split_ifs <;> rfl

/-- The outcome of `checkBlockParentsOrder` in terms of the order of the parents. -/
theorem checkBlockParentsOrder_iff (header : BlockHeader) :
    (checkBlockParentsOrder header = .ok () ↔
      ∀ (i : Nat) (h : i + 1 < header.ParentHashes.length),
        header.ParentHashes[i] ≤ header.ParentHashes[i + 1]) ∧
    (¬ (∀ (i : Nat) (h : i + 1 < header.ParentHashes.length),
        header.ParentHashes[i] ≤ header.ParentHashes[i + 1]) →
      checkBlockParentsOrder header = .error (.rule .ErrWrongParentsOrder)) := by
  rw [checkBlockParentsOrder_eq, ← eq_sortSlice_iff]
  by_cases h : header.ParentHashes = sortSlice header.ParentHashes
  · rw [if_pos h]
    exact ⟨⟨fun _ => h, fun _ => rfl⟩, fun hn => absurd h hn⟩
  · rw [if_neg h]
    exact ⟨⟨fun hc => (by cases hc), fun hc => absurd hc h⟩, fun _ => rfl⟩

/-- C4. For a block whose header has at least one parent, `checkBlockParentsOrder`
returns nil iff no parent hash is greater than its successor, and
`ErrWrongParentsOrder` otherwise; once the proof of work is accepted,
`checkBlockHeaderSanity` fails with `ErrWrongParentsOrder` exactly on the unsorted
parent lists; for `h1 < h2` the parents `[h2, h1]` are rejected and `[h1, h2]`
accepted. -/
theorem checkBlockParentsOrder_spec (X : Imports) (dag : BlockDAG) (block : Block)
    (flags : BehaviorFlags) (hparents : block.Header.ParentHashes ≠ []) :
    (checkBlockParentsOrder block.Header = .ok () ↔
      ∀ (i : Nat) (h : i + 1 < block.Header.ParentHashes.length),
        block.Header.ParentHashes[i] ≤ block.Header.ParentHashes[i + 1]) ∧
    (¬ (∀ (i : Nat) (h : i + 1 < block.Header.ParentHashes.length),
        block.Header.ParentHashes[i] ≤ block.Header.ParentHashes[i + 1]) →
      checkBlockParentsOrder block.Header = .error (.rule .ErrWrongParentsOrder)) ∧
    (checkProofOfWork X dag block.Header flags = .ok () →
      (checkBlockHeaderSanity X dag block flags = .error (.rule .ErrWrongParentsOrder) ↔
        ¬ (∀ (i : Nat) (h : i + 1 < block.Header.ParentHashes.length),
          block.Header.ParentHashes[i] ≤ block.Header.ParentHashes[i + 1]))) ∧
    (∀ h1 h2 : Hash, h1 < h2 →
      checkBlockParentsOrder { block.Header with ParentHashes := [h2, h1] } =
        .error (.rule .ErrWrongParentsOrder) ∧
      checkBlockParentsOrder { block.Header with ParentHashes := [h1, h2] } = .ok ()) := by
  refine ⟨(checkBlockParentsOrder_iff block.Header).1,
    (checkBlockParentsOrder_iff block.Header).2, ?_, ?_⟩
  · intro hpow
    rw [checkBlockHeaderSanity_eq, hpow]
    simp only [hparents, if_false]
    by_cases hs : ∀ (i : Nat) (h : i + 1 < block.Header.ParentHashes.length),
        block.Header.ParentHashes[i] ≤ block.Header.ParentHashes[i + 1]
    · rw [(checkBlockParentsOrder_iff block.Header).1.mpr hs]
      exact ⟨fun hc => (by cases hc), fun hn => absurd hs hn⟩
    · rw [(checkBlockParentsOrder_iff block.Header).2 hs]
      exact ⟨fun _ => hs, fun _ => rfl⟩
  · intro h1 h2 hlt
    constructor
    · apply (checkBlockParentsOrder_iff _).2
      intro hall
      have h01 : h2 ≤ h1 := hall 0 (by simp)
      exact absurd hlt (Nat.not_lt.mpr h01)
    · apply (checkBlockParentsOrder_iff _).1.mpr
      intro i hi
      have hi0 : i = 0 := by
        have hi2 : i + 1 < 2 := hi
        exact Nat.lt_one_iff.mp (Nat.lt_of_succ_lt_succ hi2)
      subst hi0
      exact Nat.le_of_lt hlt

/-- Witness of C4: a block with the parents `[2, 5]`. -/
theorem checkBlockParentsOrder_spec_witness :
    checkBlockParentsOrder (sampleHeader [2, 5] 8 100) = .ok () ∧
    checkBlockParentsOrder { sampleHeader [2, 5] 8 100 with ParentHashes := [5, 2] } =
      .error (.rule .ErrWrongParentsOrder) :=
  have h := checkBlockParentsOrder_spec sampleImports sampleDAG
    ⟨sampleHeader [2, 5] 8 100, []⟩ 0 (by decide)
  ⟨(h.2.2.2 2 5 (by decide)).2, (h.2.2.2 2 5 (by decide)).1⟩

/-! ## Timestamp -/

/-- Below `2 ^ 63` the conversion of the tolerance to a signed value changes nothing. -/
theorem toInt64_tolerance (n : Nat) (h : n < 2 ^ 63) : toInt64 n = (n : Int) := by
  unfold toInt64
  have h1 : n % 2 ^ 64 = n := Nat.mod_eq_of_lt (by omega)
  rw [h1, if_pos h]

/-- A product within the signed 64 bits is the value of the 64-bit product. -/
theorem mulInt64_of_fits (a b : Int) (h1 : -2 ^ 63 ≤ a * b) (h2 : a * b < 2 ^ 63) :
    mulInt64 a b = a * b := by
  unfold mulInt64 toInt64
  generalize a * b = p at h1 h2
  have hm : (p % 2 ^ 64).toNat % 2 ^ 64 = (p % 2 ^ 64).toNat := by
    apply Nat.mod_eq_of_lt
    omega
  rw [hm]
  split_ifs with h <;> omega

/-- The value of `Time.Sub` in plain integers: it is positive iff the first time is the
later one, and it is the difference when that is within the signed 64 bits. -/
theorem Time.Sub_aux (x y : Int) :
    (0 < (if (x - y) * 1000000 < -2 ^ 63 then (-2 ^ 63 : Int)
      else if (x - y) * 1000000 ≥ 2 ^ 63 then 2 ^ 63 - 1 else (x - y) * 1000000) ↔ y < x) ∧
    (y ≤ x → (x - y) * 1000000 < 2 ^ 63 →
      (if (x - y) * 1000000 < -2 ^ 63 then (-2 ^ 63 : Int)
        else if (x - y) * 1000000 ≥ 2 ^ 63 then 2 ^ 63 - 1 else (x - y) * 1000000) =
        (x - y) * 1000000) := by
  constructor
  · split_ifs <;> omega
  · intro h1 h2
    split_ifs <;> omega

/-- The duration between two times is positive iff the first is the later one. -/
theorem Time.Sub_pos (t u : Time) : 0 < Time.Sub t u ↔ u < t :=
  (Time.Sub_aux t u).1

/-- The duration between two times, when it is within the signed 64 bits. -/
theorem Time.Sub_of_fits (t u : Time) (h1 : u ≤ t) (h2 : (t - u) * millisecond < 2 ^ 63) :
    Time.Sub t u = (t - u) * millisecond :=
  (Time.Sub_aux t u).2 h1 h2

/-- C5. For a header that passes the proof-of-work and parent checks,
`checkBlockHeaderSanity` returns no error. Times count milliseconds and durations
nanoseconds. When the tolerance and its product with `TargetTimePerBlock` are within the
signed 64 bits of a `time.Duration` and `TargetTimePerBlock` is a whole number of
milliseconds, then with
`maxTimestamp = now + TimestampDeviationTolerance * TargetTimePerBlock` it returns
`header.Timestamp - maxTimestamp`, as long as this is within a `time.Duration`, when
the timestamp is strictly greater than `maxTimestamp`, and 0 otherwise, so the delay is
positive iff the timestamp is strictly beyond the tolerance. -/
theorem checkBlockHeaderSanity_delay (X : Imports) (dag : BlockDAG) (block : Block)
    (flags : BehaviorFlags)
    (hpow : checkProofOfWork X dag block.Header flags = .ok ())
    (hgenesis : block.Header.ParentHashes = [] →
      X.BlockHash block.Header = dag.Params.GenesisHash)
    (horder : block.Header.ParentHashes ≠ [] →
      checkBlockParentsOrder block.Header = .ok ())
    (htol : dag.Params.TimestampDeviationTolerance < 2 ^ 63)
    (hfit : -2 ^ 63 ≤ (dag.Params.TimestampDeviationTolerance : Int) *
        dag.Params.TargetTimePerBlock ∧
      (dag.Params.TimestampDeviationTolerance : Int) * dag.Params.TargetTimePerBlock <
        2 ^ 63)
    (hms : millisecond ∣ dag.Params.TargetTimePerBlock) :
    (dag.Now + (dag.Params.TimestampDeviationTolerance : Int) *
          (dag.Params.TargetTimePerBlock / millisecond) < block.Header.Timestamp →
      (block.Header.Timestamp - (dag.Now + (dag.Params.TimestampDeviationTolerance : Int) *
          (dag.Params.TargetTimePerBlock / millisecond))) * millisecond < 2 ^ 63 →
      checkBlockHeaderSanity X dag block flags =
        .ok ((block.Header.Timestamp - (dag.Now +
          (dag.Params.TimestampDeviationTolerance : Int) *
            (dag.Params.TargetTimePerBlock / millisecond))) * millisecond)) ∧
    (¬ dag.Now + (dag.Params.TimestampDeviationTolerance : Int) *
          (dag.Params.TargetTimePerBlock / millisecond) < block.Header.Timestamp →
      checkBlockHeaderSanity X dag block flags = .ok 0) ∧
    (∃ delay : Duration, checkBlockHeaderSanity X dag block flags = .ok delay ∧
      (0 < delay ↔
        dag.Now + (dag.Params.TimestampDeviationTolerance : Int) *
          (dag.Params.TargetTimePerBlock / millisecond) < block.Header.Timestamp)) := by
  have hres : checkBlockHeaderSanity X dag block flags = .ok (headerDelay dag block.Header) := by
    rw [checkBlockHeaderSanity_eq, hpow]
    by_cases hp : block.Header.ParentHashes = []
    · simp only [hp, if_true, hgenesis hp]
    · simp only [hp, if_false, horder hp]
  have hmax : Time.Add dag.Now
      (mulInt64 (toInt64 dag.Params.TimestampDeviationTolerance)
        dag.Params.TargetTimePerBlock) =
      dag.Now + (dag.Params.TimestampDeviationTolerance : Int) *
        (dag.Params.TargetTimePerBlock / millisecond) := by
    rw [toInt64_tolerance _ htol, mulInt64_of_fits _ _ hfit.1 hfit.2]
    unfold Time.Add
    rw [Int.mul_ediv_assoc _ hms]
  rw [hres]
  unfold headerDelay
  rw [hmax]
  by_cases hlt : dag.Now + (dag.Params.TimestampDeviationTolerance : Int) *
      (dag.Params.TargetTimePerBlock / millisecond) < block.Header.Timestamp
  · simp only [gt_iff_lt, hlt, if_true, not_true, true_implies, false_implies, true_and]
    refine ⟨fun hd => ?_, _, rfl, ?_⟩
    · rw [Time.Sub_of_fits _ _ (le_of_lt hlt) hd]
    · simp only [Time.Sub_pos, hlt]
  · simp only [gt_iff_lt, hlt, if_false, not_false_eq_true, true_implies, false_implies,
      true_and, iff_false]
    exact ⟨_, rfl, lt_irrefl _⟩

/-- Witness of C5: a sample block 20 ms beyond the tolerated time 70 ms. -/
theorem checkBlockHeaderSanity_delay_witness :
    checkBlockHeaderSanity sampleImports sampleDAG ⟨sampleHeader [2, 5] 8 90, []⟩ 0 =
      .ok 20000000 :=
  (checkBlockHeaderSanity_delay sampleImports sampleDAG ⟨sampleHeader [2, 5] 8 90, []⟩ 0
    rfl (by decide) (fun _ => rfl) (by decide) (by decide) (by decide)).1 (by decide)
    (by decide)

/-- The product of the tolerance and the target time wraps around as in Go: with a
tolerance of `2 ^ 63` blocks of one second the signed 64-bit product is 0, so that a
header one millisecond ahead of the clock is delayed by that millisecond. -/
theorem checkBlockHeaderSanity_wraps :
    mulInt64 (toInt64 (2 ^ 63)) 1000000000 = 0 ∧
    checkBlockHeaderSanity sampleImports
      { sampleDAG with
        Params := { sampleDAG.Params with
          TimestampDeviationTolerance := 2 ^ 63, TargetTimePerBlock := 1000000000 } }
      ⟨sampleHeader [2, 5] 8 51, []⟩ 0 = .ok 1000000 :=
  ⟨by decide, rfl⟩

/-! ## Transaction order -/

/-- An index in range does not panic. -/
theorem index_eq_ok {α : Type} (s : List α) (i : Nat) (h : i < s.length) :
    index s i = .ok s[i] := by
  unfold index
  rw [List.getElem?_eq_getElem h]

/-- The slice after the coinbase of a non-empty list is its tail. -/
theorem sliceFrom_one_cons {α : Type} (a : α) (s : List α) :
    sliceFrom (a :: s) (CoinbaseTransactionIndex + 1) = .ok s := by
  unfold sliceFrom CoinbaseTransactionIndex
  simp

/-- The loop of `checkBlockTransactionOrder` from index `i` on compares the pairs
`(t[k], t[k+1])` with `k ≥ i` and `k ≥ 1`, and no other. -/
theorem transactionOrderLoop_spec (txs : List Tx) :
    ∀ (rest : List Tx) (i : Nat), txs.drop (i + 1) = rest →
      ((∀ (k : Nat) (h : k + 1 < txs.length), i ≤ k → 1 ≤ k →
          txs[k].SubnetworkID ≤ txs[k + 1].SubnetworkID) →
        transactionOrderLoop txs i rest = .ok ()) ∧
      (¬ (∀ (k : Nat) (h : k + 1 < txs.length), i ≤ k → 1 ≤ k →
          txs[k].SubnetworkID ≤ txs[k + 1].SubnetworkID) →
        transactionOrderLoop txs i rest = .error (.rule .ErrTransactionsNotSorted)) := by
  intro rest
  induction rest with
  | nil =>
    intro i hdrop
    have hlen : txs.length ≤ i + 1 := List.drop_eq_nil_iff.mp hdrop
    refine ⟨fun _ => rfl, fun hn => ?_⟩
    exact absurd (fun k h hik _ => absurd h (by omega)) hn
  | cons tx rest ih =>
    intro i hdrop
    have hlt : i + 1 < txs.length := by
      by_contra hge
      have : txs.drop (i + 1) = [] := List.drop_eq_nil_iff.mpr (by omega)
      rw [this] at hdrop
      cases hdrop
    have htx : txs[i + 1] = tx := by
      have h1 : (txs.drop (i + 1))[0]? = txs[i + 1 + 0]? := List.getElem?_drop _ _ _
      rw [hdrop] at h1
      have h2 : txs[i + 1]? = some tx := by simpa using h1.symm
      rw [List.getElem?_eq_getElem hlt] at h2
      exact Option.some.inj h2
    have hrest : txs.drop (i + 1 + 1) = rest := by
      have := congrArg List.tail hdrop
      simpa using this
    have ih' := ih (i + 1) hrest
    unfold transactionOrderLoop
    by_cases hi : i = 0
    · subst hi
      simp only [bne_self_eq_false, Bool.false_eq_true, if_false]
      constructor
      · intro hall
        exact ih'.1 (fun k h _ h1 => hall k h (Nat.zero_le _) h1)
      · intro hn
        apply ih'.2
        intro hall
        exact hn (fun k h _ h1 => hall k h (by omega) h1)
    · have hne : (i != 0) = true := by simpa using hi
      simp only [hne, if_true, index_eq_ok txs i (by omega), bind, Except.bind]
      by_cases hlt2 : tx.SubnetworkID < txs[i].SubnetworkID
      · simp only [hlt2, if_true]
        constructor
        · intro hall
          have := hall i hlt (le_refl _) (by omega)
          rw [htx] at this
          exact absurd hlt2 (Nat.not_lt.mpr this)
        · intro _
          trivial
      · simp only [hlt2, if_false]
        constructor
        · intro hall
          exact ih'.1 (fun k h hik h1 => hall k h (by omega) h1)
        · intro hn
          apply ih'.2
          intro hall
          apply hn
          intro k h hik h1
          by_cases hki : k = i
          · subst hki
            rw [htx]
            exact Nat.not_lt.mp hlt2
          · exact hall k h (by omega) h1

/-- C6. For a block with transactions `t[0..n-1]`, `n ≥ 1`,
`checkBlockTransactionOrder` returns nil iff for every `i` with `1 ≤ i < n - 1` the
subnetwork of `t[i]` is not greater than that of `t[i+1]`, and
`ErrTransactionsNotSorted` otherwise; replacing the coinbase `t[0]` by any transaction
leaves the result unchanged, so `t[0]` is never compared with `t[1]`. -/
theorem checkBlockTransactionOrder_spec (block : Block) (hne : block.Transactions ≠ []) :
    (checkBlockTransactionOrder block = .ok () ↔
      ∀ (i : Nat) (h : i + 1 < block.Transactions.length), 1 ≤ i →
        block.Transactions[i].SubnetworkID ≤ block.Transactions[i + 1].SubnetworkID) ∧
    (¬ (∀ (i : Nat) (h : i + 1 < block.Transactions.length), 1 ≤ i →
        block.Transactions[i].SubnetworkID ≤ block.Transactions[i + 1].SubnetworkID) →
      checkBlockTransactionOrder block = .error (.rule .ErrTransactionsNotSorted)) ∧
    (∀ coinbase : Tx,
      checkBlockTransactionOrder
          { block with Transactions := coinbase :: block.Transactions.tail } =
        checkBlockTransactionOrder block) := by
  have key : ∀ (t0 : Tx) (tl : List Tx) (hd : BlockHeader),
      ((∀ (i : Nat) (h : i + 1 < (t0 :: tl).length), 1 ≤ i →
          (t0 :: tl)[i].SubnetworkID ≤ (t0 :: tl)[i + 1].SubnetworkID) →
        checkBlockTransactionOrder ⟨hd, t0 :: tl⟩ = .ok ()) ∧
      (¬ (∀ (i : Nat) (h : i + 1 < (t0 :: tl).length), 1 ≤ i →
          (t0 :: tl)[i].SubnetworkID ≤ (t0 :: tl)[i + 1].SubnetworkID) →
        checkBlockTransactionOrder ⟨hd, t0 :: tl⟩ =
          .error (.rule .ErrTransactionsNotSorted)) := by
    intro t0 tl hd
    have hloop := transactionOrderLoop_spec (t0 :: tl) tl 0 rfl
    unfold checkBlockTransactionOrder
    simp only [sliceFrom_one_cons, bind, Except.bind]
    constructor
    · intro hall
      exact hloop.1 (fun k h _ h1 => hall k h h1)
    · intro hn
      apply hloop.2
      intro hall
      exact hn (fun k h h1 => hall k h (Nat.zero_le _) h1)
  obtain ⟨hd, txs⟩ := block
  cases txs with
  | nil => exact absurd rfl hne
  | cons t0 tl =>
    have k0 := key t0 tl hd
    refine ⟨⟨?_, k0.1⟩, k0.2, ?_⟩
    · intro hok
      by_contra hn
      rw [k0.2 hn] at hok
      cases hok
    · intro coinbase
      show checkBlockTransactionOrder ⟨hd, coinbase :: tl⟩ =
        checkBlockTransactionOrder ⟨hd, t0 :: tl⟩
      have k1 := key coinbase tl hd
      have hiff : (∀ (i : Nat) (h : i + 1 < (coinbase :: tl).length), 1 ≤ i →
          (coinbase :: tl)[i].SubnetworkID ≤ (coinbase :: tl)[i + 1].SubnetworkID) ↔
          (∀ (i : Nat) (h : i + 1 < (t0 :: tl).length), 1 ≤ i →
          (t0 :: tl)[i].SubnetworkID ≤ (t0 :: tl)[i + 1].SubnetworkID) := by
        constructor
        · intro hall i h h1
          obtain ⟨j, rfl⟩ : ∃ j, i = j + 1 := ⟨i - 1, by omega⟩
          have := hall (j + 1) (by simpa using h) h1
          simpa using this
        · intro hall i h h1
          obtain ⟨j, rfl⟩ : ∃ j, i = j + 1 := ⟨i - 1, by omega⟩
          have := hall (j + 1) (by simpa using h) h1
          simpa using this
      by_cases hs : ∀ (i : Nat) (h : i + 1 < (t0 :: tl).length), 1 ≤ i →
          (t0 :: tl)[i].SubnetworkID ≤ (t0 :: tl)[i + 1].SubnetworkID
      · rw [k0.1 hs, k1.1 (hiff.mpr hs)]
      · rw [k0.2 hs, k1.2 (fun h => hs (hiff.mp h))]

/-- Witness of C6: the sample block, whose coinbase has a greater subnetwork than the
transaction after it, is accepted. -/
theorem checkBlockTransactionOrder_spec_witness :
    sampleBlock.Transactions ≠ [] ∧ checkBlockTransactionOrder sampleBlock = .ok () :=
  ⟨by decide, (checkBlockTransactionOrder_spec sampleBlock (by decide)).1.mpr
    (fun i h h1 => by
      have h2 : i + 1 < 2 := h
      omega)⟩

/-! ## Double spends -/

/-- A key is absent from a map iff it is not among the keys of its entries. -/
theorem lookup_eq_none_iff_keys (m : OutpointMap) (o : Outpoint) :
    m.lookup o = none ↔ o ∉ m.map Prod.fst := by
  induction m with
  | nil => simp
  | cons kv m ih =>
    obtain ⟨k, v⟩ := kv
    by_cases hk : o = k
    · subst hk
      simp [List.lookup_cons]
    · have hb : (o == k) = false := by simpa using hk
      simp [List.lookup_cons, hb, ih, hk]

/-- The inner loop of `checkBlockDoubleSpends` succeeds iff the outpoints of the inputs
are pairwise distinct and not yet in the map, and then adds exactly them as keys. -/
theorem doubleSpendsInputs_spec (txID : TxID) :
    ∀ (ins : List TxIn) (used : OutpointMap),
      (((inputOutpoints ins).Nodup ∧ ∀ o ∈ inputOutpoints ins, o ∉ used.map Prod.fst) →
        ∃ used', doubleSpendsInputs txID used ins = .ok used' ∧
          ∀ o, o ∈ used'.map Prod.fst ↔ o ∈ inputOutpoints ins ∨ o ∈ used.map Prod.fst) ∧
      (¬ ((inputOutpoints ins).Nodup ∧ ∀ o ∈ inputOutpoints ins, o ∉ used.map Prod.fst) →
        doubleSpendsInputs txID used ins = .error (.rule .ErrDoubleSpendInSameBlock)) := by
  intro ins
  induction ins with
  | nil =>
    intro used
    refine ⟨fun _ => ⟨used, rfl, fun o => by simp [inputOutpoints]⟩, fun hn => ?_⟩
    exact absurd ⟨List.nodup_nil, fun o ho => by simp [inputOutpoints] at ho⟩ hn
  | cons txIn rest ih =>
    intro used
    unfold doubleSpendsInputs
    cases hl : used.lookup txIn.PreviousOutpoint with
    | some v =>
      have hmem : txIn.PreviousOutpoint ∈ used.map Prod.fst := by
        by_contra hc
        rw [(lookup_eq_none_iff_keys used _).mpr hc] at hl
        cases hl
      refine ⟨fun hP => ?_, fun _ => rfl⟩
      exact absurd hmem (hP.2 _ (by simp [inputOutpoints]))
    | none =>
      have hnot : txIn.PreviousOutpoint ∉ used.map Prod.fst :=
        (lookup_eq_none_iff_keys used _).mp hl
      have ih' := ih ((txIn.PreviousOutpoint, txID) :: used)
      have hiff : ((inputOutpoints (txIn :: rest)).Nodup ∧
            ∀ o ∈ inputOutpoints (txIn :: rest), o ∉ used.map Prod.fst) ↔
          ((inputOutpoints rest).Nodup ∧ ∀ o ∈ inputOutpoints rest,
            o ∉ ((txIn.PreviousOutpoint, txID) :: used).map Prod.fst) := by
        simp only [inputOutpoints, List.map_cons, List.nodup_cons, List.mem_cons,
          forall_eq_or_imp, not_or]
        constructor
        · rintro ⟨⟨h1, h2⟩, h3, h4⟩
          exact ⟨h2, fun o ho => ⟨fun he => h1 (he ▸ ho), h4 o ho⟩⟩
        · rintro ⟨h2, h4⟩
          exact ⟨⟨fun hin => (h4 _ hin).1 rfl, h2⟩, hnot, fun o ho => (h4 o ho).2⟩
      constructor
      · intro hP
        obtain ⟨used', hres, hkeys⟩ := ih'.1 (hiff.mp hP)
        refine ⟨used', hres, fun o => ?_⟩
        rw [hkeys o]
        simp only [inputOutpoints, List.map_cons, List.mem_cons]
        tauto
      · intro hn
        exact ih'.2 (fun h => hn (hiff.mpr h))

/-- The outer loop of `checkBlockDoubleSpends` succeeds iff the outpoints of all inputs
are pairwise distinct and not yet in the map. -/
theorem doubleSpendsLoop_spec (X : Imports) :
    ∀ (txs : List Tx) (used : OutpointMap),
      (((spentOutpoints txs).Nodup ∧ ∀ o ∈ spentOutpoints txs, o ∉ used.map Prod.fst) →
        doubleSpendsLoop X used txs = .ok ()) ∧
      (¬ ((spentOutpoints txs).Nodup ∧ ∀ o ∈ spentOutpoints txs, o ∉ used.map Prod.fst) →
        doubleSpendsLoop X used txs = .error (.rule .ErrDoubleSpendInSameBlock)) := by
  intro txs
  induction txs with
  | nil =>
    intro used
    refine ⟨fun _ => rfl, fun hn => ?_⟩
    exact absurd ⟨List.nodup_nil, fun o ho => by simp [spentOutpoints] at ho⟩ hn
  | cons tx rest ih =>
    intro used
    have hin := doubleSpendsInputs_spec (X.ID tx) tx.TxIn used
    have hsp : spentOutpoints (tx :: rest) = inputOutpoints tx.TxIn ++ spentOutpoints rest := by
      simp [spentOutpoints]
    unfold doubleSpendsLoop
    by_cases hP1 : (inputOutpoints tx.TxIn).Nodup ∧
        ∀ o ∈ inputOutpoints tx.TxIn, o ∉ used.map Prod.fst
    · obtain ⟨used', hres, hkeys⟩ := hin.1 hP1
      simp only [hres, bind, Except.bind]
      have hiff : ((spentOutpoints (tx :: rest)).Nodup ∧
            ∀ o ∈ spentOutpoints (tx :: rest), o ∉ used.map Prod.fst) ↔
          ((spentOutpoints rest).Nodup ∧ ∀ o ∈ spentOutpoints rest,
            o ∉ used'.map Prod.fst) := by
        rw [hsp, List.nodup_append]
        constructor
        · rintro ⟨⟨_, h2, h3⟩, h4⟩
          refine ⟨h2, fun o ho hmem => ?_⟩
          rcases (hkeys o).mp hmem with h | h
          · exact h3 h ho
          · exact h4 o (List.mem_append_right _ ho) h
        · rintro ⟨h2, h4⟩
          refine ⟨⟨hP1.1, h2, fun o h1 h2' => h4 o h2' ((hkeys o).mpr (Or.inl h1))⟩,
            fun o ho => ?_⟩
          rcases List.mem_append.mp ho with h | h
          · exact hP1.2 o h
          · exact fun hmem => h4 o h ((hkeys o).mpr (Or.inr hmem))
      exact ⟨fun hP => (ih used').1 (hiff.mp hP), fun hn => (ih used').2 (fun h => hn (hiff.mpr h))⟩
    · simp only [hin.2 hP1, bind, Except.bind]
      refine ⟨fun hP => ?_, fun _ => trivial⟩
      exfalso
      apply hP1
      rw [hsp, List.nodup_append] at hP
      exact ⟨hP.1.1, fun o ho => hP.2 o (List.mem_append_left _ ho)⟩

/-- The inputs of the first transaction. -/
theorem inputAt_zero (tx : Tx) (rest : List Tx) (k : Nat) :
    inputAt (tx :: rest) 0 k = tx.TxIn[k]? := by
  simp [inputAt]

/-- The inputs of the later transactions. -/
theorem inputAt_succ (tx : Tx) (rest : List Tx) (t k : Nat) :
    inputAt (tx :: rest) (t + 1) k = inputAt rest t k := by
  simp [inputAt]

/-- The outpoints of a list of inputs are those its inputs reference. -/
theorem mem_inputOutpoints (ins : List TxIn) (o : Outpoint) :
    o ∈ inputOutpoints ins ↔ ∃ (k : Nat) (txIn : TxIn), ins[k]? = some txIn ∧ txIn.PreviousOutpoint = o := by
  unfold inputOutpoints
  rw [List.mem_map]
  constructor
  · rintro ⟨txIn, hmem, rfl⟩
    obtain ⟨k, hk⟩ := List.mem_iff_getElem?.mp hmem
    exact ⟨k, txIn, hk, rfl⟩
  · rintro ⟨k, txIn, hk, rfl⟩
    exact ⟨txIn, List.mem_iff_getElem?.mpr ⟨k, hk⟩, rfl⟩

/-- The outpoints of a block are those the inputs of its transactions reference. -/
theorem mem_spentOutpoints (txs : List Tx) (o : Outpoint) :
    o ∈ spentOutpoints txs ↔
      ∃ (t k : Nat) (txIn : TxIn), inputAt txs t k = some txIn ∧ txIn.PreviousOutpoint = o := by
  induction txs with
  | nil => simp [spentOutpoints, inputAt]
  | cons tx rest ih =>
    have hsp : spentOutpoints (tx :: rest) = inputOutpoints tx.TxIn ++ spentOutpoints rest := by
      simp [spentOutpoints]
    rw [hsp, List.mem_append, ih, mem_inputOutpoints]
    constructor
    · rintro (⟨k, txIn, hk, ho⟩ | ⟨t, k, txIn, hk, ho⟩)
      · exact ⟨0, k, txIn, (inputAt_zero tx rest k).trans hk, ho⟩
      · exact ⟨t + 1, k, txIn, (inputAt_succ tx rest t k).trans hk, ho⟩
    · rintro ⟨t, k, txIn, hk, ho⟩
      cases t with
      | zero => exact Or.inl ⟨k, txIn, (inputAt_zero tx rest k).symm.trans hk, ho⟩
      | succ t => exact Or.inr ⟨t, k, txIn, (inputAt_succ tx rest t k).symm.trans hk, ho⟩

/-- The outpoints of a list of inputs repeat iff two inputs at distinct positions
reference the same outpoint. -/
theorem not_nodup_inputOutpoints (ins : List TxIn) :
    ¬ (inputOutpoints ins).Nodup ↔
      ∃ (k1 k2 : Nat) (in1 in2 : TxIn), k1 ≠ k2 ∧ ins[k1]? = some in1 ∧ ins[k2]? = some in2 ∧
        in1.PreviousOutpoint = in2.PreviousOutpoint := by
  unfold inputOutpoints
  rw [List.nodup_iff_getElem?_ne_getElem?]
  simp only [List.getElem?_map, List.length_map, not_forall]
  constructor
  · rintro ⟨i, j, hij, hj, hne⟩
    have hi : i < ins.length := by omega
    have heq : Option.map (fun txIn => txIn.PreviousOutpoint) ins[i]? =
        Option.map (fun txIn => txIn.PreviousOutpoint) ins[j]? := not_not.mp hne
    rw [List.getElem?_eq_getElem hi, List.getElem?_eq_getElem hj] at heq
    refine ⟨i, j, ins[i], ins[j], by omega, List.getElem?_eq_getElem hi,
      List.getElem?_eq_getElem hj, ?_⟩
    simpa using heq
  · rintro ⟨k1, k2, in1, in2, hne, h1, h2, ho⟩
    have hk1 : k1 < ins.length := (List.getElem?_eq_some_iff.mp h1).1
    have hk2 : k2 < ins.length := (List.getElem?_eq_some_iff.mp h2).1
    rcases Nat.lt_or_gt_of_ne hne with hlt | hgt
    · exact ⟨k1, k2, hlt, hk2, by simp [h1, h2, ho]⟩
    · exact ⟨k2, k1, hgt, hk1, by simp [h1, h2, ho]⟩

/-- The outpoints of a block repeat iff two distinct inputs of the block, of the same
transaction or not, reference the same outpoint. -/
theorem not_nodup_spentOutpoints (txs : List Tx) :
    ¬ (spentOutpoints txs).Nodup ↔
      ∃ (t1 k1 t2 k2 : Nat) (in1 in2 : TxIn), (t1 ≠ t2 ∨ k1 ≠ k2) ∧
        inputAt txs t1 k1 = some in1 ∧ inputAt txs t2 k2 = some in2 ∧
        in1.PreviousOutpoint = in2.PreviousOutpoint := by
  induction txs with
  | nil => simp [spentOutpoints, inputAt]
  | cons tx rest ih =>
    have hsp : spentOutpoints (tx :: rest) = inputOutpoints tx.TxIn ++ spentOutpoints rest := by
      simp [spentOutpoints]
    rw [hsp, List.nodup_append]
    constructor
    · intro hn
      by_cases ha : (inputOutpoints tx.TxIn).Nodup
      · by_cases hb : (spentOutpoints rest).Nodup
        · have hd : ¬ (inputOutpoints tx.TxIn).Disjoint (spentOutpoints rest) :=
            fun hd => hn ⟨ha, hb, hd⟩
          simp only [List.Disjoint, not_forall, not_not] at hd
          obtain ⟨o, ho1, ho2, _⟩ := hd
          obtain ⟨k1, in1, hk1, h1⟩ := (mem_inputOutpoints _ _).mp ho1
          obtain ⟨t2, k2, in2, hk2, h2⟩ := (mem_spentOutpoints _ _).mp ho2
          exact ⟨0, k1, t2 + 1, k2, in1, in2, Or.inl (by omega),
            (inputAt_zero tx rest k1).trans hk1, (inputAt_succ tx rest t2 k2).trans hk2,
            h1.trans h2.symm⟩
        · obtain ⟨t1, k1, t2, k2, in1, in2, hne, h1, h2, ho⟩ := ih.mp hb
          refine ⟨t1 + 1, k1, t2 + 1, k2, in1, in2, ?_,
            (inputAt_succ tx rest t1 k1).trans h1, (inputAt_succ tx rest t2 k2).trans h2, ho⟩
          rcases hne with h | h
          · exact Or.inl (by omega)
          · exact Or.inr h
      · obtain ⟨k1, k2, in1, in2, hne, h1, h2, ho⟩ := (not_nodup_inputOutpoints _).mp ha
        exact ⟨0, k1, 0, k2, in1, in2, Or.inr hne, (inputAt_zero tx rest k1).trans h1,
          (inputAt_zero tx rest k2).trans h2, ho⟩
    · rintro ⟨t1, k1, t2, k2, in1, in2, hne, h1, h2, ho⟩ ⟨ha, hb, hd⟩
      cases t1 with
      | zero =>
        rw [inputAt_zero] at h1
        cases t2 with
        | zero =>
          rw [inputAt_zero] at h2
          apply (not_nodup_inputOutpoints tx.TxIn).mpr _ ha
          refine ⟨k1, k2, in1, in2, ?_, h1, h2, ho⟩
          rcases hne with h | h
          · exact absurd rfl h
          · exact h
        | succ t2 =>
          rw [inputAt_succ] at h2
          exact hd ((mem_inputOutpoints _ _).mpr ⟨k1, in1, h1, rfl⟩)
            ((mem_spentOutpoints _ _).mpr ⟨t2, k2, in2, h2, ho.symm⟩)
      | succ t1 =>
        rw [inputAt_succ] at h1
        cases t2 with
        | zero =>
          rw [inputAt_zero] at h2
          exact hd ((mem_inputOutpoints _ _).mpr ⟨k2, in2, h2, rfl⟩)
            ((mem_spentOutpoints _ _).mpr ⟨t1, k1, in1, h1, ho⟩)
        | succ t2 =>
          rw [inputAt_succ] at h2
          apply ih.mpr _ hb
          refine ⟨t1, k1, t2, k2, in1, in2, ?_, h1, h2, ho⟩
          rcases hne with h | h
          · exact Or.inl (fun he => h (by omega))
          · exact Or.inr h

/-- The two outcomes of `checkBlockDoubleSpends`. -/
theorem checkBlockDoubleSpends_eq (X : Imports) (block : Block) :
    ((spentOutpoints block.Transactions).Nodup → checkBlockDoubleSpends X block = .ok ()) ∧
    (¬ (spentOutpoints block.Transactions).Nodup →
      checkBlockDoubleSpends X block = .error (.rule .ErrDoubleSpendInSameBlock)) := by
  have h := doubleSpendsLoop_spec X block.Transactions []
  unfold checkBlockDoubleSpends
  constructor
  · intro hnd
    exact h.1 ⟨hnd, fun o _ => by simp⟩
  · intro hnd
    exact h.2 (fun hP => hnd hP.1)

/-- C7. `checkBlockDoubleSpends` returns `ErrDoubleSpendInSameBlock` iff two distinct
inputs of the block, input `k1` of transaction `t1` and input `k2` of transaction `t2`
with `t1 ≠ t2` or `k1 ≠ k2`, reference the same previous outpoint; otherwise it returns
nil. -/
theorem checkBlockDoubleSpends_spec (X : Imports) (block : Block) :
    (checkBlockDoubleSpends X block = .error (.rule .ErrDoubleSpendInSameBlock) ↔
      ∃ (t1 k1 t2 k2 : Nat) (in1 in2 : TxIn), (t1 ≠ t2 ∨ k1 ≠ k2) ∧
        inputAt block.Transactions t1 k1 = some in1 ∧
        inputAt block.Transactions t2 k2 = some in2 ∧
        in1.PreviousOutpoint = in2.PreviousOutpoint) ∧
    (¬ (∃ (t1 k1 t2 k2 : Nat) (in1 in2 : TxIn), (t1 ≠ t2 ∨ k1 ≠ k2) ∧
        inputAt block.Transactions t1 k1 = some in1 ∧
        inputAt block.Transactions t2 k2 = some in2 ∧
        in1.PreviousOutpoint = in2.PreviousOutpoint) →
      checkBlockDoubleSpends X block = .ok ()) := by
  rw [← not_nodup_spentOutpoints]
  have h := checkBlockDoubleSpends_eq X block
  by_cases hnd : (spentOutpoints block.Transactions).Nodup
  · rw [h.1 hnd]
    exact ⟨⟨fun hc => (by cases hc), fun hn => absurd hnd hn⟩, fun _ => rfl⟩
  · rw [h.2 hnd]
    exact ⟨⟨fun _ => hnd, fun _ => rfl⟩, fun hn => absurd hnd hn⟩

/-- The loop of `checkBlockDuplicateTransactions` succeeds iff the IDs of the
transactions are pairwise distinct and not yet in the set. -/
theorem duplicateTransactionsLoop_spec (X : Imports) :
    ∀ (txs : List Tx) (existing : List TxID),
      (((txs.map X.ID).Nodup ∧ ∀ id ∈ txs.map X.ID, id ∉ existing) →
        duplicateTransactionsLoop X existing txs = .ok ()) ∧
      (¬ ((txs.map X.ID).Nodup ∧ ∀ id ∈ txs.map X.ID, id ∉ existing) →
        duplicateTransactionsLoop X existing txs = .error (.rule .ErrDuplicateTx)) := by
  intro txs
  induction txs with
  | nil =>
    intro existing
    exact ⟨fun _ => rfl, fun hn => absurd ⟨List.nodup_nil, fun id h => by simp at h⟩ hn⟩
  | cons tx rest ih =>
    intro existing
    unfold duplicateTransactionsLoop
    by_cases hmem : X.ID tx ∈ existing
    · simp only [hmem, if_true]
      exact ⟨fun hP => absurd hmem (hP.2 _ (by simp)), fun _ => trivial⟩
    · simp only [hmem, if_false]
      have hiff : ((List.map X.ID (tx :: rest)).Nodup ∧
            ∀ id ∈ List.map X.ID (tx :: rest), id ∉ existing) ↔
          ((List.map X.ID rest).Nodup ∧
            ∀ id ∈ List.map X.ID rest, id ∉ X.ID tx :: existing) := by
        simp only [List.map_cons, List.nodup_cons, List.mem_cons, forall_eq_or_imp, not_or]
        constructor
        · rintro ⟨⟨h1, h2⟩, _, h4⟩
          exact ⟨h2, fun id hid => ⟨fun he => h1 (he ▸ hid), h4 id hid⟩⟩
        · rintro ⟨h2, h4⟩
          exact ⟨⟨fun hin => (h4 _ hin).1 rfl, h2⟩, hmem, fun id hid => (h4 id hid).2⟩
      exact ⟨fun hP => (ih _).1 (hiff.mp hP), fun hn => (ih _).2 (fun h => hn (hiff.mpr h))⟩

/-- The loop of `checkBlockContainsOnlyOneCoinbase` succeeds iff no transaction of the
list is a coinbase. -/
theorem onlyOneCoinbaseLoop_spec (X : Imports) :
    ∀ txs : List Tx,
      ((∀ tx ∈ txs, X.IsCoinBase tx = false) → onlyOneCoinbaseLoop X txs = .ok ()) ∧
      (¬ (∀ tx ∈ txs, X.IsCoinBase tx = false) →
        onlyOneCoinbaseLoop X txs = .error (.rule .ErrMultipleCoinbases)) := by
  intro txs
  induction txs with
  | nil => exact ⟨fun _ => rfl, fun hn => absurd (fun tx h => by simp at h) hn⟩
  | cons tx rest ih =>
    unfold onlyOneCoinbaseLoop
    by_cases hc : X.IsCoinBase tx = true
    · simp only [hc, if_true]
      refine ⟨fun hall => ?_, fun _ => trivial⟩
      have := hall tx (by simp)
      rw [hc] at this
      cases this
    · have hc' : X.IsCoinBase tx = false := by simpa using hc
      simp only [hc', Bool.false_eq_true, if_false]
      constructor
      · intro hall
        exact ih.1 (fun t ht => hall t (List.mem_cons_of_mem _ ht))
      · intro hn
        apply ih.2
        intro hall
        apply hn
        intro t ht
        rcases List.mem_cons.mp ht with h | h
        · exact h ▸ hc'
        · exact hall t h

/-! ## Block sanity as a whole -/

/-- The method `checkBlockSanity` stops at the first check of `sanityChecks` that fails
and returns its error; when none fails it returns the delay of the header. -/
theorem checkBlockSanity_first (X : Imports) (dag : BlockDAG) (block : Block)
    (flags : BehaviorFlags) :
    checkBlockSanity X dag block flags =
      match firstFailure (sanityChecks X dag flags) block with
      | some err => .error err
      | none => .ok (headerDelay dag block.Header) := by
  unfold checkBlockSanity
  rw [checkBlockHeaderSanity_eq]
  simp only [sanityChecks, firstFailure, checkParentCount, checkParentOrder, bind, Except.bind,
    pure, Except.pure, beq_iff_eq, bne_iff_ne, ne_eq, List.length_eq_zero, ite_not]
  generalize checkProofOfWork X dag block.Header flags = r1
  generalize checkBlockParentsOrder block.Header = r2
  generalize checkBlockContainsAtLeastOneTransaction block = r3
  generalize checkBlockContainsLessThanMaxBlockMassTransactions X block = r4
  generalize checkFirstBlockTransactionIsCoinbase X block = r5
  generalize checkBlockContainsOnlyOneCoinbase X block = r6
  generalize checkBlockTransactionOrder block = r7
  generalize checkNoNonNativeTransactions X dag block = r8
  generalize checkBlockTransactionSanity X dag block = r9
  generalize checkBlockHashMerkleRoot X block = r10
  generalize checkBlockDuplicateTransactions X block = r11
  generalize checkBlockDoubleSpends X block = r12
  cases r1 with
  | error e => rfl
  | ok u =>
    by_cases hp : block.Header.ParentHashes = []
    · by_cases hg : X.BlockHash block.Header = dag.Params.GenesisHash
      · simp only [hp, hg, if_true]
        cases r3 <;> [rfl; skip]
        cases r4 <;> [rfl; skip]
        cases r5 <;> [rfl; skip]
        cases r6 <;> [rfl; skip]
        cases r7 <;> [rfl; skip]
        cases r8 <;> [rfl; skip]
        cases r9 <;> [rfl; skip]
        cases r10 <;> [rfl; skip]
        cases r11 <;> [rfl; skip]
        cases r12 <;> rfl
      · simp only [hp, hg, if_true, if_false]
    · simp only [hp, if_false]
      cases r2 <;> [rfl; skip]
      cases r3 <;> [rfl; skip]
      cases r4 <;> [rfl; skip]
      cases r5 <;> [rfl; skip]
      cases r6 <;> [rfl; skip]
      cases r7 <;> [rfl; skip]
      cases r8 <;> [rfl; skip]
      cases r9 <;> [rfl; skip]
      cases r10 <;> [rfl; skip]
      cases r11 <;> [rfl; skip]
      cases r12 <;> rfl

/-- No check of a list fails iff each of them returns nil. -/
theorem firstFailure_eq_none_iff (checks : List (Block → Except Fault Unit)) (block : Block) :
    firstFailure checks block = none ↔ ∀ check ∈ checks, check block = .ok () := by
  induction checks with
  | nil => simp [firstFailure]
  | cons check rest ih =>
    unfold firstFailure
    cases hc : check block with
    | error err =>
      simp only [List.mem_cons, forall_eq_or_imp, hc]
      exact ⟨fun h => (by cases h), fun h => (by cases h.1)⟩
    | ok u =>
      simp only [List.mem_cons, forall_eq_or_imp, hc, ih, true_and]

/-- C1. For every block and flags, `checkBlockSanity` returns the error of the first
failing check in the order of `sanityChecks`: proof of work, parent count (genesis
exempt), parent order, at least one transaction, transaction count at most
`MaxMassPerBlock`, transaction 0 is a coinbase, no second coinbase, subnetwork order,
no non-native subnetwork (when disabled), transaction sanity, hash merkle root,
duplicate transaction ID, double spend; it returns a nil error iff every one of these
checks passes. -/
theorem checkBlockSanity_spec (X : Imports) (dag : BlockDAG) (block : Block)
    (flags : BehaviorFlags) :
    (checkBlockSanity X dag block flags =
      match firstFailure (sanityChecks X dag flags) block with
      | some err => .error err
      | none => .ok (headerDelay dag block.Header)) ∧
    ((∃ delay, checkBlockSanity X dag block flags = .ok delay) ↔
      ∀ check ∈ sanityChecks X dag flags, check block = .ok ()) := by
  refine ⟨checkBlockSanity_first X dag block flags, ?_⟩
  rw [checkBlockSanity_first, ← firstFailure_eq_none_iff]
  cases firstFailure (sanityChecks X dag flags) block with
  | none => exact ⟨fun _ => rfl, fun _ => ⟨_, rfl⟩⟩
  | some err => exact ⟨fun ⟨d, h⟩ => (by cases h), fun h => (by cases h)⟩

/-- On a block that `checkBlockSanity` accepts every check returns nil. -/
theorem checkBlockSanity_ok_checks (X : Imports) (dag : BlockDAG) (block : Block)
    (flags : BehaviorFlags) (delay : Duration)
    (hok : checkBlockSanity X dag block flags = .ok delay) :
    ∀ check ∈ sanityChecks X dag flags, check block = .ok () := by
  rw [← firstFailure_eq_none_iff]
  rw [checkBlockSanity_first] at hok
  cases hf : firstFailure (sanityChecks X dag flags) block with
  | none => rfl
  | some err =>
    rw [hf] at hok
    cases hok

/-- The images of a list are pairwise distinct iff elements at distinct positions have
distinct images. -/
theorem nodup_map_iff_getElem? {α β : Type} (f : α → β) (l : List α) :
    (l.map f).Nodup ↔
      ∀ (i j : Nat) (a b : α), i ≠ j → l[i]? = some a → l[j]? = some b → f a ≠ f b := by
  rw [List.nodup_iff_getElem?_ne_getElem?]
  simp only [List.getElem?_map, List.length_map]
  constructor
  · intro h i j a b hne ha hb heq
    have hi : i < l.length := (List.getElem?_eq_some_iff.mp ha).1
    have hj : j < l.length := (List.getElem?_eq_some_iff.mp hb).1
    rcases Nat.lt_or_gt_of_ne hne with hlt | hgt
    · exact h i j hlt hj (by simp [ha, hb, heq])
    · exact h j i hgt hi (by simp [ha, hb, heq])
  · intro h i j hij hj heq
    have hi : i < l.length := by omega
    rw [List.getElem?_eq_getElem hi, List.getElem?_eq_getElem hj] at heq
    exact h i j l[i] l[j] (by omega) (List.getElem?_eq_getElem hi)
      (List.getElem?_eq_getElem hj) (by simpa using heq)

/-- C2. On every block that `checkBlockSanity` accepts: there is at least one
transaction, transaction 0 is a coinbase and no other transaction is, the merkle root
computed from the transactions is `header.HashMerkleRoot`, no two transactions have the
same ID, and no outpoint is referenced by two inputs of the block. -/
theorem checkBlockSanity_sound (X : Imports) (dag : BlockDAG) (block : Block)
    (flags : BehaviorFlags) (delay : Duration)
    (hok : checkBlockSanity X dag block flags = .ok delay) :
    block.Transactions ≠ [] ∧
    (∃ first, block.Transactions[0]? = some first ∧ X.IsCoinBase first = true) ∧
    (∀ (i : Nat) (tx : Tx), 1 ≤ i → block.Transactions[i]? = some tx →
      X.IsCoinBase tx = false) ∧
    X.HashMerkleRoot block.Transactions = block.Header.HashMerkleRoot ∧
    (∀ (i j : Nat) (tx1 tx2 : Tx), i ≠ j → block.Transactions[i]? = some tx1 →
      block.Transactions[j]? = some tx2 → X.ID tx1 ≠ X.ID tx2) ∧
    (∀ (t1 k1 t2 k2 : Nat) (in1 in2 : TxIn), (t1 ≠ t2 ∨ k1 ≠ k2) →
      inputAt block.Transactions t1 k1 = some in1 →
      inputAt block.Transactions t2 k2 = some in2 →
      in1.PreviousOutpoint ≠ in2.PreviousOutpoint) := by
  have hall := checkBlockSanity_ok_checks X dag block flags delay hok
  have h4 : checkBlockContainsAtLeastOneTransaction block = .ok () :=
    hall _ (by simp [sanityChecks])
  have h6 : checkFirstBlockTransactionIsCoinbase X block = .ok () :=
    hall _ (by simp [sanityChecks])
  have h7 : checkBlockContainsOnlyOneCoinbase X block = .ok () :=
    hall _ (by simp [sanityChecks])
  have h11 : checkBlockHashMerkleRoot X block = .ok () :=
    hall _ (by simp [sanityChecks])
  have h12 : checkBlockDuplicateTransactions X block = .ok () :=
    hall _ (by simp [sanityChecks])
  have h13 : checkBlockDoubleSpends X block = .ok () :=
    hall _ (by simp [sanityChecks])
  obtain ⟨hd, txs⟩ := block
  cases txs with
  | nil =>
    simp [checkBlockContainsAtLeastOneTransaction] at h4
  | cons t0 tl =>
    refine ⟨by simp, ?_, ?_, ?_, ?_, ?_⟩
    · refine ⟨t0, by simp, ?_⟩
      by_contra hc
      have hc' : X.IsCoinBase t0 = false := by simpa using hc
      simp [checkFirstBlockTransactionIsCoinbase, index, CoinbaseTransactionIndex, hc',
        bind, Except.bind] at h6
    · intro i tx hi htx
      obtain ⟨j, rfl⟩ : ∃ j, i = j + 1 := ⟨i - 1, by omega⟩
      have hmem : tx ∈ tl := by
        apply List.mem_iff_getElem?.mpr
        exact ⟨j, by simpa using htx⟩
      unfold checkBlockContainsOnlyOneCoinbase at h7
      simp only [sliceFrom_one_cons, bind, Except.bind] at h7
      by_contra hc
      have hn : ¬ (∀ tx ∈ tl, X.IsCoinBase tx = false) := fun h => hc (h tx hmem)
      rw [(onlyOneCoinbaseLoop_spec X tl).2 hn] at h7
      cases h7
    · unfold checkBlockHashMerkleRoot at h11
      by_contra hc
      have hc' : ¬ (hd.HashMerkleRoot = X.HashMerkleRoot (t0 :: tl)) := fun h => hc h.symm
      simp [hc'] at h11
    · have hnd : ((t0 :: tl).map X.ID).Nodup := by
        by_contra hc
        have := (duplicateTransactionsLoop_spec X (t0 :: tl) []).2 (fun hP => hc hP.1)
        unfold checkBlockDuplicateTransactions at h12
        rw [this] at h12
        cases h12
      exact (nodup_map_iff_getElem? X.ID (t0 :: tl)).mp hnd
    · intro t1 k1 t2 k2 in1 in2 hne h1 h2 ho
      have hnd : ¬ (spentOutpoints (t0 :: tl)).Nodup :=
        (not_nodup_spentOutpoints _).mpr ⟨t1, k1, t2, k2, in1, in2, hne, h1, h2, ho⟩
      rw [(checkBlockDoubleSpends_eq X ⟨hd, t0 :: tl⟩).2 hnd] at h13
      cases h13

/-- Witness of C2: the sample block is accepted, with a delay of 20 ms. -/
theorem checkBlockSanity_sound_witness :
    checkBlockSanity sampleImports sampleDAG sampleBlock 0 = .ok 20000000 ∧
    sampleImports.HashMerkleRoot sampleBlock.Transactions =
      sampleBlock.Header.HashMerkleRoot :=
  ⟨rfl, (checkBlockSanity_sound sampleImports sampleDAG sampleBlock 0 20000000 rfl).2.2.2.1⟩

/-! ## Mass of a transaction and of a block -/

/-- The first loop of `CalcTxMass` adds the lengths of the output scripts. -/
theorem scriptPubKeySizeLoop_eq (outs : List TxOut) :
    ∀ acc : Nat, scriptPubKeySizeLoop acc outs =
      acc + (outs.map (fun txOut => txOut.ScriptPubKey.length)).sum := by
  induction outs with
  | nil => intro acc; simp [scriptPubKeySizeLoop]
  | cons o rest ih =>
    intro acc
    simp only [scriptPubKeySizeLoop, ih, List.map_cons, List.sum_cons]
    omega

/-- The second loop of `CalcTxMass` adds the signature operations of the inputs, input
`i` counted against the script at index `i`; it does not panic when there is a script
for every input. -/
theorem sigOpsCountLoop_eq (X : Imports) (pks : List Bytes) :
    ∀ (ins : List TxIn) (i acc : Nat), ins.length ≤ (pks.drop i).length →
      sigOpsCountLoop X pks i acc ins = .ok (acc + sigOpsCount X ins (pks.drop i)) := by
  intro ins
  induction ins with
  | nil => intro i acc _; simp [sigOpsCountLoop, sigOpsCount]
  | cons txIn rest ih =>
    intro i acc hlen
    have hi : i < pks.length := by
      simp only [List.length_cons, List.length_drop] at hlen
      omega
    have hdrop : pks.drop i = pks[i] :: pks.drop (i + 1) := List.drop_eq_getElem_cons hi
    have hlen' : rest.length ≤ (pks.drop (i + 1)).length := by
      simp only [List.length_cons, List.length_drop] at hlen ⊢
      omega
    unfold sigOpsCountLoop
    simp only [index_eq_ok pks i hi, bind, Except.bind, ih (i + 1) _ hlen']
    rw [hdrop]
    simp only [sigOpsCount, List.zip_cons_cons, List.map_cons, List.sum_cons]
    congr 1
    omega

/-- The value of `CalcTxMass`: the weighted sum of its three ingredients, reduced to 64
bits, and for a coinbase the serialized size alone. -/
theorem CalcTxMass_eq (X : Imports) (tx : Tx) (previousScriptPubKeys : List Bytes) :
    (X.IsCoinBase tx = false →
      previousScriptPubKeys.length = tx.TxIn.length →
      CalcTxMass X tx previousScriptPubKeys =
        .ok (toUint64 (X.SerializeSize tx * 1 + scriptPubKeySize tx * 10 +
          sigOpsCount X tx.TxIn previousScriptPubKeys * 10000))) ∧
    (X.IsCoinBase tx = true →
      CalcTxMass X tx previousScriptPubKeys = .ok (toUint64 (X.SerializeSize tx * 1))) := by
  constructor
  · intro hcb hlen
    unfold CalcTxMass
    have hloop := sigOpsCountLoop_eq X previousScriptPubKeys tx.TxIn 0 0
      (by simp [hlen])
    simp only [hcb, Bool.false_eq_true, if_false, bind, Except.bind, pure, Except.pure,
      hloop, scriptPubKeySizeLoop_eq, MassPerTxByte, MassPerScriptPubKeyByte,
      MassPerSigOp, List.drop_zero, Nat.zero_add]
    rfl
  · intro hcb
    unfold CalcTxMass
    simp only [hcb, if_true, bind, Except.bind, pure, Except.pure, MassPerTxByte]

/-- C8. For a non-coinbase transaction and one previous script per input,
`CalcTxMass` is `serializedSize * 1 + (total length of the output scripts) * 10 +
(total of the precise sigop counts of the inputs, input i against script i) * 10000`;
for a coinbase it is `serializedSize * 1` whatever the scripts are. The values are those
of the Go expression as long as it stays within the 64 bits of its result type. -/
theorem CalcTxMass_spec (X : Imports) (tx : Tx) (previousScriptPubKeys : List Bytes) :
    (X.IsCoinBase tx = false →
      previousScriptPubKeys.length = tx.TxIn.length →
      X.SerializeSize tx * 1 + scriptPubKeySize tx * 10 +
        sigOpsCount X tx.TxIn previousScriptPubKeys * 10000 < 2 ^ 64 →
      CalcTxMass X tx previousScriptPubKeys =
        .ok (X.SerializeSize tx * 1 + scriptPubKeySize tx * 10 +
          sigOpsCount X tx.TxIn previousScriptPubKeys * 10000)) ∧
    (X.IsCoinBase tx = true → X.SerializeSize tx * 1 < 2 ^ 64 →
      CalcTxMass X tx previousScriptPubKeys = .ok (X.SerializeSize tx * 1)) := by
  constructor
  · intro hcb hlen hfit
    rw [(CalcTxMass_eq X tx previousScriptPubKeys).1 hcb hlen, toUint64, Nat.mod_eq_of_lt hfit]
  · intro hcb hfit
    rw [(CalcTxMass_eq X tx previousScriptPubKeys).2 hcb, toUint64, Nat.mod_eq_of_lt hfit]

/-- Witness of C8: a sample transaction with two inputs, of mass
`23 * 1 + 5 * 10 + 7 * 10000`, and the sample coinbase, of mass 15. -/
theorem CalcTxMass_spec_witness :
    CalcTxMass sampleImports (sampleSpend 1 [⟨5, 0⟩, ⟨5, 1⟩]) [[9], [9, 9]] = .ok 70073 ∧
    CalcTxMass sampleImports sampleCoinbase [[9]] = .ok 15 :=
  ⟨(CalcTxMass_spec sampleImports (sampleSpend 1 [⟨5, 0⟩, ⟨5, 1⟩]) [[9], [9, 9]]).1
      rfl rfl (by decide),
    (CalcTxMass_spec sampleImports sampleCoinbase [[9]]).2 rfl (by decide)⟩

/-- C9, amended. For two non-coinbase transactions whose masses fit in 64 bits, a larger
serialized size, a larger total output script length or a larger sigop count, the other
two ingredients being equal, gives a strictly larger mass (and, read from the other
side, a smaller one a strictly smaller mass). For two coinbase transactions the mass
grows strictly with the serialized size and does not change with the other two. -/
theorem CalcTxMass_monotone (X : Imports) (tx tx' : Tx) (pk pk' : List Bytes) :
    (X.IsCoinBase tx = false → X.IsCoinBase tx' = false →
      pk.length = tx.TxIn.length → pk'.length = tx'.TxIn.length →
      X.SerializeSize tx * 1 + scriptPubKeySize tx * 10 +
        sigOpsCount X tx.TxIn pk * 10000 < 2 ^ 64 →
      X.SerializeSize tx' * 1 + scriptPubKeySize tx' * 10 +
        sigOpsCount X tx'.TxIn pk' * 10000 < 2 ^ 64 →
      ∃ m m' : Nat, CalcTxMass X tx pk = .ok m ∧ CalcTxMass X tx' pk' = .ok m' ∧
        (X.SerializeSize tx < X.SerializeSize tx' →
          scriptPubKeySize tx = scriptPubKeySize tx' →
          sigOpsCount X tx.TxIn pk = sigOpsCount X tx'.TxIn pk' → m < m') ∧
        (X.SerializeSize tx = X.SerializeSize tx' →
          scriptPubKeySize tx < scriptPubKeySize tx' →
          sigOpsCount X tx.TxIn pk = sigOpsCount X tx'.TxIn pk' → m < m') ∧
        (X.SerializeSize tx = X.SerializeSize tx' →
          scriptPubKeySize tx = scriptPubKeySize tx' →
          sigOpsCount X tx.TxIn pk < sigOpsCount X tx'.TxIn pk' → m < m')) ∧
    (X.IsCoinBase tx = true → X.IsCoinBase tx' = true →
      X.SerializeSize tx * 1 < 2 ^ 64 → X.SerializeSize tx' * 1 < 2 ^ 64 →
      ∃ m m' : Nat, CalcTxMass X tx pk = .ok m ∧ CalcTxMass X tx' pk' = .ok m' ∧
        (X.SerializeSize tx < X.SerializeSize tx' → m < m') ∧
        (X.SerializeSize tx = X.SerializeSize tx' → m = m')) := by
  constructor
  · intro hc hc' hlen hlen' hfit hfit'
    refine ⟨_, _, (CalcTxMass_eq X tx pk).1 hc hlen, (CalcTxMass_eq X tx' pk').1 hc' hlen',
      ?_, ?_, ?_⟩ <;>
    · intro h1 h2 h3
      rw [toUint64, toUint64, Nat.mod_eq_of_lt hfit, Nat.mod_eq_of_lt hfit']
      omega
  · intro hc hc' hfit hfit'
    refine ⟨_, _, (CalcTxMass_eq X tx pk).2 hc, (CalcTxMass_eq X tx' pk').2 hc', ?_, ?_⟩ <;>
    · intro h1
      rw [toUint64, toUint64, Nat.mod_eq_of_lt hfit, Nat.mod_eq_of_lt hfit']
      omega

/-- Counterexample to C9 as stated: two coinbase transactions of equal serialized size
and equal sigop count; the second has the longer output script, and both have mass
15. -/
theorem CalcTxMass_monotone_counterexample :
    sampleImports.IsCoinBase sampleCoinbase = true ∧
    sampleImports.IsCoinBase sampleCoinbaseLong = true ∧
    sampleImports.SerializeSize sampleCoinbase =
      sampleImports.SerializeSize sampleCoinbaseLong ∧
    sigOpsCount sampleImports sampleCoinbase.TxIn [] =
      sigOpsCount sampleImports sampleCoinbaseLong.TxIn [] ∧
    scriptPubKeySize sampleCoinbase < scriptPubKeySize sampleCoinbaseLong ∧
    CalcTxMass sampleImports sampleCoinbase [] = .ok 15 ∧
    CalcTxMass sampleImports sampleCoinbaseLong [] = .ok 15 :=
  ⟨rfl, rfl, rfl, rfl, by decide, rfl, rfl⟩

/-- Witness of C9, amended: of two sample transactions that differ in one input script,
the one with more signature operations has the larger mass. -/
theorem CalcTxMass_monotone_witness :
    ∃ m m' : Nat,
      CalcTxMass sampleImports (sampleSpend 1 [⟨5, 0⟩]) [[9]] = .ok m ∧
      CalcTxMass sampleImports (sampleSpend 1 [⟨5, 0⟩]) [[9, 9]] = .ok m' ∧ m < m' :=
  match (CalcTxMass_monotone sampleImports (sampleSpend 1 [⟨5, 0⟩])
      (sampleSpend 1 [⟨5, 0⟩]) [[9]] [[9, 9]]).1 rfl rfl rfl rfl (by decide) (by decide) with
  | ⟨m, m', h1, h2, _, _, h5⟩ => ⟨m, m', h1, h2, h5 rfl rfl (by decide)⟩

/-- The loop of `CalcTxMassFromUTXOSet` finds one script per input when every input
resolves. -/
theorem previousScriptPubKeysLoop_ok (utxoSet : UTXOSet) :
    ∀ ins : List TxIn, (∀ txIn ∈ ins, (utxoSet txIn.PreviousOutpoint).isSome = true) →
      ∃ pks, previousScriptPubKeysLoop utxoSet ins = .ok pks ∧ pks.length = ins.length := by
  intro ins
  induction ins with
  | nil => intro _; exact ⟨[], rfl, rfl⟩
  | cons txIn rest ih =>
    intro hall
    obtain ⟨pks, hpks, hlen⟩ := ih (fun t ht => hall t (List.mem_cons_of_mem _ ht))
    have h0 := hall txIn (by simp)
    unfold previousScriptPubKeysLoop
    cases he : utxoSet txIn.PreviousOutpoint with
    | none => rw [he] at h0; cases h0
    | some entry =>
      simp only [hpks, bind, Except.bind, pure, Except.pure]
      exact ⟨_, rfl, by simp [hlen]⟩

/-- The function `CalcTxMassFromUTXOSet` returns a mass for a coinbase and for a
transaction whose inputs all resolve. -/
theorem CalcTxMassFromUTXOSet_ok (X : Imports) (tx : Tx) (utxoSet : UTXOSet)
    (hres : X.IsCoinBase tx = false →
      ∀ txIn ∈ tx.TxIn, (utxoSet txIn.PreviousOutpoint).isSome = true) :
    ∃ m, CalcTxMassFromUTXOSet X tx utxoSet = .ok m := by
  unfold CalcTxMassFromUTXOSet
  cases hc : X.IsCoinBase tx with
  | true =>
    simp only [if_true]
    exact ⟨_, (CalcTxMass_eq X tx []).2 hc⟩
  | false =>
    obtain ⟨pks, hpks, hlen⟩ := previousScriptPubKeysLoop_ok utxoSet tx.TxIn (hres hc)
    simp only [Bool.false_eq_true, if_false, hpks, bind, Except.bind]
    exact ⟨_, (CalcTxMass_eq X tx pks).1 hc hlen⟩

/-- The loop of `CalcBlockMass` from an accumulator within the limit: it returns the
exact total when that is within the limit and `ErrBlockMassTooHigh` otherwise. -/
theorem blockMassLoop_spec (X : Imports) (pastUTXO : UTXOSet)
    (hmax : X.MaxMassPerBlock < 2 ^ 64) :
    ∀ (txs : List Tx) (masses : List Nat),
      List.Forall₂ (fun tx m => CalcTxMassFromUTXOSet X tx pastUTXO = .ok m) txs masses →
      ∀ acc : Nat, acc ≤ X.MaxMassPerBlock →
        (acc + masses.sum ≤ X.MaxMassPerBlock →
          blockMassLoop X pastUTXO acc txs = .ok (acc + masses.sum)) ∧
        (X.MaxMassPerBlock < acc + masses.sum →
          blockMassLoop X pastUTXO acc txs = .error (.rule .ErrBlockMassTooHigh)) := by
  intro txs masses hall
  induction hall with
  | nil =>
    intro acc hacc
    refine ⟨fun _ => by simp [blockMassLoop], fun h => ?_⟩
    simp at h
    omega
  | @cons tx m txs masses hm _ ih =>
    intro acc hacc
    unfold blockMassLoop
    simp only [hm, bind, Except.bind, pure, Except.pure, throw, throwThe,
      MonadExceptOf.throw, List.sum_cons]
    by_cases hle : acc + m ≤ X.MaxMassPerBlock
    · have hmod : (acc + m) % 2 ^ 64 = acc + m := Nat.mod_eq_of_lt (by omega)
      have hcond : ((decide ((acc + m) % 2 ^ 64 < m) || decide ((acc + m) % 2 ^ 64 >
          X.MaxMassPerBlock)) = true) ↔ False := by
        rw [hmod]
        simp
        omega
      simp only [hcond, if_false]
      have ih' := ih (acc + m) hle
      rw [hmod]
      constructor
      · intro h
        rw [ih'.1 (by omega), Nat.add_assoc]
      · intro h
        exact ih'.2 (by omega)
    · have hcond : ((decide ((acc + m) % 2 ^ 64 < m) || decide ((acc + m) % 2 ^ 64 >
          X.MaxMassPerBlock)) = true) := by
        simp only [Bool.or_eq_true, decide_eq_true_eq]
        by_cases hw : acc + m < 2 ^ 64
        · right
          rw [Nat.mod_eq_of_lt hw]
          omega
        · left
          by_cases hm64 : m < 2 ^ 64
          · have : (acc + m) % 2 ^ 64 = acc + m - 2 ^ 64 := by
              rw [Nat.mod_eq_sub_mod (by omega), Nat.mod_eq_of_lt (by omega)]
            omega
          · have : (acc + m) % 2 ^ 64 < 2 ^ 64 := Nat.mod_lt _ (by positivity)
            omega
      simp only [hcond, if_true]
      constructor
      · intro h
        omega
      · intro _
        trivial

/-- C10. For a transaction list whose non-coinbase inputs all resolve in the past UTXO
set, every transaction has a mass, and with `S` the exact (unbounded) sum of these
masses: if `S ≤ MaxMassPerBlock` then `CalcBlockMass` returns `(S, nil)`, otherwise it
returns `ErrBlockMassTooHigh`, also when the 64-bit accumulator wraps around;
`validateBlockMass` succeeds in exactly the same cases. The constant `MaxMassPerBlock`
is an unsigned 64-bit value. -/
theorem CalcBlockMass_spec (X : Imports) (pastUTXO : UTXOSet) (transactions : List Tx)
    (hmax : X.MaxMassPerBlock < 2 ^ 64)
    (hres : ∀ tx ∈ transactions, X.IsCoinBase tx = false →
      ∀ txIn ∈ tx.TxIn, (pastUTXO txIn.PreviousOutpoint).isSome = true) :
    (∀ tx ∈ transactions,
      CalcTxMassFromUTXOSet X tx pastUTXO = .ok (massOf X pastUTXO tx)) ∧
    ((transactions.map (massOf X pastUTXO)).sum ≤ X.MaxMassPerBlock →
      CalcBlockMass X pastUTXO transactions =
        .ok (transactions.map (massOf X pastUTXO)).sum ∧
      validateBlockMass X pastUTXO transactions = .ok ()) ∧
    (X.MaxMassPerBlock < (transactions.map (massOf X pastUTXO)).sum →
      CalcBlockMass X pastUTXO transactions = .error (.rule .ErrBlockMassTooHigh) ∧
      validateBlockMass X pastUTXO transactions = .error (.rule .ErrBlockMassTooHigh)) := by
  have hmass : ∀ tx ∈ transactions,
      CalcTxMassFromUTXOSet X tx pastUTXO = .ok (massOf X pastUTXO tx) := by
    intro tx htx
    obtain ⟨m, hm⟩ := CalcTxMassFromUTXOSet_ok X tx pastUTXO (hres tx htx)
    unfold massOf
    rw [hm]
  have hall : List.Forall₂ (fun tx m => CalcTxMassFromUTXOSet X tx pastUTXO = .ok m)
      transactions (transactions.map (massOf X pastUTXO)) := by
    clear hres
    induction transactions with
    | nil => exact List.Forall₂.nil
    | cons tx rest ih =>
      exact List.Forall₂.cons (hmass tx (by simp))
        (ih (fun t ht => hmass t (List.mem_cons_of_mem _ ht)))
  have hloop := blockMassLoop_spec X pastUTXO hmax transactions _ hall 0 (Nat.zero_le _)
  simp only [Nat.zero_add] at hloop
  refine ⟨hmass, ?_, ?_⟩
  · intro hle
    have h1 : CalcBlockMass X pastUTXO transactions =
        .ok (transactions.map (massOf X pastUTXO)).sum := hloop.1 hle
    exact ⟨h1, by unfold validateBlockMass; rw [h1]⟩
  · intro hgt
    have h1 : CalcBlockMass X pastUTXO transactions =
        .error (.rule .ErrBlockMassTooHigh) := hloop.2 hgt
    exact ⟨h1, by unfold validateBlockMass; rw [h1]⟩

/-- Witness of C10: two coinbase transactions of masses 10 and `2 ^ 64 - 5`; the
accumulator wraps around to 5 and the block is rejected. -/
theorem CalcBlockMass_spec_witness :
    (10 + (2 ^ 64 - 5)) % 2 ^ 64 = 5 ∧
    CalcBlockMass wideImports sampleUTXO [wideCoinbase 10, wideCoinbase (2 ^ 64 - 5)] =
      .error (.rule .ErrBlockMassTooHigh) ∧
    validateBlockMass wideImports sampleUTXO [wideCoinbase 10, wideCoinbase (2 ^ 64 - 5)] =
      .error (.rule .ErrBlockMassTooHigh) :=
  ⟨by decide,
    (CalcBlockMass_spec wideImports sampleUTXO [wideCoinbase 10, wideCoinbase (2 ^ 64 - 5)]
      (by decide) (by decide)).2.2 (by decide)⟩

/-! ## Sequence locks -/

/-- Below `2 ^ 63` the conversion to a signed value changes nothing. -/
theorem toInt64_of_lt (n : Nat) (h : n < 2 ^ 63) : toInt64 n = (n : Int) := by
  unfold toInt64
  have h1 : n % 2 ^ 64 = n := Nat.mod_eq_of_lt (by omega)
  rw [h1, if_pos h]

/-- From `2 ^ 63` on the conversion to a signed value gives a negative number. -/
theorem toInt64_of_ge (n : Nat) (h : 2 ^ 63 ≤ n) (h64 : n < 2 ^ 64) :
    toInt64 n = (n : Int) - 2 ^ 64 := by
  unfold toInt64
  have h1 : n % 2 ^ 64 = n := Nat.mod_eq_of_lt h64
  rw [h1, if_neg (by omega)]

/-- What `SequenceLockActive` computes: both comparisons are signed, the blue score
being converted to a signed value first. -/
theorem SequenceLockActive_iff (lock : SequenceLock) (s : Nat) (t : Time) :
    SequenceLockActive lock s t = true ↔
      lock.Milliseconds < t ∧ lock.BlockBlueScore < toInt64 s := by
  unfold SequenceLockActive
  by_cases h1 : lock.Milliseconds ≥ t
  · simp [h1]
  · by_cases h2 : lock.BlockBlueScore ≥ toInt64 s
    · simp [h1, h2]
    · simp [h1, h2]
      omega

/-- For blue scores below `2 ^ 63` the function is the comparison of the spec. -/
theorem SequenceLockActive_iff_of_lt (lock : SequenceLock) (s : Nat) (t : Time)
    (hs : s < 2 ^ 63) :
    SequenceLockActive lock s t = true ↔
      lock.Milliseconds < t ∧ lock.BlockBlueScore < (s : Int) := by
  rw [SequenceLockActive_iff, toInt64_of_lt s hs]

/-- For blue scores below `2 ^ 63` the function is monotone. -/
theorem SequenceLockActive_mono_of_lt (lock lock' : SequenceLock) (s s' : Nat) (t t' : Time)
    (hs' : s' < 2 ^ 63) (hss : s ≤ s') (htt : t ≤ t')
    (hms : lock'.Milliseconds ≤ lock.Milliseconds)
    (hbs : lock'.BlockBlueScore ≤ lock.BlockBlueScore)
    (hact : SequenceLockActive lock s t = true) :
    SequenceLockActive lock' s' t' = true := by
  rw [SequenceLockActive_iff_of_lt lock s t (by omega)] at hact
  rw [SequenceLockActive_iff_of_lt lock' s' t' hs']
  have : (s : Int) ≤ (s' : Int) := by exact_mod_cast hss
  constructor
  · exact lt_of_le_of_lt hms (lt_of_lt_of_le hact.1 htt)
  · exact lt_of_le_of_lt hbs (lt_of_lt_of_le hact.2 this)

/-- C11. At the blue score `2 ^ 63` the lock `(5 ms, blue score 5)` is reported as not
active at the median time 10 ms, although `5 < 10` and `5 < 2 ^ 63`: the conversion
`int64(blockBlueScore)` turns the blue score into `-2 ^ 63`. -/
theorem SequenceLockActive_at_two_pow_63 :
    SequenceLockActive ⟨5, 5⟩ (2 ^ 63) 10 = false ∧
    toInt64 (2 ^ 63) = -2 ^ 63 ∧
    ((5 : Int) < 10 ∧ (5 : Int) < ((2 ^ 63 : Nat) : Int)) := by
  refine ⟨by decide, by decide, by decide, by decide⟩

/-- C12. The lock `(0 ms, blue score 0)` is active at blue score 1 and median time 1 ms,
and no longer active at the greater blue score `2 ^ 63` and the same median time. -/
theorem SequenceLockActive_not_monotone :
    SequenceLockActive ⟨0, 0⟩ 1 1 = true ∧
    SequenceLockActive ⟨0, 0⟩ (2 ^ 63) 1 = false ∧ 1 ≤ 2 ^ 63 := by
  refine ⟨by decide, by decide, by decide⟩

/-! ## Finality -/

/-- The loop over the inputs yields true iff every sequence number is `MaxUint64`. -/
theorem sequenceMaxedLoop_iff (ins : List TxIn) :
    sequenceMaxedLoop ins = true ↔ ∀ txIn ∈ ins, txIn.Sequence = MaxUint64 := by
  induction ins with
  | nil => simp [sequenceMaxedLoop]
  | cons txIn rest ih =>
    unfold sequenceMaxedLoop
    by_cases h : txIn.Sequence = MaxUint64
    · simp [h, ih]
    · simp [h]

/-- For lock times and blue scores below `2 ^ 63` the function is the rule of the
spec. -/
theorem IsFinalizedTransaction_iff_of_lt (X : Imports) (tx : Tx) (blueScore : Nat)
    (blockTime : Time) (hl : tx.LockTime < 2 ^ 63) (hs : blueScore < 2 ^ 63) :
    IsFinalizedTransaction X tx blueScore blockTime = true ↔
      tx.LockTime = 0 ∨
      (tx.LockTime < X.LockTimeThreshold ∧ tx.LockTime < blueScore) ∨
      (X.LockTimeThreshold ≤ tx.LockTime ∧ (tx.LockTime : Int) < blockTime) ∨
      ∀ txIn ∈ tx.TxIn, txIn.Sequence = MaxUint64 := by
  unfold IsFinalizedTransaction
  simp only [toInt64_of_lt _ hl, toInt64_of_lt _ hs, beq_iff_eq]
  by_cases h0 : tx.LockTime = 0
  · simp [h0]
  · by_cases ht : tx.LockTime < X.LockTimeThreshold
    · have ht' : ¬ X.LockTimeThreshold ≤ tx.LockTime := by omega
      by_cases hb : tx.LockTime < blueScore
      · have : (tx.LockTime : Int) < (blueScore : Int) := by exact_mod_cast hb
        simp [h0, ht, hb, this]
      · have : ¬ (tx.LockTime : Int) < (blueScore : Int) := by
          intro h; exact hb (by exact_mod_cast h)
        simp [h0, ht, ht', hb, this, sequenceMaxedLoop_iff]
    · have ht' : X.LockTimeThreshold ≤ tx.LockTime := by omega
      by_cases hb : (tx.LockTime : Int) < blockTime
      · simp [h0, ht, ht', hb]
      · simp [h0, ht, ht', hb, sequenceMaxedLoop_iff]

/-- C13. A transaction with lock time `2 ^ 63` and an input of sequence 0 is reported
final at blue score 0 and block time 1000 ms, although its lock time is not 0, is at
least the threshold, is not below the block time and its input is not at the maximal
sequence: the conversion `int64(lockTime)` turns the lock time into `-2 ^ 63`. -/
theorem IsFinalizedTransaction_at_two_pow_63 :
    IsFinalizedTransaction sampleImports (sampleLocked (2 ^ 63)) 0 1000 = true ∧
    (sampleLocked (2 ^ 63)).LockTime ≠ 0 ∧
    sampleImports.LockTimeThreshold ≤ (sampleLocked (2 ^ 63)).LockTime ∧
    ¬ (((sampleLocked (2 ^ 63)).LockTime : Int) < 1000) ∧
    ¬ (∀ txIn ∈ (sampleLocked (2 ^ 63)).TxIn, txIn.Sequence = MaxUint64) := by
  refine ⟨by decide, by decide, by decide, by decide, by decide⟩

/-! ## Coinbase maturity -/

/-- The subtraction of unsigned values is the difference when it is not negative. -/
theorem subUint64_of_le (a b : Nat) (hba : b ≤ a) (ha : a < 2 ^ 64) :
    subUint64 a b = a - b := by
  unfold subUint64
  have hb : b % 2 ^ 64 = b := Nat.mod_eq_of_lt (by omega)
  rw [hb]
  have : a + (2 ^ 64 - b) = (a - b) + 2 ^ 64 := by omega
  rw [this, Nat.add_mod_right, Nat.mod_eq_of_lt (by omega)]

/-- For a coinbase entry that is not younger than the spending blue score the function
fails exactly below `origin + maturity`; for any other entry it returns nil. -/
theorem validateCoinbaseMaturity_of_le (dagParams : Params) (entry : UTXOEntry)
    (txBlueScore : Nat) (txIn : TxIn) :
    (entry.IsCoinbase = true → entry.BlockBlueScore ≤ txBlueScore → txBlueScore < 2 ^ 64 →
      (validateCoinbaseMaturity dagParams entry txBlueScore txIn =
          .error (.rule .ErrImmatureSpend) ↔
        txBlueScore < entry.BlockBlueScore + dagParams.BlockCoinbaseMaturity) ∧
      (¬ txBlueScore < entry.BlockBlueScore + dagParams.BlockCoinbaseMaturity →
        validateCoinbaseMaturity dagParams entry txBlueScore txIn = .ok ())) ∧
    (entry.IsCoinbase = false →
      validateCoinbaseMaturity dagParams entry txBlueScore txIn = .ok ()) := by
  unfold validateCoinbaseMaturity
  constructor
  · intro hc hle h64
    simp only [subUint64_of_le _ _ hle h64]
    by_cases hlt : txBlueScore - entry.BlockBlueScore < dagParams.BlockCoinbaseMaturity
    · have : txBlueScore < entry.BlockBlueScore + dagParams.BlockCoinbaseMaturity := by omega
      simp [hc, hlt, this]
    · have : ¬ txBlueScore < entry.BlockBlueScore + dagParams.BlockCoinbaseMaturity := by
        omega
      simp [hc, hlt, this]
  · intro hc
    simp [hc]

/-- C15. With maturity 100, a coinbase entry created at blue score 10 and spent at blue
score 5 is accepted, although `5 < 10 + 100`: the unsigned subtraction `5 - 10` wraps
around to `2 ^ 64 - 5`. At the blue scores 109 and 110 the function fails and
succeeds. -/
theorem validateCoinbaseMaturity_before_origin :
    validateCoinbaseMaturity sampleDAG.Params (sampleCoinbaseEntry 10) 5 ⟨⟨0, 0⟩, [], 0⟩ =
      .ok () ∧
    subUint64 5 10 = 2 ^ 64 - 5 ∧
    5 < 10 + sampleDAG.Params.BlockCoinbaseMaturity ∧
    validateCoinbaseMaturity sampleDAG.Params (sampleCoinbaseEntry 10) 109 ⟨⟨0, 0⟩, [], 0⟩ =
      .error (.rule .ErrImmatureSpend) ∧
    validateCoinbaseMaturity sampleDAG.Params (sampleCoinbaseEntry 10) 110 ⟨⟨0, 0⟩, [], 0⟩ =
      .ok () := by
  refine ⟨rfl, by decide, by decide, rfl, rfl⟩

/-! ## Transaction inputs and fee -/

/-- The second loop of `CheckTransactionInputsAndCalulateFee` adds the output values
when the total fits in 64 bits. -/
theorem totalSompiOutLoop_eq (outs : List TxOut) :
    ∀ acc : Nat, acc + (outs.map (fun txOut => txOut.Value)).sum < 2 ^ 64 →
      totalSompiOutLoop acc outs = acc + (outs.map (fun txOut => txOut.Value)).sum := by
  induction outs with
  | nil => intro acc _; simp [totalSompiOutLoop]
  | cons o rest ih =>
    intro acc h
    simp only [List.map_cons, List.sum_cons] at h
    simp only [totalSompiOutLoop, List.map_cons, List.sum_cons]
    rw [Nat.mod_eq_of_lt (by omega), ih _ (by omega)]
    omega

/-- The function `validateCoinbaseMaturity` returns nil or `ErrImmatureSpend`. -/
theorem validateCoinbaseMaturity_cases (dagParams : Params) (entry : UTXOEntry)
    (txBlueScore : Nat) (txIn : TxIn) :
    validateCoinbaseMaturity dagParams entry txBlueScore txIn = .ok () ∨
    validateCoinbaseMaturity dagParams entry txBlueScore txIn =
      .error (.rule .ErrImmatureSpend) := by
  unfold validateCoinbaseMaturity
  by_cases hc : entry.IsCoinbase = true
  · by_cases hl : subUint64 txBlueScore entry.BlockBlueScore < dagParams.BlockCoinbaseMaturity
    · simp [hc, hl]
    · simp [hc, hl]
  · simp [hc]

/-- The amounts of a list of inputs that all pass are those of their entries. -/
theorem inputAmounts_cons (utxoSet : UTXOSet) (txIn : TxIn) (rest : List TxIn)
    (entry : UTXOEntry) (h : utxoSet txIn.PreviousOutpoint = some entry) :
    inputAmounts utxoSet (txIn :: rest) = entry.Amount :: inputAmounts utxoSet rest := by
  simp [inputAmounts, List.filterMap_cons, h]

/-- The first loop of `CheckTransactionInputsAndCalulateFee`, from an accumulator
within `MaxSompi`: it returns the exact total of the amounts iff every input passes its
checks and the total is within `MaxSompi`, and never fails with `ErrSpendTooHigh`. -/
theorem totalSompiInLoop_spec (X : Imports) (txBlueScore : Nat) (utxoSet : UTXOSet)
    (dagParams : Params) (fastAdd : Bool) (hmax : X.MaxSompi < 2 ^ 64) :
    ∀ (ins : List TxIn) (acc : Nat), acc ≤ X.MaxSompi →
      (((∀ txIn ∈ ins, InputPasses X txBlueScore utxoSet dagParams fastAdd txIn) ∧
          acc + (inputAmounts utxoSet ins).sum ≤ X.MaxSompi) →
        totalSompiInLoop X txBlueScore utxoSet dagParams fastAdd acc ins =
          .ok (acc + (inputAmounts utxoSet ins).sum)) ∧
      (¬ ((∀ txIn ∈ ins, InputPasses X txBlueScore utxoSet dagParams fastAdd txIn) ∧
          acc + (inputAmounts utxoSet ins).sum ≤ X.MaxSompi) →
        ∃ err, totalSompiInLoop X txBlueScore utxoSet dagParams fastAdd acc ins =
          .error err ∧ err ≠ .rule .ErrSpendTooHigh) := by
  intro ins
  induction ins with
  | nil =>
    intro acc hacc
    refine ⟨fun _ => by simp [totalSompiInLoop, inputAmounts], fun hn => ?_⟩
    exact absurd ⟨fun t ht => by simp at ht, by simpa [inputAmounts] using hacc⟩ hn
  | cons txIn rest ih =>
    intro acc hacc
    unfold totalSompiInLoop
    cases he : utxoSet txIn.PreviousOutpoint with
    | none =>
      refine ⟨fun hP => ?_, fun _ => ⟨_, rfl, by simp⟩⟩
      obtain ⟨entry, hentry, _⟩ := hP.1 txIn (by simp)
      rw [he] at hentry
      cases hentry
    | some entry =>
      have hamounts := inputAmounts_cons utxoSet txIn rest entry he
      have hpass : InputPasses X txBlueScore utxoSet dagParams fastAdd txIn ↔
          ((fastAdd = false →
            validateCoinbaseMaturity dagParams entry txBlueScore txIn = .ok ()) ∧
            entry.Amount ≤ X.MaxSompi) := by
        unfold InputPasses
        constructor
        · rintro ⟨e, h1, h2⟩
          rw [he] at h1
          cases h1
          exact h2
        · intro h
          exact ⟨entry, he, h⟩
      have hsplit : ((∀ t ∈ txIn :: rest, InputPasses X txBlueScore utxoSet dagParams fastAdd t) ∧
            acc + (inputAmounts utxoSet (txIn :: rest)).sum ≤ X.MaxSompi) ↔
          (((fastAdd = false →
            validateCoinbaseMaturity dagParams entry txBlueScore txIn = .ok ()) ∧
            entry.Amount ≤ X.MaxSompi) ∧
           ((∀ t ∈ rest, InputPasses X txBlueScore utxoSet dagParams fastAdd t) ∧
            (acc + entry.Amount) + (inputAmounts utxoSet rest).sum ≤ X.MaxSompi)) := by
        rw [hamounts, List.sum_cons, List.forall_mem_cons, hpass, Nat.add_assoc]
        tauto
      rw [hsplit, hamounts, List.sum_cons, ← Nat.add_assoc]
      have hcont :
          ((entry.Amount ≤ X.MaxSompi ∧
              (∀ t ∈ rest, InputPasses X txBlueScore utxoSet dagParams fastAdd t) ∧
              acc + entry.Amount + (inputAmounts utxoSet rest).sum ≤ X.MaxSompi) →
            (if entry.Amount > X.MaxSompi then
                (Except.error (Fault.rule ErrorCode.ErrBadTxOutValue) : Except Fault Nat)
              else if (decide ((acc + entry.Amount) % 2 ^ 64 < acc) ||
                  decide ((acc + entry.Amount) % 2 ^ 64 > X.MaxSompi)) = true then
                Except.error (Fault.rule ErrorCode.ErrBadTxOutValue)
              else totalSompiInLoop X txBlueScore utxoSet dagParams fastAdd
                ((acc + entry.Amount) % 2 ^ 64) rest) =
              .ok (acc + entry.Amount + (inputAmounts utxoSet rest).sum)) ∧
          (¬ (entry.Amount ≤ X.MaxSompi ∧
              (∀ t ∈ rest, InputPasses X txBlueScore utxoSet dagParams fastAdd t) ∧
              acc + entry.Amount + (inputAmounts utxoSet rest).sum ≤ X.MaxSompi) →
            ∃ err, (if entry.Amount > X.MaxSompi then
                (Except.error (Fault.rule ErrorCode.ErrBadTxOutValue) : Except Fault Nat)
              else if (decide ((acc + entry.Amount) % 2 ^ 64 < acc) ||
                  decide ((acc + entry.Amount) % 2 ^ 64 > X.MaxSompi)) = true then
                Except.error (Fault.rule ErrorCode.ErrBadTxOutValue)
              else totalSompiInLoop X txBlueScore utxoSet dagParams fastAdd
                ((acc + entry.Amount) % 2 ^ 64) rest) = .error err ∧
              err ≠ .rule .ErrSpendTooHigh) := by
        by_cases ha : entry.Amount > X.MaxSompi
        · simp only [ha, if_true]
          exact ⟨fun hP => absurd hP.1 (by omega), fun _ => ⟨_, rfl, by simp⟩⟩
        · simp only [ha, if_false]
          by_cases hle : acc + entry.Amount ≤ X.MaxSompi
          · have hmod : (acc + entry.Amount) % 2 ^ 64 = acc + entry.Amount :=
              Nat.mod_eq_of_lt (by omega)
            have hcond : ¬ ((decide ((acc + entry.Amount) % 2 ^ 64 < acc) ||
                decide ((acc + entry.Amount) % 2 ^ 64 > X.MaxSompi)) = true) := by
              rw [hmod]
              simp
              omega
            simp only [hcond, if_false]
            rw [hmod]
            have ih' := ih (acc + entry.Amount) hle
            constructor
            · intro hP
              exact ih'.1 hP.2
            · intro hn
              exact ih'.2 (fun h => hn ⟨by omega, h⟩)
          · have hcond : ((decide ((acc + entry.Amount) % 2 ^ 64 < acc) ||
                decide ((acc + entry.Amount) % 2 ^ 64 > X.MaxSompi)) = true) := by
              simp only [Bool.or_eq_true, decide_eq_true_eq]
              by_cases hw : acc + entry.Amount < 2 ^ 64
              · right
                rw [Nat.mod_eq_of_lt hw]
                omega
              · left
                have : (acc + entry.Amount) % 2 ^ 64 = acc + entry.Amount - 2 ^ 64 := by
                  rw [Nat.mod_eq_sub_mod (by omega), Nat.mod_eq_of_lt (by omega)]
                omega
            simp only [hcond, if_true]
            exact ⟨fun hP => absurd hP.2.2 (by omega), fun _ => ⟨_, rfl, by simp⟩⟩
      cases hf : fastAdd with
      | true =>
        subst hf
        simp only [bind, Except.bind, pure, Except.pure, throw, throwThe, MonadExceptOf.throw,
          Bool.not_true, Bool.false_eq_true, if_false]
        constructor
        · intro hP
          exact hcont.1 ⟨hP.1.2, hP.2⟩
        · intro hn
          exact hcont.2 (fun h => hn ⟨⟨fun hc => (by cases hc), h.1⟩, h.2⟩)
      | false =>
        subst hf
        rcases validateCoinbaseMaturity_cases dagParams entry txBlueScore txIn with hv | hv
        · simp only [bind, Except.bind, pure, Except.pure, throw, throwThe,
            MonadExceptOf.throw, Bool.not_false, if_true, hv]
          constructor
          · intro hP
            exact hcont.1 ⟨hP.1.2, hP.2⟩
          · intro hn
            exact hcont.2 (fun h => hn ⟨⟨fun _ => trivial, h.1⟩, h.2⟩)
        · simp only [bind, Except.bind, pure, Except.pure, throw, throwThe,
            MonadExceptOf.throw, Bool.not_false, if_true, hv]
          refine ⟨fun hP => ?_, fun _ => ⟨_, rfl, by simp⟩⟩
          have := hP.1.1 trivial
          cases this

/-- C14, amended. For a non-coinbase transaction whose output values sum to at most
`MaxSompi`: if `CheckTransactionInputsAndCalulateFee` succeeds then every input is in
the UTXO set, the sum of the referenced amounts is at least the sum of the output
values, and the fee is exactly the difference; it fails with `ErrSpendTooHigh` iff
every input resolves, passes the coinbase-maturity check (made unless `fastAdd` is
set) and the value checks, the input sum is at most `MaxSompi`, and the input sum is
smaller than the output sum. For a coinbase transaction it returns `(0, nil)`. The
constant `MaxSompi` is an unsigned 64-bit value. -/
theorem CheckTransactionInputsAndCalulateFee_spec (X : Imports) (tx : Tx)
    (txBlueScore : Nat) (utxoSet : UTXOSet) (dagParams : Params) (fastAdd : Bool)
    (hmax : X.MaxSompi < 2 ^ 64)
    (hout : (tx.TxOut.map (fun txOut => txOut.Value)).sum ≤ X.MaxSompi) :
    (X.IsCoinBase tx = false →
      (∀ fee, CheckTransactionInputsAndCalulateFee X tx txBlueScore utxoSet dagParams
            fastAdd = .ok fee →
        (∀ txIn ∈ tx.TxIn, (utxoSet txIn.PreviousOutpoint).isSome = true) ∧
        (tx.TxOut.map (fun txOut => txOut.Value)).sum ≤ (inputAmounts utxoSet tx.TxIn).sum ∧
        fee = (inputAmounts utxoSet tx.TxIn).sum -
          (tx.TxOut.map (fun txOut => txOut.Value)).sum) ∧
      (CheckTransactionInputsAndCalulateFee X tx txBlueScore utxoSet dagParams fastAdd =
          .error (.rule .ErrSpendTooHigh) ↔
        (∀ txIn ∈ tx.TxIn, InputPasses X txBlueScore utxoSet dagParams fastAdd txIn) ∧
        (inputAmounts utxoSet tx.TxIn).sum ≤ X.MaxSompi ∧
        (inputAmounts utxoSet tx.TxIn).sum <
          (tx.TxOut.map (fun txOut => txOut.Value)).sum)) ∧
    (X.IsCoinBase tx = true →
      CheckTransactionInputsAndCalulateFee X tx txBlueScore utxoSet dagParams fastAdd =
        .ok 0) := by
  constructor
  · intro hcb
    have hloop := totalSompiInLoop_spec X txBlueScore utxoSet dagParams fastAdd hmax
      tx.TxIn 0 (Nat.zero_le _)
    simp only [Nat.zero_add] at hloop
    have hsum := totalSompiOutLoop_eq tx.TxOut 0 (by omega)
    simp only [Nat.zero_add] at hsum
    unfold CheckTransactionInputsAndCalulateFee
    simp only [hcb, Bool.false_eq_true, if_false, bind, Except.bind, pure, Except.pure,
      throw, throwThe, MonadExceptOf.throw, hsum]
    by_cases hP : (∀ txIn ∈ tx.TxIn, InputPasses X txBlueScore utxoSet dagParams fastAdd txIn) ∧
        (inputAmounts utxoSet tx.TxIn).sum ≤ X.MaxSompi
    · rw [hloop.1 hP]
      dsimp only
      have hres : ∀ txIn ∈ tx.TxIn, (utxoSet txIn.PreviousOutpoint).isSome = true := by
        intro txIn hin
        obtain ⟨entry, he, _⟩ := hP.1 txIn hin
        rw [he]
        rfl
      by_cases hlt : (inputAmounts utxoSet tx.TxIn).sum <
          (tx.TxOut.map (fun txOut => txOut.Value)).sum
      · rw [if_pos hlt]
        exact ⟨fun fee h => (by cases h), fun _ => ⟨hP.1, hP.2, hlt⟩, fun _ => rfl⟩
      · rw [if_neg hlt]
        refine ⟨fun fee h => ?_, fun h => (by cases h), fun h => absurd h.2.2 hlt⟩
        cases h
        exact ⟨hres, by omega, rfl⟩
    · obtain ⟨err, herr, hne⟩ := hloop.2 hP
      rw [herr]
      dsimp only
      refine ⟨fun fee h => (by cases h), fun h => ?_, fun h => absurd ⟨h.1, h.2.1⟩ hP⟩
      cases h
      exact absurd rfl hne
  · intro hcb
    unfold CheckTransactionInputsAndCalulateFee
    simp only [hcb, if_true, pure, Except.pure, bind, Except.bind]

/-- Counterexample to C14 as stated: with `fastAdd` unset, a transaction whose only
input references an immature coinbase entry of 5 sompi and whose outputs sum to 30
sompi fails with `ErrImmatureSpend`, not `ErrSpendTooHigh`, although its input
resolves and passes the value checks and its input sum is below its output sum. -/
theorem CheckTransactionInputsAndCalulateFee_counterexample :
    sampleImports.IsCoinBase (sampleSpend 1 [⟨7, 0⟩]) = false ∧
    sampleCoinbaseUTXO ⟨7, 0⟩ = some (sampleCoinbaseEntry 10) ∧
    (sampleCoinbaseEntry 10).Amount ≤ sampleImports.MaxSompi ∧
    (inputAmounts sampleCoinbaseUTXO (sampleSpend 1 [⟨7, 0⟩]).TxIn).sum = 5 ∧
    ((sampleSpend 1 [⟨7, 0⟩]).TxOut.map (fun txOut => txOut.Value)).sum = 30 ∧
    CheckTransactionInputsAndCalulateFee sampleImports (sampleSpend 1 [⟨7, 0⟩]) 50
      sampleCoinbaseUTXO sampleDAG.Params false = .error (.rule .ErrImmatureSpend) :=
  ⟨rfl, rfl, by decide, rfl, rfl, rfl⟩

/-- Witness of C14, amended: the same transaction with `fastAdd` set fails with
`ErrSpendTooHigh`, and a transaction spending 100 sompi into outputs of 30 sompi pays
the fee 70. -/
theorem CheckTransactionInputsAndCalulateFee_spec_witness :
    CheckTransactionInputsAndCalulateFee sampleImports (sampleSpend 1 [⟨7, 0⟩]) 50
      sampleCoinbaseUTXO sampleDAG.Params true = .error (.rule .ErrSpendTooHigh) ∧
    (inputAmounts sampleCoinbaseUTXO (sampleSpend 1 [⟨5, 0⟩]).TxIn).sum -
      ((sampleSpend 1 [⟨5, 0⟩]).TxOut.map (fun txOut => txOut.Value)).sum = 70 :=
  ⟨((CheckTransactionInputsAndCalulateFee_spec sampleImports (sampleSpend 1 [⟨7, 0⟩]) 50
      sampleCoinbaseUTXO sampleDAG.Params true (by decide) (by decide)).1 rfl).2.mpr
      ⟨fun txIn h => by
          have h7 : txIn = ⟨⟨7, 0⟩, [1, 2], 0⟩ := by simpa [sampleSpend] using h
          subst h7
          exact ⟨sampleCoinbaseEntry 10, rfl, fun hc => (by cases hc), by decide⟩,
        by decide, by decide⟩,
    ((((CheckTransactionInputsAndCalulateFee_spec sampleImports (sampleSpend 1 [⟨5, 0⟩]) 50
      sampleCoinbaseUTXO sampleDAG.Params false (by decide) (by decide)).1 rfl).1 70 rfl).2.2).symm⟩

/-! ## Duplicate transactions -/

/-- The second loop of `ensureNoDuplicateTx` fails iff one of the keys is in the UTXO
set. -/
theorem overwriteLoop_spec (utxoSet : UTXOSet) (keys : List Outpoint) :
    ((∃ o ∈ keys, (utxoSet o).isSome = true) →
      overwriteLoop utxoSet keys = .error (.rule .ErrOverwriteTx)) ∧
    (¬ (∃ o ∈ keys, (utxoSet o).isSome = true) → overwriteLoop utxoSet keys = .ok ()) := by
  induction keys with
  | nil => exact ⟨fun ⟨o, ho, _⟩ => by simp at ho, fun _ => rfl⟩
  | cons k rest ih =>
    unfold overwriteLoop
    cases hk : utxoSet k with
    | some entry =>
      exact ⟨fun _ => rfl, fun hn => absurd ⟨k, by simp, by rw [hk]; rfl⟩ hn⟩
    | none =>
      constructor
      · rintro ⟨o, ho, hs⟩
        rcases List.mem_cons.mp ho with h | h
        · subst h
          rw [hk] at hs
          cases hs
        · exact ih.1 ⟨o, h, hs⟩
      · intro hn
        exact ih.2 (fun ⟨o, ho, hs⟩ => hn ⟨o, List.mem_cons_of_mem _ ho, hs⟩)

/-- The result of the second loop of `ensureNoDuplicateTx` does not depend on the order
in which the keys are visited. -/
theorem overwriteLoop_perm (utxoSet : UTXOSet) (keys keys' : List Outpoint)
    (hperm : keys.Perm keys') :
    overwriteLoop utxoSet keys = overwriteLoop utxoSet keys' := by
  by_cases h : ∃ o ∈ keys, (utxoSet o).isSome = true
  · have h' : ∃ o ∈ keys', (utxoSet o).isSome = true := by
      obtain ⟨o, ho, hs⟩ := h
      exact ⟨o, hperm.mem_iff.mp ho, hs⟩
    rw [(overwriteLoop_spec utxoSet keys).1 h, (overwriteLoop_spec utxoSet keys').1 h']
  · have h' : ¬ ∃ o ∈ keys', (utxoSet o).isSome = true := by
      rintro ⟨o, ho, hs⟩
      exact h ⟨o, hperm.mem_iff.mpr ho, hs⟩
    rw [(overwriteLoop_spec utxoSet keys).2 h, (overwriteLoop_spec utxoSet keys').2 h']

/-- The keys the inner loop of `ensureNoDuplicateTx` adds are the outpoints of the
outputs, with their indices converted to 32 bits. -/
theorem mem_fetchSetOutputs (txID : TxID) (o : Outpoint) :
    ∀ (outs : List TxOut) (fetchSet : List Outpoint) (idx : Nat),
      o ∈ fetchSetOutputs txID fetchSet idx outs ↔
        o ∈ fetchSet ∨ ∃ j, j < outs.length ∧ o = ⟨txID, (idx + j) % 2 ^ 32⟩ := by
  intro outs
  induction outs with
  | nil => intro fetchSet idx; simp [fetchSetOutputs]
  | cons out rest ih =>
    intro fetchSet idx
    unfold fetchSetOutputs
    rw [ih, List.mem_insert_iff]
    constructor
    · rintro ((h | h) | ⟨j, hj, h⟩)
      · exact Or.inr ⟨0, by simp, by simpa using h⟩
      · exact Or.inl h
      · exact Or.inr ⟨j + 1, by simpa using hj, by rw [h]; congr 2; omega⟩
    · rintro (h | ⟨j, hj, h⟩)
      · exact Or.inl (Or.inr h)
      · cases j with
        | zero => exact Or.inl (Or.inl (by simpa using h))
        | succ j =>
          exact Or.inr ⟨j, by simpa using hj, by rw [h]; congr 2; omega⟩

/-- The keys the first loop of `ensureNoDuplicateTx` adds are the outpoints of the
outputs of the transactions, with their indices converted to 32 bits. -/
theorem mem_fetchSetLoop (X : Imports) (o : Outpoint) :
    ∀ (txs : List Tx) (fetchSet : List Outpoint),
      o ∈ fetchSetLoop X fetchSet txs ↔
        o ∈ fetchSet ∨ ∃ tx ∈ txs, ∃ i, i < tx.TxOut.length ∧ o = ⟨X.ID tx, i % 2 ^ 32⟩ := by
  intro txs
  induction txs with
  | nil => intro fetchSet; simp [fetchSetLoop]
  | cons tx rest ih =>
    intro fetchSet
    unfold fetchSetLoop
    rw [ih, mem_fetchSetOutputs]
    simp only [Nat.zero_add, List.mem_cons, exists_eq_or_imp]
    rw [or_assoc]

/-- C16. For a UTXO set whose outpoints have 32-bit indices, `ensureNoDuplicateTx`
returns `ErrOverwriteTx` iff some transaction `tx` of the list has an output index
`i` such that the outpoint `(tx.ID, i)` is in the UTXO set, and nil otherwise; a list
of transactions without outputs is always accepted. -/
theorem ensureNoDuplicateTx_spec (X : Imports) (utxoSet : UTXOSet) (transactions : List Tx)
    (hindex : ∀ o : Outpoint, (utxoSet o).isSome = true → o.Index < 2 ^ 32) :
    (ensureNoDuplicateTx X utxoSet transactions = .error (.rule .ErrOverwriteTx) ↔
      ∃ tx ∈ transactions, ∃ i, i < tx.TxOut.length ∧
        (utxoSet ⟨X.ID tx, i⟩).isSome = true) ∧
    (¬ (∃ tx ∈ transactions, ∃ i, i < tx.TxOut.length ∧
        (utxoSet ⟨X.ID tx, i⟩).isSome = true) →
      ensureNoDuplicateTx X utxoSet transactions = .ok ()) ∧
    ((∀ tx ∈ transactions, tx.TxOut = []) →
      ensureNoDuplicateTx X utxoSet transactions = .ok ()) := by
  have hiff : (∃ o ∈ fetchSetLoop X [] transactions, (utxoSet o).isSome = true) ↔
      ∃ tx ∈ transactions, ∃ i, i < tx.TxOut.length ∧
        (utxoSet ⟨X.ID tx, i⟩).isSome = true := by
    constructor
    · rintro ⟨o, ho, hs⟩
      rcases (mem_fetchSetLoop X o transactions []).mp ho with h | ⟨tx, htx, i, hi, rfl⟩
      · simp at h
      · refine ⟨tx, htx, i % 2 ^ 32, ?_, hs⟩
        exact lt_of_le_of_lt (Nat.mod_le _ _) hi
    · rintro ⟨tx, htx, i, hi, hs⟩
      have h32 : i < 2 ^ 32 := hindex ⟨X.ID tx, i⟩ hs
      refine ⟨⟨X.ID tx, i⟩, ?_, hs⟩
      apply (mem_fetchSetLoop X _ transactions []).mpr
      exact Or.inr ⟨tx, htx, i, hi, by rw [Nat.mod_eq_of_lt h32]⟩
  have hloop := overwriteLoop_spec utxoSet (fetchSetLoop X [] transactions)
  rw [hiff] at hloop
  unfold ensureNoDuplicateTx
  refine ⟨⟨fun h => ?_, hloop.1⟩, hloop.2, fun hempty => hloop.2 ?_⟩
  · by_contra hn
    rw [hloop.2 hn] at h
    cases h
  · rintro ⟨tx, htx, i, hi, _⟩
    rw [hempty tx htx] at hi
    simp at hi

/-- Witness of C16: the sample UTXO set holds four outputs of transaction 5; a
transaction with ID 5 and two outputs is rejected, one with ID 1 is accepted. -/
theorem ensureNoDuplicateTx_spec_witness :
    ensureNoDuplicateTx sampleImports sampleIndexedUTXO [sampleSpend 5 []] =
      .error (.rule .ErrOverwriteTx) ∧
    ensureNoDuplicateTx sampleImports sampleIndexedUTXO [sampleSpend 1 []] = .ok () :=
  ⟨(ensureNoDuplicateTx_spec sampleImports sampleIndexedUTXO [sampleSpend 5 []]
      (fun o h => by
        unfold sampleIndexedUTXO at h
        by_cases hc : o.TxID = 5 ∧ o.Index < 4
        · omega
        · simp [hc] at h)).1.mpr ⟨sampleSpend 5 [], by simp, 0, by decide, rfl⟩,
    rfl⟩

/-! ## Parents -/

/-- The inner loop of `validateParents`, when the reachability query does not fail:
it returns nil iff `parentA` is in the past of no other parent of the list, and
`ErrInvalidParentsRelation` otherwise. -/
theorem validateParentsInner_spec (isInPast : BlockNode → BlockNode → Except Fault Bool)
    (parentA : BlockNode) :
    ∀ others : List BlockNode,
      (∀ b ∈ others, parentA ≠ b → ∃ r, isInPast parentA b = .ok r) →
      ((∀ b ∈ others, parentA ≠ b → isInPast parentA b = .ok false) →
        validateParentsInner isInPast parentA others = .ok ()) ∧
      (¬ (∀ b ∈ others, parentA ≠ b → isInPast parentA b = .ok false) →
        validateParentsInner isInPast parentA others =
          .error (.rule .ErrInvalidParentsRelation)) := by
  intro others
  induction others with
  | nil =>
    intro _
    exact ⟨fun _ => rfl, fun hn => absurd (fun b hb => by simp at hb) hn⟩
  | cons b rest ih =>
    intro hq
    have ih' := ih (fun c hc => hq c (List.mem_cons_of_mem _ hc))
    unfold validateParentsInner
    by_cases hab : parentA = b
    · subst hab
      simp only [beq_self_eq_true, if_true]
      constructor
      · intro hall
        exact ih'.1 (fun c hc => hall c (List.mem_cons_of_mem _ hc))
      · intro hn
        apply ih'.2
        intro hall
        apply hn
        intro c hc hne
        rcases List.mem_cons.mp hc with h | h
        · exact absurd h.symm hne
        · exact hall c h hne
    · have hbeq : (parentA == b) = false := by simpa using hab
      obtain ⟨r, hr⟩ := hq b (by simp) hab
      simp only [hbeq, Bool.false_eq_true, if_false, hr]
      cases r with
      | true =>
        simp only [if_true]
        refine ⟨fun hall => ?_, fun _ => trivial⟩
        have := hall b (by simp) hab
        rw [hr] at this
        cases this
      | false =>
        simp only [Bool.false_eq_true, if_false]
        constructor
        · intro hall
          exact ih'.1 (fun c hc => hall c (List.mem_cons_of_mem _ hc))
        · intro hn
          apply ih'.2
          intro hall
          apply hn
          intro c hc hne
          rcases List.mem_cons.mp hc with h | h
          · subst h
            exact hr
          · exact hall c h hne

/-- The outer loop of `validateParents` over the parents still to visit, each inner
loop ranging over the set `parents`: nil iff none of them is finalized or in the past
of another parent; `ErrFinality` only if one of them is finalized;
`ErrInvalidParentsRelation` only if one of them is in the past of another parent. -/
theorem validateParentsLoop_spec (IsFinalized : BlockNode → Bool)
    (isInPast : BlockNode → BlockNode → Except Fault Bool)
    (inner : BlockNode → List BlockNode) (parents : List BlockNode) :
    ∀ todo : List BlockNode,
      (∀ a ∈ todo, ∀ b, b ∈ inner a ↔ b ∈ parents) →
      (∀ a ∈ todo, ∀ b ∈ parents, a ≠ b → ∃ r, isInPast a b = .ok r) →
      (validateParentsLoop IsFinalized isInPast inner todo = .ok () ↔
        (∀ a ∈ todo, IsFinalized a = false) ∧
        (∀ a ∈ todo, ∀ b ∈ parents, a ≠ b → isInPast a b = .ok false)) ∧
      (validateParentsLoop IsFinalized isInPast inner todo = .ok () ∨
        validateParentsLoop IsFinalized isInPast inner todo = .error (.rule .ErrFinality) ∨
        validateParentsLoop IsFinalized isInPast inner todo =
          .error (.rule .ErrInvalidParentsRelation)) ∧
      (validateParentsLoop IsFinalized isInPast inner todo = .error (.rule .ErrFinality) →
        ∃ a ∈ todo, IsFinalized a = true) ∧
      (validateParentsLoop IsFinalized isInPast inner todo =
          .error (.rule .ErrInvalidParentsRelation) →
        ∃ a ∈ todo, ∃ b ∈ parents, a ≠ b ∧ isInPast a b = .ok true) := by
  intro todo
  induction todo with
  | nil =>
    intro _ _
    refine ⟨⟨fun _ => ⟨fun a h => by simp at h, fun a h => by simp at h⟩, fun _ => rfl⟩,
      Or.inl rfl, fun h => (by cases h), fun h => (by cases h)⟩
  | cons a rest ih =>
    intro hinner hq
    obtain ⟨ih1, ih2, ih3, ih4⟩ := ih (fun c hc => hinner c (List.mem_cons_of_mem _ hc))
      (fun c hc => hq c (List.mem_cons_of_mem _ hc))
    have hin := validateParentsInner_spec isInPast a (inner a)
      (fun b hb hne => hq a (by simp) b ((hinner a (by simp) b).mp hb) hne)
    unfold validateParentsLoop
    cases hf : IsFinalized a with
    | true =>
      rw [if_pos rfl]
      refine ⟨⟨fun h => (by cases h), fun h => ?_⟩, Or.inr (Or.inl rfl),
        fun _ => ⟨a, by simp, hf⟩, fun h => (by cases h)⟩
      have := h.1 a (by simp)
      rw [hf] at this
      cases this
    | false =>
      simp only [Bool.false_eq_true, if_false, bind, Except.bind]
      by_cases hok : ∀ b ∈ inner a, a ≠ b → isInPast a b = .ok false
      · rw [hin.1 hok]
        dsimp only
        have hok' : ∀ b ∈ parents, a ≠ b → isInPast a b = .ok false :=
          fun b hb hne => hok b ((hinner a (by simp) b).mpr hb) hne
        refine ⟨?_, ih2, ?_, ?_⟩
        · rw [ih1]
          constructor
          · rintro ⟨h1, h2⟩
            refine ⟨fun c hc => ?_, fun c hc => ?_⟩
            · rcases List.mem_cons.mp hc with h | h
              · rw [h]; exact hf
              · exact h1 c h
            · rcases List.mem_cons.mp hc with h | h
              · rw [h]; exact hok'
              · exact h2 c h
          · rintro ⟨h1, h2⟩
            exact ⟨fun c hc => h1 c (List.mem_cons_of_mem _ hc),
              fun c hc => h2 c (List.mem_cons_of_mem _ hc)⟩
        · intro h
          obtain ⟨c, hc, hcf⟩ := ih3 h
          exact ⟨c, List.mem_cons_of_mem _ hc, hcf⟩
        · intro h
          obtain ⟨c, hc, hcb⟩ := ih4 h
          exact ⟨c, List.mem_cons_of_mem _ hc, hcb⟩
      · rw [hin.2 hok]
        dsimp only
        have hex : ∃ b ∈ parents, a ≠ b ∧ isInPast a b = .ok true := by
          by_contra hno
          apply hok
          intro b hb hne
          have hbp : b ∈ parents := (hinner a (by simp) b).mp hb
          obtain ⟨r, hr⟩ := hq a (by simp) b hbp hne
          cases r with
          | false => exact hr
          | true => exact absurd ⟨b, hbp, hne, hr⟩ hno
        refine ⟨⟨fun h => (by cases h), fun h => ?_⟩, Or.inr (Or.inr rfl),
          fun h => (by cases h), fun _ => ⟨a, by simp, hex⟩⟩
        obtain ⟨b, hb, hne, hr⟩ := hex
        have := h.2 a (by simp) b hb hne
        rw [hr] at this
        cases this

/-- C17. For a parent set on which the reachability query does not fail, whatever the
orders in which the two loops visit it: `validateParents` returns nil iff no parent is
finalized and no parent is in the past of another parent; otherwise it returns
`ErrFinality` or `ErrInvalidParentsRelation`, it is `ErrFinality` when a finalized
parent is the only violation and `ErrInvalidParentsRelation` when an ancestor pair is
the only violation. -/
theorem validateParents_spec (IsFinalized : BlockNode → Bool)
    (isInPast : BlockNode → BlockNode → Except Fault Bool)
    (outer : List BlockNode) (inner : BlockNode → List BlockNode)
    (hinner : ∀ a ∈ outer, ∀ b, b ∈ inner a ↔ b ∈ outer)
    (hquery : ∀ a ∈ outer, ∀ b ∈ outer, a ≠ b → ∃ r, isInPast a b = .ok r) :
    (validateParents IsFinalized isInPast outer inner = .ok () ↔
      (∀ a ∈ outer, IsFinalized a = false) ∧
      (∀ a ∈ outer, ∀ b ∈ outer, a ≠ b → isInPast a b = .ok false)) ∧
    (validateParents IsFinalized isInPast outer inner = .ok () ∨
      validateParents IsFinalized isInPast outer inner = .error (.rule .ErrFinality) ∨
      validateParents IsFinalized isInPast outer inner =
        .error (.rule .ErrInvalidParentsRelation)) ∧
    ((∃ a ∈ outer, IsFinalized a = true) →
      (∀ a ∈ outer, ∀ b ∈ outer, a ≠ b → isInPast a b = .ok false) →
      validateParents IsFinalized isInPast outer inner = .error (.rule .ErrFinality)) ∧
    ((∀ a ∈ outer, IsFinalized a = false) →
      (∃ a ∈ outer, ∃ b ∈ outer, a ≠ b ∧ isInPast a b = .ok true) →
      validateParents IsFinalized isInPast outer inner =
        .error (.rule .ErrInvalidParentsRelation)) := by
  obtain ⟨h1, h2, h3, h4⟩ :=
    validateParentsLoop_spec IsFinalized isInPast inner outer outer hinner hquery
  unfold validateParents
  refine ⟨h1, h2, ?_, ?_⟩
  · rintro ⟨a, ha, hfa⟩ hno
    rcases h2 with h | h | h
    · have := (h1.mp h).1 a ha
      rw [hfa] at this
      cases this
    · exact h
    · obtain ⟨c, hc, b, hb, hne, hr⟩ := h4 h
      have := hno c hc b hb hne
      rw [hr] at this
      cases this
  · rintro hnf ⟨a, ha, b, hb, hne, hr⟩
    rcases h2 with h | h | h
    · have := (h1.mp h).2 a ha b hb hne
      rw [hr] at this
      cases this
    · obtain ⟨c, hc, hcf⟩ := h3 h
      have := hnf c hc
      rw [hcf] at this
      cases this
    · exact h

/-- Witness of C17: of the parents 1, 3 and 4, visited in two different orders, 3 is in
the past of 4 and none is finalized. -/
theorem validateParents_spec_witness :
    validateParents (fun n => n == 9) (fun a b => .ok (a + 1 == b)) [1, 3, 4]
      (fun _ => [4, 3, 1]) = .error (.rule .ErrInvalidParentsRelation) :=
  (validateParents_spec (fun n => n == 9) (fun a b => .ok (a + 1 == b)) [1, 3, 4]
    (fun _ => [4, 3, 1])
    (fun a _ b => by simp only [List.mem_cons, List.mem_singleton, List.not_mem_nil]; tauto)
    (fun a _ b _ _ => ⟨_, rfl⟩)).2.2.2 (by decide) ⟨3, by simp, 4, by simp, by decide, rfl⟩

/-! ## Resolving the status of a block -/

theorem getUnverifiedChainBlocksLoop_of_chain (csm : ConsensusStateManager) (s : Staging) :
    ∀ (L : List Hash) (h : Hash) (fuel : Nat) (acc : List Hash),
      IsUnverifiedChain csm s h L → L.length < fuel →
      getUnverifiedChainBlocksLoop csm s fuel acc h = some (.ok (acc ++ L)) := by
  intro L
  induction L with
  | nil =>
    intro h fuel acc hc hf
    obtain ⟨status, hg, hne⟩ := hc
    obtain ⟨f, rfl⟩ : ∃ f, fuel = f + 1 := ⟨fuel - 1, by simp at hf; omega⟩
    simp [getUnverifiedChainBlocksLoop, hg, hne]
  | cons b rest ih =>
    intro h fuel acc hc hf
    obtain ⟨rfl, hg, data, hd, hm⟩ := hc
    obtain ⟨f, rfl⟩ : ∃ f, fuel = f + 1 := ⟨fuel - 1, by simp at hf; omega⟩
    cases hsp : data.SelectedParent with
    | none =>
      rw [hsp] at hm
      simp only at hm
      subst hm
      simp [getUnverifiedChainBlocksLoop, hg, hd, hsp]
    | some p =>
      rw [hsp] at hm
      simp only at hm
      have hlen : rest.length < f := by simp at hf; omega
      have := ih p f (acc ++ [b]) hm hlen
      simp [getUnverifiedChainBlocksLoop, hg, hd, hsp, this]

theorem chain_of_getUnverifiedChainBlocksLoop (csm : ConsensusStateManager) (s : Staging) :
    ∀ (fuel : Nat) (acc : List Hash) (h : Hash) (R : List Hash),
      getUnverifiedChainBlocksLoop csm s fuel acc h = some (.ok R) →
      ∃ L, R = acc ++ L ∧ IsUnverifiedChain csm s h L := by
  intro fuel
  induction fuel with
  | zero => intro acc h R hr; simp [getUnverifiedChainBlocksLoop] at hr
  | succ f ih =>
    intro acc h R hr
    unfold getUnverifiedChainBlocksLoop at hr
    cases hg : blockStatusStoreGet csm s h with
    | error err => rw [hg] at hr; simp at hr
    | ok status =>
      rw [hg] at hr
      dsimp only at hr
      by_cases hst : status = .StatusUTXOPendingVerification
      · subst hst
        simp only [bne_self_eq_false, Bool.false_eq_true, if_false] at hr
        cases hd : csm.ghostdagDataStore h with
        | error err => rw [hd] at hr; simp at hr
        | ok data =>
          rw [hd] at hr
          dsimp only at hr
          cases hsp : data.SelectedParent with
          | none =>
            rw [hsp] at hr
            simp only [Option.some.injEq, Except.ok.injEq] at hr
            refine ⟨[h], hr.symm, rfl, hg, data, hd, ?_⟩
            rw [hsp]
          | some p =>
            rw [hsp] at hr
            obtain ⟨L, hL, hc⟩ := ih (acc ++ [h]) p R hr
            refine ⟨h :: L, by simpa using hL, rfl, hg, data, hd, ?_⟩
            rw [hsp]
            exact hc
      · have hb : (status != BlockStatus.StatusUTXOPendingVerification) = true := by
          simpa using hst
        rw [if_pos hb] at hr
        simp only [Option.some.injEq, Except.ok.injEq] at hr
        exact ⟨[], by simpa using hr.symm, status, hg, hst⟩

theorem IsUnverifiedChain_props (csm : ConsensusStateManager) (s : Staging) :
    ∀ (L : List Hash) (h : Hash), IsUnverifiedChain csm s h L →
      (∀ b, L.head? = some b → b = h) ∧
      (∀ b ∈ L, blockStatusStoreGet csm s b = .ok .StatusUTXOPendingVerification) ∧
      (∀ (i : Nat) (b p : Hash), L[i]? = some b → L[i + 1]? = some p →
        ∃ data, csm.ghostdagDataStore b = .ok data ∧ data.SelectedParent = some p) ∧
      (∀ b, L.getLast? = some b → ∃ data, csm.ghostdagDataStore b = .ok data ∧
        ∀ p, data.SelectedParent = some p →
          ∃ status, blockStatusStoreGet csm s p = .ok status ∧
            status ≠ .StatusUTXOPendingVerification) := by
  intro L
  induction L with
  | nil => intro h _; simp
  | cons b rest ih =>
    intro h hc
    obtain ⟨rfl, hg, data, hd, hm⟩ := hc
    refine ⟨by simp, ?_, ?_, ?_⟩
    · intro x hx
      rcases List.mem_cons.1 hx with rfl | hx
      · exact hg
      · cases hsp : data.SelectedParent with
        | none => rw [hsp] at hm; simp only at hm; subst hm; simp at hx
        | some p => rw [hsp] at hm; exact (ih p hm).2.1 x hx
    · intro i x p hx hp
      cases hsp : data.SelectedParent with
      | none => rw [hsp] at hm; simp only at hm; subst hm; simp at hp
      | some q =>
        rw [hsp] at hm
        simp only at hm
        cases i with
        | zero =>
          simp only [List.getElem?_cons_zero, Option.some.injEq] at hx
          subst hx
          have hp' : rest.head? = some p := by
            simpa [List.head?_eq_getElem?] using hp
          have := (ih q hm).1 p hp'
          subst this
          exact ⟨data, hd, hsp⟩
        | succ j =>
          simp only [List.getElem?_cons_succ] at hx hp
          exact (ih q hm).2.2.1 j x p hx hp
    · intro x hx
      cases hsp : data.SelectedParent with
      | none =>
        rw [hsp] at hm; simp only at hm; subst hm
        simp only [List.getLast?_singleton, Option.some.injEq] at hx
        subst hx
        exact ⟨data, hd, by intro p hp; rw [hsp] at hp; cases hp⟩
      | some q =>
        rw [hsp] at hm
        simp only at hm
        cases rest with
        | nil =>
          simp only [List.getLast?_singleton, Option.some.injEq] at hx
          subst hx
          refine ⟨data, hd, ?_⟩
          intro p hp
          rw [hsp] at hp
          cases hp
          exact hm
        | cons c rest' =>
          rw [List.getLast?_cons_cons] at hx
          exact (ih q hm).2.2.2 x hx

/-- C18. `getUnverifiedChainBlocks` returns a list exactly when the list is the
unverified chain of `h`, and then returns it for every bound on the walk above its
length. The list starts at `h`, each block is followed by its selected parent, every
block in it has the stored status `StatusUTXOPendingVerification`, and it is the longest
such list: the selected parent of its last block, if there is one, is not pending. It is
empty exactly when the stored status of `h` is not pending, and then `resolveBlockStatus`
returns the stored status of `h` and stages nothing. -/
theorem getUnverifiedChainBlocks_spec (csm : ConsensusStateManager) (s : Staging)
    (h : Hash) (L : List Hash) :
    ((∃ fuel, getUnverifiedChainBlocks csm s fuel h = some (.ok L)) ↔
      IsUnverifiedChain csm s h L) ∧
    (IsUnverifiedChain csm s h L →
      (∀ fuel, L.length < fuel → getUnverifiedChainBlocks csm s fuel h = some (.ok L)) ∧
      (∀ b, L.head? = some b → b = h) ∧
      (∀ b ∈ L, blockStatusStoreGet csm s b = .ok .StatusUTXOPendingVerification) ∧
      (∀ (i : Nat) (b p : Hash), L[i]? = some b → L[i + 1]? = some p →
        ∃ data, csm.ghostdagDataStore b = .ok data ∧ data.SelectedParent = some p) ∧
      (∀ b, L.getLast? = some b → ∃ data, csm.ghostdagDataStore b = .ok data ∧
        ∀ p, data.SelectedParent = some p →
          ∃ status, blockStatusStoreGet csm s p = .ok status ∧
            status ≠ .StatusUTXOPendingVerification) ∧
      (L = [] ↔ ∃ status, blockStatusStoreGet csm s h = .ok status ∧
        status ≠ .StatusUTXOPendingVerification) ∧
      (L = [] → ∀ fuel, 0 < fuel → ∃ status, blockStatusStoreGet csm s h = .ok status ∧
        resolveBlockStatus csm fuel s h = some (.ok (status, s)))) := by
  have hto : IsUnverifiedChain csm s h L →
      ∀ fuel, L.length < fuel → getUnverifiedChainBlocks csm s fuel h = some (.ok L) := by
    intro hc fuel hf
    have := getUnverifiedChainBlocksLoop_of_chain csm s L h fuel [] hc hf
    simpa [getUnverifiedChainBlocks] using this
  refine ⟨⟨?_, fun hc => ⟨L.length + 1, hto hc _ (Nat.lt_succ_self _)⟩⟩, ?_⟩
  · rintro ⟨fuel, hr⟩
    obtain ⟨L', hL, hc⟩ := chain_of_getUnverifiedChainBlocksLoop csm s fuel [] h L hr
    simp only [List.nil_append] at hL
    subst hL
    exact hc
  · intro hc
    obtain ⟨h1, h2, h3, h4⟩ := IsUnverifiedChain_props csm s L h hc
    refine ⟨hto hc, h1, h2, h3, h4, ?_, ?_⟩
    · constructor
      · rintro rfl; exact hc
      · rintro ⟨status, hg, hne⟩
        cases L with
        | nil => rfl
        | cons b rest =>
          obtain ⟨_, hg', _⟩ := hc
          rw [hg] at hg'
          cases hg'
          exact absurd rfl hne
    · rintro rfl fuel hf
      obtain ⟨status, hg, hne⟩ := hc
      refine ⟨status, hg, ?_⟩
      have := hto ⟨status, hg, hne⟩ fuel hf
      simp [resolveBlockStatus, this, hg]

/-- Witness for C18 on the sample manager: the unverified chain of block 7 is
7, 6, 5, 4. -/
theorem getUnverifiedChainBlocks_spec_witness :
    getUnverifiedChainBlocks sampleCSM emptyStaging 5 7 = some (.ok [7, 6, 5, 4]) ∧
    blockStatusStoreGet sampleCSM emptyStaging 3 = .ok .StatusValid :=
  have hc : IsUnverifiedChain sampleCSM emptyStaging 7 [7, 6, 5, 4] :=
    ((getUnverifiedChainBlocks_spec sampleCSM emptyStaging 7 [7, 6, 5, 4]).1).1 ⟨5, rfl⟩
  ⟨((getUnverifiedChainBlocks_spec sampleCSM emptyStaging 7 [7, 6, 5, 4]).2 hc).1 5
    (by decide), rfl⟩

theorem acceptanceDataStoreStage_blockStatus (csm : ConsensusStateManager) (s s' : Staging)
    (blockHash : Hash) (acceptanceData : AcceptanceData)
    (h : acceptanceDataStoreStage csm s blockHash acceptanceData = .ok s') :
    s'.blockStatus = s.blockStatus := by
  unfold acceptanceDataStoreStage at h
  cases he : csm.acceptanceDataStageError blockHash acceptanceData with
  | some err => rw [he] at h; cases h
  | none => rw [he] at h; cases h; rfl

theorem utxoDiffStoreStage_blockStatus (csm : ConsensusStateManager) (s s' : Staging)
    (blockHash : Hash) (utxoDiff : UTXODiff) (utxoDiffChild : Option Hash)
    (h : utxoDiffStoreStage csm s blockHash utxoDiff utxoDiffChild = .ok s') :
    s'.blockStatus = s.blockStatus := by
  unfold utxoDiffStoreStage at h
  cases he : csm.utxoDiffStageError blockHash utxoDiff utxoDiffChild with
  | some err => rw [he] at h; cases h
  | none => rw [he] at h; cases h; rfl

theorem updateParentDiffsLoop_blockStatus (csm : ConsensusStateManager) (blockHash : Hash)
    (pastUTXODiff : UTXODiff) :
    ∀ (parentHashes : List Hash) (s s' : Staging),
      updateParentDiffsLoop csm blockHash pastUTXODiff s parentHashes = .ok s' →
      s'.blockStatus = s.blockStatus := by
  intro parentHashes
  induction parentHashes with
  | nil => intro s s' h; cases h; rfl
  | cons parentHash rest ih =>
    intro s s' h
    unfold updateParentDiffsLoop at h
    simp only [bind, Except.bind] at h
    cases hc : csm.utxoDiffStoreHasUTXODiffChild s parentHash with
    | error err => rw [hc] at h; cases h
    | ok child =>
      rw [hc] at h
      dsimp only at h
      cases child with
      | true => rw [if_pos rfl] at h; exact ih s s' h
      | false =>
        rw [if_neg (by decide)] at h
        cases hg : blockStatusStoreGet csm s parentHash with
        | error err => rw [hg] at h; cases h
        | ok parentStatus =>
          rw [hg] at h
          dsimp only at h
          by_cases hv : (parentStatus != BlockStatus.StatusValid) = true
          · rw [if_pos hv] at h; exact ih s s' h
          · rw [if_neg hv] at h
            cases hd : csm.utxoDiffStoreUTXODiff s parentHash with
            | error err => rw [hd] at h; cases h
            | ok parentCurrentDiff =>
              rw [hd] at h
              dsimp only at h
              cases hn : csm.DiffFrom pastUTXODiff parentCurrentDiff with
              | error err => rw [hn] at h; cases h
              | ok parentNewDiff =>
                rw [hn] at h
                dsimp only at h
                cases hs : utxoDiffStoreStage csm s parentHash parentNewDiff (some blockHash) with
                | error err => rw [hs] at h; cases h
                | ok s1 =>
                  rw [hs] at h
                  dsimp only at h
                  rw [ih s1 s' h]
                  exact utxoDiffStoreStage_blockStatus csm s s1 _ _ _ hs

theorem resolveSingleBlockStatus_blockStatus (csm : ConsensusStateManager) (s s' : Staging)
    (blockHash : Hash) (status : BlockStatus)
    (h : resolveSingleBlockStatus csm s blockHash = .ok (status, s')) :
    (status = .StatusValid ∨ status = .StatusDisqualifiedFromChain) ∧
      s'.blockStatus = s.blockStatus := by
  unfold resolveSingleBlockStatus at h
  simp only [bind, Except.bind, pure, Except.pure, throw, throwThe, MonadExceptOf.throw] at h
  cases hc : csm.CalculatePastUTXOAndAcceptanceData s blockHash with
  | error err => rw [hc] at h; cases h
  | ok r =>
    obtain ⟨pastUTXODiff, acceptanceData, multiset⟩ := r
    rw [hc] at h
    dsimp only at h
    cases ha : acceptanceDataStoreStage csm s blockHash acceptanceData with
    | error err => rw [ha] at h; cases h
    | ok s1 =>
      rw [ha] at h
      dsimp only at h
      have e1 := acceptanceDataStoreStage_blockStatus csm s s1 _ _ ha
      cases hb : csm.blockStore blockHash with
      | error err => rw [hb] at h; cases h
      | ok block =>
        rw [hb] at h
        dsimp only at h
        cases hv : csm.verifyUTXO s1 block blockHash pastUTXODiff acceptanceData multiset with
        | error err =>
          rw [hv] at h
          cases err with
          | rule code => cases h; exact ⟨Or.inr rfl, e1⟩
          | other id => cases h
          | panic => cases h
        | ok u =>
          rw [hv] at h
          dsimp only at h
          cases hs : utxoDiffStoreStage csm (multisetStoreStage s1 blockHash multiset) blockHash
              pastUTXODiff none with
          | error err => rw [hs] at h; cases h
          | ok s2 =>
            rw [hs] at h
            dsimp only at h
            have e2 := utxoDiffStoreStage_blockStatus csm _ s2 _ _ _ hs
            cases hu : updateParentDiffs csm s2 blockHash pastUTXODiff with
            | error err => rw [hu] at h; cases h
            | ok s3 =>
              rw [hu] at h
              cases h
              refine ⟨Or.inl rfl, ?_⟩
              unfold updateParentDiffs at hu
              simp only [bind, Except.bind] at hu
              cases hp : csm.Parents blockHash with
              | error err => rw [hp] at hu; cases hu
              | ok parentHashes =>
                rw [hp] at hu
                dsimp only at hu
                rw [updateParentDiffsLoop_blockStatus csm _ _ _ _ _ hu, e2]
                exact e1

theorem stageAll_cons (b : Hash) (blocks : List Hash) (status : BlockStatus) (s : Staging) :
    stageAll (b :: blocks) status s = stageAll blocks status (blockStatusStoreStage s b status) :=
  rfl

theorem stageAll_blockStatus (status : BlockStatus) :
    ∀ (blocks : List Hash) (s : Staging),
      (stageAll blocks status s).blockStatus =
        (blocks.zip (List.replicate blocks.length status)).reverse ++ s.blockStatus := by
  intro blocks
  induction blocks with
  | nil => intro s; rfl
  | cons b rest ih =>
    intro s
    rw [stageAll_cons, ih]
    simp [blockStatusStoreStage, List.replicate_succ]

theorem resolveBlockStatusLoop_disqualified (csm : ConsensusStateManager) :
    ∀ (blocks : List Hash) (b : Hash) (blockStatus : BlockStatus) (s : Staging),
      resolveBlockStatusLoop csm (b :: blocks) .StatusDisqualifiedFromChain blockStatus s =
        .ok (.StatusDisqualifiedFromChain,
          stageAll (b :: blocks) .StatusDisqualifiedFromChain s) := by
  intro blocks
  induction blocks with
  | nil => intro b blockStatus s; rfl
  | cons c rest ih =>
    intro b blockStatus s
    have := ih c .StatusDisqualifiedFromChain
      (blockStatusStoreStage s b .StatusDisqualifiedFromChain)
    rw [stageAll_cons, ← this]
    rfl

theorem resolveBlockStatusLoop_step (csm : ConsensusStateManager) (blocks : List Hash)
    (b : Hash) (a blockStatus status : BlockStatus) (s s1 : Staging)
    (ha : a ≠ .StatusDisqualifiedFromChain)
    (h1 : resolveSingleBlockStatus csm s b = .ok (status, s1)) :
    resolveBlockStatusLoop csm (b :: blocks) a blockStatus s =
      resolveBlockStatusLoop csm blocks status status (blockStatusStoreStage s1 b status) := by
  have hb : (a == BlockStatus.StatusDisqualifiedFromChain) = false := by simpa using ha
  conv_lhs => unfold resolveBlockStatusLoop
  simp only [bind, Except.bind, hb, Bool.false_eq_true, if_false, h1]

theorem resolveBlockStatusLoop_error (csm : ConsensusStateManager) (blocks : List Hash)
    (b : Hash) (a blockStatus : BlockStatus) (s : Staging) (err : Fault)
    (ha : a ≠ .StatusDisqualifiedFromChain)
    (h1 : resolveSingleBlockStatus csm s b = .error err) :
    resolveBlockStatusLoop csm (b :: blocks) a blockStatus s = .error err := by
  have hb : (a == BlockStatus.StatusDisqualifiedFromChain) = false := by simpa using ha
  conv_lhs => unfold resolveBlockStatusLoop
  simp only [bind, Except.bind, hb, Bool.false_eq_true, if_false, h1]

theorem validThenDisqualified_zero (n : Nat) :
    validThenDisqualified 0 n = List.replicate n .StatusDisqualifiedFromChain := by
  simp [validThenDisqualified]

theorem validThenDisqualified_succ (k n : Nat) :
    validThenDisqualified (k + 1) (n + 1) = .StatusValid :: validThenDisqualified k n := by
  simp [validThenDisqualified, List.replicate_succ]

theorem resolveBlockStatusLoop_shape (csm : ConsensusStateManager) :
    ∀ (blocks : List Hash) (a blockStatus : BlockStatus) (s : Staging) (r : BlockStatus)
      (s' : Staging),
      resolveBlockStatusLoop csm blocks a blockStatus s = .ok (r, s') →
      ∃ k, k ≤ blocks.length ∧
        s'.blockStatus =
          (blocks.zip (validThenDisqualified k blocks.length)).reverse ++ s.blockStatus ∧
        (a = .StatusDisqualifiedFromChain → k = 0) := by
  intro blocks
  induction blocks with
  | nil =>
    intro a blockStatus s r s' h
    cases h
    exact ⟨0, le_refl _, rfl, fun _ => rfl⟩
  | cons b rest ih =>
    intro a blockStatus s r s' h
    by_cases ha : a = .StatusDisqualifiedFromChain
    · subst ha
      rw [resolveBlockStatusLoop_disqualified] at h
      cases h
      refine ⟨0, Nat.zero_le _, ?_, fun _ => rfl⟩
      rw [stageAll_blockStatus, validThenDisqualified_zero]
    · cases h1 : resolveSingleBlockStatus csm s b with
      | error err => rw [resolveBlockStatusLoop_error csm rest b a blockStatus s err ha h1] at h; cases h
      | ok p =>
        obtain ⟨status, s1⟩ := p
        rw [resolveBlockStatusLoop_step csm rest b a blockStatus status s s1 ha h1] at h
        obtain ⟨k, hk, hs, hz⟩ := ih status status _ r s' h
        obtain ⟨hv, e1⟩ := resolveSingleBlockStatus_blockStatus csm s s1 b status h1
        rcases hv with rfl | rfl
        · refine ⟨k + 1, by simp only [List.length_cons]; omega, ?_, fun hd => absurd hd ha⟩
          rw [hs, List.length_cons, validThenDisqualified_succ]
          simp [blockStatusStoreStage, e1]
        · have hk0 := hz rfl
          subst hk0
          refine ⟨0, Nat.zero_le _, ?_, fun hd => absurd hd ha⟩
          rw [hs, List.length_cons, validThenDisqualified_zero, validThenDisqualified_zero]
          simp [blockStatusStoreStage, e1, List.replicate_succ]

theorem resolveBlockStatusLoop_last (csm : ConsensusStateManager) (b : Hash) :
    ∀ (blocks : List Hash) (a blockStatus : BlockStatus) (s : Staging) (r : BlockStatus)
      (s' : Staging),
      resolveBlockStatusLoop csm (blocks ++ [b]) a blockStatus s = .ok (r, s') →
      ∃ earlier, s'.blockStatus = (b, r) :: earlier := by
  intro blocks
  induction blocks with
  | nil =>
    intro a blockStatus s r s' h
    by_cases ha : a = .StatusDisqualifiedFromChain
    · subst ha
      rw [List.nil_append, resolveBlockStatusLoop_disqualified] at h
      cases h
      exact ⟨s.blockStatus, rfl⟩
    · cases h1 : resolveSingleBlockStatus csm s b with
      | error err =>
        rw [List.nil_append, resolveBlockStatusLoop_error csm [] b a blockStatus s err ha h1] at h
        cases h
      | ok p =>
        obtain ⟨status, s1⟩ := p
        rw [List.nil_append, resolveBlockStatusLoop_step csm [] b a blockStatus status s s1 ha h1] at h
        cases h
        exact ⟨s1.blockStatus, rfl⟩
  | cons c rest ih =>
    intro a blockStatus s r s' h
    rw [List.cons_append] at h
    by_cases ha : a = .StatusDisqualifiedFromChain
    · subst ha
      have e : resolveBlockStatusLoop csm (c :: (rest ++ [b])) .StatusDisqualifiedFromChain
          blockStatus s = resolveBlockStatusLoop csm (rest ++ [b]) .StatusDisqualifiedFromChain
            .StatusDisqualifiedFromChain
            (blockStatusStoreStage s c .StatusDisqualifiedFromChain) := rfl
      rw [e] at h
      exact ih _ _ _ r s' h
    · cases h1 : resolveSingleBlockStatus csm s c with
      | error err =>
        rw [resolveBlockStatusLoop_error csm _ c a blockStatus s err ha h1] at h
        cases h
      | ok p =>
        obtain ⟨status, s1⟩ := p
        rw [resolveBlockStatusLoop_step csm _ c a blockStatus status s s1 ha h1] at h
        exact ih _ _ _ r s' h

theorem resolveBlockStatus_eq (csm : ConsensusStateManager) (fuel : Nat) (s : Staging)
    (h : Hash) (L : List Hash)
    (hL : getUnverifiedChainBlocks csm s fuel h = some (.ok L)) (hne : L ≠ []) :
    resolveBlockStatus csm fuel s h =
      some (match findSelectedParentStatus csm s L with
        | .error err => .error err
        | .ok selectedParentStatus =>
          resolveBlockStatusLoop csm L.reverse selectedParentStatus csm.zeroBlockStatus s) := by
  have hlen : (L.length == 0) = false := by
    cases L with
    | nil => exact absurd rfl hne
    | cons b rest => rfl
  unfold resolveBlockStatus
  rw [hL]
  dsimp only
  rw [hlen]
  cases findSelectedParentStatus csm s L <;> rfl

/-- C19. When the walk of `resolveBlockStatus` collects a non-empty list, the blocks are
resolved in the reverse order of the list, the oldest first, starting from the status of
the anchor. Once the status of the selected parent is `StatusDisqualifiedFromChain`,
because the anchor has it or because `resolveSingleBlockStatus` returned it for a block,
the loop only stages `StatusDisqualifiedFromChain` for each remaining block, whatever
`resolveSingleBlockStatus` would do on it. So on success the statuses staged, oldest
first, are `StatusValid` for some first `k` blocks and `StatusDisqualifiedFromChain` for
the others, with `k = 0` under a disqualified anchor. -/
theorem resolveBlockStatus_disqualification (csm : ConsensusStateManager) (fuel : Nat)
    (s : Staging) (h : Hash) (L : List Hash)
    (hL : getUnverifiedChainBlocks csm s fuel h = some (.ok L)) (hne : L ≠ []) :
    resolveBlockStatus csm fuel s h =
      some (match findSelectedParentStatus csm s L with
        | .error err => .error err
        | .ok selectedParentStatus =>
          resolveBlockStatusLoop csm L.reverse selectedParentStatus csm.zeroBlockStatus s) ∧
    (∀ (b : Hash) (blocks : List Hash) (blockStatus : BlockStatus) (s0 : Staging),
      resolveBlockStatusLoop csm (b :: blocks) .StatusDisqualifiedFromChain blockStatus s0 =
        .ok (.StatusDisqualifiedFromChain,
          stageAll (b :: blocks) .StatusDisqualifiedFromChain s0)) ∧
    (∀ (b : Hash) (blocks : List Hash) (a blockStatus : BlockStatus) (s0 s1 : Staging),
      a ≠ .StatusDisqualifiedFromChain →
      resolveSingleBlockStatus csm s0 b = .ok (.StatusDisqualifiedFromChain, s1) →
      resolveBlockStatusLoop csm (b :: blocks) a blockStatus s0 =
        .ok (.StatusDisqualifiedFromChain,
          stageAll (b :: blocks) .StatusDisqualifiedFromChain s1)) ∧
    (∀ (status : BlockStatus) (s' : Staging),
      resolveBlockStatus csm fuel s h = some (.ok (status, s')) →
      ∃ k, k ≤ L.length ∧
        s'.blockStatus =
          (L.reverse.zip (validThenDisqualified k L.length)).reverse ++ s.blockStatus ∧
        (findSelectedParentStatus csm s L = .ok .StatusDisqualifiedFromChain → k = 0)) := by
  have heq := resolveBlockStatus_eq csm fuel s h L hL hne
  refine ⟨heq, ?_, ?_, ?_⟩
  · intro b blocks blockStatus s0
    exact resolveBlockStatusLoop_disqualified csm blocks b blockStatus s0
  · intro b blocks a blockStatus s0 s1 ha h1
    rw [resolveBlockStatusLoop_step csm blocks b a blockStatus _ s0 s1 ha h1]
    cases blocks with
    | nil => rfl
    | cons c rest =>
      rw [resolveBlockStatusLoop_disqualified]
      rfl
  · intro status s' hres
    rw [heq] at hres
    cases ha : findSelectedParentStatus csm s L with
    | error err => rw [ha] at hres; simp at hres
    | ok anchor =>
      rw [ha] at hres
      simp only [Option.some.injEq] at hres
      obtain ⟨k, hk, hs, hz⟩ :=
        resolveBlockStatusLoop_shape csm L.reverse anchor csm.zeroBlockStatus s status s' hres
      rw [List.length_reverse] at hk hs
      refine ⟨k, hk, hs, ?_⟩
      intro hd
      cases hd
      exact hz rfl

/-- Witness for C19 on the sample manager: of the chain 7, 6, 5, 4 block 4 is staged
valid, block 5 fails verification, and blocks 6 and 7, whose past UTXO cannot be
computed, are staged disqualified. -/
theorem resolveBlockStatus_disqualification_witness :
    ∃ s', resolveBlockStatus sampleCSM 5 emptyStaging 7 =
        some (.ok (.StatusDisqualifiedFromChain, s')) ∧
      s'.blockStatus = [(7, .StatusDisqualifiedFromChain), (6, .StatusDisqualifiedFromChain),
        (5, .StatusDisqualifiedFromChain), (4, .StatusValid)] ∧
      resolveSingleBlockStatus sampleCSM emptyStaging 6 = .error (.other 1) ∧
      resolveBlockStatusLoop sampleCSM [6, 7] .StatusDisqualifiedFromChain .StatusValid
          emptyStaging =
        .ok (.StatusDisqualifiedFromChain,
          stageAll [6, 7] .StatusDisqualifiedFromChain emptyStaging) :=
  have hw := resolveBlockStatus_disqualification sampleCSM 5 emptyStaging 7 [7, 6, 5, 4] rfl
    (by decide)
  ⟨_, hw.1, rfl, rfl, hw.2.1 6 [7] .StatusValid emptyStaging⟩

/-- C20. For a block `h` whose stored status is `StatusUTXOPendingVerification`, when
`resolveBlockStatus` succeeds the walk starts at `h`, so `h` is the last block the loop
resolves, and the status returned is the one of the latest call of
`blockStatusStore.Stage`, which is for `h`. -/
theorem resolveBlockStatus_returns_staged (csm : ConsensusStateManager) (fuel : Nat)
    (s s' : Staging) (h : Hash) (status : BlockStatus)
    (hpending : blockStatusStoreGet csm s h = .ok .StatusUTXOPendingVerification)
    (hres : resolveBlockStatus csm fuel s h = some (.ok (status, s'))) :
    (∃ rest, getUnverifiedChainBlocks csm s fuel h = some (.ok (h :: rest)) ∧
      (h :: rest).reverse.getLast? = some h) ∧
    (∃ earlier, s'.blockStatus = (h, status) :: earlier) := by
  have hL : ∃ rest, getUnverifiedChainBlocks csm s fuel h = some (.ok (h :: rest)) := by
    cases hg : getUnverifiedChainBlocks csm s fuel h with
    | none => simp [resolveBlockStatus, hg] at hres
    | some r =>
      cases r with
      | error err => simp [resolveBlockStatus, hg] at hres
      | ok L =>
        obtain ⟨L', hL', hc⟩ := chain_of_getUnverifiedChainBlocksLoop csm s fuel [] h L hg
        simp only [List.nil_append] at hL'
        subst hL'
        cases L with
        | nil =>
          obtain ⟨st, hst, hne⟩ := hc
          rw [hpending] at hst
          cases hst
          exact absurd rfl hne
        | cons b rest =>
          obtain ⟨rfl, _⟩ := hc
          exact ⟨rest, rfl⟩
  obtain ⟨rest, hL⟩ := hL
  have hlast : ∃ earlier, s'.blockStatus = (h, status) :: earlier := by
    rw [resolveBlockStatus_eq csm fuel s h (h :: rest) hL (by simp)] at hres
    cases ha : findSelectedParentStatus csm s (h :: rest) with
    | error err => rw [ha] at hres; simp at hres
    | ok anchor =>
      rw [ha] at hres
      simp only [Option.some.injEq, List.reverse_cons] at hres
      exact resolveBlockStatusLoop_last csm h rest.reverse anchor csm.zeroBlockStatus s status
        s' hres
  exact ⟨⟨rest, hL, by simp⟩, hlast⟩

/-- Witness for C20 on the sample manager: resolving block 7 returns the status staged
for block 7. -/
theorem resolveBlockStatus_returns_staged_witness :
    ∃ s', resolveBlockStatus sampleCSM 5 emptyStaging 7 =
        some (.ok (.StatusDisqualifiedFromChain, s')) ∧
      blockStatusStoreGet sampleCSM emptyStaging 7 = .ok .StatusUTXOPendingVerification ∧
      ∃ earlier, s'.blockStatus = (7, .StatusDisqualifiedFromChain) :: earlier :=
  ⟨_, rfl, rfl,
    (resolveBlockStatus_returns_staged sampleCSM 5 emptyStaging _ 7
      .StatusDisqualifiedFromChain rfl rfl).2⟩

theorem resolveBlockStatusLoop_error_at (csm : ConsensusStateManager) :
    ∀ (blocks : List Hash) (a blockStatus : BlockStatus) (s : Staging) (err : Fault),
      resolveBlockStatusLoop csm blocks a blockStatus s = .error err →
      ∃ (done : List Hash) (b : Hash) (rest : List Hash) (status : BlockStatus)
        (s1 : Staging),
        blocks = done ++ b :: rest ∧
        resolveBlockStatusLoop csm done a blockStatus s = .ok (status, s1) ∧
        resolveSingleBlockStatus csm s1 b = .error err := by
  intro blocks
  induction blocks with
  | nil => intro a blockStatus s err h; cases h
  | cons b rest ih =>
    intro a blockStatus s err h
    by_cases ha : a = .StatusDisqualifiedFromChain
    · subst ha
      rw [resolveBlockStatusLoop_disqualified] at h
      cases h
    · cases h1 : resolveSingleBlockStatus csm s b with
      | error e =>
        rw [resolveBlockStatusLoop_error csm rest b a blockStatus s e ha h1] at h
        cases h
        exact ⟨[], b, rest, blockStatus, s, rfl, rfl, h1⟩
      | ok p =>
        obtain ⟨status, s1⟩ := p
        rw [resolveBlockStatusLoop_step csm rest b a blockStatus status s s1 ha h1] at h
        obtain ⟨done, c, rest', st2, s2, hsplit, hdone, hfail⟩ := ih status status _ err h
        refine ⟨b :: done, c, rest', st2, s2, by rw [hsplit]; rfl, ?_, hfail⟩
        rw [resolveBlockStatusLoop_step csm done b a blockStatus status s s1 ha h1]
        exact hdone

theorem mem_validThenDisqualified (k n : Nat) (status : BlockStatus)
    (h : status ∈ validThenDisqualified k n) :
    status = .StatusValid ∨ status = .StatusDisqualifiedFromChain := by
  unfold validThenDisqualified at h
  rcases List.mem_append.1 h with h | h
  · exact Or.inl (List.eq_of_mem_replicate h)
  · exact Or.inr (List.eq_of_mem_replicate h)

theorem resolveBlockStatusLoop_staged (csm : ConsensusStateManager) (blocks : List Hash)
    (a blockStatus r : BlockStatus) (s s' : Staging)
    (h : resolveBlockStatusLoop csm blocks a blockStatus s = .ok (r, s')) :
    ∃ staged, s'.blockStatus = staged ++ s.blockStatus ∧
      ∀ (b : Hash) (status : BlockStatus), (b, status) ∈ staged →
        b ∈ blocks ∧ (status = .StatusValid ∨ status = .StatusDisqualifiedFromChain) := by
  obtain ⟨k, _, hs, _⟩ := resolveBlockStatusLoop_shape csm blocks a blockStatus s r s' h
  refine ⟨_, hs, ?_⟩
  intro b status hmem
  rw [List.mem_reverse] at hmem
  have h1 := (List.of_mem_zip hmem).1
  have h2 := (List.of_mem_zip hmem).2
  exact ⟨h1, mem_validThenDisqualified _ _ _ h2⟩

/-- C21. A call of `resolveBlockStatus` that succeeds adds to the staged block statuses
only entries for blocks whose stored status, before the call, was
`StatusUTXOPendingVerification`, each with the status `StatusValid` or
`StatusDisqualifiedFromChain`; so no status is staged for a block whose stored status is
another one. A call that fails in the loop fails in `resolveSingleBlockStatus` for one
block of the walk, after the loop has run on the blocks before it, and the statuses
staged by then obey the same rule. -/
theorem resolveBlockStatus_stages_pending (csm : ConsensusStateManager) (fuel : Nat)
    (s : Staging) (h : Hash) :
    (∀ (status : BlockStatus) (s' : Staging),
      resolveBlockStatus csm fuel s h = some (.ok (status, s')) →
      ∃ staged, s'.blockStatus = staged ++ s.blockStatus ∧
        (∀ (b : Hash) (st : BlockStatus), (b, st) ∈ staged →
          blockStatusStoreGet csm s b = .ok .StatusUTXOPendingVerification ∧
          (st = .StatusValid ∨ st = .StatusDisqualifiedFromChain)) ∧
        (∀ (b : Hash) (stored st : BlockStatus),
          blockStatusStoreGet csm s b = .ok stored →
          stored ≠ .StatusUTXOPendingVerification → (b, st) ∉ staged)) ∧
    (∀ (L : List Hash) (anchor : BlockStatus) (err : Fault),
      getUnverifiedChainBlocks csm s fuel h = some (.ok L) →
      findSelectedParentStatus csm s L = .ok anchor →
      resolveBlockStatusLoop csm L.reverse anchor csm.zeroBlockStatus s = .error err →
      ∃ (done : List Hash) (b : Hash) (rest : List Hash) (status : BlockStatus)
        (s1 : Staging) (staged : List (Hash × BlockStatus)),
        L.reverse = done ++ b :: rest ∧
        resolveBlockStatusLoop csm done anchor csm.zeroBlockStatus s = .ok (status, s1) ∧
        resolveSingleBlockStatus csm s1 b = .error err ∧
        s1.blockStatus = staged ++ s.blockStatus ∧
        ∀ (c : Hash) (st : BlockStatus), (c, st) ∈ staged →
          blockStatusStoreGet csm s c = .ok .StatusUTXOPendingVerification ∧
          (st = .StatusValid ∨ st = .StatusDisqualifiedFromChain)) := by
  have hpending : ∀ L : List Hash, getUnverifiedChainBlocks csm s fuel h = some (.ok L) →
      ∀ b ∈ L, blockStatusStoreGet csm s b = .ok .StatusUTXOPendingVerification := by
    intro L hL
    obtain ⟨L', hL', hc⟩ := chain_of_getUnverifiedChainBlocksLoop csm s fuel [] h L hL
    simp only [List.nil_append] at hL'
    subst hL'
    exact (IsUnverifiedChain_props csm s L h hc).2.1
  constructor
  · intro status s' hres
    have key : ∃ staged, s'.blockStatus = staged ++ s.blockStatus ∧
        ∀ (b : Hash) (st : BlockStatus), (b, st) ∈ staged →
          blockStatusStoreGet csm s b = .ok .StatusUTXOPendingVerification ∧
          (st = .StatusValid ∨ st = .StatusDisqualifiedFromChain) := by
      cases hg : getUnverifiedChainBlocks csm s fuel h with
      | none => simp [resolveBlockStatus, hg] at hres
      | some r =>
        cases r with
        | error err => simp [resolveBlockStatus, hg] at hres
        | ok L =>
          by_cases hne : L = []
          · subst hne
            refine ⟨[], ?_, by intro b st hb; cases hb⟩
            unfold resolveBlockStatus at hres
            rw [hg] at hres
            simp only [List.length_nil, beq_self_eq_true, if_true] at hres
            cases hget : blockStatusStoreGet csm s h with
            | error err => rw [hget] at hres; simp at hres
            | ok st =>
              rw [hget] at hres
              simp only [Option.some.injEq, Except.ok.injEq, Prod.mk.injEq] at hres
              rw [← hres.2]
              rfl
          · rw [resolveBlockStatus_eq csm fuel s h L hg hne] at hres
            cases ha : findSelectedParentStatus csm s L with
            | error err => rw [ha] at hres; simp at hres
            | ok anchor =>
              rw [ha] at hres
              simp only [Option.some.injEq] at hres
              obtain ⟨staged, hs, hall⟩ := resolveBlockStatusLoop_staged csm _ _ _ _ _ _ hres
              refine ⟨staged, hs, ?_⟩
              intro b st hb
              obtain ⟨hin, hst⟩ := hall b st hb
              exact ⟨hpending L hg b (List.mem_reverse.1 hin), hst⟩
    obtain ⟨staged, hs, hall⟩ := key
    refine ⟨staged, hs, hall, ?_⟩
    intro b stored st hget hne hmem
    have := (hall b st hmem).1
    rw [hget] at this
    cases this
    exact hne rfl
  · intro L anchor err hL _ hfail
    obtain ⟨done, b, rest, status, s1, hsplit, hdone, hsingle⟩ :=
      resolveBlockStatusLoop_error_at csm _ _ _ _ _ hfail
    obtain ⟨staged, hs, hall⟩ := resolveBlockStatusLoop_staged csm _ _ _ _ _ _ hdone
    refine ⟨done, b, rest, status, s1, staged, hsplit, hdone, hsingle, hs, ?_⟩
    intro c st hc
    obtain ⟨hin, hst⟩ := hall c st hc
    have hmem : c ∈ L.reverse := by rw [hsplit]; exact List.mem_append_left _ hin
    exact ⟨hpending L hL c (List.mem_reverse.1 hmem), hst⟩

/-- Witness for C21 on the sample manager: resolving block 7 stages statuses for the
pending blocks 4 to 7 only, and none for the valid block 3. -/
theorem resolveBlockStatus_stages_pending_witness :
    ∃ (s' : Staging) (staged : List (Hash × BlockStatus)),
      resolveBlockStatus sampleCSM 5 emptyStaging 7 =
        some (.ok (.StatusDisqualifiedFromChain, s')) ∧
      s'.blockStatus = staged ++ emptyStaging.blockStatus ∧
      (3, BlockStatus.StatusValid) ∉ staged :=
  have hw := (resolveBlockStatus_stages_pending sampleCSM 5 emptyStaging 7).1
    .StatusDisqualifiedFromChain _ rfl
  ⟨_, hw.choose, rfl, hw.choose_spec.1,
    hw.choose_spec.2.2 3 .StatusValid .StatusValid rfl (by decide)⟩

theorem resolveSingleBlockStatus_eq (csm : ConsensusStateManager) (s s1 : Staging)
    (blockHash : Hash) (pastUTXODiff : UTXODiff) (acceptanceData : AcceptanceData)
    (multiset : ModelMultiset) (block : DomainBlock)
    (hpast : csm.CalculatePastUTXOAndAcceptanceData s blockHash =
      .ok (pastUTXODiff, acceptanceData, multiset))
    (hstage : acceptanceDataStoreStage csm s blockHash acceptanceData = .ok s1)
    (hblock : csm.blockStore blockHash = .ok block) :
    resolveSingleBlockStatus csm s blockHash =
      match csm.verifyUTXO s1 block blockHash pastUTXODiff acceptanceData multiset with
      | .error (.rule _) => .ok (.StatusDisqualifiedFromChain, s1)
      | .error err => .error err
      | .ok _ =>
        match utxoDiffStoreStage csm (multisetStoreStage s1 blockHash multiset) blockHash
            pastUTXODiff none with
        | .error err => .error err
        | .ok s2 =>
          match updateParentDiffs csm s2 blockHash pastUTXODiff with
          | .error err => .error err
          | .ok s3 => .ok (.StatusValid, s3) := by
  unfold resolveSingleBlockStatus
  simp only [bind, Except.bind, pure, Except.pure, throw, throwThe, MonadExceptOf.throw,
    hpast, hstage, hblock]
  cases hv : csm.verifyUTXO s1 block blockHash pastUTXODiff acceptanceData multiset with
  | error err => cases err <;> rfl
  | ok u =>
    dsimp only
    cases hs : utxoDiffStoreStage csm (multisetStoreStage s1 blockHash multiset) blockHash
        pastUTXODiff none with
    | error err => rfl
    | ok s2 =>
      dsimp only
      cases hu : updateParentDiffs csm s2 blockHash pastUTXODiff <;> rfl

theorem resolveSingleBlockStatus_stage_error (csm : ConsensusStateManager) (s : Staging)
    (blockHash : Hash) (pastUTXODiff : UTXODiff) (acceptanceData : AcceptanceData)
    (multiset : ModelMultiset) (err : Fault)
    (hpast : csm.CalculatePastUTXOAndAcceptanceData s blockHash =
      .ok (pastUTXODiff, acceptanceData, multiset))
    (hstage : acceptanceDataStoreStage csm s blockHash acceptanceData = .error err) :
    resolveSingleBlockStatus csm s blockHash = .error err := by
  unfold resolveSingleBlockStatus
  simp only [bind, Except.bind, hpast, hstage]

theorem acceptanceDataStoreStage_frame (csm : ConsensusStateManager) (s s' : Staging)
    (blockHash : Hash) (acceptanceData : AcceptanceData)
    (h : acceptanceDataStoreStage csm s blockHash acceptanceData = .ok s') :
    s' = { s with acceptanceData := (blockHash, acceptanceData) :: s.acceptanceData } := by
  unfold acceptanceDataStoreStage at h
  cases he : csm.acceptanceDataStageError blockHash acceptanceData with
  | some err => rw [he] at h; cases h
  | none => rw [he] at h; cases h; rfl

/-- C22. For a block whose past UTXO calculation and block fetch succeed,
`resolveSingleBlockStatus` returns `StatusDisqualifiedFromChain` without an error exactly
when `verifyUTXO`, called once the acceptance data is staged, fails with a rule error;
the call has then staged the acceptance data only: no multiset, no UTXO diff of the block
and no diff of a parent. It returns `StatusValid` only with the multiset staged, then the
UTXO diff of the block with no diff child, then the diffs of the parents. Every other
error, of `verifyUTXO` or of a staging step, is returned as the error. -/
theorem resolveSingleBlockStatus_spec (csm : ConsensusStateManager) (s : Staging)
    (blockHash : Hash) (pastUTXODiff : UTXODiff) (acceptanceData : AcceptanceData)
    (multiset : ModelMultiset) (block : DomainBlock)
    (hpast : csm.CalculatePastUTXOAndAcceptanceData s blockHash =
      .ok (pastUTXODiff, acceptanceData, multiset))
    (hblock : csm.blockStore blockHash = .ok block) :
    (∀ s', resolveSingleBlockStatus csm s blockHash = .ok (.StatusDisqualifiedFromChain, s') ↔
      acceptanceDataStoreStage csm s blockHash acceptanceData = .ok s' ∧
      ∃ code, csm.verifyUTXO s' block blockHash pastUTXODiff acceptanceData multiset =
        .error (.rule code)) ∧
    (∀ s', resolveSingleBlockStatus csm s blockHash = .ok (.StatusDisqualifiedFromChain, s') →
      s'.multiset = s.multiset ∧ s'.utxoDiff = s.utxoDiff ∧
      s'.blockStatus = s.blockStatus ∧
      s'.acceptanceData = (blockHash, acceptanceData) :: s.acceptanceData) ∧
    (∀ s', resolveSingleBlockStatus csm s blockHash = .ok (.StatusValid, s') ↔
      ∃ s1 s2,
        acceptanceDataStoreStage csm s blockHash acceptanceData = .ok s1 ∧
        csm.verifyUTXO s1 block blockHash pastUTXODiff acceptanceData multiset = .ok () ∧
        utxoDiffStoreStage csm (multisetStoreStage s1 blockHash multiset) blockHash
          pastUTXODiff none = .ok s2 ∧
        updateParentDiffs csm s2 blockHash pastUTXODiff = .ok s') ∧
    (∀ (s1 : Staging) (err : Fault),
      acceptanceDataStoreStage csm s blockHash acceptanceData = .ok s1 →
      csm.verifyUTXO s1 block blockHash pastUTXODiff acceptanceData multiset = .error err →
      (∀ code, err ≠ .rule code) →
      resolveSingleBlockStatus csm s blockHash = .error err) ∧
    (∀ err, acceptanceDataStoreStage csm s blockHash acceptanceData = .error err →
      resolveSingleBlockStatus csm s blockHash = .error err) := by
  have hdisq : ∀ s', resolveSingleBlockStatus csm s blockHash =
        .ok (.StatusDisqualifiedFromChain, s') ↔
      acceptanceDataStoreStage csm s blockHash acceptanceData = .ok s' ∧
      ∃ code, csm.verifyUTXO s' block blockHash pastUTXODiff acceptanceData multiset =
        .error (.rule code) := by
    intro s'
    cases hstage : acceptanceDataStoreStage csm s blockHash acceptanceData with
    | error err =>
      rw [resolveSingleBlockStatus_stage_error csm s blockHash _ _ _ err hpast hstage]
      constructor
      · intro h; cases h
      · rintro ⟨h, _⟩; cases h
    | ok s1 =>
      rw [resolveSingleBlockStatus_eq csm s s1 blockHash _ _ _ block hpast hstage hblock]
      cases hv : csm.verifyUTXO s1 block blockHash pastUTXODiff acceptanceData multiset with
      | error err =>
        cases err with
        | rule code =>
          dsimp only
          constructor
          · intro h
            cases h
            exact ⟨rfl, code, hv⟩
          · rintro ⟨h, _⟩
            cases h
            rfl
        | other id =>
          dsimp only
          constructor
          · intro h; cases h
          · rintro ⟨h, code, hc⟩
            cases h
            rw [hv] at hc
            cases hc
        | panic =>
          dsimp only
          constructor
          · intro h; cases h
          · rintro ⟨h, code, hc⟩
            cases h
            rw [hv] at hc
            cases hc
      | ok u =>
        dsimp only
        constructor
        · intro h
          cases hs : utxoDiffStoreStage csm (multisetStoreStage s1 blockHash multiset)
              blockHash pastUTXODiff none with
          | error err => rw [hs] at h; cases h
          | ok s2 =>
            rw [hs] at h
            dsimp only at h
            cases hu : updateParentDiffs csm s2 blockHash pastUTXODiff with
            | error err => rw [hu] at h; cases h
            | ok s3 => rw [hu] at h; cases h
        · rintro ⟨h, code, hc⟩
          cases h
          rw [hv] at hc
          cases hc
  refine ⟨hdisq, ?_, ?_, ?_, ?_⟩
  · intro s' h
    obtain ⟨hstage, _⟩ := (hdisq s').1 h
    rw [acceptanceDataStoreStage_frame csm s s' _ _ hstage]
    exact ⟨rfl, rfl, rfl, rfl⟩
  · intro s'
    cases hstage : acceptanceDataStoreStage csm s blockHash acceptanceData with
    | error err =>
      rw [resolveSingleBlockStatus_stage_error csm s blockHash _ _ _ err hpast hstage]
      constructor
      · intro h; cases h
      · rintro ⟨s1, s2, h, _⟩; cases h
    | ok s1 =>
      rw [resolveSingleBlockStatus_eq csm s s1 blockHash _ _ _ block hpast hstage hblock]
      cases hv : csm.verifyUTXO s1 block blockHash pastUTXODiff acceptanceData multiset with
      | error err =>
        constructor
        · intro h
          cases err <;> cases h
        · rintro ⟨s1', s2, h, hv', _⟩
          cases h
          rw [hv] at hv'
          cases hv'
      | ok u =>
        dsimp only
        cases hs : utxoDiffStoreStage csm (multisetStoreStage s1 blockHash multiset)
            blockHash pastUTXODiff none with
        | error err =>
          dsimp only
          constructor
          · intro h; cases h
          · rintro ⟨s1', s2, h, _, hs', _⟩
            cases h
            rw [hs] at hs'
            cases hs'
        | ok s2 =>
          dsimp only
          cases hu : updateParentDiffs csm s2 blockHash pastUTXODiff with
          | error err =>
            dsimp only
            constructor
            · intro h; cases h
            · rintro ⟨s1', s2', h, _, hs', hu'⟩
              cases h
              rw [hs] at hs'
              cases hs'
              rw [hu] at hu'
              cases hu'
          | ok s3 =>
            dsimp only
            constructor
            · intro h
              cases h
              exact ⟨s1, s2, rfl, hv, hs, hu⟩
            · rintro ⟨s1', s2', h, _, hs', hu'⟩
              cases h
              rw [hs] at hs'
              cases hs'
              rw [hu] at hu'
              cases hu'
              rfl
  · intro s1 err hstage hv hne
    rw [resolveSingleBlockStatus_eq csm s s1 blockHash _ _ _ block hpast hstage hblock, hv]
    cases err with
    | rule code => exact absurd rfl (hne code)
    | other id => rfl
    | panic => rfl
  · intro err hstage
    exact resolveSingleBlockStatus_stage_error csm s blockHash _ _ _ err hpast hstage

/-- Witness for C22 on the sample manager: block 5 fails verification with a rule error
and is disqualified with the acceptance data staged only. -/
theorem resolveSingleBlockStatus_spec_witness :
    ∃ s', resolveSingleBlockStatus sampleCSM emptyStaging 5 =
        .ok (.StatusDisqualifiedFromChain, s') ∧
      s'.multiset = [] ∧ s'.utxoDiff = [] ∧ s'.acceptanceData = [(5, 5)] :=
  have hw := (resolveSingleBlockStatus_spec sampleCSM emptyStaging 5 5 5 5 5 rfl rfl).2.1
    _ rfl
  ⟨_, rfl, hw.1, hw.2.1, hw.2.2.2⟩

theorem utxoDiffStoreStage_frame (csm : ConsensusStateManager) (s s' : Staging)
    (blockHash : Hash) (utxoDiff : UTXODiff) (utxoDiffChild : Option Hash)
    (h : utxoDiffStoreStage csm s blockHash utxoDiff utxoDiffChild = .ok s') :
    s' = { s with utxoDiff := (blockHash, (utxoDiff, utxoDiffChild)) :: s.utxoDiff } := by
  unfold utxoDiffStoreStage at h
  cases he : csm.utxoDiffStageError blockHash utxoDiff utxoDiffChild with
  | some err => rw [he] at h; cases h
  | none => rw [he] at h; cases h; rfl

theorem reads_of_lookup_eq (csm : ConsensusStateManager) (hreads : ReadsStagedRecords csm)
    (s s' : Staging) (p : Hash) (h : s.utxoDiff.lookup p = s'.utxoDiff.lookup p) :
    csm.utxoDiffStoreHasUTXODiffChild s p = csm.utxoDiffStoreHasUTXODiffChild s' p ∧
    csm.utxoDiffStoreUTXODiff s p = csm.utxoDiffStoreUTXODiff s' p := by
  cases hl : s.utxoDiff.lookup p with
  | none => exact hreads.2.1 s s' p hl (by rw [← h, hl])
  | some record =>
    have h1 := hreads.1 s p record hl
    have h2 := hreads.1 s' p record (by rw [← h, hl])
    exact ⟨by rw [h1.1, h2.1], by rw [h1.2, h2.2]⟩

theorem replacesParentDiff_congr (csm : ConsensusStateManager)
    (hreads : ReadsStagedRecords csm) (s s' : Staging) (blockHash : Hash)
    (pastUTXODiff : UTXODiff) (p : Hash) (record : UTXODiff × Option Hash)
    (hl : s.utxoDiff.lookup p = s'.utxoDiff.lookup p)
    (hb : s.blockStatus = s'.blockStatus) :
    ReplacesParentDiff csm s blockHash pastUTXODiff p record ↔
      ReplacesParentDiff csm s' blockHash pastUTXODiff p record := by
  obtain ⟨h1, h2⟩ := reads_of_lookup_eq csm hreads s s' p hl
  have h3 : blockStatusStoreGet csm s p = blockStatusStoreGet csm s' p :=
    hreads.2.2 s s' (some p) hb
  unfold ReplacesParentDiff
  rw [h1, h2, h3]

theorem lookup_cons_ne {α : Type} (p q : Hash) (v : α) (l : List (Hash × α)) (h : p ≠ q) :
    List.lookup p ((q, v) :: l) = List.lookup p l := by
  have : (p == q) = false := by simpa using h
  simp [List.lookup, this]

theorem lookup_cons_self {α : Type} (p : Hash) (v : α) (l : List (Hash × α)) :
    List.lookup p ((p, v) :: l) = some v := by
  simp [List.lookup]

theorem lookup_append_of_not_mem {α : Type} (p : Hash) :
    ∀ (l k : List (Hash × α)), (∀ v, (p, v) ∉ l) →
      List.lookup p (l ++ k) = List.lookup p k := by
  intro l
  induction l with
  | nil => intro k _; rfl
  | cons x rest ih =>
    intro k h
    obtain ⟨q, v⟩ := x
    have hne : p ≠ q := by
      rintro rfl
      exact h v (List.mem_cons_self _ _)
    rw [List.cons_append, lookup_cons_ne p q v _ hne]
    exact ih k (fun w hw => h w (List.mem_cons_of_mem _ hw))

theorem updateParentDiffsLoop_spec (csm : ConsensusStateManager)
    (hreads : ReadsStagedRecords csm) (blockHash : Hash) (pastUTXODiff : UTXODiff) :
    ∀ (parentHashes : List Hash) (s s' : Staging),
      updateParentDiffsLoop csm blockHash pastUTXODiff s parentHashes = .ok s' →
      ∃ staged, s' = { s with utxoDiff := staged ++ s.utxoDiff } ∧
        ∀ (p : Hash) (record : UTXODiff × Option Hash), (p, record) ∈ staged ↔
          p ∈ parentHashes ∧ ReplacesParentDiff csm s blockHash pastUTXODiff p record := by
  intro parentHashes
  induction parentHashes with
  | nil =>
    intro s s' h
    cases h
    exact ⟨[], rfl, by intro p record; simp⟩
  | cons q rest ih =>
    intro s s' h
    unfold updateParentDiffsLoop at h
    simp only [bind, Except.bind] at h
    cases hc : csm.utxoDiffStoreHasUTXODiffChild s q with
    | error err => rw [hc] at h; cases h
    | ok child =>
      rw [hc] at h
      dsimp only at h
      cases child with
      | true =>
        rw [if_pos rfl] at h
        obtain ⟨staged, hs, hall⟩ := ih s s' h
        refine ⟨staged, hs, ?_⟩
        intro p record
        rw [hall p record, List.mem_cons]
        constructor
        · rintro ⟨hp, hq⟩; exact ⟨Or.inr hp, hq⟩
        · rintro ⟨hp | hp, hq⟩
          · subst hp
            have := hq.1
            rw [hc] at this
            cases this
          · exact ⟨hp, hq⟩
      | false =>
        rw [if_neg (by decide)] at h
        cases hg : blockStatusStoreGet csm s q with
        | error err => rw [hg] at h; cases h
        | ok parentStatus =>
          rw [hg] at h
          dsimp only at h
          by_cases hv : (parentStatus != BlockStatus.StatusValid) = true
          · rw [if_pos hv] at h
            obtain ⟨staged, hs, hall⟩ := ih s s' h
            refine ⟨staged, hs, ?_⟩
            intro p record
            rw [hall p record, List.mem_cons]
            constructor
            · rintro ⟨hp, hq⟩; exact ⟨Or.inr hp, hq⟩
            · rintro ⟨hp | hp, hq⟩
              · subst hp
                have := hq.2.1
                rw [hg] at this
                cases this
                exact absurd hv (by decide)
              · exact ⟨hp, hq⟩
          · rw [if_neg hv] at h
            have hvalid : parentStatus = .StatusValid := by simpa using hv
            subst hvalid
            cases hd : csm.utxoDiffStoreUTXODiff s q with
            | error err => rw [hd] at h; cases h
            | ok parentCurrentDiff =>
              rw [hd] at h
              dsimp only at h
              cases hn : csm.DiffFrom pastUTXODiff parentCurrentDiff with
              | error err => rw [hn] at h; cases h
              | ok parentNewDiff =>
                rw [hn] at h
                dsimp only at h
                cases hs : utxoDiffStoreStage csm s q parentNewDiff (some blockHash) with
                | error err => rw [hs] at h; cases h
                | ok s1 =>
                  rw [hs] at h
                  dsimp only at h
                  have hs1 := utxoDiffStoreStage_frame csm s s1 _ _ _ hs
                  obtain ⟨staged, hs', hall⟩ := ih s1 s' h
                  refine ⟨staged ++ [(q, (parentNewDiff, some blockHash))], ?_, ?_⟩
                  · rw [hs', hs1]
                    simp
                  · intro p record
                    rw [List.mem_append, hall p record, List.mem_singleton, List.mem_cons]
                    have hq1 : csm.utxoDiffStoreHasUTXODiffChild s1 q = .ok true := by
                      have := (hreads.1 s1 q (parentNewDiff, some blockHash)
                        (by rw [hs1]; exact lookup_cons_self _ _ _)).1
                      simpa using this
                    constructor
                    · rintro (⟨hp, hrep⟩ | heq)
                      · have hne : p ≠ q := by
                          rintro rfl
                          have := hrep.1
                          rw [hq1] at this
                          cases this
                        refine ⟨Or.inr hp, ?_⟩
                        refine (replacesParentDiff_congr csm hreads s1 s blockHash
                          pastUTXODiff p record ?_ ?_).1 hrep
                        · rw [hs1]; exact lookup_cons_ne p q _ _ hne
                        · rw [hs1]
                      · cases heq
                        exact ⟨Or.inl rfl, hc, hg, parentCurrentDiff, hd, hn, rfl⟩
                    · rintro ⟨hp, hrep⟩
                      by_cases hne : p = q
                      · subst hne
                        right
                        obtain ⟨_, _, cur, hcur, hdiff, hchild⟩ := hrep
                        rw [hd] at hcur
                        cases hcur
                        rw [hn] at hdiff
                        cases hdiff
                        obtain ⟨r1, r2⟩ := record
                        simp only at hchild
                        subst hchild
                        rfl
                      · left
                        rcases hp with hp | hp
                        · exact absurd hp hne
                        · refine ⟨hp, ?_⟩
                          refine (replacesParentDiff_congr csm hreads s1 s blockHash
                            pastUTXODiff p record ?_ ?_).2 hrep
                          · rw [hs1]; exact lookup_cons_ne p q _ _ hne
                          · rw [hs1]

theorem lookup_append_of_mem_unique {α : Type} (p : Hash) (v : α) :
    ∀ (l k : List (Hash × α)), (p, v) ∈ l → (∀ w, (p, w) ∈ l → w = v) →
      List.lookup p (l ++ k) = some v := by
  intro l
  induction l with
  | nil => intro k h _; cases h
  | cons x rest ih =>
    intro k hmem huniq
    obtain ⟨q, w⟩ := x
    by_cases hq : p = q
    · subst hq
      have := huniq w (List.mem_cons_self _ _)
      subst this
      exact lookup_cons_self _ _ _
    · rw [List.cons_append, lookup_cons_ne p q w _ hq]
      rcases List.mem_cons.1 hmem with heq | hmem
      · cases heq
        exact absurd rfl hq
      · exact ih k hmem (fun u hu => huniq u (List.mem_cons_of_mem _ hu))

theorem replacesParentDiff_unique (csm : ConsensusStateManager) (s : Staging)
    (blockHash : Hash) (pastUTXODiff : UTXODiff) (p : Hash)
    (r r' : UTXODiff × Option Hash)
    (h : ReplacesParentDiff csm s blockHash pastUTXODiff p r)
    (h' : ReplacesParentDiff csm s blockHash pastUTXODiff p r') : r' = r := by
  obtain ⟨_, _, cur, hcur, hdiff, hchild⟩ := h
  obtain ⟨_, _, cur', hcur', hdiff', hchild'⟩ := h'
  rw [hcur] at hcur'
  cases hcur'
  rw [hdiff] at hdiff'
  obtain ⟨a, b⟩ := r
  obtain ⟨a', b'⟩ := r'
  simp only at hchild hchild' hdiff'
  cases hdiff'
  rw [hchild, hchild']

theorem updateParentDiffsLoop_reads (csm : ConsensusStateManager)
    (hreads : ReadsStagedRecords csm) (blockHash : Hash) (pastUTXODiff : UTXODiff) :
    ∀ (parentHashes : List Hash) (s s' : Staging),
      updateParentDiffsLoop csm blockHash pastUTXODiff s parentHashes = .ok s' →
      ∀ p ∈ parentHashes,
        csm.utxoDiffStoreHasUTXODiffChild s p = .ok true ∨
        (csm.utxoDiffStoreHasUTXODiffChild s p = .ok false ∧
          ∃ status, blockStatusStoreGet csm s p = .ok status ∧ status ≠ .StatusValid) ∨
        ∃ record, ReplacesParentDiff csm s blockHash pastUTXODiff p record := by
  intro parentHashes
  induction parentHashes with
  | nil => intro s s' _ p hp; cases hp
  | cons q rest ih =>
    intro s s' h p hp
    unfold updateParentDiffsLoop at h
    simp only [bind, Except.bind] at h
    cases hc : csm.utxoDiffStoreHasUTXODiffChild s q with
    | error err => rw [hc] at h; cases h
    | ok child =>
      rw [hc] at h
      dsimp only at h
      cases child with
      | true =>
        rw [if_pos rfl] at h
        rcases List.mem_cons.1 hp with rfl | hp
        · exact Or.inl hc
        · exact ih s s' h p hp
      | false =>
        rw [if_neg (by decide)] at h
        cases hg : blockStatusStoreGet csm s q with
        | error err => rw [hg] at h; cases h
        | ok parentStatus =>
          rw [hg] at h
          dsimp only at h
          by_cases hv : (parentStatus != BlockStatus.StatusValid) = true
          · rw [if_pos hv] at h
            rcases List.mem_cons.1 hp with rfl | hp
            · exact Or.inr (Or.inl ⟨hc, parentStatus, hg, by simpa using hv⟩)
            · exact ih s s' h p hp
          · rw [if_neg hv] at h
            have hvalid : parentStatus = .StatusValid := by simpa using hv
            subst hvalid
            cases hd : csm.utxoDiffStoreUTXODiff s q with
            | error err => rw [hd] at h; cases h
            | ok parentCurrentDiff =>
              rw [hd] at h
              dsimp only at h
              cases hn : csm.DiffFrom pastUTXODiff parentCurrentDiff with
              | error err => rw [hn] at h; cases h
              | ok parentNewDiff =>
                rw [hn] at h
                dsimp only at h
                cases hs : utxoDiffStoreStage csm s q parentNewDiff (some blockHash) with
                | error err => rw [hs] at h; cases h
                | ok s1 =>
                  rw [hs] at h
                  dsimp only at h
                  have hs1 := utxoDiffStoreStage_frame csm s s1 _ _ _ hs
                  by_cases hpq : p = q
                  · subst hpq
                    exact Or.inr (Or.inr ⟨(parentNewDiff, some blockHash), hc, hg,
                      parentCurrentDiff, hd, hn, rfl⟩)
                  · have hp' : p ∈ rest := by
                      rcases List.mem_cons.1 hp with h0 | h0
                      · exact absurd h0 hpq
                      · exact h0
                    have hl : s1.utxoDiff.lookup p = s.utxoDiff.lookup p := by
                      rw [hs1]; exact lookup_cons_ne p q _ _ hpq
                    have hb : s1.blockStatus = s.blockStatus := by rw [hs1]
                    obtain ⟨e1, _⟩ := reads_of_lookup_eq csm hreads s1 s p hl
                    have e3 : blockStatusStoreGet csm s1 p = blockStatusStoreGet csm s p :=
                      hreads.2.2 s1 s (some p) hb
                    rcases ih s1 s' h p hp' with h1 | ⟨h1, st, h2, h3⟩ | ⟨record, h1⟩
                    · exact Or.inl (by rw [← e1]; exact h1)
                    · exact Or.inr (Or.inl ⟨by rw [← e1]; exact h1, st,
                        by rw [← e3]; exact h2, h3⟩)
                    · exact Or.inr (Or.inr ⟨record, (replacesParentDiff_congr csm hreads
                        s1 s blockHash pastUTXODiff p record hl hb).1 h1⟩)

theorem updateParentDiffs_eq (csm : ConsensusStateManager) (s : Staging) (blockHash : Hash)
    (pastUTXODiff : UTXODiff) (parentHashes : List Hash)
    (hparents : csm.Parents blockHash = .ok parentHashes) :
    updateParentDiffs csm s blockHash pastUTXODiff =
      updateParentDiffsLoop csm blockHash pastUTXODiff s parentHashes := by
  unfold updateParentDiffs
  simp only [bind, Except.bind, hparents]

/-- C23. When the stores read through their staged records, a call of `updateParentDiffs`
for the block `h` with the past UTXO diff `D` that succeeds stages records of
`utxoDiffStore` and nothing else. It stages a record for a block exactly when the block
is a parent of `h` that has no UTXO diff child and whose status is `StatusValid`, and
the record is the diff from `D` to the current diff of the parent with the diff child
`h`; every such parent gets a record, and the store then gives that diff and a diff
child for it. For every other block, parent or not, the record, the diff and the diff
child are as before. -/
theorem updateParentDiffs_spec (csm : ConsensusStateManager)
    (hreads : ReadsStagedRecords csm) (s s' : Staging) (h : Hash) (D : UTXODiff)
    (parentHashes : List Hash) (hparents : csm.Parents h = .ok parentHashes)
    (hok : updateParentDiffs csm s h D = .ok s') :
    ∃ staged, s' = { s with utxoDiff := staged ++ s.utxoDiff } ∧
      (∀ (p : Hash) (record : UTXODiff × Option Hash), (p, record) ∈ staged ↔
        p ∈ parentHashes ∧ ReplacesParentDiff csm s h D p record) ∧
      (∀ (p : Hash) (record : UTXODiff × Option Hash),
        p ∈ parentHashes → ReplacesParentDiff csm s h D p record →
        s'.utxoDiff.lookup p = some record ∧
        csm.utxoDiffStoreUTXODiff s' p = .ok record.1 ∧
        csm.utxoDiffStoreHasUTXODiffChild s' p = .ok true) ∧
      (∀ b : Hash,
        ¬ (b ∈ parentHashes ∧ csm.utxoDiffStoreHasUTXODiffChild s b = .ok false ∧
          blockStatusStoreGet csm s b = .ok .StatusValid) →
        s'.utxoDiff.lookup b = s.utxoDiff.lookup b ∧
        csm.utxoDiffStoreUTXODiff s' b = csm.utxoDiffStoreUTXODiff s b ∧
        csm.utxoDiffStoreHasUTXODiffChild s' b = csm.utxoDiffStoreHasUTXODiffChild s b) ∧
      (∀ p ∈ parentHashes, csm.utxoDiffStoreHasUTXODiffChild s p = .ok false →
        blockStatusStoreGet csm s p = .ok .StatusValid → ∃ record, (p, record) ∈ staged) := by
  rw [updateParentDiffs_eq csm s h D parentHashes hparents] at hok
  obtain ⟨staged, hs, hall⟩ := updateParentDiffsLoop_spec csm hreads h D parentHashes s s' hok
  have hevery : ∀ p ∈ parentHashes, csm.utxoDiffStoreHasUTXODiffChild s p = .ok false →
      blockStatusStoreGet csm s p = .ok .StatusValid → ∃ record, (p, record) ∈ staged := by
    intro p hp h1 h2
    rcases updateParentDiffsLoop_reads csm hreads h D parentHashes s s' hok p hp with
      h3 | ⟨_, st, h4, h5⟩ | ⟨record, hrep⟩
    · rw [h1] at h3
      cases h3
    · rw [h2] at h4
      cases h4
      exact absurd rfl h5
    · exact ⟨record, (hall p record).2 ⟨hp, hrep⟩⟩
  refine ⟨staged, hs, hall, ?_, ?_, hevery⟩
  · intro p record hp hrep
    have hl : s'.utxoDiff.lookup p = some record := by
      rw [hs]
      refine lookup_append_of_mem_unique p record staged s.utxoDiff
        ((hall p record).2 ⟨hp, hrep⟩) ?_
      intro w hw
      exact replacesParentDiff_unique csm s h D p record w hrep ((hall p w).1 hw).2
    obtain ⟨h1, h2⟩ := hreads.1 s' p record hl
    obtain ⟨_, _, _, _, _, hchild⟩ := hrep
    refine ⟨hl, h2, ?_⟩
    rw [h1, hchild]
    rfl
  · intro b hb
    have hl : s'.utxoDiff.lookup b = s.utxoDiff.lookup b := by
      rw [hs]
      refine lookup_append_of_not_mem b staged s.utxoDiff ?_
      intro v hv
      obtain ⟨hp, hrep⟩ := (hall b v).1 hv
      exact hb ⟨hp, hrep.1, hrep.2.1⟩
    obtain ⟨h1, h2⟩ := reads_of_lookup_eq csm hreads s' s b hl
    exact ⟨hl, h2, h1⟩

theorem sampleCSM_reads : ReadsStagedRecords sampleCSM := by
  refine ⟨?_, ?_, ?_⟩
  · intro s p record h
    simp [sampleCSM, h]
  · intro s s' p h h'
    simp [sampleCSM, h, h']
  · intro s s' blockHash h
    simp [sampleCSM, h]

/-- Witness for C23 on the sample manager: updating the parents of block 4 replaces the
diff of its parent 3, which is valid and has no diff child. -/
theorem updateParentDiffs_spec_witness :
    ∃ (s' : Staging) (staged : List (Hash × (UTXODiff × Option Hash))),
      updateParentDiffs sampleCSM emptyStaging 4 4 = .ok s' ∧
      s' = { emptyStaging with utxoDiff := staged ++ emptyStaging.utxoDiff } ∧
      s'.utxoDiff.lookup 3 = some (7, some 4) :=
  have hw := updateParentDiffs_spec sampleCSM sampleCSM_reads emptyStaging _ 4 4 [3] rfl rfl
  ⟨_, hw.choose, rfl, hw.choose_spec.1,
    (hw.choose_spec.2.2.1 3 (7, some 4) (by decide) ⟨rfl, rfl, 3, rfl, rfl, rfl⟩).1⟩

theorem resolveSingleBlockStatus_valid (csm : ConsensusStateManager) (s s' : Staging)
    (blockHash : Hash)
    (h : resolveSingleBlockStatus csm s blockHash = .ok (.StatusValid, s')) :
    ∃ (pastUTXODiff : UTXODiff) (acceptanceData : AcceptanceData) (multiset : ModelMultiset)
      (s1 s2 : Staging),
      acceptanceDataStoreStage csm s blockHash acceptanceData = .ok s1 ∧
      utxoDiffStoreStage csm (multisetStoreStage s1 blockHash multiset) blockHash
        pastUTXODiff none = .ok s2 ∧
      updateParentDiffs csm s2 blockHash pastUTXODiff = .ok s' := by
  cases hc : csm.CalculatePastUTXOAndAcceptanceData s blockHash with
  | error err =>
    unfold resolveSingleBlockStatus at h
    simp only [bind, Except.bind, hc] at h
    cases h
  | ok r =>
    obtain ⟨pastUTXODiff, acceptanceData, multiset⟩ := r
    cases ha : acceptanceDataStoreStage csm s blockHash acceptanceData with
    | error err =>
      rw [resolveSingleBlockStatus_stage_error csm s blockHash _ _ _ err hc ha] at h
      cases h
    | ok s1 =>
      cases hb : csm.blockStore blockHash with
      | error err =>
        unfold resolveSingleBlockStatus at h
        simp only [bind, Except.bind, hc, ha, hb] at h
        cases h
      | ok block =>
        rw [resolveSingleBlockStatus_eq csm s s1 blockHash _ _ _ block hc ha hb] at h
        cases hv : csm.verifyUTXO s1 block blockHash pastUTXODiff acceptanceData multiset with
        | error err => rw [hv] at h; cases err <;> cases h
        | ok u =>
          rw [hv] at h
          dsimp only at h
          cases hs : utxoDiffStoreStage csm (multisetStoreStage s1 blockHash multiset)
              blockHash pastUTXODiff none with
          | error err => rw [hs] at h; cases h
          | ok s2 =>
            rw [hs] at h
            dsimp only at h
            cases hu : updateParentDiffs csm s2 blockHash pastUTXODiff with
            | error err => rw [hu] at h; cases h
            | ok s3 =>
              rw [hu] at h
              cases h
              exact ⟨pastUTXODiff, acceptanceData, multiset, s1, s2, ha, hs, hu⟩

/-- C24. When the stores read through their staged records and `h` is not among its own
parents, after `resolveSingleBlockStatus` returns `StatusValid` for `h`: every parent of
`h` whose status is `StatusValid` has a UTXO diff child, either because it had one
before, its record being untouched, or because its latest record names `h` as the diff
child; and the latest record of `h` has no diff child, so `h` is the one block among
them without a UTXO diff child. -/
theorem resolveSingleBlockStatus_diff_children (csm : ConsensusStateManager)
    (hreads : ReadsStagedRecords csm) (s s' : Staging) (h : Hash) (parentHashes : List Hash)
    (hparents : csm.Parents h = .ok parentHashes) (hself : h ∉ parentHashes)
    (hvalid : resolveSingleBlockStatus csm s h = .ok (.StatusValid, s')) :
    (∀ p ∈ parentHashes, blockStatusStoreGet csm s' p = .ok .StatusValid →
      csm.utxoDiffStoreHasUTXODiffChild s' p = .ok true ∧
      ((csm.utxoDiffStoreHasUTXODiffChild s p = .ok true ∧
          s'.utxoDiff.lookup p = s.utxoDiff.lookup p) ∨
        ∃ diff, s'.utxoDiff.lookup p = some (diff, some h))) ∧
    (∃ pastUTXODiff, s'.utxoDiff.lookup h = some (pastUTXODiff, none)) ∧
    csm.utxoDiffStoreHasUTXODiffChild s' h = .ok false := by
  obtain ⟨D, A, M, s1, s2, ha, hs, hu⟩ := resolveSingleBlockStatus_valid csm s s' h hvalid
  have e1 := acceptanceDataStoreStage_frame csm s s1 _ _ ha
  have e2 := utxoDiffStoreStage_frame csm _ s2 _ _ _ hs
  have hs2diff : s2.utxoDiff = (h, (D, none)) :: s.utxoDiff := by
    rw [e2, e1]; rfl
  have hs2status : s2.blockStatus = s.blockStatus := by
    rw [e2, e1]; rfl
  rw [updateParentDiffs_eq csm s2 h D parentHashes hparents] at hu
  obtain ⟨staged, hs', hall⟩ := updateParentDiffsLoop_spec csm hreads h D parentHashes s2 s' hu
  have hcases := updateParentDiffsLoop_reads csm hreads h D parentHashes s2 s' hu
  have hs'status : s'.blockStatus = s2.blockStatus := by rw [hs']
  have hs'diff : s'.utxoDiff = staged ++ s2.utxoDiff := by rw [hs']
  have hlookup_h : s'.utxoDiff.lookup h = some (D, none) := by
    rw [hs'diff, lookup_append_of_not_mem h staged s2.utxoDiff, hs2diff]
    · exact lookup_cons_self _ _ _
    · intro v hv
      exact hself ((hall h v).1 hv).1
  refine ⟨?_, ⟨D, hlookup_h⟩, ?_⟩
  · intro p hp hstatus
    have hne : p ≠ h := by
      rintro rfl
      exact hself hp
    have hl2 : s2.utxoDiff.lookup p = s.utxoDiff.lookup p := by
      rw [hs2diff]; exact lookup_cons_ne p h _ _ hne
    rcases hcases p hp with h1 | ⟨_, st, h2, h3⟩ | ⟨record, hrep⟩
    · have hl : s'.utxoDiff.lookup p = s2.utxoDiff.lookup p := by
        rw [hs'diff]
        refine lookup_append_of_not_mem p staged s2.utxoDiff ?_
        intro v hv
        have := ((hall p v).1 hv).2.1
        rw [h1] at this
        cases this
      obtain ⟨e3, _⟩ := reads_of_lookup_eq csm hreads s' s2 p hl
      obtain ⟨e4, _⟩ := reads_of_lookup_eq csm hreads s2 s p hl2
      exact ⟨by rw [e3]; exact h1, Or.inl ⟨by rw [← e4]; exact h1, by rw [hl, hl2]⟩⟩
    · have e5 : blockStatusStoreGet csm s' p = blockStatusStoreGet csm s2 p :=
        hreads.2.2 s' s2 (some p) hs'status
      rw [e5, h2] at hstatus
      cases hstatus
      exact absurd rfl h3
    · have hl : s'.utxoDiff.lookup p = some record := by
        rw [hs'diff]
        refine lookup_append_of_mem_unique p record staged s2.utxoDiff
          ((hall p record).2 ⟨hp, hrep⟩) ?_
        intro w hw
        exact replacesParentDiff_unique csm s2 h D p record w hrep ((hall p w).1 hw).2
      obtain ⟨_, _, _, _, _, hchild⟩ := hrep
      obtain ⟨r1, r2⟩ := record
      simp only at hchild
      subst hchild
      have := (hreads.1 s' p (r1, some h) hl).1
      exact ⟨by simpa using this, Or.inr ⟨r1, hl⟩⟩
  · have := (hreads.1 s' h (D, none) hlookup_h).1
    simpa using this

/-- Witness for C24 on the sample manager: after block 4 is resolved valid, its valid
parent 3 has the diff child 4 and block 4 has none. -/
theorem resolveSingleBlockStatus_diff_children_witness :
    ∃ s', resolveSingleBlockStatus sampleCSM emptyStaging 4 = .ok (.StatusValid, s') ∧
      sampleCSM.utxoDiffStoreHasUTXODiffChild s' 3 = .ok true ∧
      sampleCSM.utxoDiffStoreHasUTXODiffChild s' 4 = .ok false :=
  have hw := resolveSingleBlockStatus_diff_children sampleCSM sampleCSM_reads emptyStaging
    _ 4 [3] rfl (by decide) rfl
  ⟨_, rfl, (hw.1 3 (by decide) rfl).1, hw.2.2⟩

/-! ## UTXO index -/

theorem runCalls_cons (ui : UTXOIndex) (calls : List StoreCall) (op : StoreCall)
    (rest : List StoreCall) :
    runCalls ui calls (op :: rest) =
      match storeCall ui calls op with
      | (calls, some err) => (calls, some err)
      | (calls, none) => runCalls ui calls rest := rfl

theorem runCalls_append (ui : UTXOIndex) :
    ∀ (ops more calls : List StoreCall),
      runCalls ui calls (ops ++ more) =
        match runCalls ui calls ops with
        | (calls, some err) => (calls, some err)
        | (calls, none) => runCalls ui calls more := by
  intro ops
  induction ops with
  | nil => intro more calls; rfl
  | cons op rest ih =>
    intro more calls
    rw [List.cons_append, runCalls_cons, runCalls_cons]
    cases h : storeCall ui calls op with
    | mk calls1 err =>
      cases err with
      | some e => rfl
      | none => exact ih more calls1

theorem runCalls_extends (ui : UTXOIndex) :
    ∀ (ops calls calls' : List StoreCall) (err : Option Fault),
      runCalls ui calls ops = (calls', err) →
      ∃ done, calls' = calls ++ done ∧ done <+: ops ∧ (err = none → done = ops) := by
  intro ops
  induction ops with
  | nil =>
    intro calls calls' err h
    cases h
    exact ⟨[], by simp, List.prefix_refl _, fun _ => rfl⟩
  | cons op rest ih =>
    intro calls calls' err h
    unfold runCalls at h
    cases hs : storeCall ui calls op with
    | mk calls1 e =>
      have hc : calls1 = calls ++ [op] := by
        have := congrArg Prod.fst hs
        simpa [storeCall] using this.symm
      rw [hs] at h
      cases e with
      | some e =>
        cases h
        exact ⟨[op], hc, by simp, fun h => by cases h⟩
      | none =>
        dsimp only at h
        obtain ⟨done, h1, h2, h3⟩ := ih calls1 calls' err h
        refine ⟨op :: done, by rw [h1, hc]; simp, ?_, ?_⟩
        · exact (List.prefix_cons_inj op).2 h2
        · intro he; rw [h3 he]

theorem addTransactionInputs_eq (ui : UTXOIndex) :
    ∀ (inputs : List DomainTransactionInput) (calls : List StoreCall),
      addTransactionInputs ui calls inputs =
        runCalls ui calls (inputs.map
          (fun input => .remove input.UTXOEntry.ScriptPublicKey input.PreviousOutpoint)) := by
  intro inputs
  induction inputs with
  | nil => intro calls; rfl
  | cons input rest ih =>
    intro calls
    unfold addTransactionInputs
    rw [List.map_cons]
    unfold runCalls
    cases h : storeCall ui calls
        (.remove input.UTXOEntry.ScriptPublicKey input.PreviousOutpoint) with
    | mk calls1 err =>
      cases err with
      | some e => rfl
      | none => exact ih calls1

theorem addTransactionOutputs_eq (ui : UTXOIndex) (transaction : DomainTransaction)
    (isCoinbase : Bool) (blockBlueScore : Nat) :
    ∀ (outputs : List DomainTransactionOutput) (index : Nat) (calls : List StoreCall),
      addTransactionOutputs ui transaction isCoinbase blockBlueScore calls index outputs =
        runCalls ui calls (addOutputCalls transaction isCoinbase blockBlueScore index outputs) := by
  intro outputs
  induction outputs with
  | nil => intro index calls; rfl
  | cons output rest ih =>
    intro index calls
    unfold addTransactionOutputs addOutputCalls
    dsimp only
    unfold runCalls
    cases h : storeCall ui calls (.add output.ScriptPublicKey
        (NewDomainOutpoint transaction.ID index)
        (NewUTXOEntry output.Value output.ScriptPublicKey isCoinbase blockBlueScore)) with
    | mk calls1 err =>
      cases err with
      | some e => rfl
      | none => exact ih (index + 1) calls1

theorem addTransaction_eq (ui : UTXOIndex) (calls : List StoreCall)
    (transaction : DomainTransaction) (blockBlueScore : Nat) :
    addTransaction ui calls transaction blockBlueScore =
      runCalls ui calls (addTransactionCalls ui transaction blockBlueScore) := by
  unfold addTransaction addTransactionCalls
  rw [runCalls_append, addTransactionInputs_eq]
  dsimp only
  cases h : runCalls ui calls (transaction.Inputs.map
      (fun input => .remove input.UTXOEntry.ScriptPublicKey input.PreviousOutpoint)) with
  | mk calls1 err =>
    cases err with
    | some e => rfl
    | none => exact addTransactionOutputs_eq ui transaction _ _ _ 0 calls1

theorem removeTransactionOutputs_eq (ui : UTXOIndex) (transaction : DomainTransaction) :
    ∀ (outputs : List DomainTransactionOutput) (index : Nat) (calls : List StoreCall),
      removeTransactionOutputs ui transaction calls index outputs =
        runCalls ui calls (removeOutputCalls transaction index outputs) := by
  intro outputs
  induction outputs with
  | nil => intro index calls; rfl
  | cons output rest ih =>
    intro index calls
    unfold removeTransactionOutputs removeOutputCalls
    dsimp only
    unfold runCalls
    cases h : storeCall ui calls (.remove output.ScriptPublicKey
        (NewDomainOutpoint transaction.ID index)) with
    | mk calls1 err =>
      cases err with
      | some e => rfl
      | none => exact ih (index + 1) calls1

theorem removeTransactionInputs_eq (ui : UTXOIndex) :
    ∀ (inputs : List DomainTransactionInput) (calls : List StoreCall),
      removeTransactionInputs ui calls inputs =
        runCalls ui calls (inputs.map (fun input =>
          .add input.UTXOEntry.ScriptPublicKey input.PreviousOutpoint input.UTXOEntry)) := by
  intro inputs
  induction inputs with
  | nil => intro calls; rfl
  | cons input rest ih =>
    intro calls
    unfold removeTransactionInputs
    rw [List.map_cons]
    unfold runCalls
    cases h : storeCall ui calls
        (.add input.UTXOEntry.ScriptPublicKey input.PreviousOutpoint input.UTXOEntry) with
    | mk calls1 err =>
      cases err with
      | some e => rfl
      | none => exact ih calls1

theorem removeTransaction_eq (ui : UTXOIndex) (calls : List StoreCall)
    (transaction : DomainTransaction) :
    removeTransaction ui calls transaction =
      runCalls ui calls (removeTransactionCalls transaction) := by
  unfold removeTransaction removeTransactionCalls
  rw [runCalls_append, removeTransactionOutputs_eq]
  cases h : runCalls ui calls (removeOutputCalls transaction 0 transaction.Outputs) with
  | mk calls1 err =>
    cases err with
    | some e => rfl
    | none => exact removeTransactionInputs_eq ui _ calls1

theorem addBlockTransactions_eq (ui : UTXOIndex) (blueScore : Nat) :
    ∀ (txs : List TransactionAcceptanceData) (calls : List StoreCall),
      addBlockTransactions ui blueScore calls txs =
        runCalls ui calls ((txs.map (fun data =>
          addTransactionCalls ui data.Transaction blueScore)).flatten) := by
  intro txs
  induction txs with
  | nil => intro calls; rfl
  | cons data rest ih =>
    intro calls
    unfold addBlockTransactions
    rw [List.map_cons, List.flatten_cons, runCalls_append, addTransaction_eq]
    cases h : runCalls ui calls (addTransactionCalls ui data.Transaction blueScore) with
    | mk calls1 err =>
      cases err with
      | some e => rfl
      | none => exact ih calls1

theorem removeBlockTransactions_eq (ui : UTXOIndex) :
    ∀ (txs : List TransactionAcceptanceData) (calls : List StoreCall),
      removeBlockTransactions ui calls txs =
        runCalls ui calls ((txs.map (fun data =>
          removeTransactionCalls data.Transaction)).flatten) := by
  intro txs
  induction txs with
  | nil => intro calls; rfl
  | cons data rest ih =>
    intro calls
    unfold removeBlockTransactions
    rw [List.map_cons, List.flatten_cons, runCalls_append, removeTransaction_eq]
    cases h : runCalls ui calls (removeTransactionCalls data.Transaction) with
    | mk calls1 err =>
      cases err with
      | some e => rfl
      | none => exact ih calls1

theorem addBlockRecords_eq (ui : UTXOIndex) (blueScore : Nat) :
    ∀ (records : List BlockAcceptanceData) (calls : List StoreCall),
      addBlockRecords ui blueScore calls records =
        runCalls ui calls (addBlockCalls ui ⟨records, blueScore⟩) := by
  intro records
  induction records with
  | nil => intro calls; rfl
  | cons record rest ih =>
    intro calls
    have hsplit : addBlockCalls ui ⟨record :: rest, blueScore⟩ =
        (record.TransactionAcceptanceData.map (fun data =>
          addTransactionCalls ui data.Transaction blueScore)).flatten ++
        addBlockCalls ui ⟨rest, blueScore⟩ := by
      simp [addBlockCalls, blockTransactions, List.map_append, List.flatten_append,
        Function.comp_def]
    unfold addBlockRecords
    rw [hsplit, runCalls_append, addBlockTransactions_eq]
    cases h : runCalls ui calls (record.TransactionAcceptanceData.map (fun data =>
        addTransactionCalls ui data.Transaction blueScore)).flatten with
    | mk calls1 err =>
      cases err with
      | some e => rfl
      | none => exact ih calls1

theorem removeBlockRecords_eq (ui : UTXOIndex) (blueScore : Nat) :
    ∀ (records : List BlockAcceptanceData) (calls : List StoreCall),
      removeBlockRecords ui calls records =
        runCalls ui calls (removeBlockCalls ⟨records, blueScore⟩) := by
  intro records
  induction records with
  | nil => intro calls; rfl
  | cons record rest ih =>
    intro calls
    have hsplit : removeBlockCalls ⟨record :: rest, blueScore⟩ =
        (record.TransactionAcceptanceData.map (fun data =>
          removeTransactionCalls data.Transaction)).flatten ++
        removeBlockCalls ⟨rest, blueScore⟩ := by
      simp [removeBlockCalls, blockTransactions, List.map_append, List.flatten_append,
        Function.comp_def]
    unfold removeBlockRecords
    rw [hsplit, runCalls_append, removeBlockTransactions_eq]
    cases h : runCalls ui calls (record.TransactionAcceptanceData.map (fun data =>
        removeTransactionCalls data.Transaction)).flatten with
    | mk calls1 err =>
      cases err with
      | some e => rfl
      | none => exact ih calls1

theorem addBlock_eq (ui : UTXOIndex) (calls : List StoreCall) (blockHash : Hash)
    (blockInfo : BlockInfo) (h : ui.GetBlockInfo blockHash = .ok blockInfo) :
    addBlock ui calls blockHash = runCalls ui calls (addBlockCalls ui blockInfo) := by
  unfold addBlock
  rw [h]
  exact addBlockRecords_eq ui blockInfo.BlueScore blockInfo.AcceptanceData calls

theorem removeBlock_eq (ui : UTXOIndex) (calls : List StoreCall) (blockHash : Hash)
    (blockInfo : BlockInfo) (h : ui.GetBlockInfo blockHash = .ok blockInfo) :
    removeBlock ui calls blockHash = runCalls ui calls (removeBlockCalls blockInfo) := by
  unfold removeBlock
  rw [h]
  exact removeBlockRecords_eq ui blockInfo.BlueScore blockInfo.AcceptanceData calls

theorem commit_not_mem_addOutputCalls (transaction : DomainTransaction) (isCoinbase : Bool)
    (blockBlueScore : Nat) :
    ∀ (outputs : List DomainTransactionOutput) (index : Nat),
      StoreCall.commit ∉ addOutputCalls transaction isCoinbase blockBlueScore index outputs := by
  intro outputs
  induction outputs with
  | nil => intro index h; cases h
  | cons output rest ih =>
    intro index h
    unfold addOutputCalls at h
    rcases List.mem_cons.1 h with h | h
    · cases h
    · exact ih (index + 1) h

theorem commit_not_mem_removeOutputCalls (transaction : DomainTransaction) :
    ∀ (outputs : List DomainTransactionOutput) (index : Nat),
      StoreCall.commit ∉ removeOutputCalls transaction index outputs := by
  intro outputs
  induction outputs with
  | nil => intro index h; cases h
  | cons output rest ih =>
    intro index h
    unfold removeOutputCalls at h
    rcases List.mem_cons.1 h with h | h
    · cases h
    · exact ih (index + 1) h

theorem commit_not_mem_addBlockCalls (ui : UTXOIndex) (blockInfo : BlockInfo) :
    StoreCall.commit ∉ addBlockCalls ui blockInfo := by
  intro h
  unfold addBlockCalls at h
  obtain ⟨l, hl, hmem⟩ := List.mem_flatten.1 h
  obtain ⟨transaction, _, rfl⟩ := List.mem_map.1 hl
  unfold addTransactionCalls at hmem
  rcases List.mem_append.1 hmem with hmem | hmem
  · obtain ⟨input, _, hi⟩ := List.mem_map.1 hmem
    cases hi
  · exact commit_not_mem_addOutputCalls _ _ _ _ _ hmem

theorem commit_not_mem_removeBlockCalls (blockInfo : BlockInfo) :
    StoreCall.commit ∉ removeBlockCalls blockInfo := by
  intro h
  unfold removeBlockCalls at h
  obtain ⟨l, hl, hmem⟩ := List.mem_flatten.1 h
  obtain ⟨transaction, _, rfl⟩ := List.mem_map.1 hl
  unfold removeTransactionCalls at hmem
  rcases List.mem_append.1 hmem with hmem | hmem
  · exact commit_not_mem_removeOutputCalls _ _ _ hmem
  · obtain ⟨input, _, hi⟩ := List.mem_map.1 hmem
    cases hi

theorem updateRemoved_spec (ui : UTXOIndex) :
    ∀ (hashes : List Hash) (calls calls' : List StoreCall) (err : Option Fault),
      updateRemoved ui calls hashes = (calls', err) →
      (∃ ops, calls' = calls ++ ops ∧ StoreCall.commit ∉ ops) ∧
      (err = none → ∃ infos, List.Forall₂ (fun h info => ui.GetBlockInfo h = .ok info)
          hashes infos ∧
        calls' = calls ++ (infos.map removeBlockCalls).flatten) := by
  intro hashes
  induction hashes with
  | nil =>
    intro calls calls' err h
    cases h
    exact ⟨⟨[], by simp, by simp⟩, fun _ => ⟨[], List.Forall₂.nil, by simp⟩⟩
  | cons hash rest ih =>
    intro calls calls' err h
    unfold updateRemoved at h
    cases hinfo : ui.GetBlockInfo hash with
    | error e =>
      have hb : removeBlock ui calls hash = (calls, some e) := by
        unfold removeBlock; rw [hinfo]
      rw [hb] at h
      cases h
      exact ⟨⟨[], by simp, by simp⟩, fun h => by cases h⟩
    | ok info =>
      rw [removeBlock_eq ui calls hash info hinfo] at h
      cases hr : runCalls ui calls (removeBlockCalls info) with
      | mk calls1 e =>
        obtain ⟨done, h1, h2, h3⟩ := runCalls_extends ui _ _ _ _ hr
        have hdone : StoreCall.commit ∉ done := fun hm =>
          commit_not_mem_removeBlockCalls info (h2.subset hm)
        rw [hr] at h
        cases e with
        | some e =>
          cases h
          exact ⟨⟨done, h1, hdone⟩, fun h => by cases h⟩
        | none =>
          dsimp only at h
          obtain ⟨⟨ops, h4, h5⟩, h6⟩ := ih calls1 calls' err h
          refine ⟨⟨done ++ ops, by rw [h4, h1]; simp, ?_⟩, ?_⟩
          · intro hm
            rcases List.mem_append.1 hm with hm | hm
            · exact hdone hm
            · exact h5 hm
          · intro he
            obtain ⟨infos, h7, h8⟩ := h6 he
            refine ⟨info :: infos, List.Forall₂.cons hinfo h7, ?_⟩
            rw [h8, h1, h3 rfl]
            simp

theorem updateAdded_spec (ui : UTXOIndex) :
    ∀ (hashes : List Hash) (calls calls' : List StoreCall) (err : Option Fault),
      updateAdded ui calls hashes = (calls', err) →
      (∃ ops, calls' = calls ++ ops ∧ StoreCall.commit ∉ ops) ∧
      (err = none → ∃ infos, List.Forall₂ (fun h info => ui.GetBlockInfo h = .ok info)
          hashes infos ∧
        calls' = calls ++ (infos.map (addBlockCalls ui)).flatten) := by
  intro hashes
  induction hashes with
  | nil =>
    intro calls calls' err h
    cases h
    exact ⟨⟨[], by simp, by simp⟩, fun _ => ⟨[], List.Forall₂.nil, by simp⟩⟩
  | cons hash rest ih =>
    intro calls calls' err h
    unfold updateAdded at h
    cases hinfo : ui.GetBlockInfo hash with
    | error e =>
      have hb : addBlock ui calls hash = (calls, some e) := by
        unfold addBlock; rw [hinfo]
      rw [hb] at h
      cases h
      exact ⟨⟨[], by simp, by simp⟩, fun h => by cases h⟩
    | ok info =>
      rw [addBlock_eq ui calls hash info hinfo] at h
      cases hr : runCalls ui calls (addBlockCalls ui info) with
      | mk calls1 e =>
        obtain ⟨done, h1, h2, h3⟩ := runCalls_extends ui _ _ _ _ hr
        have hdone : StoreCall.commit ∉ done := fun hm =>
          commit_not_mem_addBlockCalls ui info (h2.subset hm)
        rw [hr] at h
        cases e with
        | some e =>
          cases h
          exact ⟨⟨done, h1, hdone⟩, fun h => by cases h⟩
        | none =>
          dsimp only at h
          obtain ⟨⟨ops, h4, h5⟩, h6⟩ := ih calls1 calls' err h
          refine ⟨⟨done ++ ops, by rw [h4, h1]; simp, ?_⟩, ?_⟩
          · intro hm
            rcases List.mem_append.1 hm with hm | hm
            · exact hdone hm
            · exact h5 hm
          · intro he
            obtain ⟨infos, h7, h8⟩ := h6 he
            refine ⟨info :: infos, List.Forall₂.cons hinfo h7, ?_⟩
            rw [h8, h1, h3 rfl]
            simp

/-- C27, amended. `Update` processes the removed blocks in their order, then the added
blocks in their order, and makes no call of `commit` while it does. If the processing
of a block fails, `Update` returns that error without a call of `commit`, and the calls
made on the store by the earlier steps stay made: the store is left as the failing step
left it. If no block fails, the calls that `Update` makes are those that reverse each
removed block, those that apply each added block, and then one call of `commit`, whose
error it returns. -/
theorem Update_spec (ui : UTXOIndex) (calls : List StoreCall)
    (chainChanges : SelectedParentChainChanges) :
    (∀ (calls1 : List StoreCall) (err : Fault),
      updateRemoved ui calls chainChanges.Removed = (calls1, some err) →
      Update ui calls chainChanges = (calls1, some err) ∧
      ∃ ops, calls1 = calls ++ ops ∧ StoreCall.commit ∉ ops) ∧
    (∀ (calls1 calls2 : List StoreCall) (err : Fault),
      updateRemoved ui calls chainChanges.Removed = (calls1, none) →
      updateAdded ui calls1 chainChanges.Added = (calls2, some err) →
      Update ui calls chainChanges = (calls2, some err) ∧
      ∃ ops, calls2 = calls ++ ops ∧ StoreCall.commit ∉ ops) ∧
    (∀ (calls1 calls2 : List StoreCall),
      updateRemoved ui calls chainChanges.Removed = (calls1, none) →
      updateAdded ui calls1 chainChanges.Added = (calls2, none) →
      ∃ removedInfos addedInfos,
        List.Forall₂ (fun h info => ui.GetBlockInfo h = .ok info) chainChanges.Removed
          removedInfos ∧
        List.Forall₂ (fun h info => ui.GetBlockInfo h = .ok info) chainChanges.Added
          addedInfos ∧
        calls2 = calls ++ ((removedInfos.map removeBlockCalls).flatten ++
          (addedInfos.map (addBlockCalls ui)).flatten) ∧
        StoreCall.commit ∉ (removedInfos.map removeBlockCalls).flatten ++
          (addedInfos.map (addBlockCalls ui)).flatten ∧
        Update ui calls chainChanges =
          (calls2 ++ [StoreCall.commit], ui.storeError calls2 .commit)) := by
  refine ⟨?_, ?_, ?_⟩
  · intro calls1 err h
    refine ⟨?_, (updateRemoved_spec ui _ _ _ _ h).1⟩
    unfold Update
    rw [h]
  · intro calls1 calls2 err h1 h2
    obtain ⟨ops1, e1, n1⟩ := (updateRemoved_spec ui _ _ _ _ h1).1
    obtain ⟨ops2, e2, n2⟩ := (updateAdded_spec ui _ _ _ _ h2).1
    refine ⟨?_, ops1 ++ ops2, by rw [e2, e1]; simp, ?_⟩
    · unfold Update
      rw [h1]
      dsimp only
      rw [h2]
    · intro hm
      rcases List.mem_append.1 hm with hm | hm
      · exact n1 hm
      · exact n2 hm
  · intro calls1 calls2 h1 h2
    obtain ⟨rInfos, f1, e1⟩ := (updateRemoved_spec ui _ _ _ _ h1).2 rfl
    obtain ⟨aInfos, f2, e2⟩ := (updateAdded_spec ui _ _ _ _ h2).2 rfl
    refine ⟨rInfos, aInfos, f1, f2, by rw [e2, e1]; simp, ?_, ?_⟩
    · intro hm
      rcases List.mem_append.1 hm with hm | hm
      · obtain ⟨l, hl, hc⟩ := List.mem_flatten.1 hm
        obtain ⟨info, _, rfl⟩ := List.mem_map.1 hl
        exact commit_not_mem_removeBlockCalls info hc
      · obtain ⟨l, hl, hc⟩ := List.mem_flatten.1 hm
        obtain ⟨info, _, rfl⟩ := List.mem_map.1 hl
        exact commit_not_mem_addBlockCalls ui info hc
    · unfold Update
      rw [h1]
      dsimp only
      rw [h2]
      rfl

/-- Counterexample for C27 as stated, on the sample index: block 1 is applied, the
information of block 3 cannot be fetched, and `Update` returns the error with the two
calls made for block 1 left on the store, which is not as before the call. -/
theorem Update_spec_counterexample :
    Update sampleUTXOIndex [] ⟨[], [1, 3]⟩ =
      ([.remove [1] ⟨9, 0⟩, .add [2] ⟨7, 0⟩ ⟨30, [2], false, 10⟩], some (.other 6)) ∧
    (Update sampleUTXOIndex [] ⟨[], [1, 3]⟩).1 ≠ [] :=
  ⟨rfl, by decide⟩

/-- Witness for C27 on the sample index: an update that fails leaves the calls made, and
one that succeeds ends with the one call of `commit`. -/
theorem Update_spec_witness :
    Update sampleUTXOIndex [] ⟨[], [1, 3]⟩ =
      ([.remove [1] ⟨9, 0⟩, .add [2] ⟨7, 0⟩ ⟨30, [2], false, 10⟩], some (.other 6)) ∧
    Update sampleUTXOIndex [] ⟨[], [1]⟩ =
      ([.remove [1] ⟨9, 0⟩, .add [2] ⟨7, 0⟩ ⟨30, [2], false, 10⟩] ++ [.commit], none) :=
  ⟨((Update_spec sampleUTXOIndex [] ⟨[], [1, 3]⟩).2.1 [] _ (.other 6) rfl rfl).1,
    match (Update_spec sampleUTXOIndex [] ⟨[], [1]⟩).2.2 [] _ rfl rfl with
    | ⟨_, _, _, _, _, _, h⟩ => h⟩

/-- C26. On the sample index, block 2 holds the sample transaction with `IsAccepted`
false, and `Update` still removes its input and adds its output, as for block 1, where
the transaction is accepted. In general the loops of `addBlock` and `removeBlock` make
the same calls for two lists of acceptance data that hold the same transactions,
whatever their `IsAccepted`. -/
theorem Update_applies_unaccepted :
    Update sampleUTXOIndex [] ⟨[], [2]⟩ =
      ([.remove [1] ⟨9, 0⟩, .add [2] ⟨7, 0⟩ ⟨30, [2], false, 10⟩, .commit], none) ∧
    Update sampleUTXOIndex [] ⟨[2], []⟩ =
      ([.remove [2] ⟨7, 0⟩, .add [1] ⟨9, 0⟩ ⟨50, [1], false, 3⟩, .commit], none) ∧
    sampleUTXOIndex.GetBlockInfo 2 =
      .ok ⟨[⟨2, [⟨sampleDomainTransaction, false⟩]⟩], 10⟩ ∧
    (∀ (ui : UTXOIndex) (blueScore : Nat) (calls : List StoreCall)
      (txs txs' : List TransactionAcceptanceData),
      txs.map (fun data => data.Transaction) = txs'.map (fun data => data.Transaction) →
      addBlockTransactions ui blueScore calls txs =
          addBlockTransactions ui blueScore calls txs' ∧
        removeBlockTransactions ui calls txs = removeBlockTransactions ui calls txs') := by
  refine ⟨rfl, rfl, rfl, ?_⟩
  intro ui blueScore calls txs txs' h
  rw [addBlockTransactions_eq, addBlockTransactions_eq, removeBlockTransactions_eq,
    removeBlockTransactions_eq]
  have h1 : txs.map (fun data => addTransactionCalls ui data.Transaction blueScore) =
      txs'.map (fun data => addTransactionCalls ui data.Transaction blueScore) := by
    have := congrArg (List.map (fun t => addTransactionCalls ui t blueScore)) h
    simpa [List.map_map, Function.comp_def] using this
  have h2 : txs.map (fun data => removeTransactionCalls data.Transaction) =
      txs'.map (fun data => removeTransactionCalls data.Transaction) := by
    have := congrArg (List.map removeTransactionCalls) h
    simpa [List.map_map, Function.comp_def] using this
  rw [h1, h2]
  exact ⟨rfl, rfl⟩

/-! ## The selected parent chain from a block -/

theorem collectChainBlocksLoop_spec (context : RPCContext) :
    ∀ (hashes : List Hash) (chainBlocks result : List ChainBlock),
      collectChainBlocksLoop context chainBlocks hashes = .ok result →
      result.map (fun b => b.Hash) =
        chainBlocks.map (fun b => b.Hash) ++ hashes.map context.HashString := by
  intro hashes
  induction hashes with
  | nil =>
    intro chainBlocks result h
    cases h
    simp
  | cons hash rest ih =>
    intro chainBlocks result h
    unfold collectChainBlocksLoop at h
    cases hg : context.GetBlockAcceptanceData hash with
    | error err => rw [hg] at h; cases h
    | ok acceptanceData =>
      rw [hg] at h
      dsimp only at h
      rw [ih _ result h]
      simp

theorem CollectChainBlocks_hashes (context : RPCContext) (hashes : List Hash)
    (result : List ChainBlock) (h : CollectChainBlocks context hashes = .ok result) :
    result.map (fun b => b.Hash) = hashes.map context.HashString := by
  have := collectChainBlocksLoop_spec context hashes [] result h
  simpa using this

/-- C28. When `HandleGetChainFromBlock` returns its response for removed hashes `R` and
added hashes `A` of the consensus, the added chain blocks of the response are those that
`CollectChainBlocks` builds for the first `min |A| 1000` hashes of `A`, one for each in
order, so they are at most 1000; the removed hashes of the response are the strings of
all the hashes of `R` in order. -/
theorem HandleGetChainFromBlock_spec (context : RPCContext)
    (request : GetChainFromBlockRequestMessage) (removedHashes : List String)
    (addedChainBlocks : List ChainBlock) (blockVerboseData : List BlockVerboseData)
    (h : HandleGetChainFromBlock context request =
      .ok (.response removedHashes addedChainBlocks blockVerboseData)) :
    ∃ (startHash : Option Hash) (R A : List Hash),
      parseStartHash context request = .ok startHash ∧
      context.GetSelectedParentChain startHash = .ok (R, A) ∧
      CollectChainBlocks context (A.take (min A.length 1000)) = .ok addedChainBlocks ∧
      addedChainBlocks.length = min A.length 1000 ∧
      addedChainBlocks.length ≤ 1000 ∧
      addedChainBlocks.map (fun b => b.Hash) =
        (A.take (min A.length 1000)).map context.HashString ∧
      removedHashes = R.map context.HashString ∧
      removedHashes.length = R.length := by
  unfold HandleGetChainFromBlock at h
  cases hp : parseStartHash context request with
  | error e => rw [hp] at h; cases h
  | ok startHash =>
    rw [hp] at h
    dsimp only at h
    cases hc : context.GetSelectedParentChain startHash with
    | error err => rw [hc] at h; cases h
    | ok chain =>
      obtain ⟨R, A⟩ := chain
      rw [hc] at h
      dsimp only at h
      have htake : (if A.length > maxBlocksInGetChainFromBlockResponse then
          A.take maxBlocksInGetChainFromBlockResponse else A) =
          A.take (min A.length 1000) := by
        unfold maxBlocksInGetChainFromBlockResponse
        by_cases hlen : A.length > 1000
        · rw [if_pos hlen, min_eq_right (le_of_lt hlen)]
        · rw [if_neg hlen, min_eq_left (by omega), List.take_length]
      rw [htake] at h
      cases hcol : CollectChainBlocks context (A.take (min A.length 1000)) with
      | error err => rw [hcol] at h; cases h
      | ok blocks =>
        rw [hcol] at h
        dsimp only at h
        have hres : removedHashes = R.map context.HashString ∧ addedChainBlocks = blocks := by
          by_cases hv : request.IncludeBlockVerboseData = true
          · rw [if_pos hv] at h
            cases hd : hashesToBlockVerboseData context (A.take (min A.length 1000)) with
            | error err => rw [hd] at h; cases h
            | ok data =>
              rw [hd] at h
              cases h
              exact ⟨rfl, rfl⟩
          · rw [if_neg hv] at h
            cases h
            exact ⟨rfl, rfl⟩
        obtain ⟨hr, ha⟩ := hres
        subst ha
        have hmap := CollectChainBlocks_hashes context _ addedChainBlocks hcol
        have hlen : addedChainBlocks.length = min A.length 1000 := by
          have := congrArg List.length hmap
          simpa using this
        refine ⟨startHash, R, A, rfl, hc, hcol, hlen, ?_, hmap, hr, ?_⟩
        · rw [hlen]; exact min_le_right _ _
        · rw [hr, List.length_map]

set_option maxRecDepth 100000 in
/-- Witness for C28 on the sample context, where the consensus adds 1001 hashes: the
response holds 1000 added chain blocks and both removed hashes. -/
theorem HandleGetChainFromBlock_spec_witness :
    ∃ (removedHashes : List String) (addedChainBlocks : List ChainBlock)
      (blockVerboseData : List BlockVerboseData),
      HandleGetChainFromBlock sampleRPCContext ⟨"7", false⟩ =
        .ok (.response removedHashes addedChainBlocks blockVerboseData) ∧
      addedChainBlocks.length = 1000 ∧ addedChainBlocks.length ≤ 1000 ∧
      removedHashes = ["other", "other"] :=
  have hrun : HandleGetChainFromBlock sampleRPCContext ⟨"7", false⟩ =
      .ok (.response ["other", "other"]
        (List.replicate 1000 ⟨"five", [⟨"five", ["one"]⟩]⟩) []) := rfl
  match HandleGetChainFromBlock_spec sampleRPCContext ⟨"7", false⟩ _ _ _ hrun with
  | ⟨_, _, _, _, _, _, _, hle, _, _, _⟩ =>
    ⟨_, _, _, hrun, List.length_replicate _ _, hle, rfl⟩

/-! ## Retry durations -/

theorem nextRetryDuration_iterate_small (n : Nat) (h1 : 1 ≤ n) (h10 : n ≤ 10) :
    nextRetryDuration^[n] 0 = 2 ^ (n - 1) * second := by
  interval_cases n <;> rfl

theorem nextRetryDuration_max : nextRetryDuration maxRetryDuration = maxRetryDuration := by
  rfl

theorem nextRetryDuration_iterate_large (n : Nat) (h : 11 ≤ n) :
    nextRetryDuration^[n] 0 = maxRetryDuration := by
  induction n with
  | zero => omega
  | succ k ih =>
    by_cases hk : k = 10
    · subst hk
      rw [Function.iterate_succ_apply',
        nextRetryDuration_iterate_small 10 (by decide) (by decide)]
      rfl
    · rw [Function.iterate_succ_apply', ih (by omega)]
      exact nextRetryDuration_max

theorem two_pow_mul_second_large (n : Nat) (h : 11 ≤ n) :
    maxRetryDuration ≤ 2 ^ (n - 1) * second := by
  have h1 : (2 : Int) ^ 10 ≤ 2 ^ (n - 1) :=
    pow_le_pow_right₀ (by norm_num) (by omega)
  have h2 : maxRetryDuration ≤ 2 ^ 10 * second := by decide
  have h3 : (0 : Int) ≤ second := by decide
  exact le_trans h2 (mul_le_mul_of_nonneg_right h1 h3)

theorem two_pow_mul_second_small (n : Nat) (h1 : 1 ≤ n) (h10 : n ≤ 10) :
    (2 : Int) ^ (n - 1) * second ≤ maxRetryDuration := by
  interval_cases n <;> decide

/-- C29. Iterating `nextRetryDuration` from 0, the `n`-th duration, for `n ≥ 1`, is the
smaller of `2 ^ (n - 1)` seconds and 10 minutes: 1 s, 2 s, 4 s and so on up to 512 s for
the first ten, and 10 minutes from the eleventh on. The durations never decrease, start
at one second and never exceed 10 minutes. -/
theorem nextRetryDuration_backoff (n : Nat) (hn : 1 ≤ n) :
    nextRetryDuration^[n] 0 = min (2 ^ (n - 1) * second) (10 * minute) ∧
    (n ≤ 10 → nextRetryDuration^[n] 0 = 2 ^ (n - 1) * second) ∧
    (11 ≤ n → nextRetryDuration^[n] 0 = 10 * minute) ∧
    nextRetryDuration^[1] 0 = second ∧
    nextRetryDuration^[n] 0 ≤ nextRetryDuration^[n + 1] 0 ∧
    second ≤ nextRetryDuration^[n] 0 ∧
    nextRetryDuration^[n] 0 ≤ 10 * minute := by
  have hmax : maxRetryDuration = 10 * minute := rfl
  have hval : nextRetryDuration^[n] 0 = min (2 ^ (n - 1) * second) (10 * minute) := by
    by_cases h : n ≤ 10
    · rw [nextRetryDuration_iterate_small n hn h, ← hmax,
        min_eq_left (two_pow_mul_second_small n hn h)]
    · rw [nextRetryDuration_iterate_large n (by omega), ← hmax,
        min_eq_right (two_pow_mul_second_large n (by omega))]
  have hlower : second ≤ nextRetryDuration^[n] 0 := by
    by_cases h : n ≤ 10
    · rw [nextRetryDuration_iterate_small n hn h]
      have h1 : (1 : Int) ≤ 2 ^ (n - 1) := one_le_pow₀ (by norm_num)
      have h3 : (0 : Int) ≤ second := by decide
      calc second = 1 * second := (one_mul _).symm
        _ ≤ 2 ^ (n - 1) * second := mul_le_mul_of_nonneg_right h1 h3
    · rw [nextRetryDuration_iterate_large n (by omega)]
      decide
  have hupper : ∀ m : Nat, 1 ≤ m → nextRetryDuration^[m] 0 ≤ 10 * minute := by
    intro m hm
    by_cases h : m ≤ 10
    · rw [nextRetryDuration_iterate_small m hm h, ← hmax]
      exact two_pow_mul_second_small m hm h
    · rw [nextRetryDuration_iterate_large m (by omega)]
      exact le_of_eq hmax
  refine ⟨hval, nextRetryDuration_iterate_small n hn, ?_, rfl, ?_, hlower, hupper n hn⟩
  · intro h
    rw [nextRetryDuration_iterate_large n h]
    rfl
  · by_cases h : n ≤ 9
    · rw [nextRetryDuration_iterate_small n hn (by omega),
        nextRetryDuration_iterate_small (n + 1) (by omega) (by omega)]
      have h3 : (0 : Int) ≤ second := by decide
      have h1 : (2 : Int) ^ (n - 1) ≤ 2 ^ (n + 1 - 1) :=
        pow_le_pow_right₀ (by norm_num) (by omega)
      exact mul_le_mul_of_nonneg_right h1 h3
    · rw [nextRetryDuration_iterate_large (n + 1) (by omega), hmax]
      exact hupper n hn

/-- Witness for C29: the fourth retry waits 8 seconds and the twelfth 10 minutes. -/
theorem nextRetryDuration_backoff_witness :
    nextRetryDuration^[4] 0 = 8 * second ∧ nextRetryDuration^[12] 0 = 10 * minute :=
  ⟨(nextRetryDuration_backoff 4 (by decide)).2.1 (by decide),
    (nextRetryDuration_backoff 12 (by decide)).2.2.1 (by decide)⟩

/-! ## Connection requests -/

theorem requestMap_delete_ne (m : requestMap) (a b : String) (h : a ≠ b) :
    m.delete b a = m a := by
  simp [requestMap.delete, h]

theorem requestMap_delete_self (m : requestMap) (a : String) : m.delete a a = none := by
  simp [requestMap.delete]

theorem requestMap_insert_ne (m : requestMap) (a b : String) (r : connectionRequest)
    (h : a ≠ b) : m.insert b r a = m a := by
  simp [requestMap.insert, h]

theorem requestMap_insert_self (m : requestMap) (a : String) (r : connectionRequest) :
    m.insert a r a = some r := by
  simp [requestMap.insert]

theorem checkActiveConnectionRequest_other {connectionSet NetConnection : Type}
    (env : ConnectionEnv connectionSet NetConnection) (now : Instant) (a b : String)
    (connReq : connectionRequest) (c : ConnectionManager) (connSet : connectionSet)
    (h : a ≠ b) :
    (checkActiveConnectionRequest env now b connReq c connSet).1.activeConnectionRequests a =
        c.activeConnectionRequests a ∧
      (checkActiveConnectionRequest env now b connReq c connSet).1.pendingConnectionRequests a =
        c.pendingConnectionRequests a := by
  unfold checkActiveConnectionRequest
  dsimp only
  split
  · split
    · exact ⟨requestMap_delete_ne _ a b h, requestMap_insert_ne _ a b _ h⟩
    · exact ⟨requestMap_delete_ne _ a b h, rfl⟩
  · exact ⟨rfl, rfl⟩

theorem checkActiveConnectionRequest_connSet {connectionSet NetConnection : Type}
    (env : ConnectionEnv connectionSet NetConnection) (now : Instant) (b : String)
    (connReq : connectionRequest) (c : ConnectionManager) (connSet : connectionSet) :
    (checkActiveConnectionRequest env now b connReq c connSet).2 =
      env.remove connSet (env.get connSet b) := rfl

theorem checkActiveConnectionRequest_disconnected {connectionSet NetConnection : Type}
    (env : ConnectionEnv connectionSet NetConnection) (now : Instant) (a : String)
    (connReq : connectionRequest) (c : ConnectionManager) (connSet : connectionSet)
    (hget : env.get connSet a = none) :
    (checkActiveConnectionRequest env now a connReq c connSet).1.activeConnectionRequests a =
        none ∧
      (checkActiveConnectionRequest env now a connReq c connSet).1.pendingConnectionRequests a =
        if connReq.isPermanent then
          some { connReq with nextAttempt := now, retryDuration := second }
        else c.pendingConnectionRequests a := by
  unfold checkActiveConnectionRequest
  dsimp only
  rw [hget]
  simp only [Option.isNone_none, if_true]
  split
  · exact ⟨requestMap_delete_self _ a, requestMap_insert_self _ a _⟩
  · exact ⟨requestMap_delete_self _ a, rfl⟩

theorem checkActiveConnectionRequests_absent {connectionSet NetConnection : Type}
    (env : ConnectionEnv connectionSet NetConnection) (now : Instant) (a : String) :
    ∀ (keys : List String) (c : ConnectionManager) (connSet : connectionSet),
      c.activeConnectionRequests a = none →
      (checkActiveConnectionRequests env now keys c connSet).1.activeConnectionRequests a =
          none ∧
        (checkActiveConnectionRequests env now keys c connSet).1.pendingConnectionRequests a =
          c.pendingConnectionRequests a := by
  intro keys
  induction keys with
  | nil => intro c connSet h; exact ⟨h, rfl⟩
  | cons b keys ih =>
    intro c connSet h
    unfold checkActiveConnectionRequests
    cases hb : c.activeConnectionRequests b with
    | none => exact ih c connSet h
    | some connReq =>
      have hne : a ≠ b := by
        rintro rfl
        rw [h] at hb
        cases hb
      dsimp only
      obtain ⟨e1, e2⟩ := checkActiveConnectionRequest_other env now a b connReq c connSet hne
      obtain ⟨i1, i2⟩ := ih (checkActiveConnectionRequest env now b connReq c connSet).1
        (checkActiveConnectionRequest env now b connReq c connSet).2 (by rw [e1]; exact h)
      exact ⟨i1, by rw [i2, e2]⟩

theorem checkActiveConnectionRequests_disconnected {connectionSet NetConnection : Type}
    (env : ConnectionEnv connectionSet NetConnection) (now : Instant) (a : String)
    (connReq : connectionRequest)
    (hremove : ∀ (connSet : connectionSet) (connection : Option NetConnection),
      env.get connSet a = none → env.get (env.remove connSet connection) a = none) :
    ∀ (keys : List String) (c : ConnectionManager) (connSet : connectionSet),
      a ∈ keys → c.activeConnectionRequests a = some connReq → env.get connSet a = none →
      (checkActiveConnectionRequests env now keys c connSet).1.activeConnectionRequests a =
          none ∧
        (checkActiveConnectionRequests env now keys c connSet).1.pendingConnectionRequests a =
          if connReq.isPermanent then
            some { connReq with nextAttempt := now, retryDuration := second }
          else c.pendingConnectionRequests a := by
  intro keys
  induction keys with
  | nil => intro c connSet hmem; cases hmem
  | cons b keys ih =>
    intro c connSet hmem hactive hget
    unfold checkActiveConnectionRequests
    by_cases hab : a = b
    · subst hab
      rw [hactive]
      dsimp only
      obtain ⟨e1, e2⟩ :=
        checkActiveConnectionRequest_disconnected env now a connReq c connSet hget
      obtain ⟨i1, i2⟩ := checkActiveConnectionRequests_absent env now a keys
        (checkActiveConnectionRequest env now a connReq c connSet).1
        (checkActiveConnectionRequest env now a connReq c connSet).2 e1
      exact ⟨i1, by rw [i2, e2]⟩
    · have hmem' : a ∈ keys := by
        rcases List.mem_cons.1 hmem with h | h
        · exact absurd h hab
        · exact h
      cases hb : c.activeConnectionRequests b with
      | none => exact ih c connSet hmem' hactive hget
      | some other =>
        dsimp only
        obtain ⟨e1, e2⟩ := checkActiveConnectionRequest_other env now a b other c connSet hab
        have hget' : env.get (checkActiveConnectionRequest env now b other c connSet).2 a =
            none := by
          rw [checkActiveConnectionRequest_connSet]
          exact hremove _ _ hget
        obtain ⟨i1, i2⟩ := ih (checkActiveConnectionRequest env now b other c connSet).1
          (checkActiveConnectionRequest env now b other c connSet).2 hmem'
          (by rw [e1]; exact hactive) hget'
        exact ⟨i1, by rw [i2, e2]⟩

theorem checkPendingConnectionRequest_other {connectionSet NetConnection : Type}
    (env : ConnectionEnv connectionSet NetConnection) (now : Instant) (a b : String)
    (connReq : connectionRequest) (c : ConnectionManager) (connSet : connectionSet)
    (h : a ≠ b) :
    (checkPendingConnectionRequest env now b connReq c connSet).1.activeConnectionRequests a =
        c.activeConnectionRequests a ∧
      (checkPendingConnectionRequest env now b connReq c connSet).1.pendingConnectionRequests a =
        c.pendingConnectionRequests a := by
  unfold checkPendingConnectionRequest
  dsimp only
  split
  · exact ⟨rfl, rfl⟩
  · split
    · refine ⟨rfl, ?_⟩
      show (requestMap.insert (requestMap.delete _ b) b connReq) a = _
      rw [requestMap_insert_ne _ a b _ h, requestMap_delete_ne _ a b h]
    · split
      · exact ⟨requestMap_insert_ne _ a b _ h, requestMap_delete_ne _ a b h⟩
      · split
        · exact ⟨rfl, requestMap_delete_ne _ a b h⟩
        · exact ⟨rfl, requestMap_insert_ne _ a b _ h⟩

theorem checkPendingConnectionRequest_permanent {connectionSet NetConnection : Type}
    (env : ConnectionEnv connectionSet NetConnection) (now : Instant) (a : String)
    (connReq : connectionRequest) (c : ConnectionManager) (connSet : connectionSet)
    (hactive : c.activeConnectionRequests a = none)
    (hpending : c.pendingConnectionRequests a = some connReq)
    (hperm : connReq.isPermanent = true) :
    ((checkPendingConnectionRequest env now a connReq c connSet).1.activeConnectionRequests a =
        none ∧
      ∃ q, (checkPendingConnectionRequest env now a connReq c connSet).1.pendingConnectionRequests
          a = some q ∧ q.isPermanent = true) ∨
    ((checkPendingConnectionRequest env now a connReq c connSet).1.activeConnectionRequests a =
        some connReq ∧
      (checkPendingConnectionRequest env now a connReq c connSet).1.pendingConnectionRequests a =
        none) := by
  unfold checkPendingConnectionRequest
  dsimp only
  split
  · exact Or.inl ⟨hactive, connReq, hpending, hperm⟩
  · split
    · exact Or.inl ⟨hactive, connReq, requestMap_insert_self _ a _, hperm⟩
    · split
      · exact Or.inr ⟨requestMap_insert_self _ a _, requestMap_delete_self _ a⟩
      · rw [hperm]
        simp only [Bool.not_true, Bool.false_eq_true, if_false]
        exact Or.inl ⟨hactive, _, requestMap_insert_self _ a _, rfl⟩

theorem checkPendingConnectionRequests_permanent {connectionSet NetConnection : Type}
    (env : ConnectionEnv connectionSet NetConnection) (now : Instant) (a : String) :
    ∀ (keys : List String) (c : ConnectionManager) (connSet : connectionSet),
      ((c.activeConnectionRequests a = none ∧
          ∃ q, c.pendingConnectionRequests a = some q ∧ q.isPermanent = true) ∨
        ((c.activeConnectionRequests a).isSome = true ∧
          c.pendingConnectionRequests a = none)) →
      (((checkPendingConnectionRequests env now keys c connSet).1.activeConnectionRequests a =
            none ∧
          ∃ q, (checkPendingConnectionRequests env now keys c connSet).1.pendingConnectionRequests
            a = some q ∧ q.isPermanent = true) ∨
        (((checkPendingConnectionRequests env now keys c connSet).1.activeConnectionRequests
            a).isSome = true ∧
          (checkPendingConnectionRequests env now keys c connSet).1.pendingConnectionRequests a =
            none)) := by
  intro keys
  induction keys with
  | nil => intro c connSet h; exact h
  | cons b keys ih =>
    intro c connSet h
    unfold checkPendingConnectionRequests
    cases hb : c.pendingConnectionRequests b with
    | none => exact ih c connSet h
    | some connReq =>
      dsimp only
      apply ih
      by_cases hab : a = b
      · subst hab
        rcases h with ⟨h1, q, h2, h3⟩ | ⟨_, h2⟩
        · rw [hb] at h2
          cases h2
          rcases checkPendingConnectionRequest_permanent env now a connReq c connSet h1 hb h3
            with h4 | ⟨h4, h5⟩
          · exact Or.inl h4
          · exact Or.inr ⟨by rw [h4]; rfl, h5⟩
        · rw [hb] at h2
          cases h2
      · obtain ⟨e1, e2⟩ := checkPendingConnectionRequest_other env now a b connReq c connSet hab
        rw [e1, e2]
        exact h

theorem checkPendingConnectionRequests_absent {connectionSet NetConnection : Type}
    (env : ConnectionEnv connectionSet NetConnection) (now : Instant) (a : String) :
    ∀ (keys : List String) (c : ConnectionManager) (connSet : connectionSet),
      c.activeConnectionRequests a = none → c.pendingConnectionRequests a = none →
      (checkPendingConnectionRequests env now keys c connSet).1.activeConnectionRequests a =
          none ∧
        (checkPendingConnectionRequests env now keys c connSet).1.pendingConnectionRequests a =
          none := by
  intro keys
  induction keys with
  | nil => intro c connSet h1 h2; exact ⟨h1, h2⟩
  | cons b keys ih =>
    intro c connSet h1 h2
    unfold checkPendingConnectionRequests
    cases hb : c.pendingConnectionRequests b with
    | none => exact ih c connSet h1 h2
    | some connReq =>
      have hab : a ≠ b := by
        rintro rfl
        rw [h2] at hb
        cases hb
      dsimp only
      obtain ⟨e1, e2⟩ := checkPendingConnectionRequest_other env now a b connReq c connSet hab
      exact ih _ _ (by rw [e1]; exact h1) (by rw [e2]; exact h2)

/-- C30. Take an active connection request whose address has no connection in `connSet`
when `checkConnectionRequests` starts, the first loop producing its key, and removing a
connection from the set connecting no address. After the first loop the request is not
in `activeConnectionRequests`. If it is permanent, the first loop has put it into
`pendingConnectionRequests` with `nextAttempt = now` and a retry duration of one second,
and when the call returns the address is in exactly one of the two maps. If it is
one-shot, and its address was not pending before, the address is in neither map when
the call returns. This holds for every order of the keys in both loops. -/
theorem checkConnectionRequests_disconnected {connectionSet NetConnection : Type}
    (env : ConnectionEnv connectionSet NetConnection) (now : Instant)
    (activeKeys pendingKeys : List String) (c : ConnectionManager) (connSet : connectionSet)
    (address : String) (connReq : connectionRequest)
    (hactive : c.activeConnectionRequests address = some connReq)
    (hget : env.get connSet address = none)
    (hkey : address ∈ activeKeys)
    (hremove : ∀ (connSet : connectionSet) (connection : Option NetConnection),
      env.get connSet address = none →
      env.get (env.remove connSet connection) address = none)
    (hpending : connReq.isPermanent = false → c.pendingConnectionRequests address = none) :
    (checkActiveConnectionRequests env now activeKeys c connSet).1.activeConnectionRequests
        address = none ∧
    (connReq.isPermanent = true →
      (checkActiveConnectionRequests env now activeKeys c connSet).1.pendingConnectionRequests
          address = some { connReq with nextAttempt := now, retryDuration := second } ∧
      (((checkConnectionRequests env now activeKeys pendingKeys c
            connSet).1.activeConnectionRequests address).isSome = true ↔
        (checkConnectionRequests env now activeKeys pendingKeys c
            connSet).1.pendingConnectionRequests address = none)) ∧
    (connReq.isPermanent = false →
      (checkConnectionRequests env now activeKeys pendingKeys c
          connSet).1.activeConnectionRequests address = none ∧
      (checkConnectionRequests env now activeKeys pendingKeys c
          connSet).1.pendingConnectionRequests address = none) := by
  obtain ⟨h1, h2⟩ := checkActiveConnectionRequests_disconnected env now address connReq
    hremove activeKeys c connSet hkey hactive hget
  refine ⟨h1, ?_, ?_⟩
  · intro hperm
    rw [if_pos hperm] at h2
    refine ⟨h2, ?_⟩
    have hinv := checkPendingConnectionRequests_permanent env now address pendingKeys
      (checkActiveConnectionRequests env now activeKeys c connSet).1
      (checkActiveConnectionRequests env now activeKeys c connSet).2
      (Or.inl ⟨h1, _, h2, hperm⟩)
    unfold checkConnectionRequests
    dsimp only
    rcases hinv with ⟨h3, q, h4, _⟩ | ⟨h3, h4⟩
    · rw [h3, h4]
      simp
    · rw [h3, h4]
      simp
  · intro hperm
    rw [hperm] at h2
    simp only [Bool.false_eq_true, if_false] at h2
    unfold checkConnectionRequests
    dsimp only
    exact checkPendingConnectionRequests_absent env now address pendingKeys _ _ h1
      (by rw [h2]; exact hpending hperm)

/-- Witness for C30 on the sample manager, with no address connected: the permanent
request to "a", whose connection attempt fails, ends pending, and the one-shot request
to "c" ends in neither map. -/
theorem checkConnectionRequests_disconnected_witness :
    (checkConnectionRequests sampleConnectionEnv 100 ["a", "b", "c", "d"]
        ["d", "c", "b", "a"] sampleConnectionManager []).1.activeConnectionRequests "a" =
      none ∧
    ((checkConnectionRequests sampleConnectionEnv 100 ["a", "b", "c", "d"]
        ["d", "c", "b", "a"] sampleConnectionManager []).1.pendingConnectionRequests
      "a").isSome = true ∧
    (checkConnectionRequests sampleConnectionEnv 100 ["a", "b", "c", "d"]
        ["d", "c", "b", "a"] sampleConnectionManager []).1.pendingConnectionRequests "c" =
      none :=
  ⟨rfl, rfl,
    ((checkConnectionRequests_disconnected sampleConnectionEnv 100 ["a", "b", "c", "d"]
      ["d", "c", "b", "a"] sampleConnectionManager [] "c" ⟨"c", false, 0, 0⟩ rfl rfl
      (by decide) (by intro connSet connection h; cases connection <;> simp_all [sampleConnectionEnv])
      (fun _ => rfl)).2.2 rfl).2⟩

/-! ## Round trip of the UTXO index -/

theorem stagedAfter_append (scriptPublicKey : Bytes) (outpoint : DomainOutpoint)
    (calls more : List StoreCall) :
    stagedAfter scriptPublicKey outpoint (calls ++ more) =
      more.foldl (stagedStep scriptPublicKey outpoint)
        (stagedAfter scriptPublicKey outpoint calls) := by
  unfold stagedAfter
  rw [List.foldl_append]

theorem indexStep_foldl_snd (scriptPublicKey : Bytes) (outpoint : DomainOutpoint) :
    ∀ (calls : List StoreCall) (state : Option DomainUTXOEntry × Staged),
      (calls.foldl (indexStep scriptPublicKey outpoint) state).2 =
        calls.foldl (stagedStep scriptPublicKey outpoint) state.2 := by
  intro calls
  induction calls with
  | nil => intro state; rfl
  | cons call rest ih =>
    intro state
    rw [List.foldl_cons, List.foldl_cons, ih]
    cases call <;> rfl

theorem indexStep_foldl_fst (scriptPublicKey : Bytes) (outpoint : DomainOutpoint) :
    ∀ (calls : List StoreCall) (state : Option DomainUTXOEntry × Staged),
      StoreCall.commit ∉ calls →
      (calls.foldl (indexStep scriptPublicKey outpoint) state).1 = state.1 := by
  intro calls
  induction calls with
  | nil => intro state _; rfl
  | cons call rest ih =>
    intro state h
    rw [List.foldl_cons, ih _ (fun hm => h (List.mem_cons_of_mem _ hm))]
    cases call with
    | commit => exact absurd (List.mem_cons_self _ _) h
    | add s o e => rfl
    | remove s o => rfl

theorem indexAfter_commit (index : Bytes → DomainOutpoint → Option DomainUTXOEntry)
    (calls ops : List StoreCall) (scriptPublicKey : Bytes) (outpoint : DomainOutpoint)
    (hops : StoreCall.commit ∉ ops) :
    indexAfter index (calls ++ ops ++ [.commit]) scriptPublicKey outpoint =
      commitStaged (stagedAfter scriptPublicKey outpoint (calls ++ ops))
        (indexAfter index calls scriptPublicKey outpoint) := by
  unfold indexAfter
  rw [List.foldl_append, List.foldl_append]
  simp only [List.foldl_cons, List.foldl_nil, indexStep]
  rw [indexStep_foldl_snd, indexStep_foldl_fst _ _ ops _ hops, indexStep_foldl_snd]
  unfold stagedAfter
  rw [List.foldl_append]

theorem stagedAfter_commit (scriptPublicKey : Bytes) (outpoint : DomainOutpoint)
    (calls : List StoreCall) :
    stagedAfter scriptPublicKey outpoint (calls ++ [.commit]) = .nothing := by
  rw [stagedAfter_append]
  rfl

theorem stagedLevel_eq_zero (staged : Staged) (h : stagedLevel staged = 0) :
    staged = .nothing := by
  cases staged with
  | nothing => rfl
  | toAdd e => simp [stagedLevel] at h
  | toRemove => simp [stagedLevel] at h

theorem stagedLevel_step (ui : UTXOIndex) (hstore : ui.storeError = modelStoreError)
    (scriptPublicKey : Bytes) (outpoint : DomainOutpoint) (calls : List StoreCall)
    (call : StoreCall) (hcall : call ≠ .commit) (hok : ui.storeError calls call = none) :
    stagedLevel (stagedAfter scriptPublicKey outpoint (calls ++ [call])) =
      stagedLevel (stagedAfter scriptPublicKey outpoint calls) +
        (if isAddOf scriptPublicKey outpoint call then 1 else 0) -
        (if isRemoveOf scriptPublicKey outpoint call then 1 else 0) := by
  rw [stagedAfter_append, hstore] at *
  simp only [List.foldl_cons, List.foldl_nil]
  cases call with
  | commit => exact absurd rfl hcall
  | add s o e =>
    by_cases hk : s = scriptPublicKey ∧ o = outpoint
    · obtain ⟨rfl, rfl⟩ := hk
      simp only [modelStoreError] at hok
      cases hs : stagedAfter s o calls with
      | nothing => simp [stagedStep, isAddOf, isRemoveOf, stagedLevel]
      | toAdd x => rw [hs] at hok; simp at hok
      | toRemove => simp [stagedStep, isAddOf, isRemoveOf, stagedLevel]
    · simp [stagedStep, isAddOf, isRemoveOf, hk]
  | remove s o =>
    by_cases hk : s = scriptPublicKey ∧ o = outpoint
    · obtain ⟨rfl, rfl⟩ := hk
      simp only [modelStoreError] at hok
      cases hs : stagedAfter s o calls with
      | nothing => simp [stagedStep, isAddOf, isRemoveOf, stagedLevel]
      | toAdd x => simp [stagedStep, isAddOf, isRemoveOf, stagedLevel]
      | toRemove => rw [hs] at hok; simp at hok
    · simp [stagedStep, isAddOf, isRemoveOf, hk]

theorem stagedLevel_runCalls (ui : UTXOIndex) (hstore : ui.storeError = modelStoreError)
    (scriptPublicKey : Bytes) (outpoint : DomainOutpoint) :
    ∀ (ops calls : List StoreCall),
      StoreCall.commit ∉ ops → (runCalls ui calls ops).2 = none →
      stagedLevel (stagedAfter scriptPublicKey outpoint (calls ++ ops)) =
        stagedLevel (stagedAfter scriptPublicKey outpoint calls) +
          (ops.countP (isAddOf scriptPublicKey outpoint) : Int) -
          (ops.countP (isRemoveOf scriptPublicKey outpoint) : Int) := by
  intro ops
  induction ops with
  | nil => intro calls _ _; simp
  | cons op rest ih =>
    intro calls hc hrun
    rw [runCalls_cons] at hrun
    have hop : op ≠ .commit := by
      rintro rfl
      exact hc (List.mem_cons_self _ _)
    have hs : storeCall ui calls op = (calls ++ [op], ui.storeError calls op) := rfl
    rw [hs] at hrun
    cases he : ui.storeError calls op with
    | some e => rw [he] at hrun; cases hrun
    | none =>
      rw [he] at hrun
      dsimp only at hrun
      have hrest := ih (calls ++ [op]) (fun hm => hc (List.mem_cons_of_mem _ hm)) hrun
      have hstep := stagedLevel_step ui hstore scriptPublicKey outpoint calls op hop he
      have happ : calls ++ op :: rest = calls ++ [op] ++ rest := by simp
      rw [happ, hrest, hstep, List.countP_cons, List.countP_cons]
      by_cases h1 : isAddOf scriptPublicKey outpoint op = true <;>
        by_cases h2 : isRemoveOf scriptPublicKey outpoint op = true <;>
        simp [h1, h2] <;> omega

theorem countP_removeOutputCalls (scriptPublicKey : Bytes) (outpoint : DomainOutpoint)
    (transaction : DomainTransaction) (isCoinbase : Bool) (blockBlueScore : Nat) :
    ∀ (outputs : List DomainTransactionOutput) (index : Nat),
      (removeOutputCalls transaction index outputs).countP
          (isRemoveOf scriptPublicKey outpoint) =
        (addOutputCalls transaction isCoinbase blockBlueScore index outputs).countP
          (isAddOf scriptPublicKey outpoint) ∧
      (removeOutputCalls transaction index outputs).countP
          (isAddOf scriptPublicKey outpoint) = 0 ∧
      (addOutputCalls transaction isCoinbase blockBlueScore index outputs).countP
          (isRemoveOf scriptPublicKey outpoint) = 0 := by
  intro outputs
  induction outputs with
  | nil => intro index; exact ⟨rfl, rfl, rfl⟩
  | cons output rest ih =>
    intro index
    obtain ⟨h1, h2, h3⟩ := ih (index + 1)
    unfold removeOutputCalls addOutputCalls
    simp only [List.countP_cons, h1, h2, h3]
    simp [isAddOf, isRemoveOf]

theorem countP_inputCalls (scriptPublicKey : Bytes) (outpoint : DomainOutpoint) :
    ∀ (inputs : List DomainTransactionInput),
      (inputs.map (fun input => StoreCall.add input.UTXOEntry.ScriptPublicKey
          input.PreviousOutpoint input.UTXOEntry)).countP
          (isAddOf scriptPublicKey outpoint) =
        (inputs.map (fun input => StoreCall.remove input.UTXOEntry.ScriptPublicKey
          input.PreviousOutpoint)).countP (isRemoveOf scriptPublicKey outpoint) ∧
      (inputs.map (fun input => StoreCall.add input.UTXOEntry.ScriptPublicKey
          input.PreviousOutpoint input.UTXOEntry)).countP
          (isRemoveOf scriptPublicKey outpoint) = 0 ∧
      (inputs.map (fun input => StoreCall.remove input.UTXOEntry.ScriptPublicKey
          input.PreviousOutpoint)).countP (isAddOf scriptPublicKey outpoint) = 0 := by
  intro inputs
  induction inputs with
  | nil => exact ⟨rfl, rfl, rfl⟩
  | cons input rest ih =>
    obtain ⟨h1, h2, h3⟩ := ih
    simp only [List.map_cons, List.countP_cons, h1, h2, h3]
    simp [isAddOf, isRemoveOf]

theorem countP_transactionCalls (ui : UTXOIndex) (scriptPublicKey : Bytes)
    (outpoint : DomainOutpoint) (transaction : DomainTransaction) (blockBlueScore : Nat) :
    (removeTransactionCalls transaction).countP (isAddOf scriptPublicKey outpoint) =
        (addTransactionCalls ui transaction blockBlueScore).countP
          (isRemoveOf scriptPublicKey outpoint) ∧
      (removeTransactionCalls transaction).countP (isRemoveOf scriptPublicKey outpoint) =
        (addTransactionCalls ui transaction blockBlueScore).countP
          (isAddOf scriptPublicKey outpoint) := by
  obtain ⟨h1, h2, h3⟩ := countP_removeOutputCalls scriptPublicKey outpoint transaction
    (ui.IsCoinBase transaction) blockBlueScore transaction.Outputs 0
  obtain ⟨h4, h5, h6⟩ := countP_inputCalls scriptPublicKey outpoint transaction.Inputs
  unfold removeTransactionCalls addTransactionCalls
  simp only [List.countP_append, h1, h2, h3, h4, h5, h6]
  omega

theorem countP_flatten_map_congr {α : Type} (p q : StoreCall → Bool)
    (f g : α → List StoreCall) :
    ∀ (l : List α), (∀ x ∈ l, (f x).countP p = (g x).countP q) →
      ((l.map f).flatten).countP p = ((l.map g).flatten).countP q := by
  intro l
  induction l with
  | nil => intro _; rfl
  | cons x rest ih =>
    intro h
    simp only [List.map_cons, List.flatten_cons, List.countP_append]
    rw [h x (List.mem_cons_self _ _), ih (fun y hy => h y (List.mem_cons_of_mem _ hy))]

theorem countP_flatten_map_reverse {α : Type} (p : StoreCall → Bool)
    (f : α → List StoreCall) :
    ∀ (l : List α), ((l.reverse.map f).flatten).countP p = ((l.map f).flatten).countP p := by
  intro l
  induction l with
  | nil => rfl
  | cons x rest ih =>
    simp only [List.reverse_cons, List.map_append, List.flatten_append, List.countP_append,
      List.map_cons, List.map_nil, List.flatten_cons, List.flatten_nil, List.append_nil, ih]
    omega

theorem countP_blockCalls (ui : UTXOIndex) (scriptPublicKey : Bytes)
    (outpoint : DomainOutpoint) (blockInfo : BlockInfo) :
    (removeBlockCalls blockInfo).countP (isAddOf scriptPublicKey outpoint) =
        (addBlockCalls ui blockInfo).countP (isRemoveOf scriptPublicKey outpoint) ∧
      (removeBlockCalls blockInfo).countP (isRemoveOf scriptPublicKey outpoint) =
        (addBlockCalls ui blockInfo).countP (isAddOf scriptPublicKey outpoint) := by
  unfold removeBlockCalls addBlockCalls
  constructor
  · exact countP_flatten_map_congr _ _ _ _ _ (fun t _ =>
      (countP_transactionCalls ui scriptPublicKey outpoint t blockInfo.BlueScore).1)
  · exact countP_flatten_map_congr _ _ _ _ _ (fun t _ =>
      (countP_transactionCalls ui scriptPublicKey outpoint t blockInfo.BlueScore).2)

theorem blockInfos_reverse (ui : UTXOIndex) (hashes : List Hash) :
    blockInfos ui hashes.reverse = (blockInfos ui hashes).reverse := by
  unfold blockInfos
  rw [List.filterMap_reverse]

theorem countP_updateCalls_reverse (ui : UTXOIndex) (scriptPublicKey : Bytes)
    (outpoint : DomainOutpoint) (chainChanges : SelectedParentChainChanges) :
    (updateCalls ui (reverseChanges chainChanges)).countP
          (isAddOf scriptPublicKey outpoint) =
        (updateCalls ui chainChanges).countP (isRemoveOf scriptPublicKey outpoint) ∧
      (updateCalls ui (reverseChanges chainChanges)).countP
          (isRemoveOf scriptPublicKey outpoint) =
        (updateCalls ui chainChanges).countP (isAddOf scriptPublicKey outpoint) := by
  unfold updateCalls reverseChanges
  simp only [blockInfos_reverse, List.countP_append, countP_flatten_map_reverse]
  have h1 := fun l : List BlockInfo => countP_flatten_map_congr
    (isAddOf scriptPublicKey outpoint) (isRemoveOf scriptPublicKey outpoint)
    removeBlockCalls (addBlockCalls ui) l
    (fun x _ => (countP_blockCalls ui scriptPublicKey outpoint x).1)
  have h2 := fun l : List BlockInfo => countP_flatten_map_congr
    (isRemoveOf scriptPublicKey outpoint) (isAddOf scriptPublicKey outpoint)
    removeBlockCalls (addBlockCalls ui) l
    (fun x _ => (countP_blockCalls ui scriptPublicKey outpoint x).2)
  have e1 := h1 (blockInfos ui chainChanges.Added)
  have e2 := h2 (blockInfos ui chainChanges.Added)
  have e3 := h1 (blockInfos ui chainChanges.Removed)
  have e4 := h2 (blockInfos ui chainChanges.Removed)
  omega

theorem updateRemoved_runCalls (ui : UTXOIndex) :
    ∀ (hashes : List Hash) (calls calls' : List StoreCall),
      updateRemoved ui calls hashes = (calls', none) →
      runCalls ui calls ((blockInfos ui hashes).map removeBlockCalls).flatten =
        (calls', none) := by
  intro hashes
  induction hashes with
  | nil => intro calls calls' h; exact h
  | cons hash rest ih =>
    intro calls calls' h
    unfold updateRemoved at h
    cases hinfo : ui.GetBlockInfo hash with
    | error e =>
      have hb : removeBlock ui calls hash = (calls, some e) := by
        unfold removeBlock; rw [hinfo]
      rw [hb] at h
      cases h
    | ok info =>
      have hinfos : blockInfos ui (hash :: rest) = info :: blockInfos ui rest := by
        simp [blockInfos, hinfo]
      rw [removeBlock_eq ui calls hash info hinfo] at h
      rw [hinfos, List.map_cons, List.flatten_cons, runCalls_append]
      cases hr : runCalls ui calls (removeBlockCalls info) with
      | mk calls1 e =>
        rw [hr] at h
        cases e with
        | some e => cases h
        | none => exact ih calls1 calls' h

theorem updateAdded_runCalls (ui : UTXOIndex) :
    ∀ (hashes : List Hash) (calls calls' : List StoreCall),
      updateAdded ui calls hashes = (calls', none) →
      runCalls ui calls ((blockInfos ui hashes).map (addBlockCalls ui)).flatten =
        (calls', none) := by
  intro hashes
  induction hashes with
  | nil => intro calls calls' h; exact h
  | cons hash rest ih =>
    intro calls calls' h
    unfold updateAdded at h
    cases hinfo : ui.GetBlockInfo hash with
    | error e =>
      have hb : addBlock ui calls hash = (calls, some e) := by
        unfold addBlock; rw [hinfo]
      rw [hb] at h
      cases h
    | ok info =>
      have hinfos : blockInfos ui (hash :: rest) = info :: blockInfos ui rest := by
        simp [blockInfos, hinfo]
      rw [addBlock_eq ui calls hash info hinfo] at h
      rw [hinfos, List.map_cons, List.flatten_cons, runCalls_append]
      cases hr : runCalls ui calls (addBlockCalls ui info) with
      | mk calls1 e =>
        rw [hr] at h
        cases e with
        | some e => cases h
        | none => exact ih calls1 calls' h

theorem commit_not_mem_updateCalls (ui : UTXOIndex)
    (chainChanges : SelectedParentChainChanges) :
    StoreCall.commit ∉ updateCalls ui chainChanges := by
  intro hm
  unfold updateCalls at hm
  rcases List.mem_append.1 hm with hm | hm
  · obtain ⟨l, hl, hc⟩ := List.mem_flatten.1 hm
    obtain ⟨info, _, rfl⟩ := List.mem_map.1 hl
    exact commit_not_mem_removeBlockCalls info hc
  · obtain ⟨l, hl, hc⟩ := List.mem_flatten.1 hm
    obtain ⟨info, _, rfl⟩ := List.mem_map.1 hl
    exact commit_not_mem_addBlockCalls ui info hc

theorem Update_ok (ui : UTXOIndex) (calls calls' : List StoreCall)
    (chainChanges : SelectedParentChainChanges)
    (h : Update ui calls chainChanges = (calls', none)) :
    calls' = calls ++ updateCalls ui chainChanges ++ [.commit] ∧
      (runCalls ui calls (updateCalls ui chainChanges)).2 = none := by
  unfold Update at h
  cases h1 : updateRemoved ui calls chainChanges.Removed with
  | mk calls1 e1 =>
    rw [h1] at h
    cases e1 with
    | some e => cases h
    | none =>
      dsimp only at h
      cases h2 : updateAdded ui calls1 chainChanges.Added with
      | mk calls2 e2 =>
        rw [h2] at h
        cases e2 with
        | some e => cases h
        | none =>
          dsimp only at h
          have r1 := updateRemoved_runCalls ui _ _ _ h1
          have r2 := updateAdded_runCalls ui _ _ _ h2
          have hrun : runCalls ui calls (updateCalls ui chainChanges) = (calls2, none) := by
            unfold updateCalls
            rw [runCalls_append, r1]
            exact r2
          obtain ⟨done, hd1, _, hd3⟩ := runCalls_extends ui _ _ _ _ hrun
          have hc : calls' = calls2 ++ [.commit] := by
            have := congrArg Prod.fst h
            simpa [storeCall] using this.symm
          refine ⟨by rw [hc, hd1, hd3 rfl], by rw [hrun]⟩

/-- C25, amended. Over the modelled store, take any index content and any chain changes
`d`, and let `d'` reverse them. If `Update` of `d'`, then of `d`, then of `d'` again all
succeed, starting with nothing staged, the index after the third equals the index after
the first: on an index left by `Update` of `d'`, `Update` of `d` followed by `Update`
of `d'` changes nothing, also when a transaction of a block spends an output of an
earlier transaction of the same acceptance data. -/
theorem Update_round_trip (ui : UTXOIndex) (hstore : ui.storeError = modelStoreError)
    (index : Bytes → DomainOutpoint → Option DomainUTXOEntry)
    (chainChanges : SelectedParentChainChanges) (calls1 calls2 calls3 : List StoreCall)
    (h1 : Update ui [] (reverseChanges chainChanges) = (calls1, none))
    (h2 : Update ui calls1 chainChanges = (calls2, none))
    (h3 : Update ui calls2 (reverseChanges chainChanges) = (calls3, none)) :
    ∀ (scriptPublicKey : Bytes) (outpoint : DomainOutpoint),
      indexAfter index calls3 scriptPublicKey outpoint =
        indexAfter index calls1 scriptPublicKey outpoint := by
  intro scriptPublicKey outpoint
  obtain ⟨e1, r1⟩ := Update_ok ui _ _ _ h1
  obtain ⟨e2, r2⟩ := Update_ok ui _ _ _ h2
  obtain ⟨e3, _⟩ := Update_ok ui _ _ _ h3
  have n1 := commit_not_mem_updateCalls ui (reverseChanges chainChanges)
  have n2 := commit_not_mem_updateCalls ui chainChanges
  have hi1 := indexAfter_commit index [] (updateCalls ui (reverseChanges chainChanges))
    scriptPublicKey outpoint n1
  have hi2 := indexAfter_commit index calls1 (updateCalls ui chainChanges)
    scriptPublicKey outpoint n2
  have hi3 := indexAfter_commit index calls2 (updateCalls ui (reverseChanges chainChanges))
    scriptPublicKey outpoint n1
  rw [← e1] at hi1
  rw [← e2] at hi2
  rw [← e3] at hi3
  have hclean1 : stagedAfter scriptPublicKey outpoint calls1 = .nothing := by
    rw [e1]; exact stagedAfter_commit _ _ _
  have hclean2 : stagedAfter scriptPublicKey outpoint calls2 = .nothing := by
    rw [e2]; exact stagedAfter_commit _ _ _
  have hsame : stagedAfter scriptPublicKey outpoint
      (calls2 ++ updateCalls ui (reverseChanges chainChanges)) =
      stagedAfter scriptPublicKey outpoint
        ([] ++ updateCalls ui (reverseChanges chainChanges)) := by
    rw [stagedAfter_append, stagedAfter_append, hclean2]
    rfl
  have hl1 := stagedLevel_runCalls ui hstore scriptPublicKey outpoint _ [] n1 r1
  have hl2 := stagedLevel_runCalls ui hstore scriptPublicKey outpoint _ calls1 n2 r2
  obtain ⟨hc1, hc2⟩ := countP_updateCalls_reverse ui scriptPublicKey outpoint chainChanges
  rw [hclean1] at hl2
  have hzero : stagedLevel (stagedAfter scriptPublicKey outpoint []) = 0 := rfl
  rw [hzero, hc1, hc2] at hl1
  rw [hi3, hsame, hi2, hi1]
  cases hs : stagedAfter scriptPublicKey outpoint
      ([] ++ updateCalls ui (reverseChanges chainChanges)) with
  | nothing =>
    rw [hs] at hl1
    have hlevel : stagedLevel (stagedAfter scriptPublicKey outpoint
        (calls1 ++ updateCalls ui chainChanges)) = 0 := by
      rw [hl2]
      simp only [stagedLevel] at hl1 ⊢
      omega
    rw [stagedLevel_eq_zero _ hlevel]
    rfl
  | toAdd e => rfl
  | toRemove => rfl

/-- Counterexample for C25 as stated, over the modelled store. Block 1 spends the outpoint
(9, 0) with a recorded entry of 50. `Update` of the added block 1 and `Update` of the
reversed changes both succeed; an index that held the outpoint with the amount 40 then
holds it with 50, and an index that did not hold it then holds it. -/
theorem Update_round_trip_counterexample :
    (Update sampleModelIndex [] ⟨[], [1]⟩).2 = none ∧
    (Update sampleModelIndex (Update sampleModelIndex [] ⟨[], [1]⟩).1
      (reverseChanges ⟨[], [1]⟩)).2 = none ∧
    indexAfter sampleIndexContent [] [1] ⟨9, 0⟩ = some ⟨40, [1], false, 3⟩ ∧
    indexAfter sampleIndexContent
      (Update sampleModelIndex (Update sampleModelIndex [] ⟨[], [1]⟩).1
        (reverseChanges ⟨[], [1]⟩)).1 [1] ⟨9, 0⟩ = some ⟨50, [1], false, 3⟩ ∧
    indexAfter (fun _ _ => none) [] [1] ⟨9, 0⟩ = none ∧
    indexAfter (fun _ _ => none)
      (Update sampleModelIndex (Update sampleModelIndex [] ⟨[], [1]⟩).1
        (reverseChanges ⟨[], [1]⟩)).1 [1] ⟨9, 0⟩ = some ⟨50, [1], false, 3⟩ :=
  ⟨rfl, rfl, rfl, rfl, rfl, rfl⟩

/-- Witness for C25 on the sample index with the chained block 4: the three updates
succeed and leave the outpoint (9, 0) as the first left it. -/
theorem Update_round_trip_witness :
    (Update sampleChainedIndex [] (reverseChanges ⟨[], [4]⟩)).2 = none ∧
    indexAfter sampleIndexContent
        (Update sampleChainedIndex
          (Update sampleChainedIndex (Update sampleChainedIndex []
            (reverseChanges ⟨[], [4]⟩)).1 ⟨[], [4]⟩).1
          (reverseChanges ⟨[], [4]⟩)).1 [1] ⟨9, 0⟩ =
      indexAfter sampleIndexContent
        (Update sampleChainedIndex [] (reverseChanges ⟨[], [4]⟩)).1 [1] ⟨9, 0⟩ :=
  ⟨rfl, Update_round_trip sampleChainedIndex rfl sampleIndexContent ⟨[], [4]⟩ _ _ _ rfl rfl
    rfl [1] ⟨9, 0⟩⟩

/-! ## More transactions than the mass limit -/

/-- The loop of `CalcTxMassFromUTXOSet`, when every input resolves, returns the scripts
of the referenced entries. -/
theorem previousScriptPubKeysLoop_eq (utxoSet : UTXOSet) :
    ∀ ins : List TxIn, (∀ txIn ∈ ins, (utxoSet txIn.PreviousOutpoint).isSome = true) →
      previousScriptPubKeysLoop utxoSet ins = .ok (previousScriptPubKeysOf utxoSet ins) ∧
      (previousScriptPubKeysOf utxoSet ins).length = ins.length := by
  intro ins
  induction ins with
  | nil => intro _; exact ⟨rfl, rfl⟩
  | cons txIn rest ih =>
    intro hall
    obtain ⟨hpks, hlen⟩ := ih (fun t ht => hall t (List.mem_cons_of_mem _ ht))
    have h0 := hall txIn (by simp)
    unfold previousScriptPubKeysLoop
    cases he : utxoSet txIn.PreviousOutpoint with
    | none => rw [he] at h0; cases h0
    | some entry =>
      simp only [hpks, bind, Except.bind, pure, Except.pure]
      simp [previousScriptPubKeysOf, List.filterMap_cons, he] at hlen ⊢
      exact hlen

/-- The sum of a list of numbers that are all at least 1 is at least its length. -/
theorem length_le_sum_map {α : Type} (f : α → Nat) :
    ∀ xs : List α, (∀ x ∈ xs, 1 ≤ f x) → xs.length ≤ (xs.map f).sum := by
  intro xs
  induction xs with
  | nil => intro _; simp
  | cons x rest ih =>
    intro h
    have h1 := h x (by simp)
    have h2 := ih (fun y hy => h y (List.mem_cons_of_mem _ hy))
    simp only [List.length_cons, List.map_cons, List.sum_cons]
    omega

/-- The mass of a transaction whose inputs resolve, whose serialized size is at least 1
and whose mass stays within 64 bits is at least 1. -/
theorem one_le_massOf (X : Imports) (utxoSet : UTXOSet) (tx : Tx)
    (hres : X.IsCoinBase tx = false →
      ∀ txIn ∈ tx.TxIn, (utxoSet txIn.PreviousOutpoint).isSome = true)
    (hsize : 1 ≤ X.SerializeSize tx)
    (hfit : X.SerializeSize tx * 1 + scriptPubKeySize tx * 10 +
      sigOpsCount X tx.TxIn (previousScriptPubKeysOf utxoSet tx.TxIn) * 10000 < 2 ^ 64) :
    1 ≤ massOf X utxoSet tx := by
  unfold massOf CalcTxMassFromUTXOSet
  cases hc : X.IsCoinBase tx with
  | true =>
    simp only [if_true]
    rw [(CalcTxMass_eq X tx []).2 hc]
    dsimp only
    rw [toUint64, Nat.mod_eq_of_lt (by omega)]
    omega
  | false =>
    have hpks := previousScriptPubKeysLoop_eq utxoSet tx.TxIn (hres hc)
    simp only [Bool.false_eq_true, if_false, hpks.1, bind, Except.bind]
    rw [(CalcTxMass_eq X tx _).1 hc hpks.2]
    dsimp only
    rw [toUint64, Nat.mod_eq_of_lt hfit]
    omega

/-- C35. Take a transaction list whose non-coinbase inputs all resolve in the past UTXO
set, in which every transaction has a serialized size of at least 1 and a mass that
stays within the 64 bits of its type. If the list has more than `MaxMassPerBlock`
transactions then `CalcBlockMass` fails with `ErrBlockMassTooHigh`. The constant
`MaxMassPerBlock` is an unsigned 64-bit value. -/
theorem CalcBlockMass_too_many_transactions (X : Imports) (pastUTXO : UTXOSet)
    (transactions : List Tx)
    (hmax : X.MaxMassPerBlock < 2 ^ 64)
    (hres : ∀ tx ∈ transactions, X.IsCoinBase tx = false →
      ∀ txIn ∈ tx.TxIn, (pastUTXO txIn.PreviousOutpoint).isSome = true)
    (hsize : ∀ tx ∈ transactions, 1 ≤ X.SerializeSize tx)
    (hfit : ∀ tx ∈ transactions, X.SerializeSize tx * 1 + scriptPubKeySize tx * 10 +
      sigOpsCount X tx.TxIn (previousScriptPubKeysOf pastUTXO tx.TxIn) * 10000 < 2 ^ 64)
    (hmany : X.MaxMassPerBlock < transactions.length) :
    CalcBlockMass X pastUTXO transactions = .error (.rule .ErrBlockMassTooHigh) := by
  have hmass : ∀ tx ∈ transactions,
      CalcTxMassFromUTXOSet X tx pastUTXO = .ok (massOf X pastUTXO tx) := by
    intro tx htx
    obtain ⟨m, hm⟩ := CalcTxMassFromUTXOSet_ok X tx pastUTXO (hres tx htx)
    unfold massOf
    rw [hm]
  have hall : List.Forall₂ (fun tx m => CalcTxMassFromUTXOSet X tx pastUTXO = .ok m)
      transactions (transactions.map (massOf X pastUTXO)) := by
    clear hres hsize hfit hmany
    induction transactions with
    | nil => exact List.Forall₂.nil
    | cons tx rest ih =>
      exact List.Forall₂.cons (hmass tx (by simp))
        (ih (fun t ht => hmass t (List.mem_cons_of_mem _ ht)))
  have hsum := length_le_sum_map (massOf X pastUTXO) transactions
    (fun tx htx => one_le_massOf X pastUTXO tx (hres tx htx) (hsize tx htx) (hfit tx htx))
  have hloop := blockMassLoop_spec X pastUTXO hmax transactions _ hall 0 (Nat.zero_le _)
  exact hloop.2 (by omega)

/-- Witness for C35: with the serialized size of a transaction equal to its lock time
and `MaxMassPerBlock` 2, three coinbase transactions of mass 1 each are rejected. -/
theorem CalcBlockMass_too_many_transactions_witness :
    ({ wideImports with MaxMassPerBlock := 2 } : Imports).MaxMassPerBlock <
      [wideCoinbase 1, wideCoinbase 1, wideCoinbase 1].length ∧
    CalcTxMassFromUTXOSet { wideImports with MaxMassPerBlock := 2 } (wideCoinbase 1)
      sampleUTXO = .ok 1 ∧
    CalcBlockMass { wideImports with MaxMassPerBlock := 2 } sampleUTXO
      [wideCoinbase 1, wideCoinbase 1, wideCoinbase 1] =
        .error (.rule .ErrBlockMassTooHigh) :=
  ⟨by decide, rfl,
    CalcBlockMass_too_many_transactions { wideImports with MaxMassPerBlock := 2 }
      sampleUTXO [wideCoinbase 1, wideCoinbase 1, wideCoinbase 1] (by decide) (by decide)
      (by decide) (by decide) (by decide)⟩

/-! ## The input total does not wrap -/

/-- The first loop of `CheckTransactionInputsAndCalulateFee` over a list in two parts
is the loop over the first part followed, from the total it returns, by the loop over
the second part. -/
theorem totalSompiInLoop_append (X : Imports) (txBlueScore : Nat) (utxoSet : UTXOSet)
    (dagParams : Params) (fastAdd : Bool) :
    ∀ (pre suf : List TxIn) (acc : Nat),
      totalSompiInLoop X txBlueScore utxoSet dagParams fastAdd acc (pre ++ suf) =
        (totalSompiInLoop X txBlueScore utxoSet dagParams fastAdd acc pre).bind
          (fun total => totalSompiInLoop X txBlueScore utxoSet dagParams fastAdd total suf) := by
  intro pre
  induction pre with
  | nil => intro suf acc; simp [totalSompiInLoop, Except.bind]
  | cons txIn rest ih =>
    intro suf acc
    rw [List.cons_append, totalSompiInLoop, totalSompiInLoop]
    cases he : utxoSet txIn.PreviousOutpoint with
    | none => rfl
    | some entry =>
      dsimp only
      cases hf : fastAdd with
      | true =>
        subst hf
        simp only [bind, Except.bind, pure, Except.pure, throw, throwThe, MonadExceptOf.throw,
          Bool.not_true, Bool.false_eq_true, if_false, ih]
        split_ifs <;> rfl
      | false =>
        subst hf
        rcases validateCoinbaseMaturity_cases dagParams entry txBlueScore txIn with hv | hv
        · simp only [bind, Except.bind, pure, Except.pure, throw, throwThe,
            MonadExceptOf.throw, Bool.not_false, if_true, hv, ih]
          split_ifs <;> rfl
        · simp only [bind, Except.bind, pure, Except.pure, throw, throwThe,
            MonadExceptOf.throw, Bool.not_false, if_true, hv]

/-- A total that the first loop of `CheckTransactionInputsAndCalulateFee` returns from
an accumulator within `MaxSompi` is within `MaxSompi`. -/
theorem totalSompiInLoop_le (X : Imports) (txBlueScore : Nat) (utxoSet : UTXOSet)
    (dagParams : Params) (fastAdd : Bool) (hmax : X.MaxSompi < 2 ^ 64)
    (ins : List TxIn) (acc total : Nat) (hacc : acc ≤ X.MaxSompi)
    (h : totalSompiInLoop X txBlueScore utxoSet dagParams fastAdd acc ins = .ok total) :
    total ≤ X.MaxSompi ∧ total = acc + (inputAmounts utxoSet ins).sum := by
  have hspec := totalSompiInLoop_spec X txBlueScore utxoSet dagParams fastAdd hmax ins acc hacc
  by_cases hP : (∀ txIn ∈ ins, InputPasses X txBlueScore utxoSet dagParams fastAdd txIn) ∧
      acc + (inputAmounts utxoSet ins).sum ≤ X.MaxSompi
  · rw [hspec.1 hP] at h
    cases h
    exact ⟨hP.2, rfl⟩
  · obtain ⟨err, herr, _⟩ := hspec.2 hP
    rw [herr] at h
    cases h

/-- C39. Assume `MaxSompi < 2 ^ 63`. The loop over the inputs of
`CheckTransactionInputsAndCalulateFee` runs input after input from the total 0. When it
reaches the addition for an input, after the inputs before it gave the running total
`total` and the amount of its entry passed the comparison with `MaxSompi`, the running
total and the amount are both at most `MaxSompi`, their sum is below `2 ^ 64`, and the
test `totalSompiIn < lastSompiIn` is false: the sum does not wrap. On every successful
return the total input is at most `MaxSompi` and so is the fee. -/
theorem CheckTransactionInputsAndCalulateFee_no_wrap (X : Imports) (tx : Tx)
    (txBlueScore : Nat) (utxoSet : UTXOSet) (dagParams : Params) (fastAdd : Bool)
    (hmax : X.MaxSompi < 2 ^ 63) :
    (∀ (pre suf : List TxIn) (acc : Nat),
      totalSompiInLoop X txBlueScore utxoSet dagParams fastAdd acc (pre ++ suf) =
        (totalSompiInLoop X txBlueScore utxoSet dagParams fastAdd acc pre).bind
          (fun total => totalSompiInLoop X txBlueScore utxoSet dagParams fastAdd total suf)) ∧
    (∀ (pre : List TxIn) (txIn : TxIn) (rest : List TxIn) (total : Nat) (entry : UTXOEntry),
      tx.TxIn = pre ++ txIn :: rest →
      totalSompiInLoop X txBlueScore utxoSet dagParams fastAdd 0 pre = .ok total →
      utxoSet txIn.PreviousOutpoint = some entry →
      ¬ entry.Amount > X.MaxSompi →
      total ≤ X.MaxSompi ∧ entry.Amount ≤ X.MaxSompi ∧
        total + entry.Amount < 2 ^ 64 ∧
        (total + entry.Amount) % 2 ^ 64 = total + entry.Amount ∧
        ¬ (total + entry.Amount) % 2 ^ 64 < total) ∧
    (∀ fee, CheckTransactionInputsAndCalulateFee X tx txBlueScore utxoSet dagParams fastAdd =
        .ok fee →
      fee ≤ X.MaxSompi ∧
      (X.IsCoinBase tx = false →
        ∃ total, totalSompiInLoop X txBlueScore utxoSet dagParams fastAdd 0 tx.TxIn =
            .ok total ∧
          total = (inputAmounts utxoSet tx.TxIn).sum ∧ total ≤ X.MaxSompi ∧
          fee ≤ total)) := by
  have hmax64 : X.MaxSompi < 2 ^ 64 := by omega
  refine ⟨totalSompiInLoop_append X txBlueScore utxoSet dagParams fastAdd, ?_, ?_⟩
  · intro pre txIn rest total entry _ hpre _ hamount
    have hle := (totalSompiInLoop_le X txBlueScore utxoSet dagParams fastAdd hmax64 pre 0
      total (Nat.zero_le _) hpre).1
    have hsum : total + entry.Amount < 2 ^ 64 := by omega
    have hmod : (total + entry.Amount) % 2 ^ 64 = total + entry.Amount :=
      Nat.mod_eq_of_lt hsum
    refine ⟨hle, by omega, hsum, hmod, ?_⟩
    rw [hmod]
    omega
  · intro fee hfee
    unfold CheckTransactionInputsAndCalulateFee at hfee
    cases hcb : X.IsCoinBase tx with
    | true =>
      simp only [hcb, if_true, pure, Except.pure, bind, Except.bind] at hfee
      cases hfee
      exact ⟨Nat.zero_le _, fun h => by cases h⟩
    | false =>
      simp only [hcb, Bool.false_eq_true, if_false, bind, Except.bind, pure, Except.pure,
        throw, throwThe, MonadExceptOf.throw] at hfee
      cases hloop : totalSompiInLoop X txBlueScore utxoSet dagParams fastAdd 0 tx.TxIn with
      | error err => rw [hloop] at hfee; cases hfee
      | ok total =>
        rw [hloop] at hfee
        dsimp only at hfee
        have hle := totalSompiInLoop_le X txBlueScore utxoSet dagParams fastAdd hmax64
          tx.TxIn 0 total (Nat.zero_le _) hloop
        by_cases hlt : total < totalSompiOutLoop 0 tx.TxOut
        · rw [if_pos hlt] at hfee
          cases hfee
        · rw [if_neg hlt] at hfee
          cases hfee
          refine ⟨by omega, fun _ => ⟨total, rfl, ?_, hle.1, Nat.sub_le _ _⟩⟩
          simpa using hle.2

/-- Witness for C39: under the sample imports, whose `MaxSompi` is below `2 ^ 63`, the
transaction that spends two entries of 100 sompi reaches its second addition with the
running total 100, and pays the fee 170, within `MaxSompi`. -/
theorem CheckTransactionInputsAndCalulateFee_no_wrap_witness :
    sampleImports.MaxSompi < 2 ^ 63 ∧
    CheckTransactionInputsAndCalulateFee sampleImports (sampleSpend 1 [⟨5, 0⟩, ⟨5, 1⟩]) 50
      sampleUTXO sampleDAG.Params false = .ok 170 ∧
    (100 + 100) % 2 ^ 64 = 100 + 100 ∧
    170 ≤ sampleImports.MaxSompi :=
  have hw := CheckTransactionInputsAndCalulateFee_no_wrap sampleImports
    (sampleSpend 1 [⟨5, 0⟩, ⟨5, 1⟩]) 50 sampleUTXO sampleDAG.Params false (by decide)
  ⟨by decide, rfl,
    (hw.2.1 [⟨⟨5, 0⟩, [1, 2], 0⟩] ⟨⟨5, 1⟩, [1, 2], 0⟩ [] 100 ⟨100, [9], 0, false⟩
      rfl rfl rfl (by decide)).2.2.2.1,
    (hw.2.2 170 rfl).1⟩

/-! ## The chain blocks of a response -/

/-- The innermost loop of `CollectChainBlocks` appends the strings of the IDs of the
accepted transactions, in order. -/
theorem acceptedTxIdsLoop_eq (context : RPCContext) :
    ∀ (txs : List TransactionAcceptanceData) (acceptedTxIds : List String),
      acceptedTxIdsLoop context acceptedTxIds txs =
        acceptedTxIds ++ (txs.filter (fun t => t.IsAccepted)).map
          (fun t => context.TransactionIDString t.Transaction.ID) := by
  intro txs
  induction txs with
  | nil => intro acc; simp [acceptedTxIdsLoop]
  | cons t rest ih =>
    intro acc
    unfold acceptedTxIdsLoop
    by_cases ht : t.IsAccepted = true
    · rw [if_pos ht, ih, List.filter_cons_of_pos ht]
      simp
    · rw [if_neg ht, ih, List.filter_cons_of_neg ht]

/-- The loop of `CollectChainBlocks` over the records appends one accepted block for
each record, in order. -/
theorem acceptedBlocksLoop_eq (context : RPCContext) :
    ∀ (records : List BlockAcceptanceData) (acceptedBlocks : List AcceptedBlock),
      acceptedBlocksLoop context acceptedBlocks records =
        acceptedBlocks ++ records.map (fun r =>
          { Hash := context.HashString r.BlockHash
            AcceptedTxIDs := (r.TransactionAcceptanceData.filter (fun t => t.IsAccepted)).map
              (fun t => context.TransactionIDString t.Transaction.ID) }) := by
  intro records
  induction records with
  | nil => intro acc; simp [acceptedBlocksLoop]
  | cons r rest ih =>
    intro acc
    unfold acceptedBlocksLoop
    dsimp only
    rw [ih, acceptedTxIdsLoop_eq]
    simp

/-- The outer loop of `CollectChainBlocks` when the acceptance data of every hash is
retrieved: one chain block is appended for each hash, in order. -/
theorem collectChainBlocksLoop_eq (context : RPCContext)
    (data : Hash → List BlockAcceptanceData) :
    ∀ (hashes : List Hash) (chainBlocks : List ChainBlock),
      (∀ hash ∈ hashes, context.GetBlockAcceptanceData hash = .ok (data hash)) →
      collectChainBlocksLoop context chainBlocks hashes =
        .ok (chainBlocks ++ hashes.map (fun hash =>
          { Hash := context.HashString hash
            AcceptedBlocks := (data hash).map (fun r =>
              { Hash := context.HashString r.BlockHash
                AcceptedTxIDs :=
                  (r.TransactionAcceptanceData.filter (fun t => t.IsAccepted)).map
                    (fun t => context.TransactionIDString t.Transaction.ID) }) })) := by
  intro hashes
  induction hashes with
  | nil => intro acc _; simp [collectChainBlocksLoop]
  | cons hash rest ih =>
    intro acc hall
    unfold collectChainBlocksLoop
    rw [hall hash (by simp)]
    dsimp only
    rw [ih _ (fun x hx => hall x (List.mem_cons_of_mem _ hx)), acceptedBlocksLoop_eq]
    simp

/-- The outer loop of `CollectChainBlocks` fails when the acceptance data of one of the
hashes cannot be retrieved. -/
theorem collectChainBlocksLoop_fails (context : RPCContext) :
    ∀ (hashes : List Hash) (chainBlocks : List ChainBlock),
      (∃ hash ∈ hashes, ∃ err, context.GetBlockAcceptanceData hash = .error err) →
      collectChainBlocksLoop context chainBlocks hashes = .error (.other 2) := by
  intro hashes
  induction hashes with
  | nil => intro acc h; obtain ⟨x, hx, _⟩ := h; simp at hx
  | cons hash rest ih =>
    intro acc h
    unfold collectChainBlocksLoop
    cases hg : context.GetBlockAcceptanceData hash with
    | error err => rfl
    | ok d =>
      dsimp only
      apply ih
      obtain ⟨x, hx, err, he⟩ := h
      rcases List.mem_cons.1 hx with rfl | hx
      · rw [hg] at he; cases he
      · exact ⟨x, hx, err, he⟩

/-- C37. When the acceptance data of every input hash is retrieved, `CollectChainBlocks`
returns one chain block for each input hash, in the same order, with the string of that
hash; each chain block holds one accepted block for each record of the acceptance data
of its hash, in order, with the string of the hash of the record; and the
`AcceptedTxIDs` of an accepted block are the strings of the IDs of the transactions of
the record that have `IsAccepted` set, in order, and of no other. When the acceptance
data of some hash is not retrieved, it returns an error and no list. -/
theorem CollectChainBlocks_spec (context : RPCContext) (hashes : List Hash)
    (data : Hash → List BlockAcceptanceData) :
    ((∀ hash ∈ hashes, context.GetBlockAcceptanceData hash = .ok (data hash)) →
      CollectChainBlocks context hashes =
        .ok (hashes.map (fun hash =>
          { Hash := context.HashString hash
            AcceptedBlocks := (data hash).map (fun r =>
              { Hash := context.HashString r.BlockHash
                AcceptedTxIDs :=
                  (r.TransactionAcceptanceData.filter (fun t => t.IsAccepted)).map
                    (fun t => context.TransactionIDString t.Transaction.ID) }) }))) ∧
    ((∃ hash ∈ hashes, ∃ err, context.GetBlockAcceptanceData hash = .error err) →
      CollectChainBlocks context hashes = .error (.other 2)) := by
  constructor
  · intro hall
    have := collectChainBlocksLoop_eq context data hashes [] hall
    simpa [CollectChainBlocks] using this
  · intro h
    exact collectChainBlocksLoop_fails context hashes [] h

/-- Witness for C37 on the sample context: for the hashes 5 and 6 the two chain blocks
hold one accepted block each, with the accepted transaction 1 and without the
transaction 2, which is not accepted; in a context that has no acceptance data for
block 6 the call fails. -/
theorem CollectChainBlocks_spec_witness :
    CollectChainBlocks sampleRPCContext [5, 6] =
      .ok [⟨"five", [⟨"five", ["one"]⟩]⟩, ⟨"other", [⟨"other", ["one"]⟩]⟩] ∧
    CollectChainBlocks
        { sampleRPCContext with
          GetBlockAcceptanceData := fun h =>
            if h = 6 then .error (.other 9) else sampleRPCContext.GetBlockAcceptanceData h }
        [5, 6] = .error (.other 2) :=
  ⟨(CollectChainBlocks_spec sampleRPCContext [5, 6]
      (fun h => [⟨h, [⟨⟨1, [], [], 0⟩, true⟩, ⟨⟨2, [], [], 0⟩, false⟩]⟩])).1
      (fun _ _ => rfl),
    (CollectChainBlocks_spec _ [5, 6] (fun _ => [])).2 ⟨6, by decide, .other 9, rfl⟩⟩

/-! ## Valid blocks and their selected parents -/

/-- In the statuses `StatusValid`, `k` times, followed by `StatusDisqualifiedFromChain`,
the valid ones are those at the indices below `k`. -/
theorem validThenDisqualified_valid (k n i : Nat) :
    (validThenDisqualified k n)[i]? = some .StatusValid ↔ i < k := by
  unfold validThenDisqualified
  by_cases hi : i < k
  · rw [List.getElem?_append_left (by simpa using hi)]
    simp [hi]
  · rw [List.getElem?_append_right (by simpa using hi)]
    simp only [List.length_replicate, hi, iff_false]
    intro h
    have := List.getElem?_eq_some.1 h
    obtain ⟨_, h2⟩ := this
    simp at h2

/-- What `findSelectedParentStatus` returns: `StatusValid` when the last block of the
walk is the genesis block, and otherwise what `blockStatusStore.Get` returns for the
selected parent of that block. -/
theorem findSelectedParentStatus_eq (csm : ConsensusStateManager) (s : Staging)
    (L : List Hash) (anchor : BlockStatus)
    (h : findSelectedParentStatus csm s L = .ok anchor) :
    ∃ last, L[L.length - 1]? = some last ∧
      (last = csm.genesisHash → anchor = .StatusValid) ∧
      (last ≠ csm.genesisHash → ∃ data, csm.ghostdagDataStore last = .ok data ∧
        csm.blockStatusStore s data.SelectedParent = .ok anchor) := by
  unfold findSelectedParentStatus index at h
  cases hl : L[L.length - 1]? with
  | none => rw [hl] at h; cases h
  | some last =>
    rw [hl] at h
    refine ⟨last, rfl, ?_, ?_⟩
    · intro hg
      subst hg
      simp only [bind, Except.bind, beq_self_eq_true, if_true, pure, Except.pure] at h
      cases h
      rfl
    · intro hg
      have hb : (last == csm.genesisHash) = false := by simpa using hg
      simp only [bind, Except.bind, hb, Bool.false_eq_true, if_false] at h
      cases hd : csm.ghostdagDataStore last with
      | error err => rw [hd] at h; cases h
      | ok data =>
        rw [hd] at h
        exact ⟨data, rfl, h⟩

/-- C38, amended. When `resolveBlockStatus` succeeds on a non-empty walk, the statuses it
stages, oldest block first, are `StatusValid` for some first blocks and
`StatusDisqualifiedFromChain` for the others. For every block it stages as
`StatusValid`: if the block is the oldest of the walk, the status of the anchor, which
is `StatusValid` when the block is the genesis block and otherwise the stored status of
its selected parent, is not `StatusDisqualifiedFromChain`; and any other block has as
its selected parent the block before it, which the same call has staged as
`StatusValid`. So no block is staged valid on top of a selected parent whose status is
`StatusDisqualifiedFromChain`. -/
theorem resolveBlockStatus_valid_parent (csm : ConsensusStateManager) (fuel : Nat)
    (s s' : Staging) (h : Hash) (L : List Hash) (status : BlockStatus)
    (hL : getUnverifiedChainBlocks csm s fuel h = some (.ok L)) (hne : L ≠ [])
    (hres : resolveBlockStatus csm fuel s h = some (.ok (status, s'))) :
    ∃ anchor k, findSelectedParentStatus csm s L = .ok anchor ∧ k ≤ L.length ∧
      s'.blockStatus =
        (L.reverse.zip (validThenDisqualified k L.length)).reverse ++ s.blockStatus ∧
      ∀ (i : Nat) (b : Hash), L.reverse[i]? = some b →
        (validThenDisqualified k L.length)[i]? = some .StatusValid →
        (i = 0 →
          anchor ≠ .StatusDisqualifiedFromChain ∧
          (b = csm.genesisHash → anchor = .StatusValid) ∧
          (b ≠ csm.genesisHash → ∃ data, csm.ghostdagDataStore b = .ok data ∧
            csm.blockStatusStore s data.SelectedParent = .ok anchor)) ∧
        (∀ j, i = j + 1 →
          ∃ p data, L.reverse[j]? = some p ∧
            csm.ghostdagDataStore b = .ok data ∧ data.SelectedParent = some p ∧
            (validThenDisqualified k L.length)[j]? = some .StatusValid) := by
  have heq := resolveBlockStatus_eq csm fuel s h L hL hne
  rw [heq] at hres
  cases ha : findSelectedParentStatus csm s L with
  | error err => rw [ha] at hres; simp at hres
  | ok anchor =>
    rw [ha] at hres
    simp only [Option.some.injEq] at hres
    obtain ⟨k, hk, hs, hz⟩ :=
      resolveBlockStatusLoop_shape csm L.reverse anchor csm.zeroBlockStatus s status s' hres
    rw [List.length_reverse] at hk hs
    obtain ⟨L', hL', hc⟩ := chain_of_getUnverifiedChainBlocksLoop csm s fuel [] h L hL
    simp only [List.nil_append] at hL'
    subst hL'
    have hprops := IsUnverifiedChain_props csm s L h hc
    refine ⟨anchor, k, rfl, hk, hs, ?_⟩
    intro i b hb hv
    have hik : i < k := (validThenDisqualified_valid k L.length i).1 hv
    have hlen : i < L.length := by omega
    have hb' : L[L.length - 1 - i]? = some b := by
      rw [← hb, List.getElem?_reverse hlen]
    constructor
    · intro hi0
      subst hi0
      refine ⟨fun hd => by have := hz hd; omega, ?_⟩
      obtain ⟨last, hlast, hg1, hg2⟩ := findSelectedParentStatus_eq csm s L anchor ha
      rw [Nat.sub_zero, hlast] at hb'
      cases hb'
      exact ⟨hg1, hg2⟩
    · intro j hj
      subst hj
      have hjlen : j < L.length := by omega
      have hjr : j < L.reverse.length := by simpa using hjlen
      obtain ⟨p, hp⟩ : ∃ p, L.reverse[j]? = some p :=
        ⟨L.reverse[j], List.getElem?_eq_getElem hjr⟩
      have hp' : L[L.length - 1 - (j + 1) + 1]? = some p := by
        rw [← hp, List.getElem?_reverse hjlen]
        congr 1
        omega
      obtain ⟨data, hd1, hd2⟩ := hprops.2.2.1 _ b _ hb' hp'
      exact ⟨_, data, hp, hd1, hd2,
        (validThenDisqualified_valid k L.length j).2 (by omega)⟩

/-- Counterexample to C38 as stated: block 4 is not the genesis block, its selected
parent is block 3, and the stored status of block 3 is `StatusInvalid`; resolving block
4 stages it as `StatusValid`. -/
theorem resolveBlockStatus_valid_parent_counterexample :
    getUnverifiedChainBlocks invalidAnchorCSM emptyStaging 5 4 = some (.ok [4]) ∧
    (4 : Hash) ≠ invalidAnchorCSM.genesisHash ∧
    invalidAnchorCSM.ghostdagDataStore 4 = .ok ⟨some 3⟩ ∧
    blockStatusStoreGet invalidAnchorCSM emptyStaging 3 = .ok (.other 1) ∧
    findSelectedParentStatus invalidAnchorCSM emptyStaging [4] = .ok (.other 1) ∧
    ∃ s', resolveBlockStatus invalidAnchorCSM 5 emptyStaging 4 =
        some (.ok (.StatusValid, s')) ∧
      s'.blockStatus = [(4, .StatusValid)] :=
  ⟨rfl, by decide, rfl, rfl, rfl, _, rfl, rfl⟩

/-- Witness for C38, amended, on the sample manager: of the chain 7, 6, 5, 4 only block 4
is staged valid; it is the oldest block of the walk and the stored status of its
selected parent, block 3, is `StatusValid`. -/
theorem resolveBlockStatus_valid_parent_witness :
    ∃ s', resolveBlockStatus sampleCSM 5 emptyStaging 7 =
        some (.ok (.StatusDisqualifiedFromChain, s')) ∧
      s'.blockStatus = [(7, .StatusDisqualifiedFromChain), (6, .StatusDisqualifiedFromChain),
        (5, .StatusDisqualifiedFromChain), (4, .StatusValid)] ∧
      ∃ anchor, findSelectedParentStatus sampleCSM emptyStaging [7, 6, 5, 4] = .ok anchor ∧
        anchor ≠ .StatusDisqualifiedFromChain := by
  obtain ⟨anchor, k, ha, hk, hs, hall⟩ := resolveBlockStatus_valid_parent sampleCSM 5
    emptyStaging _ 7 [7, 6, 5, 4] .StatusDisqualifiedFromChain rfl (by decide) rfl
  refine ⟨_, rfl, rfl, anchor, ha, ?_⟩
  have hk4 : k ≤ 4 := hk
  have hk1 : k = 1 := by
    interval_cases k
    · exact absurd hs (by decide)
    · rfl
    · exact absurd hs (by decide)
    · exact absurd hs (by decide)
    · exact absurd hs (by decide)
  subst hk1
  exact ((hall 0 4 rfl rfl).1 rfl).1

/-! ## Pending requests that are already connected -/

/-- The body of the second loop on a due request whose address has a connection: the
request is put back into `pendingConnectionRequests`, `activeConnectionRequests` is not
written, and the connection is removed from the set. -/
theorem checkPendingConnectionRequest_connected {connectionSet NetConnection : Type}
    (env : ConnectionEnv connectionSet NetConnection) (now : Instant) (address : String)
    (connReq : connectionRequest) (c : ConnectionManager) (connSet : connectionSet)
    (connection : NetConnection)
    (hdue : ¬ connReq.nextAttempt > now)
    (hget : env.get connSet address = some connection) :
    (checkPendingConnectionRequest env now address connReq c connSet).1.pendingConnectionRequests
        address = some connReq ∧
    (checkPendingConnectionRequest env now address connReq c
        connSet).1.activeConnectionRequests = c.activeConnectionRequests ∧
    (checkPendingConnectionRequest env now address connReq c connSet).2 =
      env.remove connSet (some connection) := by
  have hsome : (env.get connSet address).isSome = true := by rw [hget]; rfl
  unfold checkPendingConnectionRequest
  rw [if_neg hdue]
  dsimp only
  rw [if_pos hsome, hget]
  exact ⟨requestMap_insert_self _ _ _, rfl, rfl⟩

/-- C36. On the sample manager, the request to "p" is pending and due at the instant 10,
and the connection set holds a connection to "p". When `checkConnectionRequests`
returns, the request is still in `pendingConnectionRequests` and is not in
`activeConnectionRequests`, although the connection has been removed from the set: the
branch deletes the request from `pendingConnectionRequests` and inserts it into the
same map. -/
theorem checkConnectionRequests_connected_stays_pending :
    samplePendingManager.pendingConnectionRequests "p" = some ⟨"p", true, 0, 0⟩ ∧
    ¬ (0 : Instant) > 10 ∧
    sampleConnectionEnv.get ["p"] "p" = some "p" ∧
    (checkConnectionRequests sampleConnectionEnv 10 [] ["p"] samplePendingManager
      ["p"]).1.pendingConnectionRequests "p" = some ⟨"p", true, 0, 0⟩ ∧
    (checkConnectionRequests sampleConnectionEnv 10 [] ["p"] samplePendingManager
      ["p"]).1.activeConnectionRequests "p" = none ∧
    (checkConnectionRequests sampleConnectionEnv 10 [] ["p"] samplePendingManager
      ["p"]).2 = [] :=
  ⟨rfl, by decide, rfl, rfl, rfl, rfl⟩

/-! ## The two maps stay disjoint -/

/-- The body of the first loop keeps the two maps disjoint. -/
theorem checkActiveConnectionRequest_disjoint {connectionSet NetConnection : Type}
    (env : ConnectionEnv connectionSet NetConnection) (now : Instant) (address : String)
    (connReq : connectionRequest) (c : ConnectionManager) (connSet : connectionSet)
    (hd : DisjointRequests c) :
    DisjointRequests (checkActiveConnectionRequest env now address connReq c connSet).1 := by
  intro a
  unfold checkActiveConnectionRequest
  dsimp only
  by_cases hc : (env.get connSet address).isNone = true
  · rw [if_pos hc]
    by_cases hp : connReq.isPermanent = true
    · rw [if_pos hp]
      dsimp only
      by_cases ha : a = address
      · subst ha
        rw [requestMap_delete_self]
        simp
      · rw [requestMap_delete_ne _ _ _ ha, requestMap_insert_ne _ _ _ _ ha]
        exact hd a
    · rw [if_neg hp]
      dsimp only
      by_cases ha : a = address
      · subst ha
        rw [requestMap_delete_self]
        simp
      · rw [requestMap_delete_ne _ _ _ ha]
        exact hd a
  · rw [if_neg hc]
    exact hd a

/-- The first loop keeps the two maps disjoint, whatever keys it produces. -/
theorem checkActiveConnectionRequests_disjoint {connectionSet NetConnection : Type}
    (env : ConnectionEnv connectionSet NetConnection) (now : Instant) :
    ∀ (keys : List String) (c : ConnectionManager) (connSet : connectionSet),
      DisjointRequests c →
      DisjointRequests (checkActiveConnectionRequests env now keys c connSet).1 := by
  intro keys
  induction keys with
  | nil => intro c connSet hd; exact hd
  | cons address rest ih =>
    intro c connSet hd
    unfold checkActiveConnectionRequests
    cases h : c.activeConnectionRequests address with
    | none => exact ih c connSet hd
    | some connReq =>
      exact ih _ _ (checkActiveConnectionRequest_disjoint env now address connReq c connSet hd)

/-- The body of the second loop, on a request that is pending, keeps the two maps
disjoint. -/
theorem checkPendingConnectionRequest_disjoint {connectionSet NetConnection : Type}
    (env : ConnectionEnv connectionSet NetConnection) (now : Instant) (address : String)
    (connReq connReq0 : connectionRequest) (c : ConnectionManager) (connSet : connectionSet)
    (hd : DisjointRequests c) (hpending : c.pendingConnectionRequests address = some connReq0) :
    DisjointRequests (checkPendingConnectionRequest env now address connReq c connSet).1 := by
  have hactive : c.activeConnectionRequests address = none := by
    cases h : c.activeConnectionRequests address with
    | none => rfl
    | some r =>
      have := hd address
      rw [h, hpending] at this
      simp at this
  have hkeep : ∀ r : connectionRequest, DisjointRequests
      { c with pendingConnectionRequests := c.pendingConnectionRequests.insert address r } := by
    intro r a
    dsimp only
    by_cases ha : a = address
    · subst ha
      rw [hactive]
      simp
    · rw [requestMap_insert_ne _ _ _ _ ha]
      exact hd a
  have hdelete : DisjointRequests
      { c with pendingConnectionRequests := c.pendingConnectionRequests.delete address } := by
    intro a
    dsimp only
    by_cases ha : a = address
    · subst ha
      rw [requestMap_delete_self]
      simp
    · rw [requestMap_delete_ne _ _ _ ha]
      exact hd a
  unfold checkPendingConnectionRequest
  by_cases hdue : connReq.nextAttempt > now
  · rw [if_pos hdue]
    exact hd
  · rw [if_neg hdue]
    dsimp only
    by_cases hconn : (env.get connSet address).isSome = true
    · rw [if_pos hconn]
      intro a
      dsimp only
      by_cases ha : a = address
      · subst ha
        rw [hactive]
        simp
      · rw [requestMap_insert_ne _ _ _ _ ha, requestMap_delete_ne _ _ _ ha]
        exact hd a
    · rw [if_neg hconn]
      by_cases herr : (env.initiateConnection connReq.address).isNone = true
      · rw [if_pos herr]
        intro a
        dsimp only
        by_cases ha : a = address
        · subst ha
          rw [requestMap_delete_self]
          simp
        · rw [requestMap_insert_ne _ _ _ _ ha, requestMap_delete_ne _ _ _ ha]
          exact hd a
      · rw [if_neg herr]
        by_cases hperm : (!connReq.isPermanent) = true
        · rw [if_pos hperm]
          exact hdelete
        · rw [if_neg hperm]
          exact hkeep _

/-- The second loop keeps the two maps disjoint, whatever keys it produces. -/
theorem checkPendingConnectionRequests_disjoint {connectionSet NetConnection : Type}
    (env : ConnectionEnv connectionSet NetConnection) (now : Instant) :
    ∀ (keys : List String) (c : ConnectionManager) (connSet : connectionSet),
      DisjointRequests c →
      DisjointRequests (checkPendingConnectionRequests env now keys c connSet).1 := by
  intro keys
  induction keys with
  | nil => intro c connSet hd; exact hd
  | cons address rest ih =>
    intro c connSet hd
    unfold checkPendingConnectionRequests
    cases h : c.pendingConnectionRequests address with
    | none => exact ih c connSet hd
    | some connReq =>
      exact ih _ _
        (checkPendingConnectionRequest_disjoint env now address connReq connReq c connSet hd h)

/-- C40. If `activeConnectionRequests` and `pendingConnectionRequests` have no key in
common before `checkConnectionRequests` runs, they have none when it returns, for every
connection set, every outcome of `initiateConnection`, and every order in which the two
loops produce the keys; and if they have none before the body of `AddConnectionRequest`
runs under the lock, they have none after it. -/
theorem connection_requests_disjoint {connectionSet NetConnection : Type}
    (env : ConnectionEnv connectionSet NetConnection) (now : Instant)
    (activeKeys pendingKeys : List String) (c : ConnectionManager) (connSet : connectionSet)
    (address : String) (isPermanent : Bool) (hd : DisjointRequests c) :
    DisjointRequests (checkConnectionRequests env now activeKeys pendingKeys c connSet).1 ∧
    DisjointRequests (AddConnectionRequest c address isPermanent) := by
  constructor
  · unfold checkConnectionRequests
    exact checkPendingConnectionRequests_disjoint env now pendingKeys _ _
      (checkActiveConnectionRequests_disjoint env now activeKeys c connSet hd)
  · unfold AddConnectionRequest
    by_cases ha : (c.activeConnectionRequests address).isSome = true
    · rw [if_pos ha]
      exact hd
    · rw [if_neg ha]
      intro a
      dsimp only
      by_cases he : a = address
      · subst he
        exact fun h => ha h.1
      · rw [requestMap_insert_ne _ _ _ _ he]
        exact hd a

/-- The sample manager has no pending request, so its two maps are disjoint. -/
theorem sampleConnectionManager_disjoint : DisjointRequests sampleConnectionManager := by
  intro a h
  have := h.2
  simp [sampleConnectionManager] at this

/-- Witness for C40 on the sample manager, whose requests are all active: after a check
with no connection left, and after a request for the new address "e", the two maps are
disjoint; the check has moved the request to "a" to the pending ones and the new
request is pending. -/
theorem connection_requests_disjoint_witness :
    DisjointRequests (checkConnectionRequests sampleConnectionEnv 10
      ["a", "b", "c", "d"] ["a", "b", "d"] sampleConnectionManager []).1 ∧
    DisjointRequests (AddConnectionRequest sampleConnectionManager "e" true) ∧
    ((checkConnectionRequests sampleConnectionEnv 10
      ["a", "b", "c", "d"] ["a", "b", "d"] sampleConnectionManager
      []).1.pendingConnectionRequests "a").isSome = true ∧
    (AddConnectionRequest sampleConnectionManager "e" true).pendingConnectionRequests "e" =
      some ⟨"e", true, 0, 0⟩ :=
  have hw := connection_requests_disjoint sampleConnectionEnv 10 ["a", "b", "c", "d"]
    ["a", "b", "d"] sampleConnectionManager [] "e" true sampleConnectionManager_disjoint
  ⟨hw.1, hw.2, rfl, rfl⟩

/-! ## The bytes of a reachability record -/

theorem littleEndian_length : ∀ (k n : Nat), (littleEndian k n).length = k := by
  intro k
  induction k with
  | zero => intro n; rfl
  | succ k ih => intro n; simp [littleEndian, ih]

theorem littleEndianValue_littleEndian :
    ∀ (k n : Nat), littleEndianValue (littleEndian k n) = n % 256 ^ k := by
  intro k
  induction k with
  | zero => intro n; simp [littleEndian, littleEndianValue, Nat.mod_one]
  | succ k ih =>
    intro n
    simp only [littleEndian, littleEndianValue, ih]
    rw [pow_succ, Nat.mul_comm (256 ^ k) 256, Nat.mod_mul]

/-- The bytes of a `uint64` are 8, and they spell the value. -/
theorem writeUint64_spec (n : Nat) :
    (writeUint64 n).length = 8 ∧ littleEndianValue (writeUint64 n) = n % 2 ^ 64 := by
  unfold writeUint64
  refine ⟨littleEndian_length 8 n, ?_⟩
  rw [littleEndianValue_littleEndian]
  norm_num

/-- A proper prefix is shorter. -/
theorem length_lt_of_proper_prefix {p w : Bytes} (hp : p <+: w) (hne : p ≠ w) :
    p.length < w.length := by
  rcases Nat.lt_or_ge p.length w.length with h | h
  · exact h
  · exact absurd (hp.eq_of_length (Nat.le_antisymm hp.length_le h)) hne

/-- A `uint64` is read back as it was written. -/
theorem readUint64_readsBack (n : Nat) (hn : n < 2 ^ 64) :
    ReadsBack readUint64 (writeUint64 n) n := by
  obtain ⟨hlen, hval⟩ := writeUint64_spec n
  constructor
  · intro rest
    unfold readUint64
    have h1 : ¬ (writeUint64 n ++ rest).length < 8 := by
      rw [List.length_append, hlen]
      omega
    rw [if_neg h1, List.take_left' hlen, List.drop_left' hlen, hval, Nat.mod_eq_of_lt hn]
  · intro p hp hne
    have := length_lt_of_proper_prefix hp hne
    rw [hlen] at this
    exact ⟨_, by unfold readUint64; rw [if_pos this]⟩

/-- A prefix of bytes written followed by others: the reader fails on it, or it holds
all the bytes written, the reader returns the value, and what is left is a prefix of
the others. -/
theorem ReadsBack.step {α : Type} {read : Bytes → Except Fault (α × Bytes)}
    {written : Bytes} {value : α} (h : ReadsBack read written value) (p tail : Bytes)
    (hp : p <+: written ++ tail) :
    (∃ err, read p = .error err) ∨
    (∃ p', p = written ++ p' ∧ p' <+: tail ∧ read p = .ok (value, p')) := by
  rcases List.prefix_or_prefix_of_prefix hp (List.prefix_append written tail) with h1 | h1
  · by_cases he : p = written
    · right
      refine ⟨[], by simpa using he, List.nil_prefix, ?_⟩
      have := h.1 []
      rw [List.append_nil] at this
      rw [he, this]
    · left
      exact h.2 p h1 he
  · right
    obtain ⟨p', rfl⟩ := h1
    exact ⟨p', rfl, (List.prefix_append_right_inj written).1 hp, h.1 p'⟩

/-- The loop over tree nodes that are connected to block nodes appends the bytes of
their hashes, in order. -/
theorem serializeTreeNodesLoop_eq (W : Wire) (nodes : TreeNodes) :
    ∀ (refs : List TreeNodeRef) (hashes : List Hash) (w : Bytes),
      List.Forall₂ (HasHash nodes) refs hashes →
      serializeTreeNodesLoop W nodes w refs = .ok (w ++ hashesBytes W hashes) := by
  intro refs hashes w hall
  induction hall generalizing w with
  | nil => simp [serializeTreeNodesLoop, hashesBytes]
  | @cons ref hash refs hashes h _ ih =>
    unfold serializeTreeNodesLoop blockNodeHash
    unfold HasHash at h
    rw [h]
    simp only [bind, Except.bind]
    rw [ih]
    simp [hashesBytes, List.append_assoc]

/-- The bytes that `serializeReachabilityData` returns for a record whose interval is
set and whose referenced tree nodes are connected to block nodes. -/
theorem serializeReachabilityData_eq (W : Wire) (nodes : TreeNodes) (data : reachabilityData)
    (interval : reachabilityInterval) (parentHash : Hash) (childHashes futureHashes : List Hash)
    (hinterval : (nodes data.treeNode).interval = some interval)
    (hparent : match (nodes data.treeNode).parent with
      | none => parentHash = W.ZeroHash
      | some parent => HasHash nodes parent parentHash)
    (hchildren : List.Forall₂ (HasHash nodes) (nodes data.treeNode).children childHashes)
    (hfuture : List.Forall₂ (HasHash nodes) data.futureCoveringSet futureHashes) :
    serializeReachabilityData W nodes data =
      .ok (recordBytes W interval parentHash childHashes futureHashes) := by
  have hc := fun w => serializeTreeNodesLoop_eq W nodes _ childHashes w hchildren
  have hf := fun w => serializeTreeNodesLoop_eq W nodes _ futureHashes w hfuture
  unfold serializeReachabilityData serializeFutureCoveringSet serializeTreeNode
    serializeReachabilityInterval
  rw [hinterval]
  cases hpar : (nodes data.treeNode).parent with
  | none =>
    rw [hpar] at hparent
    dsimp only at hparent
    subst hparent
    simp only [bind, Except.bind, pure, Except.pure, hc, hf]
    simp [recordBytes, List.append_assoc, hchildren.length_eq, hfuture.length_eq]
  | some parent =>
    rw [hpar] at hparent
    dsimp only at hparent
    unfold HasHash at hparent
    simp only [bind, Except.bind, pure, Except.pure, blockNodeHash, hparent, hc, hf]
    simp [recordBytes, List.append_assoc, hchildren.length_eq, hfuture.length_eq]

/-- C31. For a reachability record whose interval is set and whose parent, children and
future covering set are tree nodes connected to block nodes,
`serializeReachabilityData` returns exactly the bytes of `interval.start`, the bytes of
`interval.end`, the bytes of the hash of the parent, or of the zero hash when the node
has no parent, the varint of the number of children, the bytes of the hashes of the
children in order, the varint of the size of the future covering set, and the bytes of
the hashes of its nodes in order. Each end of the interval takes 8 bytes, which spell
the value with the least significant byte first; a hash takes the bytes that
`wire.WriteElement` writes for it. -/
theorem serializeReachabilityData_spec (W : Wire) (nodes : TreeNodes)
    (data : reachabilityData) (interval : reachabilityInterval) (parentHash : Hash)
    (childHashes futureHashes : List Hash)
    (hinterval : (nodes data.treeNode).interval = some interval)
    (hparent : match (nodes data.treeNode).parent with
      | none => parentHash = W.ZeroHash
      | some parent => HasHash nodes parent parentHash)
    (hchildren : List.Forall₂ (HasHash nodes) (nodes data.treeNode).children childHashes)
    (hfuture : List.Forall₂ (HasHash nodes) data.futureCoveringSet futureHashes) :
    serializeReachabilityData W nodes data =
      .ok (writeUint64 interval.start ++ writeUint64 interval.end_ ++
        W.WriteElementHash parentHash ++
        W.WriteVarInt (nodes data.treeNode).children.length ++
        (childHashes.map W.WriteElementHash).flatten ++
        W.WriteVarInt data.futureCoveringSet.length ++
        (futureHashes.map W.WriteElementHash).flatten) ∧
    (writeUint64 interval.start).length = 8 ∧
    littleEndianValue (writeUint64 interval.start) = interval.start % 2 ^ 64 ∧
    (writeUint64 interval.end_).length = 8 ∧
    littleEndianValue (writeUint64 interval.end_) = interval.end_ % 2 ^ 64 ∧
    childHashes.length = (nodes data.treeNode).children.length ∧
    futureHashes.length = data.futureCoveringSet.length := by
  refine ⟨?_, (writeUint64_spec _).1, (writeUint64_spec _).2, (writeUint64_spec _).1,
    (writeUint64_spec _).2, hchildren.length_eq.symm, hfuture.length_eq.symm⟩
  rw [serializeReachabilityData_eq W nodes data interval parentHash childHashes futureHashes
    hinterval hparent hchildren hfuture]
  simp [recordBytes, hashesBytes, List.append_assoc, hchildren.length_eq, hfuture.length_eq]

/-- Witness for C31 on the sample store: the record of block 12, with the interval from
5 to 300, the parent of block 11, the child of block 13 and the future covering set of
block 14, is serialized to 8 + 8 + 32 + 1 + 32 + 1 + 32 bytes that start with the bytes
of 5 and of 300. -/
theorem serializeReachabilityData_spec_witness :
    ∃ bytes, serializeReachabilityData sampleWire sampleTreeNodes ⟨2, [4]⟩ = .ok bytes ∧
      bytes.length = 114 ∧
      bytes.take 16 = [5, 0, 0, 0, 0, 0, 0, 0, 44, 1, 0, 0, 0, 0, 0, 0] ∧
      bytes.drop 16 = sampleWire.WriteElementHash 11 ++ [1] ++ sampleWire.WriteElementHash 13 ++
        [1] ++ sampleWire.WriteElementHash 14 :=
  ⟨_, (serializeReachabilityData_spec sampleWire sampleTreeNodes ⟨2, [4]⟩ ⟨5, 300⟩ 11 [13]
      [14] rfl rfl (List.Forall₂.cons rfl List.Forall₂.nil)
      (List.Forall₂.cons rfl List.Forall₂.nil)).1, by decide, by decide, by decide⟩

/-! ## Reading a reachability record back -/

theorem TreeNodes.set_self (nodes : TreeNodes) (ref : TreeNodeRef)
    (node : reachabilityTreeNode) : (nodes.set ref node) ref = node := by
  simp [TreeNodes.set]

theorem hashesBytes_cons (W : Wire) (hash : Hash) (hashes : List Hash) :
    hashesBytes W (hash :: hashes) = W.WriteElementHash hash ++ hashesBytes W hashes := by
  simp [hashesBytes]

theorem deserializeTreeNodesLoop_succ (W : Wire) (store : reachabilityStore) (count : Nat)
    (r : Bytes) :
    deserializeTreeNodesLoop W store (count + 1) r =
      (W.ReadElementHash r).bind (fun x =>
        match reachabilityDataByHash store x.1 with
        | none => .error (.other 11)
        | some data =>
          (deserializeTreeNodesLoop W store count x.2).bind (fun y =>
            .ok (data.treeNode :: y.1, y.2))) := by
  rw [deserializeTreeNodesLoop]
  cases h : W.ReadElementHash r with
  | error err => rfl
  | ok x =>
    obtain ⟨hash, r'⟩ := x
    simp only [bind, Except.bind]
    cases reachabilityDataByHash store hash with
    | none => rfl
    | some data =>
      dsimp only
      cases deserializeTreeNodesLoop W store count r' with
      | error err => rfl
      | ok y => rfl

/-- The loop that reads tree nodes, on the bytes of hashes that are all loaded: it
returns the tree nodes loaded under them, in order, and leaves the bytes after them. -/
theorem deserializeTreeNodesLoop_loaded (W : Wire) (store : reachabilityStore)
    (hW : WireLaws W) :
    ∀ (refs : List TreeNodeRef) (hashes : List Hash) (rest : Bytes),
      List.Forall₂ (fun ref hash => hash < 2 ^ 256 ∧ LoadedAs store ref hash) refs hashes →
      deserializeTreeNodesLoop W store hashes.length (hashesBytes W hashes ++ rest) =
        .ok (refs, rest) := by
  intro refs hashes rest hall
  induction hall with
  | nil => simp [deserializeTreeNodesLoop, hashesBytes]
  | @cons ref hash refs hashes h _ ih =>
    obtain ⟨hlt, data, hdata, href⟩ := h
    rw [List.length_cons, deserializeTreeNodesLoop_succ, hashesBytes_cons, List.append_assoc,
      (hW.2.1 hash hlt).1]
    simp only [Except.bind, reachabilityDataByHash, hdata, ih, href]

/-- The loop that reads tree nodes, on a prefix of the bytes of hashes followed by other
bytes: it fails, or the prefix holds the bytes of all the hashes, they are all loaded,
and the loop returns tree nodes and leaves a prefix of the other bytes. -/
theorem deserializeTreeNodesLoop_prefix (W : Wire) (store : reachabilityStore)
    (hW : WireLaws W) :
    ∀ (hashes : List Hash) (p tail : Bytes), (∀ hash ∈ hashes, hash < 2 ^ 256) →
      p <+: hashesBytes W hashes ++ tail →
      (∃ err, deserializeTreeNodesLoop W store hashes.length p = .error err) ∨
      (∃ refs p', p = hashesBytes W hashes ++ p' ∧ p' <+: tail ∧
        (∀ hash ∈ hashes, (store.loaded hash).isSome = true) ∧
        deserializeTreeNodesLoop W store hashes.length p = .ok (refs, p')) := by
  intro hashes
  induction hashes with
  | nil =>
    intro p tail _ hp
    right
    exact ⟨[], p, by simp [hashesBytes], by simpa [hashesBytes] using hp, by simp, rfl⟩
  | cons hash hashes ih =>
    intro p tail hlt hp
    rw [hashesBytes_cons, List.append_assoc] at hp
    rw [List.length_cons, deserializeTreeNodesLoop_succ]
    rcases (hW.2.1 hash (hlt hash (by simp))).step p _ hp with ⟨err, he⟩ | ⟨p1, rfl, hp1, hr⟩
    · left
      rw [he]
      exact ⟨_, rfl⟩
    · rw [hr]
      simp only [Except.bind, reachabilityDataByHash]
      cases hl : store.loaded hash with
      | none => left; exact ⟨_, rfl⟩
      | some data =>
        dsimp only
        rcases ih p1 tail (fun x hx => hlt x (List.mem_cons_of_mem _ hx)) hp1 with
          ⟨err, he⟩ | ⟨refs, p2, rfl, hp2, hall, hr2⟩
        · left
          rw [he]
          exact ⟨_, rfl⟩
        · right
          rw [hr2]
          refine ⟨data.treeNode :: refs, p2, ?_, hp2, ?_, rfl⟩
          · rw [hashesBytes_cons, List.append_assoc]
          · intro x hx
            rcases List.mem_cons.1 hx with rfl | hx
            · rw [hl]; rfl
            · exact hall x hx

theorem TreeNodes.set_ne (nodes : TreeNodes) (ref other : TreeNodeRef)
    (node : reachabilityTreeNode) (h : other ≠ ref) : (nodes.set ref node) other = nodes other := by
  simp [TreeNodes.set, h]

/-- What `deserializeTreeNode` returns when each of its reads succeeds: the destination
node gets the interval, the children, and the parent unless the hash read is the zero
hash; its block node and the other nodes are not written. -/
theorem deserializeTreeNode_ok (W : Wire) (store : reachabilityStore) (nodes : TreeNodes)
    (destination : reachabilityData) (r r1 r2 r3 r4 r5 : Bytes) (start end_ : Nat)
    (parentHash : Hash) (parent : Option reachabilityData) (count : Nat)
    (children : List TreeNodeRef)
    (h1 : readUint64 r = .ok (start, r1)) (h2 : readUint64 r1 = .ok (end_, r2))
    (h3 : W.ReadElementHash r2 = .ok (parentHash, r3))
    (h4 : parentHash ≠ W.ZeroHash → store.loaded parentHash = parent ∧ parent.isSome = true)
    (h5 : W.ReadVarInt r3 = .ok (count, r4))
    (h6 : deserializeTreeNodesLoop W store count r4 = .ok (children, r5)) :
    ∃ nodes', deserializeTreeNode W store nodes r destination = .ok (nodes', r5) ∧
      (nodes' destination.treeNode).interval = some ⟨start, end_⟩ ∧
      (nodes' destination.treeNode).children = children ∧
      (nodes' destination.treeNode).blockNode = (nodes destination.treeNode).blockNode ∧
      (nodes' destination.treeNode).parent =
        (if parentHash = W.ZeroHash then (nodes destination.treeNode).parent
          else parent.map (fun data => data.treeNode)) ∧
      ∀ other, other ≠ destination.treeNode → nodes' other = nodes other := by
  unfold deserializeTreeNode deserializeReachabilityInterval
  by_cases hz : parentHash = W.ZeroHash
  · have hb : (parentHash != W.ZeroHash) = false := by simpa using hz
    simp only [bind, Except.bind, pure, Except.pure, h1, h2, h3, h5, h6, hb,
      Bool.false_eq_true, if_false]
    refine ⟨_, rfl, ?_, ?_, ?_, ?_, ?_⟩
    · simp [TreeNodes.set_self]
    · simp [TreeNodes.set_self]
    · simp [TreeNodes.set_self]
    · simp [TreeNodes.set_self, hz]
    · intro other ho
      simp [TreeNodes.set_ne _ _ _ _ ho]
  · have hb : (parentHash != W.ZeroHash) = true := by simpa using hz
    obtain ⟨hl, hs⟩ := h4 hz
    cases parent with
    | none => cases hs
    | some data =>
      simp only [bind, Except.bind, pure, Except.pure, h1, h2, h3, h5, h6, hb, if_true,
        reachabilityDataByHash, hl]
      refine ⟨_, rfl, ?_, ?_, ?_, ?_, ?_⟩
      · simp [TreeNodes.set_self]
      · simp [TreeNodes.set_self]
      · simp [TreeNodes.set_self]
      · simp [TreeNodes.set_self, hz]
      · intro other ho
        simp [TreeNodes.set_ne _ _ _ _ ho]

/-- When one of its reads fails, `deserializeTreeNode` fails. -/
theorem deserializeTreeNode_error (W : Wire) (store : reachabilityStore) (nodes : TreeNodes)
    (destination : reachabilityData) (r r1 r2 r3 r4 : Bytes) (start end_ : Nat)
    (parentHash : Hash) (count : Nat) :
    ((∃ err, readUint64 r = .error err) →
      ∃ err, deserializeTreeNode W store nodes r destination = .error err) ∧
    (readUint64 r = .ok (start, r1) → (∃ err, readUint64 r1 = .error err) →
      ∃ err, deserializeTreeNode W store nodes r destination = .error err) ∧
    (readUint64 r = .ok (start, r1) → readUint64 r1 = .ok (end_, r2) →
      (∃ err, W.ReadElementHash r2 = .error err) →
      ∃ err, deserializeTreeNode W store nodes r destination = .error err) ∧
    (readUint64 r = .ok (start, r1) → readUint64 r1 = .ok (end_, r2) →
      W.ReadElementHash r2 = .ok (parentHash, r3) →
      (parentHash ≠ W.ZeroHash ∧ store.loaded parentHash = none) →
      ∃ err, deserializeTreeNode W store nodes r destination = .error err) ∧
    (readUint64 r = .ok (start, r1) → readUint64 r1 = .ok (end_, r2) →
      W.ReadElementHash r2 = .ok (parentHash, r3) →
      (∃ err, W.ReadVarInt r3 = .error err) →
      ∃ err, deserializeTreeNode W store nodes r destination = .error err) ∧
    (readUint64 r = .ok (start, r1) → readUint64 r1 = .ok (end_, r2) →
      W.ReadElementHash r2 = .ok (parentHash, r3) →
      W.ReadVarInt r3 = .ok (count, r4) →
      (∃ err, deserializeTreeNodesLoop W store count r4 = .error err) →
      ∃ err, deserializeTreeNode W store nodes r destination = .error err) := by
  unfold deserializeTreeNode deserializeReachabilityInterval
  refine ⟨?_, ?_, ?_, ?_, ?_, ?_⟩
  · rintro ⟨err, h1⟩
    simp only [bind, Except.bind, h1]
    exact ⟨_, rfl⟩
  · rintro h1 ⟨err, h2⟩
    simp only [bind, Except.bind, h1, h2]
    exact ⟨_, rfl⟩
  · rintro h1 h2 ⟨err, h3⟩
    simp only [bind, Except.bind, pure, Except.pure, h1, h2, h3]
    exact ⟨_, rfl⟩
  · rintro h1 h2 h3 ⟨hz, hl⟩
    have hb : (parentHash != W.ZeroHash) = true := by simpa using hz
    simp only [bind, Except.bind, pure, Except.pure, h1, h2, h3, hb, if_true,
      reachabilityDataByHash, hl, throw, throwThe, MonadExceptOf.throw]
    exact ⟨_, rfl⟩
  · rintro h1 h2 h3 ⟨err, h5⟩
    by_cases hz : parentHash = W.ZeroHash
    · have hb : (parentHash != W.ZeroHash) = false := by simpa using hz
      simp only [bind, Except.bind, pure, Except.pure, h1, h2, h3, h5, hb,
        Bool.false_eq_true, if_false]
      exact ⟨_, rfl⟩
    · have hb : (parentHash != W.ZeroHash) = true := by simpa using hz
      cases hl : store.loaded parentHash with
      | none =>
        simp only [bind, Except.bind, pure, Except.pure, h1, h2, h3, hb, if_true,
          reachabilityDataByHash, hl, throw, throwThe, MonadExceptOf.throw]
        exact ⟨_, rfl⟩
      | some data =>
        simp only [bind, Except.bind, pure, Except.pure, h1, h2, h3, h5, hb, if_true,
          reachabilityDataByHash, hl]
        exact ⟨_, rfl⟩
  · rintro h1 h2 h3 h5 ⟨err, h6⟩
    by_cases hz : parentHash = W.ZeroHash
    · have hb : (parentHash != W.ZeroHash) = false := by simpa using hz
      simp only [bind, Except.bind, pure, Except.pure, h1, h2, h3, h5, h6, hb,
        Bool.false_eq_true, if_false]
      exact ⟨_, rfl⟩
    · have hb : (parentHash != W.ZeroHash) = true := by simpa using hz
      cases hl : store.loaded parentHash with
      | none =>
        simp only [bind, Except.bind, pure, Except.pure, h1, h2, h3, hb, if_true,
          reachabilityDataByHash, hl, throw, throwThe, MonadExceptOf.throw]
        exact ⟨_, rfl⟩
      | some data =>
        simp only [bind, Except.bind, pure, Except.pure, h1, h2, h3, h5, h6, hb, if_true,
          reachabilityDataByHash, hl]
        exact ⟨_, rfl⟩

theorem deserializeFutureCoveringSet_eq (W : Wire) (store : reachabilityStore) (r : Bytes)
    (destination : reachabilityData) :
    deserializeFutureCoveringSet W store r destination =
      (W.ReadVarInt r).bind (fun x =>
        (deserializeTreeNodesLoop W store x.1 x.2).bind (fun y =>
          .ok ({ destination with futureCoveringSet := y.1 }, y.2))) := by
  unfold deserializeFutureCoveringSet
  cases W.ReadVarInt r with
  | error err => rfl
  | ok x =>
    obtain ⟨n, r1⟩ := x
    simp only [bind, Except.bind]
    cases deserializeTreeNodesLoop W store n r1 with
    | error err => rfl
    | ok y => rfl

theorem deserializeReachabilityData_eq (W : Wire) (store : reachabilityStore)
    (nodes : TreeNodes) (bytes : Bytes) (destination : reachabilityData) :
    deserializeReachabilityData W store nodes bytes destination =
      (deserializeTreeNode W store nodes bytes destination).bind (fun x =>
        (deserializeFutureCoveringSet W store x.2 destination).bind (fun y =>
          .ok (x.1, y.1))) := by
  unfold deserializeReachabilityData
  dsimp only
  cases h : deserializeTreeNode W store nodes bytes destination with
  | error err => rfl
  | ok x =>
    obtain ⟨nodes1, r1⟩ := x
    simp only [bind, Except.bind]
    cases h2 : deserializeFutureCoveringSet W store r1 destination with
    | error err => rfl
    | ok y => rfl

/-- The bytes of the future covering set, read back: on a prefix of the varint of the
size followed by the bytes of the hashes, `deserializeFutureCoveringSet` fails, or the
prefix is all of these bytes and every hash is loaded. -/
theorem deserializeFutureCoveringSet_prefix (W : Wire) (store : reachabilityStore)
    (hW : WireLaws W) (destination : reachabilityData) (futureHashes : List Hash)
    (hlen : futureHashes.length < 2 ^ 64) (hlt : ∀ hash ∈ futureHashes, hash < 2 ^ 256)
    (p : Bytes) (hp : p <+: W.WriteVarInt futureHashes.length ++ hashesBytes W futureHashes) :
    (∃ err, deserializeFutureCoveringSet W store p destination = .error err) ∨
    (p = W.WriteVarInt futureHashes.length ++ hashesBytes W futureHashes ∧
      ∀ hash ∈ futureHashes, (store.loaded hash).isSome = true) := by
  rw [deserializeFutureCoveringSet_eq]
  rcases (hW.2.2 _ hlen).step p _ hp with ⟨err, he⟩ | ⟨p1, rfl, hp1, hr⟩
  · left
    rw [he]
    exact ⟨_, rfl⟩
  · rw [hr]
    have hp1' : p1 <+: hashesBytes W futureHashes ++ [] := by simpa using hp1
    rcases deserializeTreeNodesLoop_prefix W store hW futureHashes p1 [] hlt hp1' with
      ⟨err, he⟩ | ⟨refs, p2, rfl, hp2, hall, _⟩
    · left
      simp only [Except.bind, he]
      exact ⟨_, rfl⟩
    · right
      have : p2 = [] := List.prefix_nil.1 hp2
      subst this
      exact ⟨by simp, hall⟩

/-- The bytes of a record, read back: on a prefix of the bytes of a record,
`deserializeReachabilityData` fails, or the prefix is all of the bytes, the hash of the
parent is the zero hash or is loaded, and the hashes of the children and of the future
covering set are all loaded. -/
theorem deserializeReachabilityData_prefix (W : Wire) (store : reachabilityStore)
    (nodes : TreeNodes) (hW : WireLaws W) (destination : reachabilityData)
    (interval : reachabilityInterval) (parentHash : Hash) (childHashes futureHashes : List Hash)
    (hstart : interval.start < 2 ^ 64) (hend : interval.end_ < 2 ^ 64)
    (hparent : parentHash < 2 ^ 256)
    (hclen : childHashes.length < 2 ^ 64) (hclt : ∀ hash ∈ childHashes, hash < 2 ^ 256)
    (hflen : futureHashes.length < 2 ^ 64) (hflt : ∀ hash ∈ futureHashes, hash < 2 ^ 256)
    (p : Bytes) (hp : p <+: recordBytes W interval parentHash childHashes futureHashes) :
    (∃ err, deserializeReachabilityData W store nodes p destination = .error err) ∨
    (p = recordBytes W interval parentHash childHashes futureHashes ∧
      (parentHash ≠ W.ZeroHash → (store.loaded parentHash).isSome = true) ∧
      (∀ hash ∈ childHashes, (store.loaded hash).isSome = true) ∧
      (∀ hash ∈ futureHashes, (store.loaded hash).isSome = true)) := by
  have hfail : (∃ err, deserializeTreeNode W store nodes p destination = .error err) →
      ∃ err, deserializeReachabilityData W store nodes p destination = .error err := by
    rintro ⟨err, he⟩
    rw [deserializeReachabilityData_eq, he]
    exact ⟨_, rfl⟩
  unfold recordBytes at hp ⊢
  rcases (readUint64_readsBack _ hstart).step p _ hp with ⟨err, he⟩ | ⟨p1, rfl, hp1, h1⟩
  · left
    exact hfail ((deserializeTreeNode_error W store nodes destination _ [] [] [] [] 0 0 0 0).1
      ⟨err, he⟩)
  rcases (readUint64_readsBack _ hend).step p1 _ hp1 with ⟨err, he⟩ | ⟨p2, rfl, hp2, h2⟩
  · left
    exact hfail ((deserializeTreeNode_error W store nodes destination _ _ [] [] [] _ 0 0
      0).2.1 h1 ⟨err, he⟩)
  rcases (hW.2.1 _ hparent).step p2 _ hp2 with ⟨err, he⟩ | ⟨p3, rfl, hp3, h3⟩
  · left
    exact hfail ((deserializeTreeNode_error W store nodes destination _ _ _ [] [] _ _ 0
      0).2.2.1 h1 h2 ⟨err, he⟩)
  by_cases hmiss : parentHash ≠ W.ZeroHash ∧ store.loaded parentHash = none
  · left
    exact hfail ((deserializeTreeNode_error W store nodes destination _ _ _ _ [] _ _ _
      0).2.2.2.1 h1 h2 h3 hmiss)
  rcases (hW.2.2 _ hclen).step p3 _ hp3 with ⟨err, he⟩ | ⟨p4, rfl, hp4, h5⟩
  · left
    exact hfail ((deserializeTreeNode_error W store nodes destination _ _ _ _ [] _ _ _
      0).2.2.2.2.1 h1 h2 h3 ⟨err, he⟩)
  rcases deserializeTreeNodesLoop_prefix W store hW childHashes p4 _ hclt hp4 with
    ⟨err, he⟩ | ⟨children, p5, rfl, hp5, hcall, h6⟩
  · left
    exact hfail ((deserializeTreeNode_error W store nodes destination _ _ _ _ _ _ _ _
      _).2.2.2.2.2 h1 h2 h3 h5 ⟨err, he⟩)
  have hploaded : parentHash ≠ W.ZeroHash → (store.loaded parentHash).isSome = true := by
    intro hz
    cases hl : store.loaded parentHash with
    | none => exact absurd ⟨hz, hl⟩ hmiss
    | some data => rfl
  obtain ⟨nodes', htree, _⟩ := deserializeTreeNode_ok W store nodes destination _ _ _ _ _ _
    _ _ _ (store.loaded parentHash) _ _ h1 h2 h3 (fun hz => ⟨rfl, hploaded hz⟩) h5 h6
  rw [deserializeReachabilityData_eq, htree]
  simp only [Except.bind]
  rcases deserializeFutureCoveringSet_prefix W store hW destination futureHashes hflen hflt
    p5 hp5 with ⟨err, he⟩ | ⟨rfl, hfall⟩
  · left
    rw [he]
    exact ⟨_, rfl⟩
  · right
    exact ⟨rfl, hploaded, hcall, hfall⟩

/-- A number below `256 ^ k` is read back from its `k` bytes. -/
theorem littleEndian_readsBack (k n : Nat) (hn : n < 256 ^ k) (fault : Fault) :
    ReadsBack (fun r : Bytes => if r.length < k then (.error fault : Except Fault (Nat × Bytes))
      else .ok (littleEndianValue (r.take k), r.drop k)) (littleEndian k n) n := by
  have hlen := littleEndian_length k n
  constructor
  · intro rest
    have h1 : ¬ (littleEndian k n ++ rest).length < k := by
      rw [List.length_append, hlen]
      omega
    simp only [h1, if_false]
    rw [List.take_left' hlen, List.drop_left' hlen, littleEndianValue_littleEndian,
      Nat.mod_eq_of_lt hn]
  · intro p hp hne
    have := length_lt_of_proper_prefix hp hne
    rw [hlen] at this
    exact ⟨fault, by simp only [this, if_true]⟩

/-- A count below `2 ^ 64` is read back by the sample reader. -/
theorem sampleVarInt_readsBack (n : Nat) (hn : n < 2 ^ 64) :
    ReadsBack sampleReadVarInt (sampleWriteVarInt n) n := by
  have htag : ∀ (tag k : Nat), n < 256 ^ k →
      (∀ rest : Bytes, sampleReadVarInt (tag :: rest) =
        if rest.length < k then .error (.other 10)
        else .ok (littleEndianValue (rest.take k), rest.drop k)) →
      ReadsBack sampleReadVarInt (tag :: littleEndian k n) n := by
    intro tag k hk hread
    have hb := littleEndian_readsBack k n hk (.other 10)
    constructor
    · intro rest
      rw [List.cons_append, hread]
      exact hb.1 rest
    · intro p hp hne
      cases p with
      | nil => exact ⟨_, rfl⟩
      | cons b p' =>
        obtain ⟨rfl, hp'⟩ := List.cons_prefix_cons.1 hp
        rw [hread]
        exact hb.2 p' hp' (fun h => hne (by rw [h]))
  unfold sampleWriteVarInt
  by_cases h1 : n < 253
  · rw [if_pos h1]
    constructor
    · intro rest
      simp [sampleReadVarInt, h1]
    · intro p hp hne
      cases p with
      | nil => exact ⟨_, rfl⟩
      | cons b p' =>
        obtain ⟨rfl, hp'⟩ := List.cons_prefix_cons.1 hp
        have : p' = [] := List.prefix_nil.1 hp'
        subst this
        exact absurd rfl hne
  · rw [if_neg h1]
    by_cases h2 : n < 2 ^ 16
    · rw [if_pos h2]
      exact htag 253 2 (by norm_num; omega) (fun rest => by simp [sampleReadVarInt])
    · rw [if_neg h2]
      by_cases h3 : n < 2 ^ 32
      · rw [if_pos h3]
        exact htag 254 4 (by norm_num; omega) (fun rest => by simp [sampleReadVarInt])
      · rw [if_neg h3]
        exact htag 255 8 (by norm_num; omega) (fun rest => by simp [sampleReadVarInt])

/-- The sample wire format reads back what it writes. -/
theorem sampleWire_laws : WireLaws sampleWire := by
  refine ⟨by decide, ?_, ?_⟩
  · intro hash hlt
    have h256 : (256 : Nat) ^ 32 = 2 ^ 256 := by norm_num
    exact littleEndian_readsBack 32 hash (by rw [h256]; exact hlt) (.other 10)
  · intro n hn
    exact sampleVarInt_readsBack n hn

theorem forall₂_and {α β : Type} {P Q : α → β → Prop} :
    ∀ {xs : List α} {ys : List β}, List.Forall₂ P xs ys → List.Forall₂ Q xs ys →
      List.Forall₂ (fun x y => P x y ∧ Q x y) xs ys := by
  intro xs ys hp
  induction hp with
  | nil => intro _; exact List.Forall₂.nil
  | cons h _ ih =>
    intro hq
    cases hq with
    | cons h' t' => exact List.Forall₂.cons ⟨h, h'⟩ (ih t')

theorem forall₂_right {α β : Type} {P : α → β → Prop} {Q : β → Prop} :
    ∀ {xs : List α} {ys : List β}, List.Forall₂ (fun x y => P x y ∧ Q y) xs ys →
      ∀ y ∈ ys, Q y := by
  intro xs ys h
  induction h with
  | nil => intro y hy; simp at hy
  | cons h _ ih =>
    intro y hy
    rcases List.mem_cons.1 hy with rfl | hy
    · exact h.2
    · exact ih y hy

/-- C32. Take a reachability record whose interval is set, with ends that are unsigned
64-bit values, whose parent, children and future covering set are tree nodes connected
to block nodes, none of them with the zero hash for the parent, and a destination whose
tree node has no parent, as a fresh one has; the readers and writers of the package
`wire` read back what they wrote. The record is serialized to the bytes of its layout.
When the referenced nodes are the ones loaded in the store under their hashes,
`deserializeReachabilityData` on these bytes succeeds and gives the destination the same
interval, the same parent node, or none for a root, the same children in the same order
and the same future covering set in the same order. When the hash of the parent, of a
child or of a node of the future covering set is not loaded, it fails with an error;
and on every proper prefix of the bytes it fails with an error. -/
theorem deserializeReachabilityData_round_trip (W : Wire) (store : reachabilityStore)
    (nodes : TreeNodes) (data destination : reachabilityData)
    (interval : reachabilityInterval) (parentHash : Hash)
    (childHashes futureHashes : List Hash)
    (hW : WireLaws W)
    (hinterval : (nodes data.treeNode).interval = some interval)
    (hstart : interval.start < 2 ^ 64) (hend : interval.end_ < 2 ^ 64)
    (hparent : match (nodes data.treeNode).parent with
      | none => parentHash = W.ZeroHash
      | some parent =>
        HasHash nodes parent parentHash ∧ parentHash ≠ W.ZeroHash ∧ parentHash < 2 ^ 256)
    (hchildren : List.Forall₂ (fun node hash => HasHash nodes node hash ∧ hash < 2 ^ 256)
      (nodes data.treeNode).children childHashes)
    (hfuture : List.Forall₂ (fun node hash => HasHash nodes node hash ∧ hash < 2 ^ 256)
      data.futureCoveringSet futureHashes)
    (hclen : (nodes data.treeNode).children.length < 2 ^ 64)
    (hflen : data.futureCoveringSet.length < 2 ^ 64)
    (hfresh : (nodes destination.treeNode).parent = none) :
    serializeReachabilityData W nodes data =
      .ok (recordBytes W interval parentHash childHashes futureHashes) ∧
    (((∀ parent, (nodes data.treeNode).parent = some parent →
          LoadedAs store parent parentHash) ∧
        List.Forall₂ (LoadedAs store) (nodes data.treeNode).children childHashes ∧
        List.Forall₂ (LoadedAs store) data.futureCoveringSet futureHashes) →
      ∃ nodes' destination',
        deserializeReachabilityData W store nodes
          (recordBytes W interval parentHash childHashes futureHashes) destination =
            .ok (nodes', destination') ∧
        (nodes' destination.treeNode).interval = some interval ∧
        (nodes' destination.treeNode).parent = (nodes data.treeNode).parent ∧
        (nodes' destination.treeNode).children = (nodes data.treeNode).children ∧
        destination'.futureCoveringSet = data.futureCoveringSet) ∧
    ((((nodes data.treeNode).parent.isSome = true ∧ store.loaded parentHash = none) ∨
        (∃ hash ∈ childHashes ++ futureHashes, store.loaded hash = none)) →
      ∃ err, deserializeReachabilityData W store nodes
        (recordBytes W interval parentHash childHashes futureHashes) destination =
          .error err) ∧
    (∀ p, p <+: recordBytes W interval parentHash childHashes futureHashes →
      p ≠ recordBytes W interval parentHash childHashes futureHashes →
      ∃ err, deserializeReachabilityData W store nodes p destination = .error err) := by
  have hclt := forall₂_right hchildren
  have hflt := forall₂_right hfuture
  have hclen' : childHashes.length < 2 ^ 64 := by rw [← hchildren.length_eq]; exact hclen
  have hflen' : futureHashes.length < 2 ^ 64 := by rw [← hfuture.length_eq]; exact hflen
  have hplt : parentHash < 2 ^ 256 := by
    cases hpar : (nodes data.treeNode).parent with
    | none => rw [hpar] at hparent; dsimp only at hparent; rw [hparent]; exact hW.1
    | some parent => rw [hpar] at hparent; exact hparent.2.2
  have hprefix := deserializeReachabilityData_prefix W store nodes hW destination interval
    parentHash childHashes futureHashes hstart hend hplt hclen' hclt hflen' hflt
  refine ⟨?_, ?_, ?_, ?_⟩
  · apply serializeReachabilityData_eq W nodes data interval parentHash childHashes
      futureHashes hinterval ?_ (hchildren.imp (fun _ _ h => h.1)) (hfuture.imp (fun _ _ h => h.1))
    cases hpar : (nodes data.treeNode).parent with
    | none => rw [hpar] at hparent; exact hparent
    | some parent => rw [hpar] at hparent; exact hparent.1
  · rintro ⟨hpl, hcl, hfl⟩
    have h1 := (readUint64_readsBack _ hstart).1
    have h2 := (readUint64_readsBack _ hend).1
    have h3 := (hW.2.1 _ hplt).1
    have h5 := (hW.2.2 _ hclen').1
    have h6 := deserializeTreeNodesLoop_loaded W store hW _ _
      (W.WriteVarInt futureHashes.length ++ hashesBytes W futureHashes)
      (forall₂_and (hchildren.imp (fun _ _ h => h.2)) hcl)
    have h7 := (hW.2.2 _ hflen').1 (hashesBytes W futureHashes)
    have h8 := deserializeTreeNodesLoop_loaded W store hW _ _ []
      (forall₂_and (hfuture.imp (fun _ _ h => h.2)) hfl)
    rw [List.append_nil] at h8
    have h4 : parentHash ≠ W.ZeroHash →
        store.loaded parentHash = store.loaded parentHash ∧
          (store.loaded parentHash).isSome = true := by
      intro hz
      refine ⟨rfl, ?_⟩
      cases hpar : (nodes data.treeNode).parent with
      | none => rw [hpar] at hparent; exact absurd hparent hz
      | some parent =>
        obtain ⟨d, hd, _⟩ := hpl parent hpar
        rw [hd]
        rfl
    obtain ⟨nodes', htree, hi, hc, _, hp, _⟩ := deserializeTreeNode_ok W store nodes
      destination _ _ _ _ _ _ _ _ _ (store.loaded parentHash) _ _ (h1 _) (h2 _) (h3 _) h4
      (h5 _) h6
    refine ⟨nodes', { destination with futureCoveringSet := data.futureCoveringSet }, ?_,
      hi, ?_, hc, rfl⟩
    · rw [deserializeReachabilityData_eq]
      unfold recordBytes
      rw [htree]
      simp only [Except.bind]
      rw [deserializeFutureCoveringSet_eq, h7]
      simp only [Except.bind, h8]
    · rw [hp]
      cases hpar : (nodes data.treeNode).parent with
      | none =>
        rw [hpar] at hparent
        dsimp only at hparent
        rw [if_pos hparent, hfresh]
      | some parent =>
        rw [hpar] at hparent
        obtain ⟨d, hd, hd2⟩ := hpl parent hpar
        rw [if_neg hparent.2.1, hd]
        simp [hd2]
  · intro hmiss
    rcases hprefix _ (List.prefix_refl _) with herr | ⟨_, hpl, hcl, hfl⟩
    · exact herr
    · exfalso
      rcases hmiss with ⟨hsome, hnone⟩ | ⟨hash, hmem, hnone⟩
      · cases hpar : (nodes data.treeNode).parent with
        | none => rw [hpar] at hsome; cases hsome
        | some parent =>
          rw [hpar] at hparent
          have := hpl hparent.2.1
          rw [hnone] at this
          cases this
      · rcases List.mem_append.1 hmem with hm | hm
        · have := hcl hash hm
          rw [hnone] at this
          cases this
        · have := hfl hash hm
          rw [hnone] at this
          cases this
  · intro p hp hne
    rcases hprefix p hp with herr | ⟨heq, _⟩
    · exact herr
    · exact absurd heq hne

/-- Witness for C32 on the sample store: the record of block 12 is read back from its
114 bytes into the fresh node 9, which gets the interval from 5 to 300, the parent 1,
the child 3 and the future covering set of the node 4; from the first 113 of these
bytes it is not. -/
theorem deserializeReachabilityData_round_trip_witness :
    (∃ nodes' destination',
      deserializeReachabilityData sampleWire sampleReachabilityStore sampleTreeNodes
        (recordBytes sampleWire ⟨5, 300⟩ 11 [13] [14]) ⟨9, []⟩ = .ok (nodes', destination') ∧
      (nodes' 9).interval = some ⟨5, 300⟩ ∧
      (nodes' 9).parent = some 1 ∧
      (nodes' 9).children = [3] ∧
      destination'.futureCoveringSet = [4]) ∧
    (∃ err, deserializeReachabilityData sampleWire sampleReachabilityStore sampleTreeNodes
      ((recordBytes sampleWire ⟨5, 300⟩ 11 [13] [14]).take 113) ⟨9, []⟩ = .error err) :=
  have hw := deserializeReachabilityData_round_trip sampleWire sampleReachabilityStore
    sampleTreeNodes ⟨2, [4]⟩ ⟨9, []⟩ ⟨5, 300⟩ 11 [13] [14] sampleWire_laws rfl (by decide)
    (by decide) ⟨rfl, by decide, by decide⟩
    (List.Forall₂.cons ⟨rfl, by decide⟩ List.Forall₂.nil)
    (List.Forall₂.cons ⟨rfl, by decide⟩ List.Forall₂.nil) (by decide) (by decide) rfl
  ⟨hw.2.1 ⟨fun _ h => Option.some.inj h ▸ ⟨⟨1, []⟩, rfl, rfl⟩,
      List.Forall₂.cons ⟨⟨3, []⟩, rfl, rfl⟩ List.Forall₂.nil,
      List.Forall₂.cons ⟨⟨4, []⟩, rfl, rfl⟩ List.Forall₂.nil⟩,
    hw.2.2.2 _ (List.take_prefix _ _) (by decide)⟩

end Kaspad
